import Mathlib

/-!
# hoser-runtime: plan lookups and the graph compiler

A shallow embedding of `plan/pipe.go` (the plan model and its sorted lookups) and of
`osruntime/build.go` / `osruntime/runtime.go` (the multi-pass `Build`, `Variable.Bind`,
`buildCmd`, `Process.Close`), followed by the properties established about them.

Conventions of the embedding:

* Go strings are `String`; Go's `<` on strings is `strLt`, a structural comparison of the
  character lists (it coincides with Lean's order on `String`, see `strLt_iff`, and with
  Go's byte-wise order on UTF-8 text).
* A Go `map[string]T` is an association list with unique keys (`mapGet`, `mapSet`); the
  order in which a `range` visits it is chosen by a `Schedule`, and the properties of
  `Build` are shown for every valid schedule.
* The operating system (`os.Pipe`, `os.OpenFile`, `os.Executable`) is the parameter `Env`.
* A `*Link` of the runtime is an index into the arena `Program.heap`.
* The Go field `Type` and method `Type()` are spelled `Typ` (`Type` is reserved).
* A Go panic is the `Result.panic` outcome, a returned `error` the `Result.err` outcome.
* The `Close` calls on files are recorded in a `CloseLog`; a `Close` of a file that was closed
  before returns an error. The workers of `Start` run `Process.Close` one after the other,
  in the order a `CloseSchedule` chooses.
-/

namespace plan

/-! ## Strings -/

/-- Go's `a < b` on strings. -/
def strLt (a b : String) : Bool := decide (a.data < b.data)

/-- Go's `strings.HasPrefix(s, pre)`. -/
def hasPrefix (s pre : String) : Bool := pre.data.isPrefixOf s.data

/-- Go's `strings.TrimPrefix(s, pre)`. -/
def trimPrefix (s pre : String) : String :=
  if hasPrefix s pre then String.mk (s.data.drop pre.data.length) else s

/-! ## package plan -/

abbrev VarType := String

def TypeNone : VarType := ""
def TypeStream : VarType := "stream"
def TypeString : VarType := "string"

structure Port where
  Name : String
  Typ : VarType
  deriving DecidableEq, Repr

structure Node where
  Name : String
  In : List Port
  Out : List Port
  deriving DecidableEq, Repr

inductive PortDir where
  | PortNone
  | PortIn
  | PortOut
  deriving DecidableEq, Repr

/-- The Go interface `Arg`: a `*Port` or an `*ArgString`. -/
inductive Arg where
  | port (p : Port)
  | str (s : String)
  deriving DecidableEq, Repr

structure Process extends Node where
  Exe : String
  Args : List Arg
  deriving DecidableEq, Repr

structure Variable extends Node where
  Default : String
  deriving DecidableEq, Repr

structure Ref where
  Node : String
  Port : String
  deriving DecidableEq, Repr

structure Link where
  Src : Ref
  Dst : Ref
  deriving DecidableEq, Repr

structure Pipe where
  Name : String
  Procs : List Process
  Vars : List Variable
  Links : List Link
  deriving DecidableEq, Repr

/-- The Go interface `node`. -/
class node (T : Type) where
  GetName : T → String

instance : node Node := ⟨fun n => n.Name⟩
instance : node Process := ⟨fun p => p.Name⟩
instance : node Variable := ⟨fun v => v.Name⟩

/-- The loop of Go's `sort.Search`: `for i < j { h := (i+j)/2; if !f(h) { i = h+1 } else { j = h } }`.
The fuel bounds the number of iterations; `j - i` of them always suffice. -/
def searchLoop (f : Nat → Bool) : Nat → Nat → Nat → Nat
  | 0, i, _ => i
  | fuel + 1, i, j =>
    if i < j then
      let h := (i + j) / 2
      if !f h then searchLoop f fuel (h + 1) j else searchLoop f fuel i h
    else i

/-- Go's `sort.Search(n, f)`. -/
def sortSearch (n : Nat) (f : Nat → Bool) : Nat := searchLoop f n 0 n

/-- `findNode(nodes, name)`: binary search for the first node whose name is `>= name`. -/
def findNode {T : Type} [node T] (nodes : List T) (name : String) : Option T :=
  let i := sortSearch nodes.length (fun i =>
    match nodes[i]? with
    | some x => !strLt (node.GetName x) name
    | none => true)
  match nodes[i]? with
  | some x => if node.GetName x = name then some x else none
  | none => none

def Pipe.FindProc (p : Pipe) (name : String) : Option Process := findNode p.Procs name

def Pipe.FindVar (p : Pipe) (name : String) : Option Variable := findNode p.Vars name

/-- `Pipe.FindLink(dst)`: binary search by `(Dst.Node, Dst.Port)`. -/
def Pipe.FindLink (p : Pipe) (dst : Ref) : Option Link :=
  let i := sortSearch p.Links.length (fun i =>
    match p.Links[i]? with
    | some l =>
      if strLt dst.Node l.Dst.Node then true
      else if strLt l.Dst.Node dst.Node then false
      else !strLt l.Dst.Port dst.Port
    | none => true)
  match p.Links[i]? with
  | some l => if l.Dst = dst then some l else none
  | none => none

/-- `Node.FindPort(name)`: the input ports are scanned first, then the output ports. -/
def Node.FindPort (n : Node) (name : String) : Option Port × PortDir :=
  match n.In.find? (fun p => p.Name = name) with
  | some p => (some p, PortDir.PortIn)
  | none =>
    match n.Out.find? (fun p => p.Name = name) with
    | some p => (some p, PortDir.PortOut)
    | none => (none, PortDir.PortNone)

/-- `Variable.Type()` is `v.In[0].Type`; indexing an empty `In` panics (`none`). -/
def Variable.Typ (v : Variable) : Option VarType := (v.In[0]?).map (fun p => p.Typ)

def Variable.HasDefault (v : Variable) : Bool := v.Default ≠ ""

/-- The order `sortLinks` sorts by: `(Dst.Node, Dst.Port)` lexicographically, here as
"`a` is not after `b`". -/
def Ref.le (a b : Ref) : Bool :=
  strLt a.Node b.Node || (a.Node = b.Node && !strLt b.Port a.Port)

/-- Links sorted lexicographically by `(Dst.Node, Dst.Port)`. -/
def LinksSorted (links : List Link) : Prop :=
  links.Pairwise (fun a b => Ref.le a.Dst b.Dst = true)

/-- Nodes sorted by name: no later node has a smaller name. -/
def NodesSorted {T : Type} [node T] (nodes : List T) : Prop :=
  nodes.Pairwise (fun a b => strLt (node.GetName b) (node.GetName a) = false)

/-- What a by-key lookup over `xs` owes its caller: a hit is an element of `xs` with the
key asked for, and the lookup hits exactly when such an element exists. -/
def LookupSound {α κ : Type} (key : α → κ) (xs : List α) (k : κ) (res : Option α) : Prop :=
  (∀ x, res = some x → x ∈ xs ∧ key x = k) ∧
  ((∃ x, res = some x) ↔ ∃ y, y ∈ xs ∧ key y = k) ∧
  ((¬ ∃ y, y ∈ xs ∧ key y = k) → res = none)

/-- A plan as the parser delivers it: nodes and links sorted, process names, variable names
and link destinations unique. -/
structure Pipe.WellFormed (p : Pipe) : Prop where
  procsSorted : NodesSorted p.Procs
  varsSorted : NodesSorted p.Vars
  linksSorted : LinksSorted p.Links
  procNames : (p.Procs.map (fun x => x.Name)).Nodup
  varNames : (p.Vars.map (fun x => x.Name)).Nodup
  linkDsts : (p.Links.map (fun l => l.Dst)).Nodup

/-- The ref `r` names the port `port`, declared on an existing process, or (when no process
has that name) on an existing variable. -/
def Pipe.Declares (p : Pipe) (r : Ref) (port : Port) : Prop :=
  (∃ S, S ∈ p.Procs ∧ S.Name = r.Node ∧ (S.FindPort r.Port).1 = some port) ∨
  ((∀ S, S ∈ p.Procs → S.Name ≠ r.Node) ∧
    ∃ V, V ∈ p.Vars ∧ V.Name = r.Node ∧ (V.FindPort r.Port).1 = some port)

/-- The ref `r` names an existing node, process or variable, and a port declared on it. -/
def Pipe.Resolves (p : Pipe) (r : Ref) : Prop :=
  ∃ n : Node, ((∃ S, S ∈ p.Procs ∧ S.toNode = n) ∨ (∃ V, V ∈ p.Vars ∧ V.toNode = n)) ∧
    n.Name = r.Node ∧ ∃ port, (n.FindPort r.Port).1 = some port

/-- The input port `q` of process `P` is wired type-correctly: the plan has a link to it
from a declared port of the same type. -/
def Pipe.WiredOk (p : Pipe) (P : Process) (q : Port) : Prop :=
  ∃ l sp, l ∈ p.Links ∧ l.Dst = ⟨P.Name, q.Name⟩ ∧ p.Declares l.Src sp ∧ sp.Typ = q.Typ

/-- The processes of `TestFindNodes`, after `sortNodes`. -/
def testProcs : List Process :=
  [⟨⟨"a", [], []⟩, "", []⟩, ⟨⟨"b", [], []⟩, "", []⟩, ⟨⟨"c", [], []⟩, "", []⟩]

/-- The links of `Test_FindLinks`, after `sortLinks`. -/
def testLinks : List Link :=
  [⟨⟨"", ""⟩, ⟨"a", "a"⟩⟩, ⟨⟨"", ""⟩, ⟨"a", "b"⟩⟩, ⟨⟨"", ""⟩, ⟨"c", "d"⟩⟩,
   ⟨⟨"", ""⟩, ⟨"d", "c"⟩⟩, ⟨⟨"", ""⟩, ⟨"v", "l"⟩⟩, ⟨⟨"", ""⟩, ⟨"z", "a"⟩⟩,
   ⟨⟨"", ""⟩, ⟨"z", "a"⟩⟩, ⟨⟨"", ""⟩, ⟨"z", "b"⟩⟩]

end plan

/-! ## package osruntime -/

namespace osruntime

/-! ### Go maps -/

/-- `m[k]` of a Go map (`none` when the key is absent). -/
def mapGet {β : Type} : List (String × β) → String → Option β
  | [], _ => none
  | (k', v) :: m, k => if k' = k then some v else mapGet m k

/-- `m[k] = v` of a Go map: the entry is replaced, or added when the key is new. -/
def mapSet {β : Type} : List (String × β) → String → β → List (String × β)
  | [], k, v => [(k, v)]
  | (k', v') :: m, k, v => if k' = k then (k, v) :: m else (k', v') :: mapSet m k v

/-- The keys of a Go map. -/
def mapKeys {β : Type} (m : List (String × β)) : List String := m.map Prod.fst

/-! ### Files, values, outcomes -/

/-- An `*os.File`: an end of the `n`-th pipe made by `os.Pipe`, the file that
`os.OpenFile` returned for the default of the variable `owner` (every call returns a file
of its own), or a file handed in by the caller. -/
inductive File where
  | pipeRd (n : Nat)
  | pipeWr (n : Nat)
  | opened (owner path : String)
  | given (fd : Nat) (name : String)
  deriving DecidableEq, Repr

/-- `(*os.File).Name()`: `os.Pipe` names its two files `|0` and `|1`, `os.OpenFile` names
the file by the path it was given. -/
def File.Name : File → String
  | .pipeRd _ => "|0"
  | .pipeWr _ => "|1"
  | .opened _ path => path
  | .given _ name => name

/-- A non-nil Go `any`: a `string`, an `*os.File`, or a value of some other dynamic type.
The nil interface is `none : Option Value`. -/
inductive Value where
  | str (s : String)
  | file (f : File)
  | other (tag : Nat)
  deriving DecidableEq, Repr

/-- The `error` values `Build` constructs with `fmt.Errorf`, or passes on from the OS. -/
inductive Error where
  /-- `src port %s/%s does not exist connected to %s/%s` -/
  | srcMissing (src dst : plan.Ref)
  /-- `mismatched type %s->%s for ports %s/%s -> %s/%s` -/
  | typeMismatch (srcType dstType : plan.VarType) (src dst : plan.Ref)
  /-- `cannot find src process %s` -/
  | noSrcProc (node : String)
  /-- `value %v is not a *os.File` -/
  | notFile (value : Option Value)
  /-- `value %v is not a string` -/
  | notString (value : Option Value)
  /-- `variable '%s' is unbound, must preset value` -/
  | unbound (name : String)
  /-- `bind var '%s' with stream '%s': %w`, from a failed `os.OpenFile` -/
  | openFailed (name default : String)
  /-- The error of a failed `os.Pipe` -/
  | pipeFailed
  /-- The error of a failed `os.Executable` -/
  | executableFailed
  deriving DecidableEq, Repr

/-- The run-time panics of the Go code. -/
inductive Panic where
  | nilDeref
  | indexOutOfRange
  | typeAssertion
  | explicit (msg : String)
  deriving DecidableEq, Repr

/-- Outcome of a Go call: it returns a result, returns an `error`, or panics. -/
inductive Result (α : Type) where
  | ok (a : α)
  | err (e : Error)
  | panic (p : Panic)
  deriving DecidableEq, Repr

def Result.bind {α β : Type} (x : Result α) (f : α → Result β) : Result β :=
  match x with
  | .ok a => f a
  | .err e => .err e
  | .panic p => .panic p

def Result.isOk {α : Type} : Result α → Bool
  | .ok _ => true
  | _ => false

/-! ### Runtime state -/

/-- `osruntime.Link`, a link instance. -/
structure Link where
  Typ : plan.VarType
  Src : plan.Ref
  Dst : plan.Ref
  Wr : Option File
  Rd : Option File
  Value : Option Value
  deriving DecidableEq, Repr

/-- The part of `exec.Cmd` that `buildCmd` fills: `Path` is the path of the command,
`Args` is the name handed to `exec.Command` followed by the arguments; a standard stream
is `none` when left unset, else the `*os.File` stored. -/
structure Cmd where
  Path : String
  Args : List String
  Stdin : Option (Option File)
  Stdout : Option (Option File)
  Stderr : Option (Option File)
  deriving DecidableEq, Repr

/-- `osruntime.Process`; `Links` maps a port name to a `*Link`. -/
structure Process where
  Plan : plan.Process
  Links : List (String × Nat)
  Cmd : Option Cmd
  deriving DecidableEq, Repr

/-- `osruntime.Variable`; `In` and `Out` are `*Link`s. -/
structure Variable where
  Plan : plan.Variable
  In : Option Nat
  Out : Option Nat
  Value : Option Value
  deriving DecidableEq, Repr

/-- `osruntime.Program` together with the store its pointers refer to: `heap` holds the
link instances (a `*Link` is an index into it), and `pipes` records the calls of `os.Pipe`
that succeeded: the `n`-th pipe was stored into the link instance `pipes[n]`. -/
structure Program where
  procs : List (String × Process)
  vars : List (String × Variable)
  heap : List Link
  pipes : List Nat
  deriving DecidableEq, Repr

/-- What the operating system answers: whether `os.OpenFile(path, O_RDWR, 0)` succeeds,
whether the `n`-th `os.Pipe()` succeeds, what `os.Executable()` returns (`none` for an
error), and the path `exec.LookPath(name)` finds (`none` when it finds none). -/
structure Env where
  openFile : String → Bool
  pipe : Nat → Bool
  executable : Option String
  lookPath : String → Option String

/-- The order in which each `range` over a Go map visits the keys: every field maps the
key list of the map to the order of the visit. -/
structure Schedule where
  connectProcs : List String → List String
  connectVars : List String → List String
  presets : List String → List String
  bindVars : List String → List String
  initProcs : List String → List String
  initLinks : String → List String → List String
  cmdProcs : List String → List String

/-- A schedule visits every key of the map exactly once. -/
structure Schedule.Valid (s : Schedule) : Prop where
  connectProcs : ∀ ks, (s.connectProcs ks).Perm ks
  connectVars : ∀ ks, (s.connectVars ks).Perm ks
  presets : ∀ ks, (s.presets ks).Perm ks
  bindVars : ∀ ks, (s.bindVars ks).Perm ks
  initProcs : ∀ ks, (s.initProcs ks).Perm ks
  initLinks : ∀ p ks, (s.initLinks p ks).Perm ks
  cmdProcs : ∀ ks, (s.cmdProcs ks).Perm ks

/-- The schedule that visits every map in insertion order. -/
def Schedule.inOrder : Schedule := ⟨id, id, id, id, id, fun _ => id, id⟩

/-- An operating system on which every call succeeds. -/
def Env.allOk : Env :=
  ⟨fun _ => true, fun _ => true, some "/usr/bin/hoser", fun name => some ("/usr/bin/" ++ name)⟩

/-- `for _, proc := range rt.procs { body }`, visiting the keys in the order given; a key
that is not in the map is passed over (a valid schedule names none). -/
def rangeProcs (body : String → Process → Program → Result Program) :
    List String → Program → Result Program
  | [], rt => .ok rt
  | k :: ks, rt =>
    match mapGet rt.procs k with
    | none => rangeProcs body ks rt
    | some p => (body k p rt).bind (rangeProcs body ks)

/-- `for _, vr := range rt.vars { body }`, visiting the keys in the order given; a key
that is not in the map is passed over (a valid schedule names none). -/
def rangeVars (body : String → Variable → Program → Result Program) :
    List String → Program → Result Program
  | [], rt => .ok rt
  | k :: ks, rt =>
    match mapGet rt.vars k with
    | none => rangeVars body ks rt
    | some v => (body k v rt).bind (rangeVars body ks)

/-! ### Build and its passes -/

def Program.createProcess (rt : Program) (template : plan.Process) : Program :=
  { rt with procs := mapSet rt.procs template.Name ⟨template, [], none⟩ }

def Program.createVariable (rt : Program) (template : plan.Variable) : Program :=
  { rt with vars := mapSet rt.vars template.Name ⟨template, none, none, none⟩ }

/-- `rt.procs[proc].Links[port] = l`; writing through a nil `*Process` panics. -/
def Program.setProcLink (rt : Program) (proc port : String) (l : Nat) : Result Program :=
  match mapGet rt.procs proc with
  | none => .panic .nilDeref
  | some p => .ok { rt with procs := mapSet rt.procs proc { p with Links := mapSet p.Links port l } }

/-- The end of an iteration of `connectProc`: `if in.Type != srcPort.Type { return err }`,
where `srcPort` is nil when the src node declares no such port. -/
def checkPortType (dstType : plan.VarType) (srcPort : Option plan.Port) (link : plan.Link)
    (rt : Program) : Result Program :=
  match srcPort with
  | none => .panic .nilDeref
  | some sp =>
    if dstType ≠ sp.Typ then .err (.typeMismatch sp.Typ dstType link.Src link.Dst)
    else .ok rt

/-- The body of the loop of `connectProc` for the input port `inp`, once its link is found. -/
def connectPort (prog : plan.Pipe) (dstKey : String) (inp : plan.Port) (link : plan.Link)
    (rt : Program) : Result Program :=
  let idx := rt.heap.length
  let rt1 : Program := { rt with heap := rt.heap ++ [⟨inp.Typ, link.Src, link.Dst, none, none, none⟩] }
  (rt1.setProcLink dstKey inp.Name idx).bind fun rt2 =>
  match prog.FindProc link.Src.Node with
  | some src =>
    (rt2.setProcLink link.Src.Node link.Src.Port idx).bind fun rt3 =>
    checkPortType inp.Typ (src.FindPort link.Src.Port).1 link rt3
  | none =>
    match prog.FindVar link.Src.Node with
    | some src =>
      match mapGet rt2.vars link.Src.Node with
      | none => .panic .nilDeref
      | some srcVar =>
        let rt3 : Program := { rt2 with
          vars := mapSet rt2.vars link.Src.Node { srcVar with Out := some idx }
          heap := rt2.heap.modify (fun l => { l with Value := srcVar.Value }) idx }
        checkPortType inp.Typ (src.FindPort link.Src.Port).1 link rt3
    | none => .err (.srcMissing link.Src link.Dst)

/-- The loop `for _, in := range dst.In` of `connectProc`; a port without a link ends the
whole call (`return nil`). -/
def connectProcLoop (prog : plan.Pipe) (dstKey : String) (dst : plan.Process) :
    List plan.Port → Program → Result Program
  | [], rt => .ok rt
  | inp :: rest, rt =>
    match prog.FindLink ⟨dst.Name, inp.Name⟩ with
    | none => .ok rt
    | some link => (connectPort prog dstKey inp link rt).bind (connectProcLoop prog dstKey dst rest)

/-- `rt.connectProc(prog, dstProc)`, with `dstProc = rt.procs[dstKey]`. -/
def Program.connectProc (prog : plan.Pipe) (dstKey : String) (dstProc : Process)
    (rt : Program) : Result Program :=
  connectProcLoop prog dstKey dstProc.Plan dstProc.Plan.In rt

/-- `rt.connectVar(prog, dstVar)`, with `dstVar = rt.vars[dstKey]`. -/
def Program.connectVar (prog : plan.Pipe) (dstKey : String) (dstVar : Variable)
    (rt : Program) : Result Program :=
  let dst := dstVar.Plan
  match dst.In[0]? with
  | none => .panic .indexOutOfRange
  | some in0 =>
    match prog.FindLink ⟨dst.Name, in0.Name⟩ with
    | none => .ok rt
    | some link =>
      let idx := rt.heap.length
      let rt1 : Program := { rt with
        heap := rt.heap ++ [⟨in0.Typ, link.Src, link.Dst, none, none, none⟩]
        vars := mapSet rt.vars dstKey { dstVar with In := some idx } }
      match prog.FindProc link.Src.Node with
      | some src =>
        (rt1.setProcLink link.Src.Node link.Src.Port idx).bind fun rt2 =>
        match (src.FindPort link.Src.Port).1 with
        | none => .panic .nilDeref
        | some sp =>
          if in0.Typ ≠ sp.Typ then .err (.typeMismatch sp.Typ in0.Typ link.Src link.Dst)
          else .ok rt2
      | none => .err (.noSrcProc link.Src.Node)

/-- `link.Rd = fd` through the pointer `l`. -/
def setRd (heap : List Link) (l : Nat) (fd : File) : List Link :=
  heap.modify (fun x => { x with Rd := some fd }) l

/-- `link.Wr = fd` through the pointer `l`. -/
def setWr (heap : List Link) (l : Nat) (fd : File) : List Link :=
  heap.modify (fun x => { x with Wr := some fd }) l

/-- `link.Value = value` through the pointer `l`. -/
def setValue (heap : List Link) (l : Nat) (value : Option Value) : List Link :=
  heap.modify (fun x => { x with Value := value }) l

/-- `v.Bind(value)`: the outcome, and the variable and the link store as the call leaves
them. -/
def Variable.Bind (v : Variable) (heap : List Link) (value : Option osruntime.Value) :
    Result Unit × Variable × List Link :=
  match v.Plan.Typ with
  | none => (.panic .indexOutOfRange, v, heap)
  | some t =>
    if t = plan.TypeStream then
      match value with
      | some (.file fd) =>
        let heap1 := match v.Out with
          | some o => setRd heap o fd
          | none => heap
        let heap2 := match v.In with
          | some i => setWr heap1 i fd
          | none => heap1
        (.ok (), { v with Value := value }, heap2)
      | _ => (.err (.notFile value), v, heap)
    else if t = plan.TypeString then
      match value with
      | some (.str s) =>
        let heap1 := match v.Out with
          | some o => setValue heap o (some (.str s))
          | none => heap
        (.ok (), { v with Value := value }, heap1)
      | _ => (.err (.notString value), v, heap)
    else (.panic (.explicit ("unsupported type: " ++ t)), v, heap)

/-- `rt.vars[key].Bind(value)` inside `Build`: an error or panic ends `Build`. -/
def Program.bindVar (rt : Program) (key : String) (v : Variable) (value : Option Value) :
    Result Program :=
  match v.Bind rt.heap value with
  | (.ok _, v1, heap1) => .ok { rt with vars := mapSet rt.vars key v1, heap := heap1 }
  | (.err e, _, _) => .err e
  | (.panic p, _, _) => .panic p

/-- The loop `for name, value := range varPresets` of `Build`, visiting the names in the
order given: a preset without variable of that name is ignored. -/
def bindPresets (varPresets : List (String × Option Value)) :
    List String → Program → Result Program
  | [], rt => .ok rt
  | name :: rest, rt =>
    match mapGet varPresets name with
    | none => bindPresets varPresets rest rt
    | some value =>
      match mapGet rt.vars name with
      | none => bindPresets varPresets rest rt
      | some vr => (rt.bindVar name vr value).bind (bindPresets varPresets rest)

/-- `bindDefaults(v)`, with `v = rt.vars[key]`. -/
def bindDefaults (env : Env) (key : String) (v : Variable) (rt : Program) : Result Program :=
  match v.Value with
  | some _ => .ok rt
  | none =>
    match v.Plan.Typ with
    | none => .panic .indexOutOfRange
    | some t =>
      if t = plan.TypeStream then
        if plan.hasPrefix v.Plan.Default "file://" then
          if env.openFile (plan.trimPrefix v.Plan.Default "file://") then
            rt.bindVar key v
              (some (.file (.opened key (plan.trimPrefix v.Plan.Default "file://"))))
          else .err (.openFailed v.Plan.Name v.Plan.Default)
        else .ok rt
      else if t = plan.TypeString then
        rt.bindVar key v (some (.str v.Plan.Default))
      else .panic (.explicit ("unrecognized type: " ++ t))

/-- The body of the second loop over `rt.vars` in `Build`: `bindDefaults`, then the check
`vr.Value == nil`. -/
def bindDefaultsChecked (env : Env) (key : String) (v : Variable) (rt : Program) :
    Result Program :=
  (bindDefaults env key v rt).bind fun rt1 =>
  match mapGet rt1.vars key with
  | none => .panic .nilDeref
  | some v1 =>
    match v1.Value with
    | none => .err (.unbound v1.Plan.Name)
    | some _ => .ok rt1

/-- The body of the loop of `initProcStreams` for the entry `port` of `dstProc.Links`. -/
def initLink (env : Env) (dstProc : Process) (port : String) (rt : Program) : Result Program :=
  match mapGet dstProc.Links port with
  | none => .ok rt
  | some l =>
    match rt.heap[l]? with
    | none => .panic .nilDeref
    | some link =>
      if link.Typ = plan.TypeStream ∧ link.Dst.Node = dstProc.Plan.Name ∧
          (mapGet rt.procs link.Src.Node).isSome then
        if env.pipe rt.pipes.length then
          .ok { rt with
            heap := setWr (setRd rt.heap l (.pipeRd rt.pipes.length)) l (.pipeWr rt.pipes.length)
            pipes := rt.pipes ++ [l] }
        else .err .pipeFailed
      else .ok rt

/-- The loop `for _, link := range dstProc.Links` of `initProcStreams`. -/
def initLinks (env : Env) (dstProc : Process) : List String → Program → Result Program
  | [], rt => .ok rt
  | port :: rest, rt => (initLink env dstProc port rt).bind (initLinks env dstProc rest)

/-- `rt.initProcStreams(dstProc)`, with `dstProc = rt.procs[dstKey]`. -/
def Program.initProcStreams (env : Env) (sched : Schedule) (dstKey : String) (dstProc : Process)
    (rt : Program) : Result Program :=
  initLinks env dstProc (sched.initLinks dstKey (mapKeys dstProc.Links)) rt

/-- The argument that `buildCmd` appends for `arg`: `none` when it appends nothing. -/
def buildArg (p : Process) (heap : List Link) (arg : plan.Arg) : Result (Option String) :=
  match arg with
  | .str s => .ok (some s)
  | .port v =>
    let dir := (p.Plan.FindPort v.Name).2
    let link := (mapGet p.Links v.Name).bind (fun l => heap[l]?)
    match dir with
    | .PortIn =>
      if v.Typ = plan.TypeStream then
        match link with
        | none => .panic .nilDeref
        | some l =>
          match l.Rd with
          | none => .panic .nilDeref
          | some rd => .ok (some rd.Name)
      else if v.Typ = plan.TypeString then
        match link with
        | none => .panic .nilDeref
        | some l =>
          match l.Value with
          | some (.str s) => .ok (some s)
          | _ => .panic .typeAssertion
      else .ok none
    | .PortOut =>
      if v.Typ = plan.TypeStream then
        match link with
        | none => .panic .nilDeref
        | some l =>
          match l.Wr with
          | none => .panic .nilDeref
          | some wr => .ok (some wr.Name)
      else .panic (.explicit ("unsupported type " ++ v.Typ))
    | .PortNone => .ok none

/-- The loop `for _, arg := range p.Plan.Args` of `buildCmd`. -/
def buildArgs (p : Process) (heap : List Link) : List plan.Arg → Result (List String)
  | [] => .ok []
  | arg :: rest =>
    (buildArg p heap arg).bind fun a =>
    (buildArgs p heap rest).bind fun as =>
    .ok (match a with
      | some s => s :: as
      | none => as)

/-- The standard stream `buildCmd` wires from the link stored under `port`. -/
def stdStream (p : Process) (heap : List Link) (port : String) (sel : Link → Option File) :
    Option (Option File) :=
  ((mapGet p.Links port).bind (fun l => heap[l]?)).map sel

/-- Go's `filepath.Base(path)`, with `/` as the separator: the last element of the path,
trailing separators removed. -/
def filepathBase (path : String) : String :=
  if path = "" then "."
  else
    let stripped := (path.data.reverse.dropWhile (fun c => c = '/')).reverse
    let last := (stripped.reverse.takeWhile (fun c => c ≠ '/')).reverse
    if last = [] then "/" else String.mk last

/-- Go's `exec.Command(name, args...)`: `Args` is the name followed by the arguments;
`Path` is the name, or what `exec.LookPath` finds for a name that is its own base name.
The standard streams are unset. -/
def execCommand (env : Env) (name : String) (args : List String) : Cmd :=
  { Path :=
      if filepathBase name = name then
        match env.lookPath name with
        | some lp => lp
        | none => name
      else name,
    Args := name :: args, Stdin := none, Stdout := none, Stderr := none }

/-- The lines `exe := p.Plan.Exe; if exe == "hoser" { exe, err = os.Executable(); ... }`
of `buildCmd`: the name handed to `exec.Command`, and the named result `err` as these
lines leave it (a failed `os.Executable` resets `exe` to `hoser` and leaves its error in
`err`). -/
def buildExe (env : Env) (p : Process) : String × Option Error :=
  if p.Plan.Exe = "hoser" then
    match env.executable with
    | some path => (path, none)
    | none => ("hoser", some .executableFailed)
  else (p.Plan.Exe, none)

/-- `buildCmd(p)`: the two named results `cmd` and `err` of a call that does not panic. -/
def buildCmd (env : Env) (p : Process) (heap : List Link) : Result (Cmd × Option Error) :=
  (buildArgs p heap p.Plan.Args).bind fun args =>
  let exe := buildExe env p
  let cmd := execCommand env exe.1 args
  .ok ({ cmd with
          Stdin := stdStream p heap "stdin" (fun l => l.Rd),
          Stdout := stdStream p heap "stdout" (fun l => l.Wr),
          Stderr := stdStream p heap "stderr" (fun l => l.Wr) }, exe.2)

/-- The body of the last loop of `Build`: `proc.Cmd, err = buildCmd(proc)`, then
`if err != nil { return nil, err }`. -/
def Program.setCmd (env : Env) (key : String) (proc : Process) (rt : Program) : Result Program :=
  (buildCmd env proc rt.heap).bind fun r =>
  match r.2 with
  | some e => .err e
  | none => .ok { rt with procs := mapSet rt.procs key { proc with Cmd := some r.1 } }

/-- The empty `Program` that `Build` starts from. -/
def Program.empty : Program := ⟨[], [], [], []⟩

/-- The first two loops of `Build`: an instance for every process and variable of the plan. -/
def Program.create (program : plan.Pipe) : Program :=
  program.Vars.foldl Program.createVariable (program.Procs.foldl Program.createProcess Program.empty)

/-- `Build(program, varPresets)`, under the operating system `env` and the map iteration
orders `sched`. -/
def Build (program : plan.Pipe) (varPresets : List (String × Option Value)) (env : Env)
    (sched : Schedule) : Result Program :=
  let rt := Program.create program
  (rangeProcs (Program.connectProc program) (sched.connectProcs (mapKeys rt.procs)) rt).bind
  fun rt =>
  (rangeVars (Program.connectVar program) (sched.connectVars (mapKeys rt.vars)) rt).bind
  fun rt =>
  (bindPresets varPresets (sched.presets (mapKeys varPresets)) rt).bind fun rt =>
  (rangeVars (bindDefaultsChecked env) (sched.bindVars (mapKeys rt.vars)) rt).bind fun rt =>
  (rangeProcs (Program.initProcStreams env sched) (sched.initProcs (mapKeys rt.procs)) rt).bind
  fun rt =>
  rangeProcs (Program.setCmd env) (sched.cmdProcs (mapKeys rt.procs)) rt

/-- The link instance stored on process `proc` under `port`, as an index. -/
def Program.linkAt (rt : Program) (proc port : String) : Option Nat :=
  (mapGet rt.procs proc).bind (fun p => mapGet p.Links port)

end osruntime

/-! ### Specification vocabulary -/

namespace osruntime

/-- The dynamic type of `value` is the one a variable of type `t` accepts: an `*os.File`
for `stream`, a `string` for `string`. -/
def kindMatches (t : plan.VarType) (value : Option Value) : Bool :=
  match value with
  | some (.file _) => t = plan.TypeStream
  | some (.str _) => t = plan.TypeString
  | _ => false

/-- A port-reference argument of `p` is ready for `buildCmd`: it names a port of the
process, of type `stream` or `string` and not a `string` output, its link is stored on the
process, and the endpoint or value the argument stands for is populated. -/
def ArgReady (p : Process) (heap : List Link) : plan.Arg → Prop
  | .str _ => True
  | .port v =>
    (p.Plan.FindPort v.Name).2 ≠ plan.PortDir.PortNone ∧
    (v.Typ = plan.TypeStream ∨ v.Typ = plan.TypeString) ∧
    ¬ ((p.Plan.FindPort v.Name).2 = plan.PortDir.PortOut ∧ v.Typ = plan.TypeString) ∧
    ∃ l link, mapGet p.Links v.Name = some l ∧ heap[l]? = some link ∧
      ((p.Plan.FindPort v.Name).2 = plan.PortDir.PortIn → v.Typ = plan.TypeStream →
        link.Rd ≠ none) ∧
      ((p.Plan.FindPort v.Name).2 = plan.PortDir.PortIn → v.Typ = plan.TypeString →
        ∃ s, link.Value = some (Value.str s)) ∧
      ((p.Plan.FindPort v.Name).2 = plan.PortDir.PortOut → link.Wr ≠ none)

/-- The text the specification asks for in place of `arg`: the literal itself, the name of
the link's read end for an input `stream` port, the link's string value for an input
`string` port, the name of the link's write end for an output `stream` port. -/
def ArgText (p : Process) (heap : List Link) (arg : plan.Arg) (s : String) : Prop :=
  match arg with
  | .str lit => s = lit
  | .port v =>
    ∃ l link, mapGet p.Links v.Name = some l ∧ heap[l]? = some link ∧
      (((p.Plan.FindPort v.Name).2 = plan.PortDir.PortIn ∧ v.Typ = plan.TypeStream ∧
          ∃ rd, link.Rd = some rd ∧ s = rd.Name) ∨
       ((p.Plan.FindPort v.Name).2 = plan.PortDir.PortIn ∧ v.Typ = plan.TypeString ∧
          link.Value = some (Value.str s)) ∨
       ((p.Plan.FindPort v.Name).2 = plan.PortDir.PortOut ∧ v.Typ = plan.TypeStream ∧
          ∃ wr, link.Wr = some wr ∧ s = wr.Name))

/-! ### Example plans -/

/-- A plan process named `n` (its executable has the same name). -/
def mkProc (n : String) (ins outs : List plan.Port) (args : List plan.Arg) : plan.Process :=
  ⟨⟨n, ins, outs⟩, n, args⟩

/-- A process instance with one input `stream`, one input `string` and one output `stream`
port, all wired. -/
def cmdProc : Process :=
  ⟨mkProc "p" [⟨"in", "stream"⟩, ⟨"n", "string"⟩] [⟨"out", "stream"⟩]
      [.str "-x", .port ⟨"in", "stream"⟩, .port ⟨"n", "string"⟩, .port ⟨"out", "stream"⟩],
   [("in", 0), ("n", 1), ("out", 2)], none⟩

/-- The link store `cmdProc` points into. -/
def cmdHeap : List Link :=
  [⟨"stream", ⟨"q", "out"⟩, ⟨"p", "in"⟩, some (.pipeWr 0), some (.pipeRd 0), none⟩,
   ⟨"string", ⟨"v", "v"⟩, ⟨"p", "n"⟩, none, none, some (.str "7")⟩,
   ⟨"stream", ⟨"p", "out"⟩, ⟨"w", "w"⟩, some (.given 1 "/dev/stdout"), none, none⟩]

/-- A `string` variable instance without links. -/
def strVar : Variable := ⟨⟨⟨"x", [⟨"x", "string"⟩], []⟩, ""⟩, none, none, none⟩

end osruntime

namespace osruntime

/-- The plan a process instance was created from. -/
def Program.procPlan (rt : Program) (k : String) : Option plan.Process :=
  (mapGet rt.procs k).map (fun p => p.Plan)

/-- The plan a variable instance was created from. -/
def Program.varPlan (rt : Program) (k : String) : Option plan.Variable :=
  (mapGet rt.vars k).map (fun v => v.Plan)

/-- Both programs hold the same process and variable instances, made from the same plans:
only links, values and commands may differ. -/
structure SameNodes (rt rt' : Program) : Prop where
  procKeys : mapKeys rt'.procs = mapKeys rt.procs
  varKeys : mapKeys rt'.vars = mapKeys rt.vars
  procPlan : ∀ k, rt'.procPlan k = rt.procPlan k
  varPlan : ∀ k, rt'.varPlan k = rt.varPlan k

/-- The link store after a successful `Bind`: as long as before, every instance keeps
its type and its two refs, and only the instances the variable points to may change. -/
structure HeapFrame (v : Variable) (heap heap' : List Link) : Prop where
  length : heap'.length = heap.length
  skeleton : ∀ (j : Nat) (l' : Link), heap'[j]? = some l' →
    ∃ l : Link, heap[j]? = some l ∧ l'.Typ = l.Typ ∧ l'.Src = l.Src ∧ l'.Dst = l.Dst
  other : ∀ j : Nat, v.Out ≠ some j → v.In ≠ some j → heap'[j]? = heap[j]?

/-- What the two connect passes leave alone: instances and plans, the pipes, the values of
the variables and the link instances that already exist. -/
structure ConnectFrame (rt rt' : Program) : Prop where
  nodes : SameNodes rt rt'
  pipes : rt'.pipes = rt.pipes
  values : ∀ k, (mapGet rt'.vars k).map (fun v => v.Value)
    = (mapGet rt.vars k).map (fun v => v.Value)
  heapLen : rt.heap.length ≤ rt'.heap.length
  heapOld : ∀ j : Nat, j < rt.heap.length → rt'.heap[j]? = rt.heap[j]?

/-- What the two binding passes leave alone: the processes, the pipes, instances and plans,
and the variables that have no preset. -/
structure BindFrame (presets : List (String × Option Value)) (rt rt' : Program) : Prop where
  procs : rt'.procs = rt.procs
  pipes : rt'.pipes = rt.pipes
  nodes : SameNodes rt rt'
  noPreset : ∀ k, mapGet presets k = none → mapGet rt'.vars k = mapGet rt.vars k

/-- The program holds, under its name, an instance of every process and variable of the
plan. -/
def Program.Instantiates (rt : Program) (prog : plan.Pipe) : Prop :=
  (∀ S, S ∈ prog.Procs → rt.procPlan S.Name = some S) ∧
  (∀ V, V ∈ prog.Vars → rt.varPlan V.Name = some V)

/-- An example plan: the second input port of `P` is fed a `string` where it declares a
`stream`, and the first input port of `P` is unwired. -/
def earlyReturnPlan : plan.Pipe :=
  ⟨"p", [mkProc "P" [⟨"a", "stream"⟩, ⟨"b", "stream"⟩] [] [], mkProc "S" [] [⟨"o", "string"⟩] []],
   [], [⟨⟨"S", "o"⟩, ⟨"P", "b"⟩⟩]⟩

/-- An example plan: the input port of `P` is fed a `string` where it declares a `stream`,
and the link to `A` comes from a node `X` that does not exist. -/
def firstErrorPlan : plan.Pipe :=
  ⟨"p", [mkProc "A" [⟨"i", "stream"⟩] [] [], mkProc "P" [⟨"b", "stream"⟩] [] [],
         mkProc "S" [] [⟨"o", "string"⟩] []],
   [], [⟨⟨"X", "o"⟩, ⟨"A", "i"⟩⟩, ⟨⟨"S", "o"⟩, ⟨"P", "b"⟩⟩]⟩

/-- An example plan: the only input port of `P` is fed a `string` where it declares a
`stream`. -/
def mismatchPlan : plan.Pipe :=
  ⟨"p", [mkProc "P" [⟨"b", "stream"⟩] [] [], mkProc "S" [] [⟨"o", "string"⟩] []],
   [], [⟨⟨"S", "o"⟩, ⟨"P", "b"⟩⟩]⟩

/-- The outbound link of a variable instance, as an index. -/
def Program.varOut (rt : Program) (k : String) : Option Nat :=
  (mapGet rt.vars k).bind (fun v => v.Out)

/-- While links are connected: the instance stored on process `P` under `port` is the
outbound link of variable `V`, and the outbound link of every variable names it as src. -/
structure OutInv (rt : Program) (P port V : String) : Prop where
  follows : ∀ j, rt.linkAt P port = some j → rt.varOut V = some j
  outSrc : ∀ (W : String) (w : Variable) (j : Nat), mapGet rt.vars W = some w →
    w.Out = some j → ∃ li : Link, rt.heap[j]? = some li ∧ li.Src.Node = W

/-- While variables are bound: the outbound link of `V` is the instance `j`, and once `V`
has a value the instance carries it. -/
structure ValueInv (rt : Program) (V : String) (j : Nat) : Prop where
  out : rt.varOut V = some j
  outSrc : ∀ (W : String) (w : Variable) (i : Nat), mapGet rt.vars W = some w →
    w.Out = some i → ∃ li : Link, rt.heap[i]? = some li ∧ li.Src.Node = W
  value : ∃ (v : Variable) (li : Link), mapGet rt.vars V = some v ∧ rt.heap[j]? = some li ∧
    (v.Value = none ∨ li.Value = v.Value)

/-- The plan link `link` is the one link that leaves the variable `V`: no process bears
the name of `V`, no other link has `V` as src node, and the dst port of `link` is not
itself used as the src of a link. -/
structure VarFeeds (prog : plan.Pipe) (V : plan.Variable) (link : plan.Link) : Prop where
  mem : link ∈ prog.Links
  src : link.Src.Node = V.Name
  noProc : ∀ S, S ∈ prog.Procs → S.Name ≠ V.Name
  single : ∀ l, l ∈ prog.Links → l.Src.Node = V.Name → l = link
  dstNotSrc : ∀ l, l ∈ prog.Links → l.Src ≠ link.Dst

/-- The plan link `link` is a stream link between two distinct processes and the only use
of its two ports: its src names a process, its dst port has type `stream`, no variable
bears the name of the dst process, no other link leaves its src port, and neither port is
used in the opposite direction. -/
structure ProcFeeds (prog : plan.Pipe) (link : plan.Link) : Prop where
  mem : link ∈ prog.Links
  srcProc : ∃ S, S ∈ prog.Procs ∧ S.Name = link.Src.Node
  distinct : link.Src.Node ≠ link.Dst.Node
  stream : ∀ P, P ∈ prog.Procs → P.Name = link.Dst.Node →
    ∀ q, q ∈ P.In → q.Name = link.Dst.Port → q.Typ = plan.TypeStream
  noVar : ∀ V, V ∈ prog.Vars → V.Name ≠ link.Dst.Node
  single : ∀ l, l ∈ prog.Links → l.Src = link.Src → l = link
  dstNotSrc : ∀ l, l ∈ prog.Links → l.Src ≠ link.Dst
  srcNotDst : ∀ l, l ∈ prog.Links → l.Dst ≠ link.Src

/-- While links are connected: the instance stored under the dst port of `link` is also
the one stored under its src port, it is a `stream` instance of `link`, no other entry of
any process holds it, and every entry points into the link store. -/
structure PairInv (rt : Program) (link : plan.Link) : Prop where
  follows : ∀ j, rt.linkAt link.Dst.Node link.Dst.Port = some j →
    rt.linkAt link.Src.Node link.Src.Port = some j
  cell : ∀ j, rt.linkAt link.Dst.Node link.Dst.Port = some j →
    ∃ li : Link, rt.heap[j]? = some li ∧ li.Typ = plan.TypeStream ∧ li.Src = link.Src ∧
      li.Dst = link.Dst
  holders : ∀ (Q k : String) (j : Nat), rt.linkAt link.Dst.Node link.Dst.Port = some j →
    rt.linkAt Q k = some j →
    (Q = link.Dst.Node ∧ k = link.Dst.Port) ∨ (Q = link.Src.Node ∧ k = link.Src.Port)
  bound : ∀ (Q k : String) (i : Nat), rt.linkAt Q k = some i → i < rt.heap.length

/-- The `Links` map of every process instance has each key once. -/
def Program.LinksNodup (rt : Program) : Prop :=
  ∀ Q p, mapGet rt.procs Q = some p → (mapKeys p.Links).Nodup

/-- No pipe was created for the link instance `j`. -/
def PipeFresh (rt : Program) (j : Nat) : Prop := rt.pipes.count j = 0

/-- Exactly one pipe was created for the link instance `j`, and the instance holds its two
ends. -/
def PipeDone (rt : Program) (j : Nat) : Prop :=
  rt.pipes.count j = 1 ∧ ∃ (n : Nat) (li : Link), rt.heap[j]? = some li ∧
    li.Rd = some (File.pipeRd n) ∧ li.Wr = some (File.pipeWr n) ∧ rt.pipes[n]? = some j

/-- The link instance `j` is a `stream` instance of `link`. -/
def StreamCell (rt : Program) (link : plan.Link) (j : Nat) : Prop :=
  ∃ li : Link, rt.heap[j]? = some li ∧ li.Typ = plan.TypeStream ∧ li.Src = link.Src ∧
    li.Dst = link.Dst

/-- An example plan: the output port of `S` feeds the input ports of both `A` and `B`. -/
def fanOutPlan : plan.Pipe :=
  ⟨"p", [mkProc "A" [⟨"i", "stream"⟩] [] [], mkProc "B" [⟨"i", "stream"⟩] [] [],
         mkProc "S" [] [⟨"o", "stream"⟩] []], [],
   [⟨⟨"S", "o"⟩, ⟨"A", "i"⟩⟩, ⟨⟨"S", "o"⟩, ⟨"B", "i"⟩⟩]⟩

/-- An example plan: the output port of `P` feeds its own input port. -/
def selfLinkPlan : plan.Pipe :=
  ⟨"p", [mkProc "P" [⟨"i", "stream"⟩] [⟨"o", "stream"⟩] []], [], [⟨⟨"P", "o"⟩, ⟨"P", "i"⟩⟩]⟩

/-- An example plan: the `string` variable `V` feeds the input port `i` of `A`. -/
def varLinkPlan : plan.Pipe :=
  ⟨"p", [mkProc "A" [⟨"i", "string"⟩] [] []], [⟨⟨"V", [⟨"v", "string"⟩], []⟩, "dflt"⟩],
   [⟨⟨"V", "v"⟩, ⟨"A", "i"⟩⟩]⟩

/-- An example plan: the `string` variable `V` feeds the input ports of both `A` and `B`. -/
def varFanOutPlan : plan.Pipe :=
  ⟨"p", [mkProc "A" [⟨"i", "string"⟩] [] [], mkProc "B" [⟨"i", "string"⟩] [] []],
   [⟨⟨"V", [⟨"v", "string"⟩], []⟩, "dflt"⟩],
   [⟨⟨"V", "v"⟩, ⟨"A", "i"⟩⟩, ⟨⟨"V", "v"⟩, ⟨"B", "i"⟩⟩]⟩

/-- Every instance of the program was made from a process or variable of the plan. -/
def Program.FromPlan (rt : Program) (prog : plan.Pipe) : Prop :=
  (∀ k P, rt.procPlan k = some P → P ∈ prog.Procs ∧ P.Name = k) ∧
  (∀ k V, rt.varPlan k = some V → V ∈ prog.Vars ∧ V.Name = k)

/-- Every link instance of the program is a link of the plan whose src and dst resolve. -/
def Program.LinksResolved (rt : Program) (prog : plan.Pipe) : Prop :=
  ∀ li, li ∈ rt.heap →
    (⟨li.Src, li.Dst⟩ : plan.Link) ∈ prog.Links ∧ prog.Resolves li.Src ∧ prog.Resolves li.Dst

/-- An example plan: the dst of its link names a process that does not exist. -/
def danglingDstPlan : plan.Pipe :=
  ⟨"p", [mkProc "P" [⟨"i", "stream"⟩] [] [], mkProc "S" [] [⟨"o", "stream"⟩] []], [],
   [⟨⟨"S", "o"⟩, ⟨"Q", "i"⟩⟩]⟩

/-- An example plan: the src of its link names a port that `S` does not declare. -/
def undeclaredSrcPlan : plan.Pipe :=
  ⟨"p", [mkProc "P" [⟨"i", "stream"⟩] [] [], mkProc "S" [] [⟨"o", "stream"⟩] []], [],
   [⟨⟨"S", "zz"⟩, ⟨"P", "i"⟩⟩]⟩

/-- An example plan: a well-typed link from `S` to `P`. -/
def linkedPlan : plan.Pipe :=
  ⟨"p", [mkProc "P" [⟨"i", "stream"⟩] [] [], mkProc "S" [] [⟨"o", "stream"⟩] []], [],
   [⟨⟨"S", "o"⟩, ⟨"P", "i"⟩⟩]⟩

/-- An example plan: a well-typed link to the second input port of `P`, whose first input
port is unwired. -/
def droppedLinkPlan : plan.Pipe :=
  ⟨"p", [mkProc "P" [⟨"a", "stream"⟩, ⟨"b", "stream"⟩] [] [], mkProc "S" [] [⟨"o", "stream"⟩] []],
   [], [⟨⟨"S", "o"⟩, ⟨"P", "b"⟩⟩]⟩

/-- An example plan: a `string` variable without default. -/
def unboundPlan : plan.Pipe := ⟨"p", [], [⟨⟨"x", [⟨"x", "string"⟩], []⟩, ""⟩], []⟩

end osruntime

/-! ### Process.Close -/

namespace osruntime

/-- How a call of `Process.Close` ends: it returns nil, it returns the error of the
`Close` of a file, or it panics. -/
inductive CloseOutcome where
  | done
  | failed (f : File)
  | panic (p : Panic)
  deriving DecidableEq, Repr

/-- The calls of `(*os.File).Close` made so far: which process instance made the call, on
which file. -/
abbrev CloseLog := List (String × File)

/-- The number of `Close` calls made on the file `f`. -/
def closeCount (log : CloseLog) (f : File) : Nat := (log.map Prod.snd).count f

/-- `f.Close()`, called by the process `who`: the call is recorded; it returns an error
when the file was closed before. -/
def closeFile (who : String) (f : File) (log : CloseLog) : CloseOutcome × CloseLog :=
  if f ∈ log.map Prod.snd then (.failed f, log ++ [(who, f)]) else (.done, log ++ [(who, f)])

/-- The body of the loop of `Process.Close` for one link: the read end is closed when the
process is the dst of the link, then the write end when it is the src; an error ends the
call. -/
def Process.closeLink (who : String) (p : Process) (link : Link) (log : CloseLog) :
    CloseOutcome × CloseLog :=
  let r1 : CloseOutcome × CloseLog :=
    match link.Rd with
    | some rd => if link.Dst.Node = p.Plan.Name then closeFile who rd log else (.done, log)
    | none => (.done, log)
  match r1 with
  | (.done, log1) =>
    match link.Wr with
    | some wr => if link.Src.Node = p.Plan.Name then closeFile who wr log1 else (.done, log1)
    | none => (.done, log1)
  | r => r

/-- The loop `for _, link := range p.Links` of `Process.Close`, visiting the entries in
the order given. -/
def Process.closeLoop (who : String) (p : Process) (heap : List Link) :
    List String → CloseLog → CloseOutcome × CloseLog
  | [], log => (.done, log)
  | port :: rest, log =>
    match mapGet p.Links port with
    | none => Process.closeLoop who p heap rest log
    | some l =>
      match heap[l]? with
      | none => (.panic .nilDeref, log)
      | some link =>
        match p.closeLink who link log with
        | (.done, log1) => Process.closeLoop who p heap rest log1
        | r => r

/-- The order in which the workers of `Start` run `Process.Close`, and the order in which
each call visits the `Links` map of its process. -/
structure CloseSchedule where
  procs : List String → List String
  links : String → List String → List String

/-- A close schedule visits every process and every map entry exactly once. -/
structure CloseSchedule.Valid (cs : CloseSchedule) : Prop where
  procs : ∀ ks, (cs.procs ks).Perm ks
  links : ∀ p ks, (cs.links p ks).Perm ks

/-- The close schedule that follows insertion order. -/
def CloseSchedule.inOrder : CloseSchedule := ⟨id, fun _ => id⟩

/-- `p.Close()` for the process instance under `key`. -/
def Process.Close (p : Process) (heap : List Link) (cs : CloseSchedule) (key : String)
    (log : CloseLog) : CloseOutcome × CloseLog :=
  Process.closeLoop key p heap (cs.links key (mapKeys p.Links)) log

/-- `defer proc.Close()` of every worker of `Start`, one process after the other in the
order given; the outcome of each call is recorded (the workers discard it). -/
def closeProcs (rt : Program) (cs : CloseSchedule) :
    List String → CloseLog × List (String × CloseOutcome) →
    CloseLog × List (String × CloseOutcome)
  | [], s => s
  | k :: ks, s =>
    match mapGet rt.procs k with
    | none => closeProcs rt cs ks s
    | some p => closeProcs rt cs ks ((p.Close rt.heap cs k s.1).2, s.2 ++ [(k, (p.Close rt.heap cs k s.1).1)])

/-- `Process.Close` has run for every process instance of the program. -/
def Program.closeAll (rt : Program) (cs : CloseSchedule) :
    CloseLog × List (String × CloseOutcome) :=
  closeProcs rt cs (cs.procs (mapKeys rt.procs)) ([], [])

/-- The pipe an `*os.File` is an end of, when it is one. -/
def File.pipeOf : File → Option Nat
  | .pipeRd n => some n
  | .pipeWr n => some n
  | _ => none

/-- The presets hold no end of a pipe: the caller cannot hand in a file that `os.Pipe` has
yet to make. -/
def PresetsGiven (presets : List (String × Option Value)) : Prop :=
  ∀ k f, mapGet presets k = some (some (Value.file f)) → f.pipeOf = none

/-- Every end of a pipe found in a link instance was stored there by `initProcStreams`:
the pipe log names that instance. -/
def Program.EndsLogged (rt : Program) : Prop :=
  ∀ (i : Nat) (li : Link) (f : File) (m : Nat), rt.heap[i]? = some li →
    (li.Rd = some f ∨ li.Wr = some f) → f.pipeOf = some m → rt.pipes[m]? = some i

/-- An example plan: the source variable `src`, which has an output port only, feeds the
input port of `cat` from a file. -/
def sourceVarPlan : plan.Pipe :=
  ⟨"p", [mkProc "cat" [⟨"in", "stream"⟩] [] [.port ⟨"in", "stream"⟩]],
   [⟨⟨"src", [], [⟨"out", "stream"⟩]⟩, "file:///tmp/a.txt"⟩],
   [⟨⟨"src", "out"⟩, ⟨"cat", "in"⟩⟩]⟩

/-- An example plan: the input ports `a` and `b` of `P` are fed by the stream variables
`V1` and `V2`, its input port `c` by the process `S`. -/
def sharedFilePlan : plan.Pipe :=
  ⟨"p", [mkProc "P" [⟨"a", "stream"⟩, ⟨"b", "stream"⟩, ⟨"c", "stream"⟩] [] [],
         mkProc "S" [] [⟨"o", "stream"⟩] []],
   [⟨⟨"V1", [⟨"v", "stream"⟩], []⟩, ""⟩, ⟨⟨"V2", [⟨"v", "stream"⟩], []⟩, ""⟩],
   [⟨⟨"V1", "v"⟩, ⟨"P", "a"⟩⟩, ⟨⟨"V2", "v"⟩, ⟨"P", "b"⟩⟩, ⟨⟨"S", "o"⟩, ⟨"P", "c"⟩⟩]⟩

/-- Presets for `sharedFilePlan`: the caller binds both variables to the same file. -/
def sharedFilePresets : List (String × Option Value) :=
  [("V1", some (.file (.given 0 "/dev/stdin"))), ("V2", some (.file (.given 0 "/dev/stdin")))]

/-- The loop of `connectProc` reaches the dst of `link`: the dst is an input port of a
process of the plan, and every input port that process declares before it is the dst of a
link of the plan. -/
def DstReached (prog : plan.Pipe) (link : plan.Link) : Prop :=
  ∃ (P : plan.Process) (pre : List plan.Port) (inp : plan.Port) (post : List plan.Port),
    P ∈ prog.Procs ∧ P.Name = link.Dst.Node ∧ P.In = pre ++ inp :: post ∧
    inp.Name = link.Dst.Port ∧
    ∀ q, q ∈ pre → ∃ l, l ∈ prog.Links ∧ l.Dst = ⟨P.Name, q.Name⟩

/-- An example plan: the input port `a` of `P` is fed by `T`, its input port `b` by `S`. -/
def twoInputPlan : plan.Pipe :=
  ⟨"p", [mkProc "P" [⟨"a", "stream"⟩, ⟨"b", "stream"⟩] [] [],
         mkProc "S" [] [⟨"o", "stream"⟩] [], mkProc "T" [] [⟨"o", "stream"⟩] []], [],
   [⟨⟨"T", "o"⟩, ⟨"P", "a"⟩⟩, ⟨⟨"S", "o"⟩, ⟨"P", "b"⟩⟩]⟩

/-- An example plan: the `string` variables `W` and `V` feed the input ports `h` and `i`
of `A`. -/
def varSecondPlan : plan.Pipe :=
  ⟨"p", [mkProc "A" [⟨"h", "string"⟩, ⟨"i", "string"⟩] [] []],
   [⟨⟨"V", [⟨"v", "string"⟩], []⟩, "dflt"⟩, ⟨⟨"W", [⟨"w", "string"⟩], []⟩, "other"⟩],
   [⟨⟨"W", "w"⟩, ⟨"A", "h"⟩⟩, ⟨⟨"V", "v"⟩, ⟨"A", "i"⟩⟩]⟩

/-- An example plan: the `string` variable `V` feeds the second input port of `A`, whose
first input port is unwired. -/
def varDroppedPlan : plan.Pipe :=
  ⟨"p", [mkProc "A" [⟨"a", "string"⟩, ⟨"i", "string"⟩] [] []],
   [⟨⟨"V", [⟨"v", "string"⟩], []⟩, "dflt"⟩], [⟨⟨"V", "v"⟩, ⟨"A", "i"⟩⟩]⟩

/-- An example plan: a `stream` variable without default. -/
def streamUnboundPlan : plan.Pipe := ⟨"p", [], [⟨⟨"s", [⟨"s", "stream"⟩], []⟩, ""⟩], []⟩

/-- An example plan: the first input port of `P` is wired type-correctly, its second input
port is fed a `string` where it declares a `stream`. -/
def mismatchSecondPlan : plan.Pipe :=
  ⟨"p", [mkProc "P" [⟨"a", "stream"⟩, ⟨"b", "stream"⟩] [] [],
         mkProc "S" [] [⟨"o", "string"⟩] [], mkProc "T" [] [⟨"o", "stream"⟩] []], [],
   [⟨⟨"T", "o"⟩, ⟨"P", "a"⟩⟩, ⟨⟨"S", "o"⟩, ⟨"P", "b"⟩⟩]⟩

/-- An example plan: the `stream` sink variable `V` is fed a `string` by the process `S`. -/
def sinkMismatchPlan : plan.Pipe :=
  ⟨"p", [mkProc "S" [] [⟨"o", "string"⟩] []], [⟨⟨"V", [⟨"v", "stream"⟩], []⟩, ""⟩],
   [⟨⟨"S", "o"⟩, ⟨"V", "v"⟩⟩]⟩

/-- An example plan: the `stream` variable `V` is fed by the `string` variable `U`. -/
def varToVarPlan : plan.Pipe :=
  ⟨"p", [], [⟨⟨"U", [⟨"u", "string"⟩], []⟩, "x"⟩, ⟨⟨"V", [⟨"v", "stream"⟩], []⟩, ""⟩],
   [⟨⟨"U", "u"⟩, ⟨"V", "v"⟩⟩]⟩

/-- Every entry of a `Links` map points into the link store, at a link instance that
names the process and the port of the entry as its dst or as its src, and no link instance
has one node as src and dst. -/
structure Program.Held (rt : Program) : Prop where
  bound : ∀ (Q k : String) (i : Nat), rt.linkAt Q k = some i → i < rt.heap.length
  held : ∀ (Q k : String) (i : Nat) (li : Link), rt.linkAt Q k = some i →
    rt.heap[i]? = some li →
    (Q = li.Dst.Node ∧ k = li.Dst.Port) ∨ (Q = li.Src.Node ∧ k = li.Src.Port)
  noSelf : ∀ (i : Nat) (li : Link), rt.heap[i]? = some li → li.Src.Node ≠ li.Dst.Node

/-- No `*os.File` sits in two link instances, or in both ends of one. -/
structure Program.FilesApart (rt : Program) : Prop where
  rdOnce : ∀ (i j : Nat) (li lj : Link) (f : File), rt.heap[i]? = some li →
    rt.heap[j]? = some lj → li.Rd = some f → lj.Rd = some f → i = j
  wrOnce : ∀ (i j : Nat) (li lj : Link) (f : File), rt.heap[i]? = some li →
    rt.heap[j]? = some lj → li.Wr = some f → lj.Wr = some f → i = j
  rdWr : ∀ (i j : Nat) (li lj : Link) (f : File), rt.heap[i]? = some li →
    rt.heap[j]? = some lj → li.Rd = some f → lj.Wr = some f → False

/-- What makes every `Close` of `Process.Close` succeed: the process instances are keyed by
their names, each entry of a `Links` map leads to a link instance of that process and port,
and no file sits in two places. -/
structure CloseReady (rt : Program) : Prop where
  names : ∀ Q p, mapGet rt.procs Q = some p → p.Plan.Name = Q ∧ (mapKeys p.Links).Nodup
  keys : (mapKeys rt.procs).Nodup
  held : rt.Held
  apart : rt.FilesApart

/-- No link of the plan has one node as src and dst. -/
def NoSelfLinks (prog : plan.Pipe) : Prop :=
  ∀ l, l ∈ prog.Links → l.Src.Node ≠ l.Dst.Node

/-- The files of the presets are files of the caller, neither ends of pipes nor files that
`Build` opens, and no file is the preset of two names. -/
def PresetsApart (presets : List (String × Option Value)) : Prop :=
  ∀ k f, mapGet presets k = some (some (Value.file f)) →
    (∃ fd name, f = File.given fd name) ∧
    ∀ k2, mapGet presets k2 = some (some (Value.file f)) → k2 = k

/-- No variable of the plan is both the src node of a link and the dst node of a link. -/
def OneWayVars (prog : plan.Pipe) : Prop :=
  ∀ V, V ∈ prog.Vars → ∀ l1 l2, l1 ∈ prog.Links → l2 ∈ prog.Links →
    l1.Src.Node = V.Name → l2.Dst.Node ≠ V.Name

/-- Where the files of the link instances come from, while `Build` binds variables and
creates pipes: a variable with an outbound (inbound) link is the src (dst) node of a link
of the plan; a file bound to a variable is its preset or the file opened for its default;
the read end of a link instance is the read end of a pipe or the file bound to the
variable whose outbound link it is, and its write end is the write end of a pipe or the
file bound to the variable whose inbound link it is. -/
structure VarFiles (prog : plan.Pipe) (presets : List (String × Option Value))
    (rt : Program) : Prop where
  ways : ∀ key v, mapGet rt.vars key = some v →
    (v.Out ≠ none → ∃ l, l ∈ prog.Links ∧ l.Src.Node = key) ∧
    (v.In ≠ none → ∃ l, l ∈ prog.Links ∧ l.Dst.Node = key)
  origin : ∀ key v f, mapGet rt.vars key = some v → v.Value = some (Value.file f) →
    v.Plan.Typ = some plan.TypeStream ∧
    (mapGet presets key = some (some (Value.file f)) ∨ ∃ path, f = File.opened key path)
  rdCell : ∀ (i : Nat) (li : Link) (f : File), rt.heap[i]? = some li → li.Rd = some f →
    (∃ m, f = File.pipeRd m) ∨
    ∃ key v, mapGet rt.vars key = some v ∧ v.Out = some i ∧ v.Value = some (Value.file f)
  wrCell : ∀ (i : Nat) (li : Link) (f : File), rt.heap[i]? = some li → li.Wr = some f →
    (∃ m, f = File.pipeWr m) ∨
    ∃ key v, mapGet rt.vars key = some v ∧ v.In = some i ∧ v.Value = some (Value.file f)

/-- While `Build` connects: the instances are those of the plan, no variable is bound, a
variable with a link is a node of a link of the plan, and no link instance has a file. -/
structure Connecting (prog : plan.Pipe) (rt : Program) : Prop where
  fromPlan : rt.FromPlan prog
  unboundYet : ∀ key v, mapGet rt.vars key = some v → v.Value = none
  ways : ∀ key v, mapGet rt.vars key = some v →
    (v.Out ≠ none → ∃ l, l ∈ prog.Links ∧ l.Src.Node = key) ∧
    (v.In ≠ none → ∃ l, l ∈ prog.Links ∧ l.Dst.Node = key)
  noEnds : ∀ (i : Nat) (li : Link), rt.heap[i]? = some li → li.Rd = none ∧ li.Wr = none

/-- An example plan: the `stream` variable `in` feeds `P`, `P` feeds the two input ports of
`Q` through two pipes, and `Q` writes into the `stream` sink variable `out`. -/
def pipelinePlan : plan.Pipe :=
  ⟨"p", [mkProc "P" [⟨"i", "stream"⟩] [⟨"o", "stream"⟩, ⟨"x", "stream"⟩] [],
         mkProc "Q" [⟨"e", "stream"⟩, ⟨"i", "stream"⟩] [⟨"o", "stream"⟩] []],
   [⟨⟨"in", [⟨"v", "stream"⟩], []⟩, ""⟩, ⟨⟨"out", [⟨"v", "stream"⟩], []⟩, ""⟩],
   [⟨⟨"in", "v"⟩, ⟨"P", "i"⟩⟩, ⟨⟨"P", "x"⟩, ⟨"Q", "e"⟩⟩, ⟨⟨"P", "o"⟩, ⟨"Q", "i"⟩⟩,
    ⟨⟨"Q", "o"⟩, ⟨"out", "v"⟩⟩]⟩

/-- Presets for `pipelinePlan`: the standard input and output of the caller. -/
def pipelinePresets : List (String × Option Value) :=
  [("in", some (.file (.given 0 "/dev/stdin"))), ("out", some (.file (.given 1 "/dev/stdout")))]

/-- An example plan: `A` writes into the `stream` variable `V`, which feeds the input port
`i` of `P`; the input port `j` of `P` is fed by the process `S`. -/
def throughVarPlan : plan.Pipe :=
  ⟨"p", [mkProc "A" [] [⟨"o", "stream"⟩] [],
         mkProc "P" [⟨"i", "stream"⟩, ⟨"j", "stream"⟩] [] [],
         mkProc "S" [] [⟨"o", "stream"⟩] []],
   [⟨⟨"V", [⟨"w", "stream"⟩], [⟨"r", "stream"⟩]⟩, ""⟩],
   [⟨⟨"V", "r"⟩, ⟨"P", "i"⟩⟩, ⟨⟨"S", "o"⟩, ⟨"P", "j"⟩⟩, ⟨⟨"A", "o"⟩, ⟨"V", "w"⟩⟩]⟩

/-- Presets for `throughVarPlan`: the caller binds `V` to a file. -/
def throughVarPresets : List (String × Option Value) :=
  [("V", some (.file (.given 3 "/tmp/f")))]

end osruntime
namespace plan

/-! ## Lookup lemmas -/

theorem strLt_iff (a b : String) : strLt a b = true ↔ a < b := by
  simp [strLt, String.lt_iff_toList_lt]

theorem strLt_eq_false_iff (a b : String) : strLt a b = false ↔ b ≤ a := by
  rw [← Bool.not_eq_true, strLt_iff, not_lt]

/-- The loop keeps `i ≤ j ≤ n`, every index below `i` fails `f`, and `j` satisfies `f`
unless it is `n`. -/
theorem searchLoop_spec (f : Nat → Bool) (n : Nat)
    (mono : ∀ a b, a ≤ b → b < n → f a = true → f b = true) :
    ∀ fuel i j, i ≤ j → j ≤ n → j - i ≤ fuel →
      (∀ k, k < i → f k = false) → (j < n → f j = true) →
      searchLoop f fuel i j ≤ n ∧
      (∀ k, k < searchLoop f fuel i j → f k = false) ∧
      (searchLoop f fuel i j < n → f (searchLoop f fuel i j) = true) := by
  intro fuel
  induction fuel with
  | zero =>
    intro i j hij hjn hfuel hlo hhi
    have hEq : i = j := by omega
    subst hEq
    exact ⟨hjn, hlo, hhi⟩
  | succ fuel ih =>
    intro i j hij hjn hfuel hlo hhi
    unfold searchLoop
    by_cases hlt : i < j
    · simp only [hlt, if_true]
      have hh1 : i ≤ (i + j) / 2 := by omega
      have hh2 : (i + j) / 2 < j := by omega
      cases hf : f ((i + j) / 2) with
      | false =>
        simp only [Bool.not_false, if_true]
        refine ih ((i + j) / 2 + 1) j (by omega) hjn (by omega) ?_ hhi
        intro k hk
        cases hk2 : f k with
        | false => rfl
        | true =>
          have := mono k ((i + j) / 2) (by omega) (by omega) hk2
          rw [hf] at this
          exact absurd this (by simp)
      | true =>
        simp only [Bool.not_true, Bool.false_eq_true, if_false]
        exact ih i ((i + j) / 2) hh1 (by omega) (by omega) hlo (fun _ => hf)
    · simp only [hlt, if_false]
      have hEq : i = j := by omega
      subst hEq
      exact ⟨hjn, hlo, hhi⟩

theorem sortSearch_spec (f : Nat → Bool) (n : Nat)
    (mono : ∀ a b, a ≤ b → b < n → f a = true → f b = true) :
    sortSearch n f ≤ n ∧ (∀ k, k < sortSearch n f → f k = false) ∧
      (sortSearch n f < n → f (sortSearch n f) = true) := by
  unfold sortSearch
  exact searchLoop_spec f n mono n 0 n (Nat.zero_le _) (Nat.le_refl _) (by omega)
    (fun k hk => absurd hk (Nat.not_lt_zero _)) (fun h => absurd h (Nat.lt_irrefl _))

/-- Binary search over a list sorted by `key`, with `f i` deciding `t ≤ key xs[i]`: the
index found holds an element of key `t` whenever the list has one. -/
theorem sortSearch_sorted {α κ : Type} [LinearOrder κ] (key : α → κ) (xs : List α) (t : κ)
    (f : Nat → Bool) (hs : xs.Pairwise (fun a b => key a ≤ key b))
    (hf : ∀ i x, xs[i]? = some x → (f i = true ↔ t ≤ key x))
    (y : α) (hy : y ∈ xs) (hk : key y = t) :
    ∃ x, xs[sortSearch xs.length f]? = some x ∧ key x = t := by
  have mono : ∀ a b, a ≤ b → b < xs.length → f a = true → f b = true := by
    intro a b hab hb hfa
    have ha : a < xs.length := by omega
    have hxa : xs[a]? = some xs[a] := List.getElem?_eq_getElem ha
    have hxb : xs[b]? = some xs[b] := List.getElem?_eq_getElem hb
    rw [hf a _ hxa] at hfa
    rw [hf b _ hxb]
    rcases Nat.eq_or_lt_of_le hab with h | h
    · subst h; exact hfa
    · exact le_trans hfa (List.pairwise_iff_getElem.mp hs a b ha hb h)
  obtain ⟨_, hlo, hhi⟩ := sortSearch_spec f xs.length mono
  obtain ⟨k, hkl, hky⟩ := List.getElem_of_mem hy
  have hxk : xs[k]? = some y := by rw [List.getElem?_eq_getElem hkl, hky]
  have hfk : f k = true := by rw [hf k y hxk, hk]
  have hrk : sortSearch xs.length f ≤ k := by
    by_contra hc
    have := hlo k (by omega)
    rw [hfk] at this
    exact absurd this (by simp)
  have hr : sortSearch xs.length f < xs.length := by omega
  refine ⟨xs[sortSearch xs.length f], List.getElem?_eq_getElem hr, ?_⟩
  have h1 : t ≤ key xs[sortSearch xs.length f] :=
    (hf _ _ (List.getElem?_eq_getElem hr)).mp (hhi hr)
  have h2 : key xs[sortSearch xs.length f] ≤ t := by
    rcases Nat.eq_or_lt_of_le hrk with h | h
    · have : xs[sortSearch xs.length f] = y := by
        rw [← hky]; congr 1
      rw [this, hk]
    · have := List.pairwise_iff_getElem.mp hs _ k hr hkl h
      rw [hky, hk] at this
      exact this
  exact le_antisymm h2 h1

/-- The key of a link in the lexicographic order on `(Dst.Node, Dst.Port)`. -/
theorem Ref.le_iff (a b : Ref) :
    Ref.le a b = true ↔ toLex (a.Node, a.Port) ≤ toLex (b.Node, b.Port) := by
  simp only [Ref.le, Bool.or_eq_true, Bool.and_eq_true, decide_eq_true_eq, Bool.not_eq_true',
    strLt_iff, strLt_eq_false_iff, Prod.Lex.le_iff]

theorem lookupSound_of {α κ : Type} (key : α → κ) (xs : List α) (k : κ) (res : Option α)
    (h1 : ∀ x, res = some x → x ∈ xs ∧ key x = k)
    (h2 : ∀ y, y ∈ xs → key y = k → ∃ x, res = some x) : LookupSound key xs k res := by
  refine ⟨h1, ⟨fun ⟨x, hx⟩ => ⟨x, h1 x hx⟩, fun ⟨y, hy, hk⟩ => h2 y hy hk⟩, ?_⟩
  intro hno
  cases hres : res with
  | none => rfl
  | some x => exact absurd ⟨x, h1 x hres⟩ hno

theorem findNode_sound {T : Type} [node T] (nodes : List T) (name : String)
    (hs : NodesSorted nodes) :
    LookupSound (fun x : T => node.GetName x) nodes name (findNode nodes name) := by
  apply lookupSound_of
  · intro x hx
    unfold findNode at hx
    simp only at hx
    split at hx
    · rename_i y hy
      split at hx
      · rename_i hn
        cases hx
        exact ⟨List.getElem?_mem hy, hn⟩
      · cases hx
    · cases hx
  · intro y hy hk
    have hs2 : nodes.Pairwise (fun a b : T => node.GetName a ≤ node.GetName b) :=
      hs.imp (fun h => (strLt_eq_false_iff _ _).mp h)
    obtain ⟨x, hx, hxk⟩ := sortSearch_sorted (fun x : T => node.GetName x) nodes name
      (fun i => match nodes[i]? with
        | some x => !strLt (node.GetName x) name
        | none => true) hs2
      (by
        intro i x hix
        simp only [hix, Bool.not_eq_true', strLt_eq_false_iff]) y hy hk
    refine ⟨x, ?_⟩
    unfold findNode
    simp only [hx]
    simp [hxk]

theorem findLink_sound (p : Pipe) (dst : Ref) (hs : LinksSorted p.Links) :
    LookupSound (fun l : Link => l.Dst) p.Links dst (p.FindLink dst) := by
  apply lookupSound_of
  · intro x hx
    unfold Pipe.FindLink at hx
    simp only at hx
    split at hx
    · rename_i y hy
      split at hx
      · rename_i hn
        cases hx
        exact ⟨List.getElem?_mem hy, hn⟩
      · cases hx
    · cases hx
  · intro y hy hk
    have hs2 : p.Links.Pairwise (fun a b : Link =>
        toLex (a.Dst.Node, a.Dst.Port) ≤ toLex (b.Dst.Node, b.Dst.Port)) :=
      hs.imp (fun h => (Ref.le_iff _ _).mp h)
    obtain ⟨x, hx, hxk⟩ := sortSearch_sorted
      (fun l : Link => toLex (l.Dst.Node, l.Dst.Port)) p.Links (toLex (dst.Node, dst.Port))
      (fun i => match p.Links[i]? with
        | some l =>
          if strLt dst.Node l.Dst.Node then true
          else if strLt l.Dst.Node dst.Node then false
          else !strLt l.Dst.Port dst.Port
        | none => true) hs2
      (by
        intro i x hix
        simp only [hix, Prod.Lex.le_iff]
        by_cases h1 : strLt dst.Node x.Dst.Node = true
        · simp only [h1, if_true, true_iff]
          exact Or.inl ((strLt_iff _ _).mp h1)
        · have h1f : ¬ dst.Node < x.Dst.Node := fun h => h1 ((strLt_iff _ _).mpr h)
          simp only [h1, if_false, Bool.false_eq_true]
          by_cases h2 : strLt x.Dst.Node dst.Node = true
          · have h2t := (strLt_iff _ _).mp h2
            simp only [h2, if_true, Bool.false_eq_true, false_iff, not_or, not_and]
            exact ⟨h1f, fun he => absurd h2t (by rw [he]; exact lt_irrefl _)⟩
          · have h2f : ¬ x.Dst.Node < dst.Node := fun h => h2 ((strLt_iff _ _).mpr h)
            have heq : dst.Node = x.Dst.Node := le_antisymm (not_lt.mp h2f) (not_lt.mp h1f)
            simp only [h2, if_false, Bool.false_eq_true, Bool.not_eq_true', strLt_eq_false_iff]
            constructor
            · intro h; exact Or.inr ⟨heq, h⟩
            · rintro (h | ⟨_, h⟩)
              · exact absurd h h1f
              · exact h)
      y hy (by rw [← hk])
    refine ⟨x, ?_⟩
    unfold Pipe.FindLink
    simp only [hx]
    have hxd : x.Dst = dst := by
      have h := congrArg ofLex hxk
      simp only [ofLex_toLex, Prod.mk.injEq] at h
      cases hd : x.Dst
      cases dst
      simp only [hd] at h
      simp only [Ref.mk.injEq]
      exact h
    simp [hxd]

theorem findLink_of_mem {p : Pipe} (wf : p.WellFormed) {l : Link} (hl : l ∈ p.Links) :
    p.FindLink l.Dst = some l := by
  obtain ⟨h1, h2, _⟩ := findLink_sound p l.Dst wf.linksSorted
  obtain ⟨x, hx⟩ := h2.mpr ⟨l, hl, rfl⟩
  obtain ⟨hxm, hxd⟩ := h1 x hx
  rw [hx, List.inj_on_of_nodup_map wf.linkDsts hxm hl hxd]

theorem findProc_of_mem {p : Pipe} (wf : p.WellFormed) {S : Process} (hS : S ∈ p.Procs) :
    p.FindProc S.Name = some S := by
  obtain ⟨h1, h2, _⟩ := findNode_sound p.Procs S.Name wf.procsSorted
  obtain ⟨x, hx⟩ := h2.mpr ⟨S, hS, rfl⟩
  obtain ⟨hxm, hxd⟩ := h1 x hx
  unfold Pipe.FindProc
  rw [hx, List.inj_on_of_nodup_map wf.procNames hxm hS hxd]

theorem findVar_of_mem {p : Pipe} (wf : p.WellFormed) {V : Variable} (hV : V ∈ p.Vars) :
    p.FindVar V.Name = some V := by
  obtain ⟨h1, h2, _⟩ := findNode_sound p.Vars V.Name wf.varsSorted
  obtain ⟨x, hx⟩ := h2.mpr ⟨V, hV, rfl⟩
  obtain ⟨hxm, hxd⟩ := h1 x hx
  unfold Pipe.FindVar
  rw [hx, List.inj_on_of_nodup_map wf.varNames hxm hV hxd]

/-- A hit of `findNode` is a node of the list with the name asked for, sorted or not. -/
theorem findNode_some {T : Type} [node T] {nodes : List T} {name : String} {x : T}
    (hx : findNode nodes name = some x) : x ∈ nodes ∧ node.GetName x = name := by
  unfold findNode at hx
  simp only at hx
  split at hx
  · rename_i y hy
    split at hx
    · rename_i hn
      cases hx
      exact ⟨List.getElem?_mem hy, hn⟩
    · cases hx
  · cases hx

/-- A hit of `FindLink` is a link of the plan with the `Dst` asked for, sorted or not. -/
theorem findLink_some {p : Pipe} {dst : Ref} {l : Link} (hx : p.FindLink dst = some l) :
    l ∈ p.Links ∧ l.Dst = dst := by
  unfold Pipe.FindLink at hx
  simp only at hx
  split at hx
  · rename_i y hy
    split at hx
    · rename_i hn
      cases hx
      exact ⟨List.getElem?_mem hy, hn⟩
    · cases hx
  · cases hx

theorem findProc_none {p : Pipe} {n : String} (h : ∀ S, S ∈ p.Procs → S.Name ≠ n) :
    p.FindProc n = none := by
  cases hf : p.FindProc n with
  | none => rfl
  | some S =>
    obtain ⟨h1, h2⟩ := findNode_some hf
    exact absurd h2 (h S h1)

/-! ## Lookups (claims C2, C3) -/

/-- C2: over links sorted lexicographically by `(Dst.Node, Dst.Port)`, `FindLink(dst)`
returns a link exactly when some link of the list has that `Dst`; the link returned is in
the list and its `Dst` equals `dst`; when no link has that `Dst` the result is `nil`. -/
theorem C2_findLink_iff (p : Pipe) (dst : Ref) (hs : LinksSorted p.Links) :
    (∀ l, p.FindLink dst = some l → l ∈ p.Links ∧ l.Dst = dst) ∧
    ((∃ l, p.FindLink dst = some l) ↔ ∃ l, l ∈ p.Links ∧ l.Dst = dst) ∧
    ((¬ ∃ l, l ∈ p.Links ∧ l.Dst = dst) → p.FindLink dst = none) :=
  findLink_sound p dst hs

theorem C2_findLink_iff_witness :
    LinksSorted testLinks ∧
    ((∀ l, Pipe.FindLink ⟨"", [], [], testLinks⟩ ⟨"v", "l"⟩ = some l →
        l ∈ testLinks ∧ l.Dst = ⟨"v", "l"⟩) ∧
     ((∃ l, Pipe.FindLink ⟨"", [], [], testLinks⟩ ⟨"v", "l"⟩ = some l) ↔
        ∃ l, l ∈ testLinks ∧ l.Dst = ⟨"v", "l"⟩) ∧
     ((¬ ∃ l, l ∈ testLinks ∧ l.Dst = ⟨"v", "l"⟩) →
        Pipe.FindLink ⟨"", [], [], testLinks⟩ ⟨"v", "l"⟩ = none)) :=
  ⟨by unfold LinksSorted testLinks; decide,
   C2_findLink_iff ⟨"", [], [], testLinks⟩ ⟨"v", "l"⟩ (by unfold LinksSorted testLinks; decide)⟩

/-- C3: over nodes sorted by name, `findNode` (hence `FindProc` and `FindVar`) returns a
node exactly when a node of that name is in the list; the node returned is in the list and
has the name asked for; for a missing name the result is `nil`. -/
theorem C3_findNode_iff {T : Type} [node T] (nodes : List T) (name : String)
    (p : Pipe) (hs : NodesSorted nodes) (hp : NodesSorted p.Procs) (hv : NodesSorted p.Vars) :
    LookupSound (fun x : T => node.GetName x) nodes name (findNode nodes name) ∧
    LookupSound (fun x : Process => x.Name) p.Procs name (p.FindProc name) ∧
    LookupSound (fun x : Variable => x.Name) p.Vars name (p.FindVar name) :=
  ⟨findNode_sound nodes name hs, findNode_sound p.Procs name hp, findNode_sound p.Vars name hv⟩

theorem C3_findNode_iff_witness :
    NodesSorted testProcs ∧ NodesSorted (Pipe.Procs ⟨"", testProcs, [], []⟩) ∧
    NodesSorted (Pipe.Vars ⟨"", testProcs, [], []⟩) ∧
    (LookupSound (fun x : Process => node.GetName x) testProcs "b" (findNode testProcs "b") ∧
     LookupSound (fun x : Process => x.Name) (Pipe.Procs ⟨"", testProcs, [], []⟩) "b"
       (Pipe.FindProc ⟨"", testProcs, [], []⟩ "b") ∧
     LookupSound (fun x : Variable => x.Name) (Pipe.Vars ⟨"", testProcs, [], []⟩) "b"
       (Pipe.FindVar ⟨"", testProcs, [], []⟩ "b")) :=
  ⟨by unfold NodesSorted testProcs; decide, by unfold NodesSorted testProcs; decide,
   by unfold NodesSorted; decide,
   C3_findNode_iff testProcs "b" ⟨"", testProcs, [], []⟩
     (by unfold NodesSorted testProcs; decide) (by unfold NodesSorted testProcs; decide)
     (by unfold NodesSorted; decide)⟩

end plan

namespace osruntime

/-! ## Results and maps -/

@[simp] theorem Result.bind_ok {α β : Type} (a : α) (f : α → Result β) :
    (Result.ok a).bind f = f a := rfl

@[simp] theorem Result.bind_err {α β : Type} (e : Error) (f : α → Result β) :
    (Result.err e : Result α).bind f = .err e := rfl

@[simp] theorem Result.bind_panic {α β : Type} (p : Panic) (f : α → Result β) :
    (Result.panic p : Result α).bind f = .panic p := rfl

theorem Result.bind_eq_ok {α β : Type} {x : Result α} {f : α → Result β} {b : β}
    (h : x.bind f = .ok b) : ∃ a, x = .ok a ∧ f a = .ok b := by
  cases x with
  | ok a => exact ⟨a, rfl, h⟩
  | err e => cases h
  | panic p => cases h

/-! ## Variable.Bind (claim C8) -/

/-- C8: for a variable of type `stream` or `string`, `Bind(value)` returns an error exactly
when the dynamic type of the value does not match the declared type, and succeeds exactly
when it matches (it does not panic); on an error the variable and every link are left as
they were; on success `Value` is the value given. -/
theorem C8_bind_kind (v : Variable) (heap : List Link) (value : Option Value)
    (t : plan.VarType) (ht : v.Plan.Typ = some t)
    (hst : t = plan.TypeStream ∨ t = plan.TypeString) :
    ((∃ e, (v.Bind heap value).1 = .err e) ↔ kindMatches t value = false) ∧
    ((v.Bind heap value).1 = .ok () ↔ kindMatches t value = true) ∧
    ((∃ e, (v.Bind heap value).1 = .err e) → (v.Bind heap value).2 = (v, heap)) ∧
    ((v.Bind heap value).1 = .ok () → (v.Bind heap value).2.1.Value = value) := by
  have hne : plan.TypeString ≠ plan.TypeStream := by decide
  rcases hst with h | h
  · subst h
    unfold Variable.Bind
    rw [ht]
    rcases value with _ | (s | f | n) <;> simp [kindMatches, hne, hne.symm]
  · subst h
    unfold Variable.Bind
    rw [ht]
    rcases value with _ | (s | f | n) <;> simp [kindMatches, hne, hne.symm]

theorem C8_bind_kind_witness :
    strVar.Plan.Typ = some "string" ∧
    (((∃ e, (strVar.Bind [] (some (.str "a"))).1 = .err e) ↔
        kindMatches "string" (some (.str "a")) = false) ∧
     ((strVar.Bind [] (some (.str "a"))).1 = .ok () ↔
        kindMatches "string" (some (.str "a")) = true) ∧
     ((∃ e, (strVar.Bind [] (some (.str "a"))).1 = .err e) →
        (strVar.Bind [] (some (.str "a"))).2 = (strVar, [])) ∧
     ((strVar.Bind [] (some (.str "a"))).1 = .ok () →
        (strVar.Bind [] (some (.str "a"))).2.1.Value = some (.str "a"))) :=
  ⟨by decide, C8_bind_kind strVar [] (some (.str "a")) "string" (by decide) (Or.inr rfl)⟩

/-! ## buildCmd (claim C10) -/

theorem buildArg_ready (p : Process) (heap : List Link) (arg : plan.Arg)
    (h : ArgReady p heap arg) : ∃ s, buildArg p heap arg = .ok (some s) ∧ ArgText p heap arg s := by
  have hne : plan.TypeString ≠ plan.TypeStream := by decide
  cases arg with
  | str lit => exact ⟨lit, rfl, rfl⟩
  | port v =>
    obtain ⟨hdir, hty, hout, l, link, hl, hh, hrd, hval, hwr⟩ := h
    unfold buildArg ArgText
    simp only [hl, hh, Option.bind_some, Option.some_bind]
    cases hd : (p.Plan.FindPort v.Name).2 with
    | PortNone => exact absurd hd hdir
    | PortIn =>
      rcases hty with hs | hs
      · cases hr : link.Rd with
        | none => exact absurd hr (hrd hd hs)
        | some rd =>
          refine ⟨rd.Name, by simp [hs], l, link, rfl, hh, Or.inl ⟨rfl, hs, rd, hr, rfl⟩⟩
      · obtain ⟨s, hs2⟩ := hval hd hs
        refine ⟨s, by simp [hs, hne, hs2], l, link, rfl, hh, Or.inr (Or.inl ⟨rfl, hs, hs2⟩)⟩
    | PortOut =>
      rcases hty with hs | hs
      · cases hw : link.Wr with
        | none => exact absurd hw (hwr hd)
        | some wr =>
          refine ⟨wr.Name, by simp [hs], l, link, rfl, hh,
            Or.inr (Or.inr ⟨rfl, hs, wr, hw, rfl⟩)⟩
      · exact absurd ⟨hd, hs⟩ hout

theorem buildArgs_ready (p : Process) (heap : List Link) :
    ∀ args : List plan.Arg, (∀ a, a ∈ args → ArgReady p heap a) →
      ∃ out, buildArgs p heap args = .ok out ∧ List.Forall₂ (ArgText p heap) args out := by
  intro args
  induction args with
  | nil => intro _; exact ⟨[], rfl, List.Forall₂.nil⟩
  | cons a rest ih =>
    intro h
    obtain ⟨s, hs, hsp⟩ := buildArg_ready p heap a (h a (List.mem_cons_self _ _))
    obtain ⟨out, ho, hop⟩ := ih (fun b hb => h b (List.mem_cons_of_mem _ hb))
    refine ⟨s :: out, ?_, List.Forall₂.cons hsp hop⟩
    simp [buildArgs, hs, ho]

/-- C10: when every port-reference argument of a process instance is ready (a wired port
of type `stream` or `string`, not a `string` output, its endpoint or value populated),
`buildCmd` returns a command whose `Args` are the name of the executable followed by the
argument vector: one text per argument of the plan, in order, the literal itself, the name
of the read end (input `stream`), the string value (input `string`), the name of the write
end (output `stream`). Next to the command it returns an error exactly when the executable
is `hoser` and `os.Executable` failed. -/
theorem C10_buildCmd_args (env : Env) (p : Process) (heap : List Link)
    (h : ∀ a, a ∈ p.Plan.Args → ArgReady p heap a) :
    ∃ cmd err out, buildCmd env p heap = .ok (cmd, err) ∧
      buildArgs p heap p.Plan.Args = .ok out ∧
      cmd.Args = (buildExe env p).1 :: out ∧ out.length = p.Plan.Args.length ∧
      List.Forall₂ (ArgText p heap) p.Plan.Args out ∧
      (err ≠ none ↔ p.Plan.Exe = "hoser" ∧ env.executable = none) := by
  obtain ⟨out, ho, hop⟩ := buildArgs_ready p heap p.Plan.Args h
  have hc : ∃ cmd, buildCmd env p heap = .ok (cmd, (buildExe env p).2) ∧
      cmd.Args = (buildExe env p).1 :: out := by
    unfold buildCmd
    rw [ho]
    exact ⟨_, rfl, rfl⟩
  obtain ⟨cmd, hc1, hc2⟩ := hc
  refine ⟨cmd, (buildExe env p).2, out, hc1, ho, hc2, hop.length_eq.symm, hop, ?_⟩
  unfold buildExe
  by_cases hx : p.Plan.Exe = "hoser"
  · rw [if_pos hx]
    cases he : env.executable with
    | none => simp [hx]
    | some path => simp
  · rw [if_neg hx]
    simp [hx]

theorem C10_buildCmd_args_witness :
    (∀ a, a ∈ cmdProc.Plan.Args → ArgReady cmdProc cmdHeap a) ∧
    buildCmd Env.allOk cmdProc cmdHeap =
      .ok (⟨"/usr/bin/p", ["p", "-x", "|0", "7", "/dev/stdout"], none, none, none⟩, none) ∧
    ∃ cmd err out, buildCmd Env.allOk cmdProc cmdHeap = .ok (cmd, err) ∧
      buildArgs cmdProc cmdHeap cmdProc.Plan.Args = .ok out ∧
      cmd.Args = (buildExe Env.allOk cmdProc).1 :: out ∧
      out.length = cmdProc.Plan.Args.length ∧
      List.Forall₂ (ArgText cmdProc cmdHeap) cmdProc.Plan.Args out ∧
      (err ≠ none ↔ cmdProc.Plan.Exe = "hoser" ∧ Env.allOk.executable = none) :=
  have hready : ∀ a, a ∈ cmdProc.Plan.Args → ArgReady cmdProc cmdHeap a := by
    intro a ha
    simp only [cmdProc, mkProc, List.mem_cons, List.mem_singleton, List.not_mem_nil,
      or_false] at ha
    rcases ha with h | h | h | h
    · subst h; trivial
    · subst h
      refine ⟨by decide, Or.inl rfl, by decide, 0, _, rfl, rfl, ?_, ?_, ?_⟩
      · intro _ _; simp [cmdHeap]
      · intro _ h2; exact absurd h2 (by decide)
      · intro h2; exact absurd h2 (by decide)
    · subst h
      refine ⟨by decide, Or.inr rfl, by decide, 1, _, rfl, rfl, ?_, ?_, ?_⟩
      · intro _ h2; exact absurd h2 (by decide)
      · intro _ _; exact ⟨"7", rfl⟩
      · intro h2; exact absurd h2 (by decide)
    · subst h
      refine ⟨by decide, Or.inl rfl, by decide, 2, _, rfl, rfl, ?_, ?_, ?_⟩
      · intro h2; exact absurd h2 (by decide)
      · intro h2; exact absurd h2 (by decide)
      · intro _; simp [cmdHeap]
  ⟨hready, by decide, C10_buildCmd_args Env.allOk cmdProc cmdHeap hready⟩

end osruntime

namespace osruntime

/-! ## Go maps -/

theorem mapGet_mapSet {β : Type} (m : List (String × β)) (k k' : String) (v : β) :
    mapGet (mapSet m k v) k' = if k = k' then some v else mapGet m k' := by
  induction m with
  | nil => simp [mapSet, mapGet]
  | cons e m ih =>
    obtain ⟨k0, v0⟩ := e
    by_cases h0 : k0 = k
    · subst h0
      by_cases h1 : k0 = k' <;> simp [mapSet, mapGet, h1]
    · by_cases h1 : k0 = k'
      · subst h1
        simp [mapSet, mapGet, h0, Ne.symm h0]
      · simp [mapSet, mapGet, h0, h1, ih]

theorem mapGet_mapSet_self {β : Type} (m : List (String × β)) (k : String) (v : β) :
    mapGet (mapSet m k v) k = some v := by
  rw [mapGet_mapSet]; simp

theorem mapGet_mapSet_ne {β : Type} (m : List (String × β)) {k k' : String} (v : β)
    (h : k ≠ k') : mapGet (mapSet m k v) k' = mapGet m k' := by
  rw [mapGet_mapSet]; simp [h]

theorem mapGet_eq_none_iff {β : Type} (m : List (String × β)) (k : String) :
    mapGet m k = none ↔ k ∉ mapKeys m := by
  induction m with
  | nil => simp [mapGet, mapKeys]
  | cons e m ih =>
    obtain ⟨k0, v0⟩ := e
    by_cases h0 : k0 = k
    · subst h0; simp [mapGet, mapKeys]
    · simp only [mapGet, h0, if_false, ih, mapKeys, List.map_cons, List.mem_cons, not_or]
      exact ⟨fun h => ⟨Ne.symm h0, h⟩, fun h => h.2⟩

theorem mapGet_isSome_iff {β : Type} (m : List (String × β)) (k : String) :
    (∃ v, mapGet m k = some v) ↔ k ∈ mapKeys m := by
  rw [← not_iff_not, ← mapGet_eq_none_iff]
  cases mapGet m k <;> simp

theorem mapKeys_mapSet_of_mem {β : Type} (m : List (String × β)) (k : String) (v : β)
    (h : k ∈ mapKeys m) : mapKeys (mapSet m k v) = mapKeys m := by
  induction m with
  | nil => simp [mapKeys] at h
  | cons e m ih =>
    obtain ⟨k0, v0⟩ := e
    by_cases h0 : k0 = k
    · subst h0; simp [mapSet, mapKeys]
    · have hm : k ∈ mapKeys m := by
        simp only [mapKeys, List.map_cons, List.mem_cons] at h
        rcases h with h | h
        · exact absurd h.symm h0
        · exact h
      have := ih hm
      simp only [mapKeys] at this
      simp [mapSet, mapKeys, h0, this]

theorem mapKeys_mapSet_of_get {β : Type} (m : List (String × β)) (k : String) (v v0 : β)
    (h : mapGet m k = some v0) : mapKeys (mapSet m k v) = mapKeys m :=
  mapKeys_mapSet_of_mem m k v ((mapGet_isSome_iff m k).mp ⟨v0, h⟩)

theorem mapKeys_mapSet_of_not_mem {β : Type} (m : List (String × β)) (k : String) (v : β)
    (h : k ∉ mapKeys m) : mapKeys (mapSet m k v) = mapKeys m ++ [k] := by
  induction m with
  | nil => simp [mapKeys, mapSet]
  | cons e m ih =>
    obtain ⟨k0, v0⟩ := e
    simp only [mapKeys, List.map_cons, List.mem_cons, not_or] at h
    have h0 : k0 ≠ k := fun h' => h.1 h'.symm
    have := ih h.2
    simp only [mapKeys] at this
    simp [mapSet, mapKeys, h0, this]

theorem mapKeys_mapSet_nodup {β : Type} (m : List (String × β)) (k : String) (v : β)
    (h : (mapKeys m).Nodup) : (mapKeys (mapSet m k v)).Nodup := by
  by_cases hk : k ∈ mapKeys m
  · rw [mapKeys_mapSet_of_mem m k v hk]; exact h
  · rw [mapKeys_mapSet_of_not_mem m k v hk]
    exact List.Nodup.append h (List.nodup_singleton k) (by
      intro a ha hb
      simp only [List.mem_singleton] at hb
      subst hb
      exact hk ha)

/-! ## Frames -/

theorem sameNodes_refl (rt : Program) : SameNodes rt rt := ⟨rfl, rfl, fun _ => rfl, fun _ => rfl⟩

theorem sameNodes_trans {a b c : Program} (h1 : SameNodes a b) (h2 : SameNodes b c) :
    SameNodes a c :=
  ⟨h2.procKeys.trans h1.procKeys, h2.varKeys.trans h1.varKeys,
   fun k => (h2.procPlan k).trans (h1.procPlan k), fun k => (h2.varPlan k).trans (h1.varPlan k)⟩

/-- What a successful `setProcLink` changes: the one entry of the one process. -/
theorem setProcLink_ok {rt rt' : Program} {Q k : String} {l : Nat}
    (h : rt.setProcLink Q k l = .ok rt') :
    rt'.vars = rt.vars ∧ rt'.heap = rt.heap ∧ rt'.pipes = rt.pipes ∧ SameNodes rt rt' ∧
    (∀ Q' k', rt'.linkAt Q' k' = if Q' = Q ∧ k' = k then some l else rt.linkAt Q' k') := by
  unfold Program.setProcLink at h
  cases hq : mapGet rt.procs Q with
  | none => rw [hq] at h; cases h
  | some p =>
    rw [hq] at h
    cases h
    refine ⟨rfl, rfl, rfl, ⟨?_, rfl, ?_, fun _ => rfl⟩, ?_⟩
    · exact mapKeys_mapSet_of_get _ _ _ _ hq
    · intro k'
      simp only [Program.procPlan, mapGet_mapSet]
      by_cases hk : Q = k'
      · subst hk; simp [hq]
      · simp [hk]
    · intro Q' k'
      simp only [Program.linkAt, mapGet_mapSet]
      by_cases hk : Q = Q'
      · subst hk
        simp only [if_true, Option.some_bind, mapGet_mapSet, true_and, hq]
        by_cases hk2 : k = k'
        · subst hk2; simp
        · simp [hk2, Ne.symm hk2]
      · simp [hk, Ne.symm hk]

end osruntime

namespace osruntime

theorem modify_append_last {α : Type} (f : α → α) (l : List α) (x : α) :
    (l ++ [x]).modify f l.length = l ++ [f x] := by
  induction l with
  | nil => rfl
  | cons a l ih => simp [ih]

theorem sameNodes_of_eq {a b : Program} (hp : b.procs = a.procs) (hv : b.vars = a.vars) :
    SameNodes a b := by
  refine ⟨by rw [hp], by rw [hv], fun k => ?_, fun k => ?_⟩
  · simp only [Program.procPlan, hp]
  · simp only [Program.varPlan, hv]

theorem sameNodes_setVar {rt : Program} {k : String} (v v' : Variable)
    (hv : mapGet rt.vars k = some v) (hp : v'.Plan = v.Plan) (procs : List (String × Process))
    (hprocs : procs = rt.procs) (heap : List Link) (pipes : List Nat) :
    SameNodes rt ⟨procs, mapSet rt.vars k v', heap, pipes⟩ := by
  subst hprocs
  refine ⟨rfl, mapKeys_mapSet_of_get _ _ _ _ hv, fun _ => rfl, ?_⟩
  intro k'
  simp only [Program.varPlan, mapGet_mapSet]
  by_cases hk : k = k'
  · subst hk; simp [hv, hp]
  · simp [hk]

/-- What a successful iteration of `connectProc` does: one link instance is appended, it
is stored on the dst process and on the src process or variable, the src port exists and
has the type of the dst port. -/
theorem connectPort_ok {prog : plan.Pipe} {dk : String} {inp : plan.Port} {link : plan.Link}
    {rt rt' : Program} (h : connectPort prog dk inp link rt = .ok rt') :
    ∃ val sp, rt'.heap = rt.heap ++ [⟨inp.Typ, link.Src, link.Dst, none, none, val⟩] ∧
      rt'.pipes = rt.pipes ∧ SameNodes rt rt' ∧ sp.Typ = inp.Typ ∧
      ((∃ src, prog.FindProc link.Src.Node = some src ∧
          (src.FindPort link.Src.Port).1 = some sp ∧ rt'.vars = rt.vars ∧ val = none ∧
          ∀ Q k, rt'.linkAt Q k =
            if Q = link.Src.Node ∧ k = link.Src.Port then some rt.heap.length
            else if Q = dk ∧ k = inp.Name then some rt.heap.length else rt.linkAt Q k) ∨
       (prog.FindProc link.Src.Node = none ∧ ∃ src sv,
          prog.FindVar link.Src.Node = some src ∧
          (src.FindPort link.Src.Port).1 = some sp ∧
          mapGet rt.vars link.Src.Node = some sv ∧ val = sv.Value ∧
          rt'.vars = mapSet rt.vars link.Src.Node { sv with Out := some rt.heap.length } ∧
          ∀ Q k, rt'.linkAt Q k =
            if Q = dk ∧ k = inp.Name then some rt.heap.length else rt.linkAt Q k)) := by
  have hs0 : SameNodes rt ⟨rt.procs, rt.vars,
      rt.heap ++ [⟨inp.Typ, link.Src, link.Dst, none, none, none⟩], rt.pipes⟩ :=
    sameNodes_of_eq rfl rfl
  unfold connectPort at h
  simp only at h
  obtain ⟨rt2, h2, h⟩ := Result.bind_eq_ok h
  obtain ⟨hv2, hh2, hp2, hs2, hl2⟩ := setProcLink_ok h2
  simp only at hv2 hh2 hp2 hl2
  cases hsrc : prog.FindProc link.Src.Node with
  | some src =>
    rw [hsrc] at h
    simp only at h
    obtain ⟨rt3, h3, h⟩ := Result.bind_eq_ok h
    obtain ⟨hv3, hh3, hp3, hs3, hl3⟩ := setProcLink_ok h3
    unfold checkPortType at h
    cases hsp : (src.FindPort link.Src.Port).1 with
    | none => rw [hsp] at h; cases h
    | some sp =>
      rw [hsp] at h
      simp only at h
      split at h
      · cases h
      · rename_i hty
        cases h
        refine ⟨none, sp, by rw [hh3, hh2], by rw [hp3, hp2], ?_, ?_, Or.inl ⟨src, rfl, hsp, by rw [hv3, hv2], rfl, ?_⟩⟩
        · exact sameNodes_trans (sameNodes_trans hs0 hs2) hs3
        · exact (not_not.mp hty).symm
        · intro Q k
          rw [hl3, hl2]
          rfl
  | none =>
    rw [hsrc] at h
    simp only at h
    cases hvar : prog.FindVar link.Src.Node with
    | none => rw [hvar] at h; cases h
    | some src =>
      rw [hvar] at h
      simp only at h
      cases hsv : mapGet rt2.vars link.Src.Node with
      | none => rw [hsv] at h; cases h
      | some sv =>
        rw [hsv] at h
        simp only at h
        unfold checkPortType at h
        cases hsp : (src.FindPort link.Src.Port).1 with
        | none => rw [hsp] at h; cases h
        | some sp =>
          rw [hsp] at h
          simp only at h
          split at h
          · cases h
          · rename_i hty
            cases h
            rw [hv2] at hsv
            refine ⟨sv.Value, sp, ?_, hp2, ?_, (not_not.mp hty).symm,
              Or.inr ⟨rfl, src, sv, rfl, hsp, hsv, rfl, by simp only [hv2], ?_⟩⟩
            · simp only [hh2]
              exact modify_append_last _ _ _
            · have hs : SameNodes rt2 ⟨rt2.procs, mapSet rt2.vars link.Src.Node
                  { sv with Out := some rt.heap.length },
                  rt2.heap.modify (fun l => { l with Value := sv.Value }) rt.heap.length,
                  rt2.pipes⟩ :=
                sameNodes_setVar sv { sv with Out := some rt.heap.length }
                  (by rw [hv2]; exact hsv) rfl _ rfl _ _
              exact sameNodes_trans (sameNodes_trans hs0 hs2) hs
            · intro Q k
              have : ∀ (a : Program), Program.linkAt ⟨rt2.procs, a.vars, a.heap, a.pipes⟩ Q k
                  = rt2.linkAt Q k := fun _ => rfl
              rw [this ⟨[], _, _, _⟩, hl2]
              rfl

/-- What a successful `connectVar` does: nothing when the variable's port has no link;
else one link instance is appended and stored as the variable's `In` and on the src
process, whose port exists and has the variable's type. -/
theorem connectVar_ok {prog : plan.Pipe} {dk : String} {dv : Variable} {rt rt' : Program}
    (hdv : mapGet rt.vars dk = some dv) (h : Program.connectVar prog dk dv rt = .ok rt') :
    ∃ in0, dv.Plan.In[0]? = some in0 ∧
      ((prog.FindLink ⟨dv.Plan.Name, in0.Name⟩ = none ∧ rt' = rt) ∨
       (∃ link src sp, prog.FindLink ⟨dv.Plan.Name, in0.Name⟩ = some link ∧
          prog.FindProc link.Src.Node = some src ∧
          (src.FindPort link.Src.Port).1 = some sp ∧ sp.Typ = in0.Typ ∧
          rt'.heap = rt.heap ++ [⟨in0.Typ, link.Src, link.Dst, none, none, none⟩] ∧
          rt'.pipes = rt.pipes ∧ SameNodes rt rt' ∧
          rt'.vars = mapSet rt.vars dk { dv with In := some rt.heap.length } ∧
          ∀ Q k, rt'.linkAt Q k =
            if Q = link.Src.Node ∧ k = link.Src.Port then some rt.heap.length
            else rt.linkAt Q k)) := by
  unfold Program.connectVar at h
  simp only at h
  cases hin : dv.Plan.In[0]? with
  | none => rw [hin] at h; cases h
  | some in0 =>
    rw [hin] at h
    simp only at h
    refine ⟨in0, rfl, ?_⟩
    cases hl : prog.FindLink ⟨dv.Plan.Name, in0.Name⟩ with
    | none =>
      rw [hl] at h
      cases h
      exact Or.inl ⟨rfl, rfl⟩
    | some link =>
      rw [hl] at h
      simp only at h
      cases hsrc : prog.FindProc link.Src.Node with
      | none => rw [hsrc] at h; cases h
      | some src =>
        rw [hsrc] at h
        simp only at h
        obtain ⟨rt2, h2, h⟩ := Result.bind_eq_ok h
        obtain ⟨hv2, hh2, hp2, hs2, hl2⟩ := setProcLink_ok h2
        simp only at hv2 hh2 hp2 hl2
        cases hsp : (src.FindPort link.Src.Port).1 with
        | none => rw [hsp] at h; cases h
        | some sp =>
          rw [hsp] at h
          simp only at h
          split at h
          · cases h
          · rename_i hty
            cases h
            refine Or.inr ⟨link, src, sp, rfl, hsrc, hsp, (not_not.mp hty).symm, hh2, hp2, ?_,
              hv2, ?_⟩
            · have hs : SameNodes rt ⟨rt.procs,
                  mapSet rt.vars dk { dv with In := some rt.heap.length },
                  rt.heap ++ [⟨in0.Typ, link.Src, link.Dst, none, none, none⟩], rt.pipes⟩ :=
                sameNodes_setVar dv { dv with In := some rt.heap.length } hdv rfl _ rfl _ _
              exact sameNodes_trans hs hs2
            · intro Q k
              rw [hl2]
              rfl

end osruntime

namespace osruntime

theorem modify_get (f : Link → Link) (n : Nat) (heap : List Link) (j : Nat) (l' : Link)
    (h : (heap.modify f n)[j]? = some l') :
    ∃ l, heap[j]? = some l ∧ l' = if n = j then f l else l := by
  rw [List.getElem?_modify] at h
  cases hj : heap[j]? with
  | none => rw [hj] at h; cases h
  | some l =>
    rw [hj] at h
    simp only [Option.map_eq_map, Option.map_some', Option.some.injEq] at h
    exact ⟨l, rfl, h.symm⟩

theorem heapFrame_refl (v : Variable) (heap : List Link) : HeapFrame v heap heap :=
  ⟨rfl, fun _ l' h => ⟨l', h, rfl, rfl, rfl⟩, fun _ _ _ => rfl⟩

/-- A field update that keeps type and refs, through a pointer the variable holds. -/
theorem heapFrame_modify (v : Variable) (f : Link → Link) (n : Nat) (heap heap0 : List Link)
    (hf : ∀ x, (f x).Typ = x.Typ ∧ (f x).Src = x.Src ∧ (f x).Dst = x.Dst)
    (hn : v.Out = some n ∨ v.In = some n) (h0 : HeapFrame v heap0 heap) :
    HeapFrame v heap0 (heap.modify f n) := by
  refine ⟨by rw [List.length_modify]; exact h0.length, ?_, ?_⟩
  · intro j l' hl'
    obtain ⟨l, hl, he⟩ := modify_get f n heap j l' hl'
    obtain ⟨l0, hl0, h1, h2, h3⟩ := h0.skeleton j l hl
    refine ⟨l0, hl0, ?_⟩
    by_cases hnj : n = j
    · simp only [hnj, if_true] at he
      subst he
      obtain ⟨g1, g2, g3⟩ := hf l
      exact ⟨g1.trans h1, g2.trans h2, g3.trans h3⟩
    · simp only [hnj, if_false] at he
      subst he
      exact ⟨h1, h2, h3⟩
  · intro j ho hi
    have hnj : n ≠ j := by
      rintro rfl
      rcases hn with h | h
      · exact ho h
      · exact hi h
    rw [List.getElem?_modify_ne _ _ hnj]
    exact h0.other j ho hi

/-- What a successful `Bind` inside `Build` changes: the variable's `Value`, and fields of
the link instances the variable points to. -/
theorem bindVar_ok {rt rt' : Program} {key : String} {v : Variable} {value : Option Value}
    (h : rt.bindVar key v value = .ok rt') :
    rt'.procs = rt.procs ∧ rt'.pipes = rt.pipes ∧
    rt'.vars = mapSet rt.vars key { v with Value := value } ∧ value ≠ none ∧
    HeapFrame v rt.heap rt'.heap ∧
    ((v.Plan.Typ = some plan.TypeStream ∧ (∃ fd, value = some (.file fd)) ∧
        ∀ (j : Nat) (l' : Link), rt'.heap[j]? = some l' →
          ∃ l : Link, rt.heap[j]? = some l ∧ l'.Value = l.Value) ∨
     (v.Plan.Typ = some plan.TypeString ∧ (∃ s, value = some (.str s)) ∧
        (∀ (o : Nat) (l' : Link), v.Out = some o → rt'.heap[o]? = some l' → l'.Value = value) ∧
        (∀ j : Nat, v.Out ≠ some j → rt'.heap[j]? = rt.heap[j]?) ∧
        ∀ (j : Nat) (l' : Link), rt'.heap[j]? = some l' →
          ∃ l : Link, rt.heap[j]? = some l ∧ l'.Rd = l.Rd ∧ l'.Wr = l.Wr)) := by
  have hne : plan.TypeString ≠ plan.TypeStream := by decide
  unfold Program.bindVar Variable.Bind at h
  cases ht : v.Plan.Typ with
  | none => rw [ht] at h; cases h
  | some t =>
    rw [ht] at h
    simp only at h
    by_cases hs : t = plan.TypeStream
    · subst hs
      simp only [if_true] at h
      rcases value with _ | (s | fd | n)
      · cases h
      · cases h
      · simp only at h
        cases h
        refine ⟨rfl, rfl, rfl, by simp, ?_, Or.inl ⟨rfl, ⟨fd, rfl⟩, ?_⟩⟩
        · cases hi : v.In with
          | none =>
            cases ho : v.Out with
            | none => exact heapFrame_refl v rt.heap
            | some o =>
              exact heapFrame_modify v _ o rt.heap rt.heap (fun _ => ⟨rfl, rfl, rfl⟩)
                (Or.inl ho) (heapFrame_refl v rt.heap)
          | some i =>
            cases ho : v.Out with
            | none =>
              exact heapFrame_modify v _ i rt.heap rt.heap (fun _ => ⟨rfl, rfl, rfl⟩)
                (Or.inr hi) (heapFrame_refl v rt.heap)
            | some o =>
              exact heapFrame_modify v _ i _ rt.heap (fun _ => ⟨rfl, rfl, rfl⟩) (Or.inr hi)
                (heapFrame_modify v _ o rt.heap rt.heap (fun _ => ⟨rfl, rfl, rfl⟩)
                  (Or.inl ho) (heapFrame_refl v rt.heap))
        · intro j l' hl'
          have step : ∀ (hp : List Link) (f : Link → Link) (n : Nat) (l1 : Link),
              (hp.modify f n)[j]? = some l1 → (∀ x, (f x).Value = x.Value) →
              ∃ l : Link, hp[j]? = some l ∧ l1.Value = l.Value := by
            intro hp f n l1 h1 hf
            obtain ⟨l, hl, he⟩ := modify_get f n hp j l1 h1
            refine ⟨l, hl, ?_⟩
            by_cases hnj : n = j
            · simp only [hnj, if_true] at he; rw [he, hf]
            · simp only [hnj, if_false] at he; rw [he]
          cases hi : v.In with
          | none =>
            cases ho : v.Out with
            | none => rw [hi, ho] at hl'; exact ⟨l', hl', rfl⟩
            | some o =>
              rw [hi, ho] at hl'
              simp only [setRd, setWr] at hl'
              exact step _ _ _ l' hl' (fun _ => rfl)
          | some i =>
            cases ho : v.Out with
            | none =>
              rw [hi, ho] at hl'
              simp only [setRd, setWr] at hl'
              exact step _ _ _ l' hl' (fun _ => rfl)
            | some o =>
              rw [hi, ho] at hl'
              simp only [setRd, setWr] at hl'
              obtain ⟨l1, h1, e1⟩ := step _ _ _ l' hl' (fun _ => rfl)
              obtain ⟨l2, h2, e2⟩ := step _ _ _ l1 h1 (fun _ => rfl)
              exact ⟨l2, h2, e1.trans e2⟩
      · cases h
    · simp only [hs, if_false] at h
      by_cases hs2 : t = plan.TypeString
      · subst hs2
        simp only [if_true] at h
        rcases value with _ | (s | fd | n)
        · cases h
        · simp only at h
          cases h
          refine ⟨rfl, rfl, rfl, by simp, ?_, Or.inr ⟨rfl, ⟨s, rfl⟩, ?_, ?_, ?_⟩⟩
          · cases ho : v.Out with
            | none => exact heapFrame_refl v rt.heap
            | some o =>
              exact heapFrame_modify v _ o rt.heap rt.heap (fun _ => ⟨rfl, rfl, rfl⟩)
                (Or.inl ho) (heapFrame_refl v rt.heap)
          · intro o l' ho hl'
            rw [ho] at hl'
            obtain ⟨l, _, he⟩ := modify_get _ o rt.heap o l' hl'
            simp only [if_true] at he
            rw [he]
          · intro j hj
            cases ho : v.Out with
            | none => rfl
            | some o =>
              have : o ≠ j := by rintro rfl; exact hj ho
              exact List.getElem?_modify_ne _ _ this
          · intro j l' hl'
            cases ho : v.Out with
            | none => rw [ho] at hl'; exact ⟨l', hl', rfl, rfl⟩
            | some o =>
              rw [ho] at hl'
              obtain ⟨l, hl, he⟩ := modify_get _ o rt.heap j l' hl'
              refine ⟨l, hl, ?_⟩
              by_cases hnj : o = j
              · simp only [hnj, if_true] at he; rw [he]; exact ⟨rfl, rfl⟩
              · simp only [hnj, if_false] at he; rw [he]; exact ⟨rfl, rfl⟩
        · cases h
        · cases h
      · simp only [hs2, if_false] at h
        cases h

end osruntime

namespace osruntime

/-! ## Loops -/

theorem rangeProcs_rel (R : Program → Program → Prop) (hrefl : ∀ rt, R rt rt)
    (htrans : ∀ a b c, R a b → R b c → R a c)
    (body : String → Process → Program → Result Program)
    (hstep : ∀ k p rt rt', mapGet rt.procs k = some p → body k p rt = .ok rt' → R rt rt') :
    ∀ ks rt rt', rangeProcs body ks rt = .ok rt' → R rt rt' := by
  intro ks
  induction ks with
  | nil => intro rt rt' h; cases h; exact hrefl _
  | cons k ks ih =>
    intro rt rt' h
    unfold rangeProcs at h
    cases hk : mapGet rt.procs k with
    | none => rw [hk] at h; exact ih rt rt' h
    | some p =>
      rw [hk] at h
      obtain ⟨rt1, h1, h2⟩ := Result.bind_eq_ok h
      exact htrans _ _ _ (hstep k p rt rt1 hk h1) (ih rt1 rt' h2)

theorem rangeVars_rel (R : Program → Program → Prop) (hrefl : ∀ rt, R rt rt)
    (htrans : ∀ a b c, R a b → R b c → R a c)
    (body : String → Variable → Program → Result Program)
    (hstep : ∀ k v rt rt', mapGet rt.vars k = some v → body k v rt = .ok rt' → R rt rt') :
    ∀ ks rt rt', rangeVars body ks rt = .ok rt' → R rt rt' := by
  intro ks
  induction ks with
  | nil => intro rt rt' h; cases h; exact hrefl _
  | cons k ks ih =>
    intro rt rt' h
    unfold rangeVars at h
    cases hk : mapGet rt.vars k with
    | none => rw [hk] at h; exact ih rt rt' h
    | some p =>
      rw [hk] at h
      obtain ⟨rt1, h1, h2⟩ := Result.bind_eq_ok h
      exact htrans _ _ _ (hstep k p rt rt1 hk h1) (ih rt1 rt' h2)

theorem bindPresets_rel (R : Program → Program → Prop) (hrefl : ∀ rt, R rt rt)
    (htrans : ∀ a b c, R a b → R b c → R a c) (presets : List (String × Option Value))
    (hstep : ∀ k v value rt rt', mapGet presets k = some value → mapGet rt.vars k = some v →
      rt.bindVar k v value = .ok rt' → R rt rt') :
    ∀ ks rt rt', bindPresets presets ks rt = .ok rt' → R rt rt' := by
  intro ks
  induction ks with
  | nil => intro rt rt' h; cases h; exact hrefl _
  | cons k ks ih =>
    intro rt rt' h
    unfold bindPresets at h
    cases hp : mapGet presets k with
    | none => rw [hp] at h; exact ih rt rt' h
    | some value =>
      rw [hp] at h
      simp only at h
      cases hk : mapGet rt.vars k with
      | none => rw [hk] at h; exact ih rt rt' h
      | some v =>
        rw [hk] at h
        obtain ⟨rt1, h1, h2⟩ := Result.bind_eq_ok h
        exact htrans _ _ _ (hstep k v value rt rt1 hp hk h1) (ih rt1 rt' h2)

theorem connectProcLoop_rel (R : Program → Program → Prop) (hrefl : ∀ rt, R rt rt)
    (htrans : ∀ a b c, R a b → R b c → R a c) (prog : plan.Pipe) (dk : String)
    (dst : plan.Process)
    (hstep : ∀ inp link rt rt', inp ∈ dst.In → prog.FindLink ⟨dst.Name, inp.Name⟩ = some link →
      connectPort prog dk inp link rt = .ok rt' → R rt rt') :
    ∀ ports rt rt', (∀ q, q ∈ ports → q ∈ dst.In) →
      connectProcLoop prog dk dst ports rt = .ok rt' → R rt rt' := by
  intro ports
  induction ports with
  | nil => intro rt rt' _ h; cases h; exact hrefl _
  | cons inp rest ih =>
    intro rt rt' hsub h
    unfold connectProcLoop at h
    cases hl : prog.FindLink ⟨dst.Name, inp.Name⟩ with
    | none => rw [hl] at h; cases h; exact hrefl _
    | some link =>
      rw [hl] at h
      obtain ⟨rt1, h1, h2⟩ := Result.bind_eq_ok h
      exact htrans _ _ _ (hstep inp link rt rt1 (hsub inp (List.mem_cons_self _ _)) hl h1)
        (ih rt1 rt' (fun q hq => hsub q (List.mem_cons_of_mem _ hq)) h2)

theorem initLinks_rel (R : Program → Program → Prop) (hrefl : ∀ rt, R rt rt)
    (htrans : ∀ a b c, R a b → R b c → R a c) (env : Env) (dp : Process)
    (hstep : ∀ port rt rt', initLink env dp port rt = .ok rt' → R rt rt') :
    ∀ ports rt rt', initLinks env dp ports rt = .ok rt' → R rt rt' := by
  intro ports
  induction ports with
  | nil => intro rt rt' h; cases h; exact hrefl _
  | cons port rest ih =>
    intro rt rt' h
    unfold initLinks at h
    obtain ⟨rt1, h1, h2⟩ := Result.bind_eq_ok h
    exact htrans _ _ _ (hstep port rt rt1 h1) (ih rt1 rt' h2)

/-- The six passes of a successful `Build`, one after the other. -/
theorem Build_ok_stages {prog : plan.Pipe} {presets : List (String × Option Value)}
    {env : Env} {sched : Schedule} {rt : Program} (h : Build prog presets env sched = .ok rt) :
    ∃ r1 r2 r3 r4 r5,
      rangeProcs (Program.connectProc prog)
        (sched.connectProcs (mapKeys (Program.create prog).procs)) (Program.create prog)
        = .ok r1 ∧
      rangeVars (Program.connectVar prog) (sched.connectVars (mapKeys r1.vars)) r1 = .ok r2 ∧
      bindPresets presets (sched.presets (mapKeys presets)) r2 = .ok r3 ∧
      rangeVars (bindDefaultsChecked env) (sched.bindVars (mapKeys r3.vars)) r3 = .ok r4 ∧
      rangeProcs (Program.initProcStreams env sched) (sched.initProcs (mapKeys r4.procs)) r4
        = .ok r5 ∧
      rangeProcs (Program.setCmd env) (sched.cmdProcs (mapKeys r5.procs)) r5 = .ok rt := by
  unfold Build at h
  simp only at h
  obtain ⟨r1, h1, h⟩ := Result.bind_eq_ok h
  obtain ⟨r2, h2, h⟩ := Result.bind_eq_ok h
  obtain ⟨r3, h3, h⟩ := Result.bind_eq_ok h
  obtain ⟨r4, h4, h⟩ := Result.bind_eq_ok h
  obtain ⟨r5, h5, h⟩ := Result.bind_eq_ok h
  exact ⟨r1, r2, r3, r4, r5, h1, h2, h3, h4, h5, h⟩

/-! ## Effects of the later passes -/

/-- What a successful iteration of `initProcStreams` does: nothing, or one new pipe whose
two ends go into the link instance under `port`. -/
theorem initLink_ok {env : Env} {dp : Process} {port : String} {rt rt' : Program}
    (h : initLink env dp port rt = .ok rt') :
    rt'.procs = rt.procs ∧ rt'.vars = rt.vars ∧
    (rt' = rt ∨ ∃ l link, mapGet dp.Links port = some l ∧ rt.heap[l]? = some link ∧
      link.Typ = plan.TypeStream ∧ link.Dst.Node = dp.Plan.Name ∧
      rt'.heap = setWr (setRd rt.heap l (.pipeRd rt.pipes.length)) l (.pipeWr rt.pipes.length) ∧
      rt'.pipes = rt.pipes ++ [l]) := by
  unfold initLink at h
  cases hl : mapGet dp.Links port with
  | none => rw [hl] at h; cases h; exact ⟨rfl, rfl, Or.inl rfl⟩
  | some l =>
    rw [hl] at h
    simp only at h
    cases hh : rt.heap[l]? with
    | none => rw [hh] at h; cases h
    | some link =>
      rw [hh] at h
      simp only at h
      split at h
      · rename_i hc
        split at h
        · cases h
          exact ⟨rfl, rfl, Or.inr ⟨l, link, rfl, hh, hc.1, hc.2.1, rfl, rfl⟩⟩
        · cases h
      · cases h; exact ⟨rfl, rfl, Or.inl rfl⟩

/-- What a successful `proc.Cmd, err = buildCmd(proc)` changes: the `Cmd` of the process. -/
theorem setCmd_ok {env : Env} {key : String} {proc : Process} {rt rt' : Program}
    (hk : mapGet rt.procs key = some proc) (h : Program.setCmd env key proc rt = .ok rt') :
    rt'.vars = rt.vars ∧ rt'.heap = rt.heap ∧ rt'.pipes = rt.pipes ∧ SameNodes rt rt' ∧
    ∀ Q k, rt'.linkAt Q k = rt.linkAt Q k := by
  unfold Program.setCmd at h
  obtain ⟨r, _, h⟩ := Result.bind_eq_ok h
  cases he : r.2 with
  | some e => rw [he] at h; cases h
  | none =>
  rw [he] at h
  cases h
  refine ⟨rfl, rfl, rfl, ⟨mapKeys_mapSet_of_get _ _ _ _ hk, rfl, ?_, fun _ => rfl⟩, ?_⟩
  · intro k
    simp only [Program.procPlan, mapGet_mapSet]
    by_cases hkk : key = k
    · subst hkk; simp [hk]
    · simp [hkk]
  · intro Q k
    simp only [Program.linkAt, mapGet_mapSet]
    by_cases hkk : key = Q
    · subst hkk; simp [hk]
    · simp [hkk]

end osruntime

namespace osruntime

/-! ## The instances `Build` creates -/

theorem foldl_createProcess (ps : List plan.Process) :
    ∀ rt : Program,
      (ps.foldl Program.createProcess rt).vars = rt.vars ∧
      (ps.foldl Program.createProcess rt).heap = rt.heap ∧
      (ps.foldl Program.createProcess rt).pipes = rt.pipes ∧
      ((mapKeys rt.procs).Nodup → (mapKeys (ps.foldl Program.createProcess rt).procs).Nodup) ∧
      (∀ k p, mapGet (ps.foldl Program.createProcess rt).procs k = some p →
        mapGet rt.procs k = some p ∨ ∃ P, P ∈ ps ∧ P.Name = k ∧ p = ⟨P, [], none⟩) ∧
      (∀ P, P ∈ ps → ∃ p, mapGet (ps.foldl Program.createProcess rt).procs P.Name = some p) ∧
      (∀ k, (∃ p, mapGet rt.procs k = some p) →
        ∃ p, mapGet (ps.foldl Program.createProcess rt).procs k = some p) := by
  induction ps with
  | nil =>
    intro rt
    exact ⟨rfl, rfl, rfl, id, fun _ _ h => Or.inl h, fun _ h => absurd h (List.not_mem_nil _),
      fun _ h => h⟩
  | cons P ps ih =>
    intro rt
    obtain ⟨h1, h2, h3, h4, h5, h6, h7⟩ := ih (rt.createProcess P)
    simp only [List.foldl_cons]
    refine ⟨h1, h2, h3, fun hn => h4 (mapKeys_mapSet_nodup _ _ _ hn), ?_, ?_, ?_⟩
    · intro k p hk
      rcases h5 k p hk with h | ⟨P', hP', hn, he⟩
      · simp only [Program.createProcess, mapGet_mapSet] at h
        by_cases hkk : P.Name = k
        · simp only [hkk, if_true, Option.some.injEq] at h
          exact Or.inr ⟨P, List.mem_cons_self _ _, hkk, h.symm⟩
        · simp only [hkk, if_false] at h
          exact Or.inl h
      · exact Or.inr ⟨P', List.mem_cons_of_mem _ hP', hn, he⟩
    · intro P' hP'
      rcases List.mem_cons.mp hP' with h | h
      · subst h
        exact h7 _ ⟨_, mapGet_mapSet_self _ _ _⟩
      · exact h6 P' h
    · intro k ⟨p, hp⟩
      apply h7
      simp only [Program.createProcess, mapGet_mapSet]
      by_cases hkk : P.Name = k
      · exact ⟨⟨P, [], none⟩, by simp [hkk]⟩
      · exact ⟨p, by simp [hkk, hp]⟩

theorem foldl_createVariable (vs : List plan.Variable) :
    ∀ rt : Program,
      (vs.foldl Program.createVariable rt).procs = rt.procs ∧
      (vs.foldl Program.createVariable rt).heap = rt.heap ∧
      (vs.foldl Program.createVariable rt).pipes = rt.pipes ∧
      ((mapKeys rt.vars).Nodup → (mapKeys (vs.foldl Program.createVariable rt).vars).Nodup) ∧
      (∀ k v, mapGet (vs.foldl Program.createVariable rt).vars k = some v →
        mapGet rt.vars k = some v ∨ ∃ V, V ∈ vs ∧ V.Name = k ∧ v = ⟨V, none, none, none⟩) ∧
      (∀ V, V ∈ vs → ∃ v, mapGet (vs.foldl Program.createVariable rt).vars V.Name = some v) ∧
      (∀ k, (∃ v, mapGet rt.vars k = some v) →
        ∃ v, mapGet (vs.foldl Program.createVariable rt).vars k = some v) := by
  induction vs with
  | nil =>
    intro rt
    exact ⟨rfl, rfl, rfl, id, fun _ _ h => Or.inl h, fun _ h => absurd h (List.not_mem_nil _),
      fun _ h => h⟩
  | cons V vs ih =>
    intro rt
    obtain ⟨h1, h2, h3, h4, h5, h6, h7⟩ := ih (rt.createVariable V)
    simp only [List.foldl_cons]
    refine ⟨h1, h2, h3, fun hn => h4 (mapKeys_mapSet_nodup _ _ _ hn), ?_, ?_, ?_⟩
    · intro k v hk
      rcases h5 k v hk with h | ⟨V', hV', hn, he⟩
      · simp only [Program.createVariable, mapGet_mapSet] at h
        by_cases hkk : V.Name = k
        · simp only [hkk, if_true, Option.some.injEq] at h
          exact Or.inr ⟨V, List.mem_cons_self _ _, hkk, h.symm⟩
        · simp only [hkk, if_false] at h
          exact Or.inl h
      · exact Or.inr ⟨V', List.mem_cons_of_mem _ hV', hn, he⟩
    · intro V' hV'
      rcases List.mem_cons.mp hV' with h | h
      · subst h
        exact h7 _ ⟨_, mapGet_mapSet_self _ _ _⟩
      · exact h6 V' h
    · intro k ⟨v, hv⟩
      apply h7
      simp only [Program.createVariable, mapGet_mapSet]
      by_cases hkk : V.Name = k
      · exact ⟨⟨V, none, none, none⟩, by simp [hkk]⟩
      · exact ⟨v, by simp [hkk, hv]⟩

/-- The program after the first two loops of `Build`: one instance per process and variable
name, each made from a plan node of that name, without links or values. -/
theorem create_spec (prog : plan.Pipe) :
    (Program.create prog).heap = [] ∧ (Program.create prog).pipes = [] ∧
    (mapKeys (Program.create prog).procs).Nodup ∧ (mapKeys (Program.create prog).vars).Nodup ∧
    (∀ k p, mapGet (Program.create prog).procs k = some p →
      ∃ P, P ∈ prog.Procs ∧ P.Name = k ∧ p = ⟨P, [], none⟩) ∧
    (∀ k v, mapGet (Program.create prog).vars k = some v →
      ∃ V, V ∈ prog.Vars ∧ V.Name = k ∧ v = ⟨V, none, none, none⟩) ∧
    (∀ P, P ∈ prog.Procs → ∃ p, mapGet (Program.create prog).procs P.Name = some p) ∧
    (∀ V, V ∈ prog.Vars → ∃ v, mapGet (Program.create prog).vars V.Name = some v) := by
  obtain ⟨p1, p2, p3, p4, p5, p6, _⟩ := foldl_createProcess prog.Procs Program.empty
  obtain ⟨v1, v2, v3, v4, v5, v6, _⟩ :=
    foldl_createVariable prog.Vars (prog.Procs.foldl Program.createProcess Program.empty)
  unfold Program.create
  refine ⟨by rw [v2, p2]; rfl, by rw [v3, p3]; rfl, ?_, ?_, ?_, ?_, ?_, v6⟩
  · rw [v1]; exact p4 List.nodup_nil
  · apply v4; rw [p1]; exact List.nodup_nil
  · intro k p hk
    rw [v1] at hk
    rcases p5 k p hk with h | h
    · cases h
    · exact h
  · intro k v hk
    rcases v5 k v hk with h | h
    · rw [p1] at h; cases h
    · exact h
  · intro P hP
    rw [v1]; exact p6 P hP

end osruntime

namespace osruntime

/-! ## Frames of the passes -/

theorem inOrder_valid : Schedule.inOrder.Valid :=
  ⟨fun _ => List.Perm.refl _, fun _ => List.Perm.refl _, fun _ => List.Perm.refl _,
   fun _ => List.Perm.refl _, fun _ => List.Perm.refl _, fun _ _ => List.Perm.refl _,
   fun _ => List.Perm.refl _⟩


theorem connectFrame_refl (rt : Program) : ConnectFrame rt rt :=
  ⟨sameNodes_refl rt, rfl, fun _ => rfl, Nat.le_refl _, fun _ _ => rfl⟩

theorem connectFrame_trans {a b c : Program} (h1 : ConnectFrame a b) (h2 : ConnectFrame b c) :
    ConnectFrame a c :=
  ⟨sameNodes_trans h1.nodes h2.nodes, h2.pipes.trans h1.pipes,
   fun k => (h2.values k).trans (h1.values k), Nat.le_trans h1.heapLen h2.heapLen,
   fun j hj => (h2.heapOld j (Nat.lt_of_lt_of_le hj h1.heapLen)).trans (h1.heapOld j hj)⟩

theorem connectPort_frame {prog : plan.Pipe} {dk : String} {inp : plan.Port}
    {link : plan.Link} {rt rt' : Program} (h : connectPort prog dk inp link rt = .ok rt') :
    ConnectFrame rt rt' := by
  obtain ⟨val, sp, hh, hp, hs, _, hcase⟩ := connectPort_ok h
  refine ⟨hs, hp, ?_, by rw [hh]; simp, ?_⟩
  · intro k
    rcases hcase with ⟨_, _, _, hv, _⟩ | ⟨_, _, sv, _, _, hsv, _, hv, _⟩
    · rw [hv]
    · rw [hv, mapGet_mapSet]
      by_cases hk : link.Src.Node = k
      · subst hk; simp [hsv]
      · simp [hk]
  · intro j hj
    rw [hh, List.getElem?_append_left hj]

theorem connectProc_frame {prog : plan.Pipe} {dk : String} {dp : Process} {rt rt' : Program}
    (h : Program.connectProc prog dk dp rt = .ok rt') : ConnectFrame rt rt' :=
  connectProcLoop_rel ConnectFrame connectFrame_refl (fun _ _ _ => connectFrame_trans) prog dk
    dp.Plan (fun _ _ _ _ _ _ h => connectPort_frame h) dp.Plan.In rt rt' (fun _ hq => hq) h

theorem connectVar_frame {prog : plan.Pipe} {dk : String} {dv : Variable} {rt rt' : Program}
    (hdv : mapGet rt.vars dk = some dv) (h : Program.connectVar prog dk dv rt = .ok rt') :
    ConnectFrame rt rt' := by
  obtain ⟨in0, _, hcase⟩ := connectVar_ok hdv h
  rcases hcase with ⟨_, he⟩ | ⟨link, src, sp, _, _, _, _, hh, hp, hs, hv, _⟩
  · rw [he]; exact connectFrame_refl rt
  · refine ⟨hs, hp, ?_, by rw [hh]; simp, ?_⟩
    · intro k
      rw [hv, mapGet_mapSet]
      by_cases hk : dk = k
      · subst hk; simp [hdv]
      · simp [hk]
    · intro j hj
      rw [hh, List.getElem?_append_left hj]

theorem connectProcs_frame {prog : plan.Pipe} {ks : List String} {rt rt' : Program}
    (h : rangeProcs (Program.connectProc prog) ks rt = .ok rt') : ConnectFrame rt rt' :=
  rangeProcs_rel ConnectFrame connectFrame_refl (fun _ _ _ => connectFrame_trans) _
    (fun _ _ _ _ _ h => connectProc_frame h) ks rt rt' h

theorem connectVars_frame {prog : plan.Pipe} {ks : List String} {rt rt' : Program}
    (h : rangeVars (Program.connectVar prog) ks rt = .ok rt') : ConnectFrame rt rt' :=
  rangeVars_rel ConnectFrame connectFrame_refl (fun _ _ _ => connectFrame_trans) _
    (fun _ _ _ _ hk h => connectVar_frame hk h) ks rt rt' h

theorem bindFrame_refl (presets : List (String × Option Value)) (rt : Program) :
    BindFrame presets rt rt := ⟨rfl, rfl, sameNodes_refl rt, fun _ _ => rfl⟩

theorem bindFrame_trans {presets : List (String × Option Value)} {a b c : Program}
    (h1 : BindFrame presets a b) (h2 : BindFrame presets b c) : BindFrame presets a c :=
  ⟨h2.procs.trans h1.procs, h2.pipes.trans h1.pipes, sameNodes_trans h1.nodes h2.nodes,
   fun k hk => (h2.noPreset k hk).trans (h1.noPreset k hk)⟩

theorem bindVar_sameNodes {rt rt' : Program} {key : String} {v : Variable}
    {value : Option Value} (hv : mapGet rt.vars key = some v)
    (h : rt.bindVar key v value = .ok rt') : SameNodes rt rt' := by
  obtain ⟨hp, _, hvars, _, _, _⟩ := bindVar_ok h
  have hs := sameNodes_setVar v { v with Value := value } hv rfl rt.procs rfl rt'.heap rt'.pipes
  have he : rt' = ⟨rt.procs, mapSet rt.vars key { v with Value := value }, rt'.heap, rt'.pipes⟩ := by
    cases rt'
    simp only at hp hvars
    rw [hp, hvars]
  rw [he]
  exact hs

theorem bindPresets_frame {presets : List (String × Option Value)} {ks : List String}
    {rt rt' : Program} (h : bindPresets presets ks rt = .ok rt') : BindFrame presets rt rt' := by
  refine bindPresets_rel (BindFrame presets) (bindFrame_refl presets)
    (fun _ _ _ => bindFrame_trans) presets ?_ ks rt rt' h
  intro k v value rt rt' hp hk hb
  obtain ⟨hprocs, hpipes, hvars, _, _, _⟩ := bindVar_ok hb
  refine ⟨hprocs, hpipes, bindVar_sameNodes hk hb, ?_⟩
  intro k' hk'
  rw [hvars, mapGet_mapSet]
  have : k ≠ k' := by
    rintro rfl
    rw [hp] at hk'
    cases hk'
  simp [this]

/-- A successful `bindDefaults` followed by the check `vr.Value == nil`: the variable was
bound already, or it is bound now, a `string` variable to its default. -/
theorem bindDefaultsChecked_ok {env : Env} {k : String} {v : Variable} {rt rt' : Program}
    (hk : mapGet rt.vars k = some v) (h : bindDefaultsChecked env k v rt = .ok rt') :
    (rt' = rt ∧ v.Value ≠ none) ∨
    (v.Value = none ∧ ∃ value, rt.bindVar k v value = .ok rt' ∧
      (v.Plan.Typ = some plan.TypeString → value = some (.str v.Plan.Default))) := by
  have hne : plan.TypeString ≠ plan.TypeStream := by decide
  unfold bindDefaultsChecked at h
  obtain ⟨rt1, h1, h⟩ := Result.bind_eq_ok h
  have hrt : rt' = rt1 := by
    cases hg : mapGet rt1.vars k with
    | none => rw [hg] at h; cases h
    | some v1 =>
      rw [hg] at h
      simp only at h
      cases hval : v1.Value with
      | none => rw [hval] at h; cases h
      | some x => rw [hval] at h; cases h; rfl
  subst hrt
  unfold bindDefaults at h1
  cases hval : v.Value with
  | some x =>
    rw [hval] at h1
    cases h1
    exact Or.inl ⟨rfl, by simp⟩
  | none =>
    rw [hval] at h1
    simp only at h1
    refine Or.inr ⟨rfl, ?_⟩
    cases ht : v.Plan.Typ with
    | none => rw [ht] at h1; cases h1
    | some t =>
      rw [ht] at h1
      simp only at h1
      by_cases hs : t = plan.TypeStream
      · subst hs
        simp only [if_true] at h1
        split at h1
        · split at h1
          · exact ⟨_, h1, fun hc => absurd (Option.some.inj hc) hne.symm⟩
          · cases h1
        · cases h1
          rw [hk] at h
          simp only [hval] at h
          cases h
      · simp only [hs, if_false] at h1
        by_cases hs2 : t = plan.TypeString
        · subst hs2
          simp only [if_true] at h1
          exact ⟨_, h1, fun _ => rfl⟩
        · simp only [hs2, if_false] at h1
          cases h1

/-- The pass that binds defaults: a variable bound before keeps its instance, every
variable visited ends bound, and a `string` variable visited unbound gets its default. -/
theorem bindDefaults_pass (env : Env) :
    ∀ (ks : List String) (rt rt' : Program),
      rangeVars (bindDefaultsChecked env) ks rt = .ok rt' →
      SameNodes rt rt' ∧ rt'.procs = rt.procs ∧ rt'.pipes = rt.pipes ∧
      (∀ k v, mapGet rt.vars k = some v → v.Value ≠ none → mapGet rt'.vars k = some v) ∧
      (∀ k v', k ∈ ks → mapGet rt'.vars k = some v' → v'.Value ≠ none) ∧
      (∀ k v, k ∈ ks → mapGet rt.vars k = some v → v.Value = none →
        v.Plan.Typ = some plan.TypeString →
        ∃ v', mapGet rt'.vars k = some v' ∧ v'.Value = some (.str v.Plan.Default)) := by
  intro ks
  induction ks with
  | nil =>
    intro rt rt' h
    cases h
    exact ⟨sameNodes_refl _, rfl, rfl, fun _ _ h _ => h,
      fun _ _ hk => absurd hk (List.not_mem_nil _), fun _ _ hk => absurd hk (List.not_mem_nil _)⟩
  | cons k ks ih =>
    intro rt rt' h
    unfold rangeVars at h
    cases hk : mapGet rt.vars k with
    | none =>
      rw [hk] at h
      obtain ⟨i1, i2, i3, i4, i5, i6⟩ := ih rt rt' h
      have hnone : mapGet rt'.vars k = none := by
        rw [mapGet_eq_none_iff, i1.varKeys, ← mapGet_eq_none_iff]; exact hk
      refine ⟨i1, i2, i3, i4, ?_, ?_⟩
      · intro k' v' hk' hg
        rcases List.mem_cons.mp hk' with he | he
        · subst he; rw [hnone] at hg; cases hg
        · exact i5 k' v' he hg
      · intro k' v hk' hg
        rcases List.mem_cons.mp hk' with he | he
        · subst he; rw [hk] at hg; cases hg
        · exact i6 k' v he hg
    | some v =>
      rw [hk] at h
      obtain ⟨rt1, h1, h2⟩ := Result.bind_eq_ok h
      obtain ⟨i1, i2, i3, i4, i5, i6⟩ := ih rt1 rt' h2
      rcases bindDefaultsChecked_ok hk h1 with ⟨he, hb⟩ | ⟨hnb, value, hbind, hstr⟩
      · subst he
        refine ⟨i1, i2, i3, i4, ?_, ?_⟩
        · intro k' v' hk' hg
          rcases List.mem_cons.mp hk' with he | he
          · subst he
            rw [i4 k' v hk hb] at hg
            cases hg
            exact hb
          · exact i5 k' v' he hg
        · intro k' v0 hk' hg hn
          rcases List.mem_cons.mp hk' with he | he
          · subst he
            rw [hk] at hg
            cases hg
            exact absurd hn hb
          · exact i6 k' v0 he hg hn
      · obtain ⟨b1, b2, b3, b4, _, _⟩ := bindVar_ok hbind
        have hs1 := bindVar_sameNodes hk hbind
        have hget : mapGet rt1.vars k = some { v with Value := value } := by
          rw [b3]; exact mapGet_mapSet_self _ _ _
        have hother : ∀ k', k ≠ k' → mapGet rt1.vars k' = mapGet rt.vars k' := by
          intro k' hne
          rw [b3]; exact mapGet_mapSet_ne _ _ hne
        refine ⟨sameNodes_trans hs1 i1, i2.trans b1, i3.trans b2, ?_, ?_, ?_⟩
        · intro k' v0 hg hb
          by_cases he : k = k'
          · subst he
            rw [hk] at hg
            cases hg
            exact absurd hnb hb
          · exact i4 k' v0 (by rw [hother k' he]; exact hg) hb
        · intro k' v' hk' hg
          rcases List.mem_cons.mp hk' with he | he
          · subst he
            rw [i4 k' _ hget b4] at hg
            cases hg
            exact b4
          · exact i5 k' v' he hg
        · intro k' v0 hk' hg hn hty
          by_cases he : k = k'
          · subst he
            rw [hk] at hg
            cases hg
            refine ⟨_, i4 k _ hget b4, ?_⟩
            exact hstr hty
          · rcases List.mem_cons.mp hk' with he2 | he2
            · exact absurd he2.symm he
            · exact i6 k' v0 he2 (by rw [hother k' he]; exact hg) hn hty

theorem initProcs_frame {env : Env} {sched : Schedule} {ks : List String} {rt rt' : Program}
    (h : rangeProcs (Program.initProcStreams env sched) ks rt = .ok rt') :
    rt'.procs = rt.procs ∧ rt'.vars = rt.vars := by
  refine rangeProcs_rel (fun a b => b.procs = a.procs ∧ b.vars = a.vars) (fun _ => ⟨rfl, rfl⟩)
    (fun _ _ _ h1 h2 => ⟨h2.1.trans h1.1, h2.2.trans h1.2⟩) _ ?_ ks rt rt' h
  intro k p rt rt' _ hb
  refine initLinks_rel (fun a b => b.procs = a.procs ∧ b.vars = a.vars) (fun _ => ⟨rfl, rfl⟩)
    (fun _ _ _ h1 h2 => ⟨h2.1.trans h1.1, h2.2.trans h1.2⟩) env p ?_ _ rt rt' hb
  intro port rt rt' hi
  obtain ⟨h1, h2, _⟩ := initLink_ok hi
  exact ⟨h1, h2⟩

theorem setCmds_frame {env : Env} {ks : List String} {rt rt' : Program}
    (h : rangeProcs (Program.setCmd env) ks rt = .ok rt') :
    rt'.vars = rt.vars ∧ rt'.heap = rt.heap ∧ rt'.pipes = rt.pipes ∧ SameNodes rt rt' ∧
    ∀ Q k, rt'.linkAt Q k = rt.linkAt Q k := by
  refine rangeProcs_rel (fun a b => b.vars = a.vars ∧ b.heap = a.heap ∧ b.pipes = a.pipes ∧
      SameNodes a b ∧ ∀ Q k, b.linkAt Q k = a.linkAt Q k)
    (fun _ => ⟨rfl, rfl, rfl, sameNodes_refl _, fun _ _ => rfl⟩)
    (fun _ _ _ h1 h2 => ⟨h2.1.trans h1.1, h2.2.1.trans h1.2.1, h2.2.2.1.trans h1.2.2.1,
      sameNodes_trans h1.2.2.2.1 h2.2.2.2.1, fun Q k => (h2.2.2.2.2 Q k).trans (h1.2.2.2.2 Q k)⟩)
    _ ?_ ks rt rt' h
  intro k p rt rt' hk hb
  exact setCmd_ok hk hb

end osruntime

namespace osruntime

/-! ## Binding totality (claim C4) -/

theorem C4_counterexample :
    ∃ rt v, Build unboundPlan [] Env.allOk Schedule.inOrder = .ok rt ∧
      mapGet rt.vars "x" = some v ∧ v.Plan.Typ = some plan.TypeString ∧
      v.Plan.Default = "" ∧ v.Value = some (.str "") :=
  ⟨_, _, rfl, rfl, rfl, rfl, rfl⟩

/-- Whenever `Build` succeeds, every variable instance of the program has a bound (non-nil)
value and every variable of the plan has such an instance; a `string` variable without a
preset is bound to its default literal, the empty string included. -/
theorem Build_bound (prog : plan.Pipe) (presets : List (String × Option Value))
    (env : Env) (sched : Schedule) (hv : sched.Valid) (rt : Program)
    (h : Build prog presets env sched = .ok rt) :
    (∀ k v, mapGet rt.vars k = some v → v.Value ≠ none) ∧
    (∀ V, V ∈ prog.Vars → ∃ v, mapGet rt.vars V.Name = some v ∧ v.Value ≠ none) ∧
    (∀ k v, mapGet rt.vars k = some v → v.Plan.Typ = some plan.TypeString →
      mapGet presets k = none → v.Value = some (.str v.Plan.Default)) := by
  obtain ⟨r1, r2, r3, r4, r5, h1, h2, h3, h4, h5, h6⟩ := Build_ok_stages h
  have f1 := connectProcs_frame h1
  have f2 := connectVars_frame h2
  have f3 := bindPresets_frame h3
  obtain ⟨b1, _, _, b4, b5, b6⟩ := bindDefaults_pass env _ r3 r4 h4
  obtain ⟨_, i2⟩ := initProcs_frame h5
  obtain ⟨c1, _, _, _, _⟩ := setCmds_frame h6
  have hvars : rt.vars = r4.vars := c1.trans i2
  obtain ⟨_, _, _, _, _, cv, _, cV⟩ := create_spec prog
  have hbound : ∀ k v, mapGet rt.vars k = some v → v.Value ≠ none := by
    intro k v hk
    rw [hvars] at hk
    have hmem : k ∈ mapKeys r3.vars := by
      rw [← b1.varKeys]; exact (mapGet_isSome_iff _ _).mp ⟨v, hk⟩
    exact b5 k v ((hv.bindVars _).mem_iff.mpr hmem) hk
  refine ⟨hbound, ?_, ?_⟩
  · intro V hV
    obtain ⟨v0, hv0⟩ := cV V hV
    have hmem : V.Name ∈ mapKeys rt.vars := by
      rw [hvars, b1.varKeys, f3.nodes.varKeys, f2.nodes.varKeys, f1.nodes.varKeys]
      exact (mapGet_isSome_iff _ _).mp ⟨v0, hv0⟩
    obtain ⟨v, hg⟩ := (mapGet_isSome_iff _ _).mpr hmem
    exact ⟨v, hg, hbound _ _ hg⟩
  · intro k v hk hty hnp
    rw [hvars] at hk
    have hmem : k ∈ mapKeys r3.vars := by
      rw [← b1.varKeys]; exact (mapGet_isSome_iff _ _).mp ⟨v, hk⟩
    obtain ⟨v3, hv3⟩ := (mapGet_isSome_iff _ _).mpr hmem
    have hplan : v3.Plan = v.Plan := by
      have := b1.varPlan k
      simp only [Program.varPlan, hk, hv3, Option.map_some', Option.some.injEq] at this
      exact this.symm
    have hval : v3.Value = none := by
      have e3 := f3.noPreset k hnp
      have e2 := f2.values k
      have e1 := f1.values k
      rw [hv3] at e3
      rw [← e3] at e2
      rw [e1] at e2
      cases hc : mapGet (Program.create prog).vars k with
      | none => rw [hc] at e2; simp at e2
      | some vc =>
        rw [hc] at e2
        obtain ⟨V, _, _, he⟩ := cv k vc hc
        subst he
        simpa using e2
    obtain ⟨v', hv', hval'⟩ := b6 k v3 ((hv.bindVars _).mem_iff.mpr hmem) hv3 hval
      (by rw [hplan]; exact hty)
    rw [hk] at hv'
    cases hv'
    rw [hval', hplan]

end osruntime

namespace osruntime

/-! ## Type checking of links (claim C1) -/

theorem instantiates_create {prog : plan.Pipe} (wf : prog.WellFormed) :
    (Program.create prog).Instantiates prog := by
  obtain ⟨_, _, _, _, cp, cv, cP, cV⟩ := create_spec prog
  constructor
  · intro S hS
    obtain ⟨p, hp⟩ := cP S hS
    obtain ⟨P', hP', hn, he⟩ := cp _ p hp
    have : P' = S := List.inj_on_of_nodup_map wf.procNames hP' hS hn
    subst this
    simp [Program.procPlan, hp, he]
  · intro V hV
    obtain ⟨v, hv⟩ := cV V hV
    obtain ⟨V', hV', hn, he⟩ := cv _ v hv
    have : V' = V := List.inj_on_of_nodup_map wf.varNames hV' hV hn
    subst this
    simp [Program.varPlan, hv, he]

theorem instantiates_of_sameNodes {prog : plan.Pipe} {a b : Program}
    (h : a.Instantiates prog) (s : SameNodes a b) : b.Instantiates prog :=
  ⟨fun S hS => (s.procPlan _).trans (h.1 S hS), fun V hV => (s.varPlan _).trans (h.2 V hV)⟩

theorem procPlan_some {rt : Program} {k : String} {P : plan.Process}
    (h : rt.procPlan k = some P) : ∃ p, mapGet rt.procs k = some p ∧ p.Plan = P := by
  unfold Program.procPlan at h
  cases hg : mapGet rt.procs k with
  | none => rw [hg] at h; cases h
  | some p => rw [hg] at h; exact ⟨p, rfl, Option.some.inj h⟩

theorem varPlan_some {rt : Program} {k : String} {V : plan.Variable}
    (h : rt.varPlan k = some V) : ∃ v, mapGet rt.vars k = some v ∧ v.Plan = V := by
  unfold Program.varPlan at h
  cases hg : mapGet rt.vars k with
  | none => rw [hg] at h; cases h
  | some v => rw [hg] at h; exact ⟨v, rfl, Option.some.inj h⟩

theorem setProcLink_progress (rt : Program) {Q : String} (k : String) (l : Nat)
    (h : ∃ p, mapGet rt.procs Q = some p) : ∃ rt', rt.setProcLink Q k l = .ok rt' := by
  obtain ⟨p, hp⟩ := h
  unfold Program.setProcLink
  rw [hp]
  exact ⟨_, rfl⟩

/-- An iteration of `connectProc` whose src port is declared: it succeeds when the types
agree and returns the type-mismatch error when they differ. -/
theorem connectPort_progress {prog : plan.Pipe} (wf : prog.WellFormed) {rt : Program}
    (hi : rt.Instantiates prog) {dk : String} (hdk : ∃ p, mapGet rt.procs dk = some p)
    (inp : plan.Port) {link : plan.Link} {sp : plan.Port} (hsrc : prog.Declares link.Src sp) :
    (sp.Typ = inp.Typ → ∃ rt', connectPort prog dk inp link rt = .ok rt') ∧
    (sp.Typ ≠ inp.Typ → connectPort prog dk inp link rt
      = .err (.typeMismatch sp.Typ inp.Typ link.Src link.Dst)) := by
  unfold connectPort
  simp only
  obtain ⟨rt2, h2⟩ := setProcLink_progress ⟨rt.procs, rt.vars,
    rt.heap ++ [⟨inp.Typ, link.Src, link.Dst, none, none, none⟩], rt.pipes⟩ inp.Name
    rt.heap.length hdk
  rw [h2]
  obtain ⟨hv2, _, _, hs2, _⟩ := setProcLink_ok h2
  simp only at hv2
  have hs0 : SameNodes rt ⟨rt.procs, rt.vars,
      rt.heap ++ [⟨inp.Typ, link.Src, link.Dst, none, none, none⟩], rt.pipes⟩ :=
    sameNodes_of_eq rfl rfl
  have hi2 : rt2.Instantiates prog := instantiates_of_sameNodes hi (sameNodes_trans hs0 hs2)
  simp only [Result.bind_ok]
  rcases hsrc with ⟨S, hS, hn, hp⟩ | ⟨hno, V, hV, hn, hp⟩
  · have hf : prog.FindProc link.Src.Node = some S := by
      rw [← hn]; exact plan.findProc_of_mem wf hS
    rw [hf]
    simp only
    obtain ⟨p, hp1, _⟩ := procPlan_some (hi2.1 S hS)
    rw [hn] at hp1
    obtain ⟨rt3, h3⟩ := setProcLink_progress rt2 link.Src.Port rt.heap.length ⟨p, hp1⟩
    rw [h3]
    simp only [Result.bind_ok, checkPortType, hp]
    constructor
    · intro he
      rw [if_neg (not_not.mpr he.symm)]
      exact ⟨_, rfl⟩
    · intro he
      rw [if_pos (Ne.symm he)]
  · rw [plan.findProc_none hno]
    have hf : prog.FindVar link.Src.Node = some V := by
      rw [← hn]; exact plan.findVar_of_mem wf hV
    simp only [hf]
    obtain ⟨v, hv1, _⟩ := varPlan_some (hi2.2 V hV)
    rw [hn] at hv1
    rw [hv1]
    simp only [checkPortType, hp]
    constructor
    · intro he
      rw [if_neg (not_not.mpr he.symm)]
      exact ⟨_, rfl⟩
    · intro he
      rw [if_pos (Ne.symm he)]

/-- The loop of `connectProc` reaches a mistyped link when every port before it is wired
type-correctly, and returns the type-mismatch error of that link. -/
theorem connectProcLoop_mismatch {prog : plan.Pipe} (wf : prog.WellFormed)
    (P : plan.Process) (inp : plan.Port) (post : List plan.Port) (link : plan.Link)
    (sp : plan.Port) (hl : link ∈ prog.Links) (hd : link.Dst = ⟨P.Name, inp.Name⟩)
    (hsrc : prog.Declares link.Src sp) (hty : sp.Typ ≠ inp.Typ) :
    ∀ (pre : List plan.Port), (∀ q, q ∈ pre → prog.WiredOk P q) →
      ∀ rt : Program, rt.Instantiates prog → (∃ p, mapGet rt.procs P.Name = some p) →
      connectProcLoop prog P.Name P (pre ++ inp :: post) rt
        = .err (.typeMismatch sp.Typ inp.Typ link.Src link.Dst) := by
  intro pre
  induction pre with
  | nil =>
    intro _ rt hi hk
    have hf : prog.FindLink ⟨P.Name, inp.Name⟩ = some link := by
      rw [← hd]; exact plan.findLink_of_mem wf hl
    simp only [List.nil_append, connectProcLoop, hf]
    rw [(connectPort_progress wf hi hk inp hsrc).2 hty]
    rfl
  | cons q pre ih =>
    intro hpre rt hi hk
    obtain ⟨l, sq, hlm, hld, hls, hlt⟩ := hpre q (List.mem_cons_self _ _)
    have hf : prog.FindLink ⟨P.Name, q.Name⟩ = some l := by
      rw [← hld]; exact plan.findLink_of_mem wf hlm
    simp only [List.cons_append, connectProcLoop, hf]
    obtain ⟨rt1, h1⟩ := (connectPort_progress wf hi hk q hls).1 hlt
    rw [h1]
    simp only [Result.bind_ok]
    have hs := (connectPort_frame h1).nodes
    refine ih (fun q' hq' => hpre q' (List.mem_cons_of_mem _ hq')) rt1
      (instantiates_of_sameNodes hi hs) ?_
    rw [mapGet_isSome_iff, hs.procKeys, ← mapGet_isSome_iff]
    exact hk

theorem rangeProcs_append (body : String → Process → Program → Result Program)
    (ks1 ks2 : List String) :
    ∀ rt, rangeProcs body (ks1 ++ ks2) rt = (rangeProcs body ks1 rt).bind (rangeProcs body ks2) := by
  induction ks1 with
  | nil => intro rt; rfl
  | cons k ks ih =>
    intro rt
    simp only [List.cons_append, rangeProcs]
    cases mapGet rt.procs k with
    | none => exact ih rt
    | some p =>
      simp only
      cases body k p rt with
      | ok r => simp only [Result.bind_ok]; exact ih r
      | err e => rfl
      | panic e => rfl

theorem Build_of_connect_err {prog : plan.Pipe} {presets : List (String × Option Value)}
    {env : Env} {sched : Schedule} {e : Error}
    (h : rangeProcs (Program.connectProc prog)
      (sched.connectProcs (mapKeys (Program.create prog).procs)) (Program.create prog) = .err e) :
    Build prog presets env sched = .err e := by
  unfold Build
  simp only
  rw [h]
  rfl

theorem Build_of_connect_panic {prog : plan.Pipe} {presets : List (String × Option Value)}
    {env : Env} {sched : Schedule} {e : Panic}
    (h : rangeProcs (Program.connectProc prog)
      (sched.connectProcs (mapKeys (Program.create prog).procs)) (Program.create prog)
      = .panic e) :
    Build prog presets env sched = .panic e := by
  unfold Build
  simp only
  rw [h]
  rfl

theorem C1_counterexample :
    ((⟨⟨"S", "o"⟩, ⟨"P", "b"⟩⟩ : plan.Link) ∈ firstErrorPlan.Links ∧
      firstErrorPlan.Declares ⟨"S", "o"⟩ ⟨"o", "string"⟩ ∧
      firstErrorPlan.Declares ⟨"P", "b"⟩ ⟨"b", "stream"⟩ ∧
      Build firstErrorPlan [] Env.allOk Schedule.inOrder
        = .err (.srcMissing ⟨"X", "o"⟩ ⟨"A", "i"⟩)) ∧
    ((⟨⟨"S", "o"⟩, ⟨"P", "b"⟩⟩ : plan.Link) ∈ earlyReturnPlan.Links ∧
      earlyReturnPlan.Declares ⟨"S", "o"⟩ ⟨"o", "string"⟩ ∧
      earlyReturnPlan.Declares ⟨"P", "b"⟩ ⟨"b", "stream"⟩ ∧
      ∃ rt, Build earlyReturnPlan [] Env.allOk Schedule.inOrder = .ok rt) ∧
    ((⟨⟨"U", "u"⟩, ⟨"V", "v"⟩⟩ : plan.Link) ∈ varToVarPlan.Links ∧
      varToVarPlan.Declares ⟨"U", "u"⟩ ⟨"u", "string"⟩ ∧
      varToVarPlan.Declares ⟨"V", "v"⟩ ⟨"v", "stream"⟩ ∧
      Build varToVarPlan [] Env.allOk Schedule.inOrder = .err (.noSrcProc "U")) :=
  ⟨⟨by decide,
    Or.inl ⟨mkProc "S" [] [⟨"o", "string"⟩] [], by decide, rfl, rfl⟩,
    Or.inl ⟨mkProc "P" [⟨"b", "stream"⟩] [] [], by decide, rfl, rfl⟩,
    rfl⟩,
   ⟨by decide,
    Or.inl ⟨mkProc "S" [] [⟨"o", "string"⟩] [], by decide, rfl, rfl⟩,
    Or.inl ⟨mkProc "P" [⟨"a", "stream"⟩, ⟨"b", "stream"⟩] [] [], by decide, rfl, rfl⟩,
    _, rfl⟩,
   ⟨by decide,
    Or.inr ⟨by decide, ⟨⟨"U", [⟨"u", "string"⟩], []⟩, "x"⟩, by decide, rfl, rfl⟩,
    Or.inr ⟨by decide, ⟨⟨"V", [⟨"v", "stream"⟩], []⟩, ""⟩, by decide, rfl, rfl⟩,
    rfl⟩⟩

/-- In a well-formed plan, take a link to the input port `inp` of a process `P` whose src
port is declared, on an existing process or variable, with a type other than that of `inp`,
every input port that `P` declares before `inp` being wired type-correctly. Then `Build`
does not succeed, whatever the presets and the iteration orders; and it returns the
type-mismatch error of that link as soon as the processes visited before `P` in the connect
pass are connected without failure. -/
theorem Build_mismatch_proc (prog : plan.Pipe) (presets : List (String × Option Value))
    (env : Env) (sched : Schedule) (hv : sched.Valid) (wf : prog.WellFormed)
    (P : plan.Process) (pre post : List plan.Port) (inp : plan.Port) (link : plan.Link)
    (sp : plan.Port) (hP : P ∈ prog.Procs) (hIn : P.In = pre ++ inp :: post)
    (hpre : ∀ q, q ∈ pre → prog.WiredOk P q) (hl : link ∈ prog.Links)
    (hd : link.Dst = ⟨P.Name, inp.Name⟩) (hsrc : prog.Declares link.Src sp)
    (hty : sp.Typ ≠ inp.Typ) :
    (Build prog presets env sched).isOk = false ∧
    ∀ ks1 ks2 r, sched.connectProcs (mapKeys (Program.create prog).procs) = ks1 ++ P.Name :: ks2 →
      rangeProcs (Program.connectProc prog) ks1 (Program.create prog) = .ok r →
      Build prog presets env sched = .err (.typeMismatch sp.Typ inp.Typ link.Src link.Dst) := by
  have hexact : ∀ ks1 ks2 r,
      sched.connectProcs (mapKeys (Program.create prog).procs) = ks1 ++ P.Name :: ks2 →
      rangeProcs (Program.connectProc prog) ks1 (Program.create prog) = .ok r →
      Build prog presets env sched
        = .err (.typeMismatch sp.Typ inp.Typ link.Src link.Dst) := by
    intro ks1 ks2 r hks hr
    apply Build_of_connect_err
    rw [hks, rangeProcs_append, hr]
    simp only [Result.bind_ok]
    have hi : r.Instantiates prog :=
      instantiates_of_sameNodes (instantiates_create wf) (connectProcs_frame hr).nodes
    obtain ⟨p, hp, hpl⟩ := procPlan_some (hi.1 P hP)
    unfold rangeProcs
    rw [hp]
    simp only [Program.connectProc, hpl, hIn]
    rw [connectProcLoop_mismatch wf P inp post link sp hl hd hsrc hty pre hpre r hi ⟨p, hp⟩]
    rfl
  refine ⟨?_, hexact⟩
  obtain ⟨p0, hp0, _⟩ := procPlan_some ((instantiates_create wf).1 P hP)
  have hmem : P.Name ∈ sched.connectProcs (mapKeys (Program.create prog).procs) :=
    (hv.connectProcs _).mem_iff.mpr ((mapGet_isSome_iff _ _).mp ⟨p0, hp0⟩)
  obtain ⟨ks1, ks2, hks⟩ := List.append_of_mem hmem
  cases hr : rangeProcs (Program.connectProc prog) ks1 (Program.create prog) with
  | ok r => rw [hexact ks1 ks2 r hks hr]; rfl
  | err e =>
    have : Build prog presets env sched = .err e := by
      apply Build_of_connect_err
      rw [hks, rangeProcs_append, hr]
      rfl
    rw [this]; rfl
  | panic e =>
    have : Build prog presets env sched = .panic e := by
      apply Build_of_connect_panic
      rw [hks, rangeProcs_append, hr]
      rfl
    rw [this]; rfl

end osruntime

namespace osruntime

/-! ## Resolution of link refs (claims C6, C7) -/

theorem findPort_of_mem_in (n : plan.Node) (q : plan.Port) (hq : q ∈ n.In) :
    ∃ port, (n.FindPort q.Name).1 = some port := by
  unfold plan.Node.FindPort
  cases hf : n.In.find? (fun p => p.Name = q.Name) with
  | some p => exact ⟨p, rfl⟩
  | none =>
    have := List.find?_eq_none.mp hf q hq
    simp at this

theorem fromPlan_create (prog : plan.Pipe) : (Program.create prog).FromPlan prog := by
  obtain ⟨_, _, _, _, cp, cv, _, _⟩ := create_spec prog
  constructor
  · intro k P h
    obtain ⟨p, hp, hpl⟩ := procPlan_some h
    obtain ⟨P', hP', hn, he⟩ := cp k p hp
    subst he
    simp only at hpl
    subst hpl
    exact ⟨hP', hn⟩
  · intro k V h
    obtain ⟨v, hv, hpl⟩ := varPlan_some h
    obtain ⟨V', hV', hn, he⟩ := cv k v hv
    subst he
    simp only at hpl
    subst hpl
    exact ⟨hV', hn⟩

theorem fromPlan_of_sameNodes {prog : plan.Pipe} {a b : Program} (h : a.FromPlan prog)
    (s : SameNodes a b) : b.FromPlan prog :=
  ⟨fun k P hk => h.1 k P ((s.procPlan k).symm.trans hk),
   fun k V hk => h.2 k V ((s.varPlan k).symm.trans hk)⟩

theorem linksResolved_append {prog : plan.Pipe} {rt rt' : Program} {li : Link}
    (hh : rt'.heap = rt.heap ++ [li]) (h : rt.LinksResolved prog)
    (hli : (⟨li.Src, li.Dst⟩ : plan.Link) ∈ prog.Links ∧ prog.Resolves li.Src ∧
      prog.Resolves li.Dst) : rt'.LinksResolved prog := by
  intro x hx
  rw [hh, List.mem_append, List.mem_singleton] at hx
  rcases hx with hx | hx
  · exact h x hx
  · subst hx; exact hli

theorem connectPort_resolved {prog : plan.Pipe} {dk : String} {dst : plan.Process}
    {inp : plan.Port} {link : plan.Link} {rt rt' : Program} (hdst : dst ∈ prog.Procs)
    (hinp : inp ∈ dst.In) (hl : prog.FindLink ⟨dst.Name, inp.Name⟩ = some link)
    (h : connectPort prog dk inp link rt = .ok rt')
    (hr : rt.LinksResolved prog) : rt'.LinksResolved prog := by
  obtain ⟨val, sp, hh, _, _, _, hcase⟩ := connectPort_ok h
  obtain ⟨hlm, hld⟩ := plan.findLink_some hl
  refine linksResolved_append hh hr ⟨?_, ?_, ?_⟩
  · exact hlm
  · rcases hcase with ⟨src, hsrc, hsp, _⟩ | ⟨_, src, sv, hsrc, hsp, _⟩
    · obtain ⟨hm, hn⟩ := plan.findNode_some hsrc
      exact ⟨src.toNode, Or.inl ⟨src, hm, rfl⟩, hn, sp, hsp⟩
    · obtain ⟨hm, hn⟩ := plan.findNode_some hsrc
      exact ⟨src.toNode, Or.inr ⟨src, hm, rfl⟩, hn, sp, hsp⟩
  · simp only [hld]
    exact ⟨dst.toNode, Or.inl ⟨dst, hdst, rfl⟩, rfl, findPort_of_mem_in dst.toNode inp hinp⟩

theorem connectVar_resolved {prog : plan.Pipe} {dk : String} {dv : Variable}
    {rt rt' : Program} (hdv : mapGet rt.vars dk = some dv) (hfp : rt.FromPlan prog)
    (h : Program.connectVar prog dk dv rt = .ok rt') (hr : rt.LinksResolved prog) :
    rt'.LinksResolved prog := by
  obtain ⟨in0, hin, hcase⟩ := connectVar_ok hdv h
  rcases hcase with ⟨_, he⟩ | ⟨link, src, sp, hl, hsrc, hsp, _, hh, _⟩
  · rw [he]; exact hr
  · obtain ⟨hlm, hld⟩ := plan.findLink_some hl
    have hV : dv.Plan ∈ prog.Vars := (hfp.2 dk dv.Plan (by simp [Program.varPlan, hdv])).1
    refine linksResolved_append hh hr ⟨hlm, ?_, ?_⟩
    · obtain ⟨hm, hn⟩ := plan.findNode_some hsrc
      exact ⟨src.toNode, Or.inl ⟨src, hm, rfl⟩, hn, sp, hsp⟩
    · simp only [hld]
      exact ⟨dv.Plan.toNode, Or.inr ⟨dv.Plan, hV, rfl⟩, rfl,
        findPort_of_mem_in dv.Plan.toNode in0 (List.getElem?_mem hin)⟩

/-- A pass that keeps every instance's type and refs keeps the links resolved. -/
theorem linksResolved_of_skeleton {prog : plan.Pipe} {rt rt' : Program}
    (hs : ∀ (j : Nat) (l' : Link), rt'.heap[j]? = some l' →
      ∃ l : Link, rt.heap[j]? = some l ∧ l'.Src = l.Src ∧ l'.Dst = l.Dst)
    (h : rt.LinksResolved prog) : rt'.LinksResolved prog := by
  intro li hli
  obtain ⟨j, hj⟩ := List.getElem?_of_mem hli
  obtain ⟨l, hl, h1, h2⟩ := hs j li hj
  rw [h1, h2]
  exact h l (List.getElem?_mem hl)

theorem initLink_skeleton {env : Env} {dp : Process} {port : String} {rt rt' : Program}
    (h : initLink env dp port rt = .ok rt') :
    ∀ (j : Nat) (l' : Link), rt'.heap[j]? = some l' →
      ∃ l : Link, rt.heap[j]? = some l ∧ l'.Typ = l.Typ ∧ l'.Src = l.Src ∧ l'.Dst = l.Dst ∧
        l'.Value = l.Value := by
  obtain ⟨_, _, hcase⟩ := initLink_ok h
  intro j l' hl'
  rcases hcase with he | ⟨l, link, _, _, _, _, hh, _⟩
  · rw [he] at hl'; exact ⟨l', hl', rfl, rfl, rfl, rfl⟩
  · rw [hh] at hl'
    simp only [setWr, setRd] at hl'
    obtain ⟨l1, h1, e1⟩ := modify_get _ _ _ j l' hl'
    obtain ⟨l2, h2, e2⟩ := modify_get _ _ _ j l1 h1
    refine ⟨l2, h2, ?_⟩
    by_cases hj : l = j
    · simp only [hj, if_true] at e1 e2
      rw [e1, e2]; exact ⟨rfl, rfl, rfl, rfl⟩
    · simp only [hj, if_false] at e1 e2
      rw [e1, e2]; exact ⟨rfl, rfl, rfl, rfl⟩

theorem C7_counterexample :
    ((∃ rt, Build danglingDstPlan [] Env.allOk Schedule.inOrder = .ok rt) ∧
      (⟨⟨"S", "o"⟩, ⟨"Q", "i"⟩⟩ : plan.Link) ∈ danglingDstPlan.Links ∧
      ¬ danglingDstPlan.Resolves ⟨"Q", "i"⟩) ∧
    (Build undeclaredSrcPlan [] Env.allOk Schedule.inOrder = .panic .nilDeref ∧
      (⟨⟨"S", "zz"⟩, ⟨"P", "i"⟩⟩ : plan.Link) ∈ undeclaredSrcPlan.Links) := by
  refine ⟨⟨⟨_, rfl⟩, by decide, ?_⟩, rfl, by decide⟩
  rintro ⟨n, hn, hname, _⟩
  rcases hn with ⟨S, hS, he⟩ | ⟨V, hV, _⟩
  · subst he
    simp only [danglingDstPlan, mkProc, List.mem_cons, List.mem_singleton, List.not_mem_nil,
      or_false] at hS
    rcases hS with h | h <;> subst h <;> exact absurd hname (by decide)
  · simp [danglingDstPlan] at hV

/-- C7 (amended): whenever `Build` succeeds, every link instance of the program, that is
every plan link the connect passes looked up, is a link of the plan whose src and dst
each name an existing process or variable and a port declared on it. -/
theorem C7_links_resolved (prog : plan.Pipe) (presets : List (String × Option Value))
    (env : Env) (sched : Schedule) (rt : Program)
    (h : Build prog presets env sched = .ok rt) : rt.LinksResolved prog := by
  obtain ⟨r1, r2, r3, r4, r5, h1, h2, h3, h4, h5, h6⟩ := Build_ok_stages h
  have hfp0 := fromPlan_create prog
  have hr0 : (Program.create prog).LinksResolved prog := by
    intro li hli
    rw [(create_spec prog).1] at hli
    cases hli
  have hr1 : r1.FromPlan prog ∧ r1.LinksResolved prog := by
    refine rangeProcs_rel (fun a b => a.FromPlan prog ∧ a.LinksResolved prog →
        b.FromPlan prog ∧ b.LinksResolved prog) (fun _ h => h)
      (fun _ _ _ f g h => g (f h)) _ ?_ _ _ _ h1 ⟨hfp0, hr0⟩
    intro k p rt rt' hk hb
    intro hI
    have hdst : p.Plan ∈ prog.Procs := (hI.1.1 k p.Plan (by simp [Program.procPlan, hk])).1
    refine connectProcLoop_rel (fun a b => a.FromPlan prog ∧ a.LinksResolved prog →
        b.FromPlan prog ∧ b.LinksResolved prog) (fun _ h => h)
      (fun _ _ _ f g h => g (f h)) prog k p.Plan ?_ p.Plan.In rt rt' (fun _ hq => hq) hb hI
    intro inp link a b hinp hl hc hI2
    exact ⟨fromPlan_of_sameNodes hI2.1 (connectPort_frame hc).nodes,
      connectPort_resolved hdst hinp hl hc hI2.2⟩
  have hr2 : r2.FromPlan prog ∧ r2.LinksResolved prog := by
    refine rangeVars_rel (fun a b => a.FromPlan prog ∧ a.LinksResolved prog →
        b.FromPlan prog ∧ b.LinksResolved prog) (fun _ h => h)
      (fun _ _ _ f g h => g (f h)) _ ?_ _ _ _ h2 hr1
    intro k v a b hk hb hI
    exact ⟨fromPlan_of_sameNodes hI.1 (connectVar_frame hk hb).nodes,
      connectVar_resolved hk hI.1 hb hI.2⟩
  have hr3 : r3.LinksResolved prog := by
    refine bindPresets_rel (fun a b => a.LinksResolved prog → b.LinksResolved prog)
      (fun _ h => h) (fun _ _ _ f g h => g (f h)) presets ?_ _ _ _ h3 hr2.2
    intro k v value a b _ _ hb
    obtain ⟨_, _, _, _, hf, _⟩ := bindVar_ok hb
    exact linksResolved_of_skeleton (fun j l' hl' => by
      obtain ⟨l, hl, _, e2, e3⟩ := hf.skeleton j l' hl'
      exact ⟨l, hl, e2, e3⟩)
  have hr4 : r4.LinksResolved prog := by
    refine rangeVars_rel (fun a b => a.LinksResolved prog → b.LinksResolved prog)
      (fun _ h => h) (fun _ _ _ f g h => g (f h)) _ ?_ _ _ _ h4 hr3
    intro k v a b hk hb
    rcases bindDefaultsChecked_ok hk hb with ⟨he, _⟩ | ⟨_, value, hbind, _⟩
    · rw [he]; exact id
    · obtain ⟨_, _, _, _, hf, _⟩ := bindVar_ok hbind
      exact linksResolved_of_skeleton (fun j l' hl' => by
        obtain ⟨l, hl, _, e2, e3⟩ := hf.skeleton j l' hl'
        exact ⟨l, hl, e2, e3⟩)
  have hr5 : r5.LinksResolved prog := by
    refine rangeProcs_rel (fun a b => a.LinksResolved prog → b.LinksResolved prog)
      (fun _ h => h) (fun _ _ _ f g h => g (f h)) _ ?_ _ _ _ h5 hr4
    intro k p a b _ hb
    refine initLinks_rel (fun a b => a.LinksResolved prog → b.LinksResolved prog)
      (fun _ h => h) (fun _ _ _ f g h => g (f h)) env p ?_ _ a b hb
    intro port a b hi
    exact linksResolved_of_skeleton (fun j l' hl' => by
      obtain ⟨l, hl, _, e2, e3, _⟩ := initLink_skeleton hi j l' hl'
      exact ⟨l, hl, e2, e3⟩)
  obtain ⟨_, c2, _, _, _⟩ := setCmds_frame h6
  intro li hli
  rw [c2] at hli
  exact hr5 li hli

/-- C6 (the failing input): `droppedLinkPlan` is well-formed and its only link is typed
correctly, from a declared output port to a declared input port; `Build` succeeds on it
and the program holds no link instance at all, on no process and no variable. -/
theorem C6_dropped_link :
    droppedLinkPlan.WellFormed ∧
    droppedLinkPlan.Links = [⟨⟨"S", "o"⟩, ⟨"P", "b"⟩⟩] ∧
    droppedLinkPlan.Declares ⟨"S", "o"⟩ ⟨"o", "stream"⟩ ∧
    droppedLinkPlan.Declares ⟨"P", "b"⟩ ⟨"b", "stream"⟩ ∧
    ∃ rt, Build droppedLinkPlan [] Env.allOk Schedule.inOrder = .ok rt ∧ rt.heap = [] ∧
      rt.linkAt "P" "b" = none ∧ rt.linkAt "S" "o" = none ∧ rt.vars = [] :=
  ⟨⟨by unfold plan.NodesSorted; decide, by unfold plan.NodesSorted; decide,
    by unfold plan.LinksSorted; decide, by decide, by decide, by decide⟩,
   rfl,
   Or.inl ⟨mkProc "S" [] [⟨"o", "stream"⟩] [], by decide, rfl, rfl⟩,
   Or.inl ⟨mkProc "P" [⟨"a", "stream"⟩, ⟨"b", "stream"⟩] [] [], by decide, rfl, rfl⟩,
   _, rfl, rfl, rfl, rfl, rfl⟩

end osruntime

namespace osruntime

theorem mismatchPlan_wf : mismatchPlan.WellFormed :=
  ⟨by unfold plan.NodesSorted; decide, by unfold plan.NodesSorted; decide,
   by unfold plan.LinksSorted; decide, by decide, by decide, by decide⟩

theorem C7_links_resolved_witness :
    ∃ rt, Build linkedPlan [] Env.allOk Schedule.inOrder = .ok rt ∧ rt.heap.length = 1 ∧
      rt.LinksResolved linkedPlan :=
  ⟨_, rfl, rfl, C7_links_resolved linkedPlan [] Env.allOk Schedule.inOrder _ rfl⟩

end osruntime

namespace osruntime

/-! ## Values of variable links (claim C9) -/

theorem ref_eq_of {r : plan.Ref} {a b : String} (h1 : a = r.Node) (h2 : b = r.Port) :
    r = ⟨a, b⟩ := by
  cases r
  simp only at h1 h2
  rw [h1, h2]

theorem connectPort_outInv {prog : plan.Pipe} (wf : prog.WellFormed) {V : plan.Variable}
    {link : plan.Link} (hf : VarFeeds prog V link) {dk : String} {q : plan.Port}
    {l' : plan.Link} {rt rt' : Program} (hfl : prog.FindLink ⟨dk, q.Name⟩ = some l')
    (hc : connectPort prog dk q l' rt = .ok rt')
    (hI : OutInv rt link.Dst.Node link.Dst.Port V.Name) :
    OutInv rt' link.Dst.Node link.Dst.Port V.Name := by
  obtain ⟨val, sp, hh, _, _, _, hcase⟩ := connectPort_ok hc
  obtain ⟨hlm, hld⟩ := plan.findLink_some hfl
  have hold : ∀ (j : Nat) (li : Link), rt.heap[j]? = some li → rt'.heap[j]? = some li := by
    intro j li hj
    have hlt : j < rt.heap.length := (List.getElem?_eq_some.mp hj).1
    rw [hh, List.getElem?_append_left hlt]
    exact hj
  have hnew : rt'.heap[rt.heap.length]? = some ⟨q.Typ, l'.Src, l'.Dst, none, none, val⟩ := by
    rw [hh]; simp
  have hnosrc : ¬ (link.Dst.Node = l'.Src.Node ∧ link.Dst.Port = l'.Src.Port) := by
    rintro ⟨e1, e2⟩
    apply hf.dstNotSrc l' hlm
    cases hs : l'.Src
    cases hd : link.Dst
    rw [hs, hd] at e1 e2
    simp only at e1 e2
    rw [e1, e2]
  have hsame : (link.Dst.Node = dk ∧ link.Dst.Port = q.Name) → l' = link := by
    rintro ⟨e1, e2⟩
    apply List.inj_on_of_nodup_map wf.linkDsts hlm hf.mem
    rw [hld]
    exact (ref_eq_of e1.symm e2.symm).symm
  rcases hcase with ⟨src, hsrc, _, hv, _, hl⟩ | ⟨hnp, src, sv, hsrc, _, hsv, _, hv, hl⟩
  · constructor
    · intro j hj
      rw [hl, if_neg hnosrc] at hj
      by_cases c2 : link.Dst.Node = dk ∧ link.Dst.Port = q.Name
      · have he := hsame c2
        subst he
        obtain ⟨hm, hn⟩ := plan.findNode_some hsrc
        exact absurd (hn.trans hf.src) (hf.noProc src hm)
      · rw [if_neg c2] at hj
        have := hI.follows j hj
        simp only [Program.varOut, hv] at this ⊢
        exact this
    · intro W w j hW hj
      rw [hv] at hW
      obtain ⟨li, h1, h2⟩ := hI.outSrc W w j hW hj
      exact ⟨li, hold j li h1, h2⟩
  · constructor
    · intro j hj
      rw [hl] at hj
      by_cases c2 : link.Dst.Node = dk ∧ link.Dst.Port = q.Name
      · have he := hsame c2
        subst he
        rw [if_pos c2] at hj
        simp only [Program.varOut, hv, ← hf.src, mapGet_mapSet_self, Option.some_bind]
        exact hj
      · rw [if_neg c2] at hj
        have := hI.follows j hj
        have hne : l'.Src.Node ≠ V.Name := by
          intro he
          have := hf.single l' hlm he
          subst this
          exact c2 ⟨congrArg plan.Ref.Node hld, congrArg plan.Ref.Port hld⟩
        simp only [Program.varOut, hv, mapGet_mapSet_ne _ _ hne] at this ⊢
        exact this
    · intro W w j hW hj
      rw [hv, mapGet_mapSet] at hW
      by_cases hk : l'.Src.Node = W
      · simp only [hk, if_true, Option.some.injEq] at hW
        subst hW
        simp only [Option.some.injEq] at hj
        subst hj
        exact ⟨_, hnew, hk⟩
      · simp only [hk, if_false] at hW
        obtain ⟨li, h1, h2⟩ := hI.outSrc W w j hW hj
        exact ⟨li, hold j li h1, h2⟩

theorem connectVar_outInv {prog : plan.Pipe} {V : plan.Variable} {link : plan.Link}
    (hf : VarFeeds prog V link) {dk : String} {dv : Variable} {rt rt' : Program}
    (hdv : mapGet rt.vars dk = some dv) (hc : Program.connectVar prog dk dv rt = .ok rt')
    (hI : OutInv rt link.Dst.Node link.Dst.Port V.Name) :
    OutInv rt' link.Dst.Node link.Dst.Port V.Name := by
  obtain ⟨in0, _, hcase⟩ := connectVar_ok hdv hc
  rcases hcase with ⟨_, he⟩ | ⟨l', src, sp, hfl, _, _, _, hh, _, _, hv, hl⟩
  · rw [he]; exact hI
  · obtain ⟨hlm, _⟩ := plan.findLink_some hfl
    have hold : ∀ (j : Nat) (li : Link), rt.heap[j]? = some li → rt'.heap[j]? = some li := by
      intro j li hj
      have hlt : j < rt.heap.length := (List.getElem?_eq_some.mp hj).1
      rw [hh, List.getElem?_append_left hlt]
      exact hj
    have hnosrc : ¬ (link.Dst.Node = l'.Src.Node ∧ link.Dst.Port = l'.Src.Port) := by
      rintro ⟨e1, e2⟩
      apply hf.dstNotSrc l' hlm
      cases hs : l'.Src
      cases hd : link.Dst
      rw [hs, hd] at e1 e2
      simp only at e1 e2
      rw [e1, e2]
    have hout : ∀ W, (mapGet rt'.vars W).bind (fun v => v.Out)
        = (mapGet rt.vars W).bind (fun v => v.Out) := by
      intro W
      rw [hv, mapGet_mapSet]
      by_cases hk : dk = W
      · subst hk; simp [hdv]
      · simp [hk]
    constructor
    · intro j hj
      rw [hl, if_neg hnosrc] at hj
      have := hI.follows j hj
      simp only [Program.varOut] at this ⊢
      rw [hout]; exact this
    · intro W w j hW hj
      have hw : (mapGet rt.vars W).bind (fun v => v.Out) = some j := by
        rw [← hout, hW]; exact hj
      cases hg : mapGet rt.vars W with
      | none => rw [hg] at hw; cases hw
      | some w0 =>
        rw [hg] at hw
        obtain ⟨li, h1, h2⟩ := hI.outSrc W w0 j hg hw
        exact ⟨li, hold j li h1, h2⟩

/-- After the two connect passes: the instance under the dst port of the link is the
outbound link of the variable, and it names the variable as src. -/
theorem connect_outInv {prog : plan.Pipe} (wf : prog.WellFormed) {V : plan.Variable}
    {link : plan.Link} (hf : VarFeeds prog V link) {ks1 ks2 : List String} {r1 r2 : Program}
    (h1 : rangeProcs (Program.connectProc prog) ks1 (Program.create prog) = .ok r1)
    (h2 : rangeVars (Program.connectVar prog) ks2 r1 = .ok r2) :
    OutInv r2 link.Dst.Node link.Dst.Port V.Name := by
  obtain ⟨_, _, _, _, cp, cv, _, _⟩ := create_spec prog
  have h0 : OutInv (Program.create prog) link.Dst.Node link.Dst.Port V.Name := by
    constructor
    · intro j hj
      simp only [Program.linkAt] at hj
      cases hg : mapGet (Program.create prog).procs link.Dst.Node with
      | none => rw [hg] at hj; cases hj
      | some p =>
        rw [hg] at hj
        obtain ⟨_, _, _, he⟩ := cp _ p hg
        subst he
        cases hj
    · intro W w j hW hj
      obtain ⟨_, _, _, he⟩ := cv _ w hW
      subst he
      cases hj
  have hr1 : r1.FromPlan prog ∧ OutInv r1 link.Dst.Node link.Dst.Port V.Name := by
    refine rangeProcs_rel (fun a b => a.FromPlan prog ∧ OutInv a link.Dst.Node link.Dst.Port
        V.Name → b.FromPlan prog ∧ OutInv b link.Dst.Node link.Dst.Port V.Name)
      (fun _ h => h) (fun _ _ _ f g h => g (f h)) _ ?_ _ _ _ h1 ⟨fromPlan_create prog, h0⟩
    intro k p rt rt' hk hb hI
    have hname : p.Plan.Name = k := (hI.1.1 k p.Plan (by simp [Program.procPlan, hk])).2
    refine connectProcLoop_rel (fun a b => a.FromPlan prog ∧ OutInv a link.Dst.Node
        link.Dst.Port V.Name → b.FromPlan prog ∧ OutInv b link.Dst.Node link.Dst.Port V.Name)
      (fun _ h => h) (fun _ _ _ f g h => g (f h)) prog k p.Plan ?_ p.Plan.In rt rt'
      (fun _ hq => hq) hb hI
    intro inp l' a b _ hl hc hI2
    rw [hname] at hl
    exact ⟨fromPlan_of_sameNodes hI2.1 (connectPort_frame hc).nodes,
      connectPort_outInv wf hf hl hc hI2.2⟩
  refine rangeVars_rel (fun a b => OutInv a link.Dst.Node link.Dst.Port V.Name →
      OutInv b link.Dst.Node link.Dst.Port V.Name) (fun _ h => h)
    (fun _ _ _ f g h => g (f h)) _ ?_ _ _ _ h2 hr1.2
  intro k v a b hk hb hI
  exact connectVar_outInv hf hk hb hI

end osruntime

namespace osruntime

theorem heapFrame_forward {v : Variable} {heap heap' : List Link} (hf : HeapFrame v heap heap')
    {i : Nat} {li : Link} (h : heap[i]? = some li) :
    ∃ li' : Link, heap'[i]? = some li' ∧ li'.Typ = li.Typ ∧ li'.Src = li.Src ∧
      li'.Dst = li.Dst := by
  have hlt : i < heap'.length := by
    rw [hf.length]; exact (List.getElem?_eq_some.mp h).1
  obtain ⟨l, hl, h1, h2, h3⟩ := hf.skeleton i heap'[i] (List.getElem?_eq_getElem hlt)
  rw [h] at hl
  cases hl
  exact ⟨heap'[i], List.getElem?_eq_getElem hlt, h1, h2, h3⟩

/-- A successful `Bind` of any variable keeps the link of the `string` variable `V` in step
with the value of `V`. -/
theorem bindVar_valueInv {V : plan.Variable} (hty : V.Typ = some plan.TypeString) {j : Nat}
    {rt rt' : Program} {W : String} {w : Variable} {x : Option Value}
    (hW : mapGet rt.vars W = some w) (hb : rt.bindVar W w x = .ok rt')
    (hp : rt.varPlan V.Name = some V) (hI : ValueInv rt V.Name j) :
    ValueInv rt' V.Name j := by
  have hne : plan.TypeStream ≠ plan.TypeString := by decide
  obtain ⟨_, _, hv, _, hfr, hcase⟩ := bindVar_ok hb
  obtain ⟨v, li, hgv, hgl, hval⟩ := hI.value
  have hvout : v.Out = some j := by
    have := hI.out
    simp only [Program.varOut, hgv, Option.some_bind] at this
    exact this
  have hout : ∀ K, (mapGet rt'.vars K).bind (fun v => v.Out)
      = (mapGet rt.vars K).bind (fun v => v.Out) := by
    intro K
    rw [hv, mapGet_mapSet]
    by_cases hk : W = K
    · subst hk; simp [hW]
    · simp [hk]
  refine ⟨by simp only [Program.varOut]; rw [hout]; exact hI.out, ?_, ?_⟩
  · intro K k i hK hi
    have hk : (mapGet rt.vars K).bind (fun v => v.Out) = some i := by
      rw [← hout, hK]; exact hi
    cases hg : mapGet rt.vars K with
    | none => rw [hg] at hk; cases hk
    | some k0 =>
      rw [hg] at hk
      obtain ⟨l0, h1, h2⟩ := hI.outSrc K k0 i hg hk
      obtain ⟨l1, g1, _, g2, _⟩ := heapFrame_forward hfr h1
      exact ⟨l1, g1, (congrArg plan.Ref.Node g2).trans h2⟩
  · obtain ⟨li', hli', _, _, _⟩ := heapFrame_forward hfr hgl
    by_cases hk : W = V.Name
    · subst hk
      have hwv : w = v := by
        rw [hgv] at hW
        exact (Option.some.inj hW).symm
      subst hwv
      refine ⟨{ w with Value := x }, li', by rw [hv]; exact mapGet_mapSet_self _ _ _, hli',
        Or.inr ?_⟩
      have hplan : w.Plan = V := by
        simp only [Program.varPlan, hgv, Option.map_some', Option.some.injEq] at hp
        exact hp
      rcases hcase with ⟨ht, _⟩ | ⟨_, _, hset, _⟩
      · rw [hplan, hty] at ht
        exact absurd (Option.some.inj ht).symm hne
      · exact hset j li' hvout hli'
    · refine ⟨v, li', by rw [hv, mapGet_mapSet_ne _ _ hk]; exact hgv, hli', ?_⟩
      have hsame : li'.Value = li.Value := by
        rcases hcase with ⟨_, _, hvals⟩ | ⟨_, _, _, hoth, _⟩
        · obtain ⟨l, hl, he⟩ := hvals j li' hli'
          rw [hgl] at hl
          cases hl
          exact he
        · have hwo : w.Out ≠ some j := by
            intro hwj
            obtain ⟨l1, g1, g2⟩ := hI.outSrc W w j hW hwj
            obtain ⟨l2, k1, k2⟩ := hI.outSrc V.Name v j hgv hvout
            rw [g1] at k1
            cases k1
            exact hk (g2.symm.trans k2)
          have := hoth j hwo
          rw [hli', hgl] at this
          exact congrArg Link.Value (Option.some.inj this)
      rcases hval with h | h
      · exact Or.inl h
      · exact Or.inr (hsame.trans h)

/-- The preset pass binds a variable that has a preset to that preset. -/
theorem bindPresets_bound (presets : List (String × Option Value)) (V : String)
    (x : Option Value) (hx : mapGet presets V = some x) :
    ∀ (ks : List String) (rt rt' : Program), bindPresets presets ks rt = .ok rt' →
      (∀ v, mapGet rt.vars V = some v → v.Value = x →
        ∃ v', mapGet rt'.vars V = some v' ∧ v'.Value = x) ∧
      (V ∈ ks → (∃ v, mapGet rt.vars V = some v) →
        (∃ v', mapGet rt'.vars V = some v' ∧ v'.Value = x) ∧ x ≠ none) := by
  intro ks
  induction ks with
  | nil =>
    intro rt rt' h
    cases h
    exact ⟨fun v hv he => ⟨v, hv, he⟩, fun hm => absurd hm (List.not_mem_nil _)⟩
  | cons k ks ih =>
    intro rt rt' h
    unfold bindPresets at h
    cases hp : mapGet presets k with
    | none =>
      rw [hp] at h
      obtain ⟨i1, i2⟩ := ih rt rt' h
      refine ⟨i1, fun hm hv => ?_⟩
      rcases List.mem_cons.mp hm with he | he
      · subst he; rw [hp] at hx; cases hx
      · exact i2 he hv
    | some value =>
      rw [hp] at h
      simp only at h
      cases hk : mapGet rt.vars k with
      | none =>
        rw [hk] at h
        obtain ⟨i1, i2⟩ := ih rt rt' h
        refine ⟨i1, fun hm hv => ?_⟩
        rcases List.mem_cons.mp hm with he | he
        · subst he; obtain ⟨v, hv⟩ := hv; rw [hk] at hv; cases hv
        · exact i2 he hv
      | some vr =>
        rw [hk] at h
        obtain ⟨rt1, h1, h2⟩ := Result.bind_eq_ok h
        obtain ⟨i1, i2⟩ := ih rt1 rt' h2
        obtain ⟨_, _, hv1, hnn, _, _⟩ := bindVar_ok h1
        by_cases he : k = V
        · subst he
          rw [hx] at hp
          cases hp
          have hnow : mapGet rt1.vars k = some { vr with Value := x } := by
            rw [hv1]; exact mapGet_mapSet_self _ _ _
          exact ⟨fun _ _ _ => i1 _ hnow rfl, fun _ _ => ⟨i1 _ hnow rfl, hnn⟩⟩
        · have hsame : mapGet rt1.vars V = mapGet rt.vars V := by
            rw [hv1]; exact mapGet_mapSet_ne _ _ he
          refine ⟨fun v hv hval => i1 v (by rw [hsame]; exact hv) hval, fun hm hv => ?_⟩
          rcases List.mem_cons.mp hm with he2 | he2
          · exact absurd he2.symm he
          · exact i2 he2 (by rw [hsame]; exact hv)

theorem C9_counterexample :
    (∃ rt v li, Build varFanOutPlan [("V", some (.str "hello"))] Env.allOk Schedule.inOrder
        = .ok rt ∧
      (⟨⟨"V", "v"⟩, ⟨"A", "i"⟩⟩ : plan.Link) ∈ varFanOutPlan.Links ∧
      mapGet rt.vars "V" = some v ∧ v.Plan.Typ = some plan.TypeString ∧
      v.Value = some (.str "hello") ∧
      rt.linkAt "A" "i" = some 0 ∧ rt.heap[0]? = some li ∧ li.Value = none) ∧
    (VarFeeds varDroppedPlan ⟨⟨"V", [⟨"v", "string"⟩], []⟩, "dflt"⟩ ⟨⟨"V", "v"⟩, ⟨"A", "i"⟩⟩ ∧
      ∃ rt v, Build varDroppedPlan [("V", some (.str "hello"))] Env.allOk Schedule.inOrder
          = .ok rt ∧
        mapGet rt.vars "V" = some v ∧ v.Value = some (.str "hello") ∧
        rt.linkAt "A" "i" = none ∧ rt.heap = []) :=
  ⟨⟨_, _, _, rfl, by decide, rfl, rfl, rfl, rfl, rfl, rfl⟩,
   ⟨by decide, rfl, by decide, by decide, by decide⟩, _, _, rfl, rfl, rfl, rfl, rfl⟩

/-- In a well-formed plan let `link` be the one link that leaves the `string` variable `V`.
After a successful `Build`, a link instance stored on the dst process under the dst port
name carries the bound value of `V`: the preset value when the preset map has an entry for
`V`, otherwise the plan default of `V`. -/
theorem Build_link_value (prog : plan.Pipe) (presets : List (String × Option Value))
    (env : Env) (sched : Schedule) (hv : sched.Valid) (wf : prog.WellFormed)
    (V : plan.Variable) (link : plan.Link) (hV : V ∈ prog.Vars)
    (hty : V.Typ = some plan.TypeString) (hf : VarFeeds prog V link) (rt : Program)
    (h : Build prog presets env sched = .ok rt) (j : Nat)
    (hj : rt.linkAt link.Dst.Node link.Dst.Port = some j) :
    ∃ li v, rt.heap[j]? = some li ∧ mapGet rt.vars V.Name = some v ∧ li.Value = v.Value ∧
      v.Value = (match mapGet presets V.Name with
        | some x => x
        | none => some (.str V.Default)) := by
  obtain ⟨r1, r2, r3, r4, r5, h1, h2, h3, h4, h5, h6⟩ := Build_ok_stages h
  have f1 := connectProcs_frame h1
  have f2 := connectVars_frame h2
  have f3 := bindPresets_frame h3
  obtain ⟨b1, b2, _, b4, b5, b6⟩ := bindDefaults_pass env _ r3 r4 h4
  obtain ⟨i1, i2⟩ := initProcs_frame h5
  obtain ⟨c1, c2, _, _, c5⟩ := setCmds_frame h6
  -- the instance is there since the connect passes
  have hlink : ∀ a : Program, a.procs = r2.procs → a.linkAt link.Dst.Node link.Dst.Port
      = r2.linkAt link.Dst.Node link.Dst.Port := by
    intro a ha
    simp only [Program.linkAt, ha]
  have hj2 : r2.linkAt link.Dst.Node link.Dst.Port = some j := by
    rw [← hlink r5 (i1.trans (b2.trans f3.procs)), ← c5]
    exact hj
  have hO := connect_outInv wf hf h1 h2
  have hout2 := hO.follows j hj2
  have hi2 : r2.Instantiates prog :=
    instantiates_of_sameNodes (instantiates_create wf) (sameNodes_trans f1.nodes f2.nodes)
  obtain ⟨v2, hv2, hpl2⟩ := varPlan_some (hi2.2 V hV)
  have hv2out : v2.Out = some j := by
    simp only [Program.varOut, hv2, Option.some_bind] at hout2
    exact hout2
  obtain ⟨l2, hl2, _⟩ := hO.outSrc V.Name v2 j hv2 hv2out
  have hval2 : v2.Value = none := by
    have e2 := f2.values V.Name
    have e1 := f1.values V.Name
    rw [hv2] at e2
    rw [e1] at e2
    obtain ⟨_, _, _, _, _, cv, _, _⟩ := create_spec prog
    cases hc : mapGet (Program.create prog).vars V.Name with
    | none => rw [hc] at e2; simp at e2
    | some vc =>
      rw [hc] at e2
      obtain ⟨_, _, _, he⟩ := cv _ vc hc
      subst he
      simpa using e2
  have hK2 : r2.varPlan V.Name = some V ∧ ValueInv r2 V.Name j :=
    ⟨hi2.2 V hV, hout2, hO.outSrc, v2, l2, hv2, hl2, Or.inl hval2⟩
  have hK3 : r3.varPlan V.Name = some V ∧ ValueInv r3 V.Name j := by
    refine bindPresets_rel (fun a b => a.varPlan V.Name = some V ∧ ValueInv a V.Name j →
        b.varPlan V.Name = some V ∧ ValueInv b V.Name j) (fun _ h => h)
      (fun _ _ _ f g h => g (f h)) presets ?_ _ _ _ h3 hK2
    intro k v value a b _ hk hb hI
    exact ⟨((bindVar_sameNodes hk hb).varPlan _).trans hI.1,
      bindVar_valueInv hty hk hb hI.1 hI.2⟩
  have hK4 : r4.varPlan V.Name = some V ∧ ValueInv r4 V.Name j := by
    refine rangeVars_rel (fun a b => a.varPlan V.Name = some V ∧ ValueInv a V.Name j →
        b.varPlan V.Name = some V ∧ ValueInv b V.Name j) (fun _ h => h)
      (fun _ _ _ f g h => g (f h)) _ ?_ _ _ _ h4 hK3
    intro k v a b hk hb hI
    rcases bindDefaultsChecked_ok hk hb with ⟨he, _⟩ | ⟨_, value, hbind, _⟩
    · rw [he]; exact hI
    · exact ⟨((bindVar_sameNodes hk hbind).varPlan _).trans hI.1,
        bindVar_valueInv hty hk hbind hI.1 hI.2⟩
  obtain ⟨v4, l4, hv4, hl4, hval4⟩ := hK4.2.value
  -- the value of the variable after the binding passes
  obtain ⟨v3, hv3, hpl3⟩ := varPlan_some hK3.1
  have hmem3 : V.Name ∈ sched.bindVars (mapKeys r3.vars) :=
    (hv.bindVars _).mem_iff.mpr ((mapGet_isSome_iff _ _).mp ⟨v3, hv3⟩)
  have hfinal : v4.Value = (match mapGet presets V.Name with
      | some x => x
      | none => some (.str V.Default)) := by
    cases hp : mapGet presets V.Name with
    | some x =>
      simp only
      have hmemp : V.Name ∈ sched.presets (mapKeys presets) :=
        (hv.presets _).mem_iff.mpr ((mapGet_isSome_iff _ _).mp ⟨x, hp⟩)
      obtain ⟨⟨v3', hv3', hx3⟩, hxn⟩ :=
        (bindPresets_bound presets V.Name x hp _ r2 r3 h3).2 hmemp ⟨v2, hv2⟩
      have hvv : v3' = v3 := by
        rw [hv3] at hv3'
        exact (Option.some.inj hv3').symm
      subst hvv
      have hne : v3'.Value ≠ none := by rw [hx3]; exact hxn
      have := b4 V.Name v3' hv3 hne
      rw [hv4] at this
      cases this
      exact hx3
    | none =>
      simp only
      have e3 := f3.noPreset V.Name hp
      rw [hv3, hv2] at e3
      have hval3 : v3.Value = none := by rw [Option.some.inj e3]; exact hval2
      obtain ⟨v', hv', hval'⟩ := b6 V.Name v3 hmem3 hv3 hval3 (by rw [hpl3]; exact hty)
      rw [hv4] at hv'
      cases hv'
      rw [hval', hpl3]
  have hne4 : v4.Value ≠ none := b5 V.Name v4 hmem3 hv4
  have hcarry : l4.Value = v4.Value := by
    rcases hval4 with h | h
    · exact absurd h hne4
    · exact h
  -- the last two passes leave the value alone
  have hskel5 : ∀ (i : Nat) (l' : Link), r5.heap[i]? = some l' →
      ∃ l : Link, r4.heap[i]? = some l ∧ l'.Value = l.Value := by
    refine rangeProcs_rel (fun a b => ∀ (i : Nat) (l' : Link), b.heap[i]? = some l' →
        ∃ l : Link, a.heap[i]? = some l ∧ l'.Value = l.Value)
      (fun _ i l' h => ⟨l', h, rfl⟩)
      (fun _ _ _ f g i l' h => by
        obtain ⟨l1, g1, e1⟩ := g i l' h
        obtain ⟨l2, g2, e2⟩ := f i l1 g1
        exact ⟨l2, g2, e1.trans e2⟩) _ ?_ _ _ _ h5
    intro k p a b _ hb
    refine initLinks_rel (fun a b => ∀ (i : Nat) (l' : Link), b.heap[i]? = some l' →
        ∃ l : Link, a.heap[i]? = some l ∧ l'.Value = l.Value)
      (fun _ i l' h => ⟨l', h, rfl⟩)
      (fun _ _ _ f g i l' h => by
        obtain ⟨l1, g1, e1⟩ := g i l' h
        obtain ⟨l2, g2, e2⟩ := f i l1 g1
        exact ⟨l2, g2, e1.trans e2⟩) env p ?_ _ a b hb
    intro port a b hi i l' hl'
    obtain ⟨l, hl, _, _, _, e⟩ := initLink_skeleton hi i l' hl'
    exact ⟨l, hl, e⟩
  have hlen5 : r5.heap.length = r4.heap.length := by
    refine rangeProcs_rel (fun a b => b.heap.length = a.heap.length) (fun _ => rfl)
      (fun _ _ _ f g => g.trans f) _ ?_ _ _ _ h5
    intro k p a b _ hb
    refine initLinks_rel (fun a b => b.heap.length = a.heap.length) (fun _ => rfl)
      (fun _ _ _ f g => g.trans f) env p ?_ _ a b hb
    intro port a b hi
    obtain ⟨_, _, hcase⟩ := initLink_ok hi
    rcases hcase with he | ⟨_, _, _, _, _, _, hh, _⟩
    · rw [he]
    · rw [hh]; simp [setWr, setRd]
  have hlt : j < r5.heap.length := by
    rw [hlen5]; exact (List.getElem?_eq_some.mp hl4).1
  obtain ⟨l, hl, he⟩ := hskel5 j r5.heap[j] (List.getElem?_eq_getElem hlt)
  rw [hl4] at hl
  cases hl
  refine ⟨r5.heap[j], v4, by rw [c2]; exact List.getElem?_eq_getElem hlt,
    by rw [c1, i2]; exact hv4, he.trans hcarry, hfinal⟩

end osruntime

namespace osruntime

/-! ## One pipe per stream link (claim C5) -/

theorem setProcLink_nodup {rt rt' : Program} {Q k : String} {l : Nat}
    (h : rt.setProcLink Q k l = .ok rt') (hn : rt.LinksNodup) : rt'.LinksNodup := by
  unfold Program.setProcLink at h
  cases hq : mapGet rt.procs Q with
  | none => rw [hq] at h; cases h
  | some p =>
    rw [hq] at h
    cases h
    intro Q' p' hp'
    simp only [mapGet_mapSet] at hp'
    by_cases hk : Q = Q'
    · simp only [hk, if_true, Option.some.injEq] at hp'
      subst hp'
      exact mapKeys_mapSet_nodup _ _ _ (hn Q p hq)
    · simp only [hk, if_false] at hp'
      exact hn Q' p' hp'

theorem linksNodup_of_procs {a b : Program} (h : b.procs = a.procs) (hn : a.LinksNodup) :
    b.LinksNodup := by
  intro Q p hp
  rw [h] at hp
  exact hn Q p hp

theorem connectPort_nodup {prog : plan.Pipe} {dk : String} {inp : plan.Port}
    {link : plan.Link} {rt rt' : Program} (h : connectPort prog dk inp link rt = .ok rt')
    (hn : rt.LinksNodup) : rt'.LinksNodup := by
  unfold connectPort at h
  simp only at h
  obtain ⟨rt2, h2, h⟩ := Result.bind_eq_ok h
  have hn2 : rt2.LinksNodup := setProcLink_nodup h2 (linksNodup_of_procs rfl hn)
  cases hsrc : prog.FindProc link.Src.Node with
  | some src =>
    rw [hsrc] at h
    simp only at h
    obtain ⟨rt3, h3, h⟩ := Result.bind_eq_ok h
    have hn3 := setProcLink_nodup h3 hn2
    unfold checkPortType at h
    split at h
    · cases h
    · split at h
      · cases h
      · cases h; exact hn3
  | none =>
    rw [hsrc] at h
    simp only at h
    split at h
    · split at h
      · cases h
      · unfold checkPortType at h
        split at h
        · cases h
        · split at h
          · cases h
          · cases h; exact linksNodup_of_procs rfl hn2
    · cases h

theorem connectVar_nodup {prog : plan.Pipe} {dk : String} {dv : Variable} {rt rt' : Program}
    (h : Program.connectVar prog dk dv rt = .ok rt') (hn : rt.LinksNodup) :
    rt'.LinksNodup := by
  unfold Program.connectVar at h
  simp only at h
  split at h
  · cases h
  · split at h
    · cases h; exact hn
    · split at h
      · obtain ⟨rt2, h2, h⟩ := Result.bind_eq_ok h
        have hn2 : rt2.LinksNodup := setProcLink_nodup h2 (linksNodup_of_procs rfl hn)
        split at h
        · cases h
        · split at h
          · cases h
          · cases h; exact hn2
      · cases h

theorem connect_nodup {prog : plan.Pipe} {ks1 ks2 : List String} {r1 r2 : Program}
    (h1 : rangeProcs (Program.connectProc prog) ks1 (Program.create prog) = .ok r1)
    (h2 : rangeVars (Program.connectVar prog) ks2 r1 = .ok r2) : r2.LinksNodup := by
  obtain ⟨_, _, _, _, cp, _, _, _⟩ := create_spec prog
  have h0 : (Program.create prog).LinksNodup := by
    intro Q p hp
    obtain ⟨_, _, _, he⟩ := cp Q p hp
    subst he
    exact List.nodup_nil
  have hr1 : r1.LinksNodup := by
    refine rangeProcs_rel (fun a b => a.LinksNodup → b.LinksNodup) (fun _ h => h)
      (fun _ _ _ f g h => g (f h)) _ ?_ _ _ _ h1 h0
    intro k p rt rt' _ hb
    refine connectProcLoop_rel (fun a b => a.LinksNodup → b.LinksNodup) (fun _ h => h)
      (fun _ _ _ f g h => g (f h)) prog k p.Plan ?_ p.Plan.In rt rt' (fun _ hq => hq) hb
    intro inp l' a b _ _ hc
    exact connectPort_nodup hc
  refine rangeVars_rel (fun a b => a.LinksNodup → b.LinksNodup) (fun _ h => h)
    (fun _ _ _ f g h => g (f h)) _ ?_ _ _ _ h2 hr1
  intro k v a b _ hb
  exact connectVar_nodup hb

end osruntime

namespace osruntime

theorem ref_ext {r s : plan.Ref} (h1 : r.Node = s.Node) (h2 : r.Port = s.Port) : r = s := by
  cases r
  cases s
  simp only at h1 h2
  rw [h1, h2]

theorem connectPort_pairInv {prog : plan.Pipe} (wf : prog.WellFormed) {link : plan.Link}
    (hf : ProcFeeds prog link) {dk : String} {dst : plan.Process} {q : plan.Port}
    {l' : plan.Link} {rt rt' : Program} (hdst : dst ∈ prog.Procs) (hname : dst.Name = dk)
    (hq : q ∈ dst.In) (hfl : prog.FindLink ⟨dk, q.Name⟩ = some l')
    (hc : connectPort prog dk q l' rt = .ok rt') (hI : PairInv rt link) :
    PairInv rt' link := by
  obtain ⟨val, sp, hh, _, _, _, hcase⟩ := connectPort_ok hc
  obtain ⟨hlm, hld⟩ := plan.findLink_some hfl
  have hold : ∀ (j : Nat), j < rt.heap.length → rt'.heap[j]? = rt.heap[j]? := by
    intro j hlt
    rw [hh, List.getElem?_append_left hlt]
  have hnew : rt'.heap[rt.heap.length]? = some ⟨q.Typ, l'.Src, l'.Dst, none, none, val⟩ := by
    rw [hh]; simp
  have hlen : rt'.heap.length = rt.heap.length + 1 := by rw [hh]; simp
  have hnosrc : ¬ (link.Dst.Node = l'.Src.Node ∧ link.Dst.Port = l'.Src.Port) :=
    fun ⟨e1, e2⟩ => hf.dstNotSrc l' hlm (ref_ext e1.symm e2.symm)
  have hsame : (link.Dst.Node = dk ∧ link.Dst.Port = q.Name) → l' = link := by
    rintro ⟨e1, e2⟩
    apply List.inj_on_of_nodup_map wf.linkDsts hlm hf.mem
    rw [hld]
    exact (ref_ext e1 e2).symm
  have hsrcsame : (link.Src.Node = l'.Src.Node ∧ link.Src.Port = l'.Src.Port) → l' = link :=
    fun ⟨e1, e2⟩ => hf.single l' hlm (ref_ext e1.symm e2.symm)
  have hsrcdst : ¬ (link.Src.Node = dk ∧ link.Src.Port = q.Name) := by
    rintro ⟨e1, e2⟩
    apply hf.srcNotDst l' hlm
    rw [hld]
    exact (ref_ext e1 e2).symm
  have hdstOf : l' = link → (link.Dst.Node = dk ∧ link.Dst.Port = q.Name) := by
    intro he
    subst he
    exact ⟨congrArg plan.Ref.Node hld, congrArg plan.Ref.Port hld⟩
  rcases hcase with ⟨src, hsrc, _, _, _, hl⟩ | ⟨hnp, src, sv, _, _, _, _, _, hl⟩
  · by_cases c2 : link.Dst.Node = dk ∧ link.Dst.Port = q.Name
    · have he := hsame c2
      have hD : rt'.linkAt link.Dst.Node link.Dst.Port = some rt.heap.length := by
        rw [hl, if_neg hnosrc, if_pos c2]
      have hS : rt'.linkAt link.Src.Node link.Src.Port = some rt.heap.length := by
        rw [hl, if_pos (by rw [he]; exact ⟨rfl, rfl⟩)]
      refine ⟨?_, ?_, ?_, ?_⟩
      · intro j hj
        rw [hD] at hj
        rw [hS]; exact hj
      · intro j hj
        rw [hD] at hj
        cases hj
        refine ⟨_, hnew, ?_, by rw [he], by rw [he]⟩
        exact hf.stream dst hdst (hname.trans c2.1.symm) q hq c2.2.symm
      · intro Q k j hj hQ
        rw [hD] at hj
        cases hj
        rw [hl] at hQ
        by_cases d1 : Q = l'.Src.Node ∧ k = l'.Src.Port
        · rw [he] at d1; exact Or.inr d1
        · rw [if_neg d1] at hQ
          by_cases d2 : Q = dk ∧ k = q.Name
          · exact Or.inl ⟨d2.1.trans c2.1.symm, d2.2.trans c2.2.symm⟩
          · rw [if_neg d2] at hQ
            exact absurd (hI.bound Q k _ hQ) (Nat.lt_irrefl _)
      · intro Q k i hQ
        rw [hl] at hQ
        rw [hlen]
        split at hQ
        · cases hQ; exact Nat.lt_succ_self _
        · split at hQ
          · cases hQ; exact Nat.lt_succ_self _
          · exact Nat.lt_succ_of_lt (hI.bound Q k i hQ)
    · have hD : rt'.linkAt link.Dst.Node link.Dst.Port
          = rt.linkAt link.Dst.Node link.Dst.Port := by
        rw [hl, if_neg hnosrc, if_neg c2]
      have hS : rt'.linkAt link.Src.Node link.Src.Port
          = rt.linkAt link.Src.Node link.Src.Port := by
        rw [hl, if_neg (fun d => c2 (hdstOf (hsrcsame d))), if_neg hsrcdst]
      refine ⟨?_, ?_, ?_, ?_⟩
      · intro j hj
        rw [hD] at hj
        rw [hS]; exact hI.follows j hj
      · intro j hj
        rw [hD] at hj
        obtain ⟨li, h1, h2⟩ := hI.cell j hj
        exact ⟨li, by rw [hold j (List.getElem?_eq_some.mp h1).1]; exact h1, h2⟩
      · intro Q k j hj hQ
        rw [hD] at hj
        have hjlt := hI.bound _ _ j hj
        rw [hl] at hQ
        split at hQ
        · cases hQ; exact absurd hjlt (Nat.lt_irrefl _)
        · split at hQ
          · cases hQ; exact absurd hjlt (Nat.lt_irrefl _)
          · exact hI.holders Q k j hj hQ
      · intro Q k i hQ
        rw [hl] at hQ
        rw [hlen]
        split at hQ
        · cases hQ; exact Nat.lt_succ_self _
        · split at hQ
          · cases hQ; exact Nat.lt_succ_self _
          · exact Nat.lt_succ_of_lt (hI.bound Q k i hQ)
  · have c2 : ¬ (link.Dst.Node = dk ∧ link.Dst.Port = q.Name) := by
      intro c
      have he := hsame c
      subst he
      obtain ⟨S, hS, hn⟩ := hf.srcProc
      have := plan.findProc_of_mem wf hS
      rw [hn, hnp] at this
      cases this
    have hD : rt'.linkAt link.Dst.Node link.Dst.Port
        = rt.linkAt link.Dst.Node link.Dst.Port := by
      rw [hl, if_neg c2]
    have hS : rt'.linkAt link.Src.Node link.Src.Port
        = rt.linkAt link.Src.Node link.Src.Port := by
      rw [hl, if_neg hsrcdst]
    refine ⟨?_, ?_, ?_, ?_⟩
    · intro j hj
      rw [hD] at hj
      rw [hS]; exact hI.follows j hj
    · intro j hj
      rw [hD] at hj
      obtain ⟨li, h1, h2⟩ := hI.cell j hj
      exact ⟨li, by rw [hold j (List.getElem?_eq_some.mp h1).1]; exact h1, h2⟩
    · intro Q k j hj hQ
      rw [hD] at hj
      have hjlt := hI.bound _ _ j hj
      rw [hl] at hQ
      split at hQ
      · cases hQ; exact absurd hjlt (Nat.lt_irrefl _)
      · exact hI.holders Q k j hj hQ
    · intro Q k i hQ
      rw [hl] at hQ
      rw [hlen]
      split at hQ
      · cases hQ; exact Nat.lt_succ_self _
      · exact Nat.lt_succ_of_lt (hI.bound Q k i hQ)

theorem connectVar_pairInv {prog : plan.Pipe} {link : plan.Link} (hf : ProcFeeds prog link)
    {dk : String} {dv : Variable} {rt rt' : Program} (hdv : mapGet rt.vars dk = some dv)
    (hV : dv.Plan ∈ prog.Vars) (hc : Program.connectVar prog dk dv rt = .ok rt')
    (hI : PairInv rt link) : PairInv rt' link := by
  obtain ⟨in0, _, hcase⟩ := connectVar_ok hdv hc
  rcases hcase with ⟨_, he⟩ | ⟨l', src, sp, hfl, _, _, _, hh, _, _, _, hl⟩
  · rw [he]; exact hI
  · obtain ⟨hlm, hld⟩ := plan.findLink_some hfl
    have hold : ∀ (j : Nat), j < rt.heap.length → rt'.heap[j]? = rt.heap[j]? := by
      intro j hlt
      rw [hh, List.getElem?_append_left hlt]
    have hlen : rt'.heap.length = rt.heap.length + 1 := by rw [hh]; simp
    have hnosrc : ¬ (link.Dst.Node = l'.Src.Node ∧ link.Dst.Port = l'.Src.Port) :=
      fun ⟨e1, e2⟩ => hf.dstNotSrc l' hlm (ref_ext e1.symm e2.symm)
    have hsrc : ¬ (link.Src.Node = l'.Src.Node ∧ link.Src.Port = l'.Src.Port) := by
      rintro ⟨e1, e2⟩
      have he := hf.single l' hlm (ref_ext e1.symm e2.symm)
      subst he
      exact hf.noVar dv.Plan hV (congrArg plan.Ref.Node hld).symm
    have hD : rt'.linkAt link.Dst.Node link.Dst.Port
        = rt.linkAt link.Dst.Node link.Dst.Port := by
      rw [hl, if_neg hnosrc]
    have hS : rt'.linkAt link.Src.Node link.Src.Port
        = rt.linkAt link.Src.Node link.Src.Port := by
      rw [hl, if_neg hsrc]
    refine ⟨?_, ?_, ?_, ?_⟩
    · intro j hj
      rw [hD] at hj
      rw [hS]; exact hI.follows j hj
    · intro j hj
      rw [hD] at hj
      obtain ⟨li, h1, h2⟩ := hI.cell j hj
      exact ⟨li, by rw [hold j (List.getElem?_eq_some.mp h1).1]; exact h1, h2⟩
    · intro Q k j hj hQ
      rw [hD] at hj
      have hjlt := hI.bound _ _ j hj
      rw [hl] at hQ
      split at hQ
      · cases hQ; exact absurd hjlt (Nat.lt_irrefl _)
      · exact hI.holders Q k j hj hQ
    · intro Q k i hQ
      rw [hl] at hQ
      rw [hlen]
      split at hQ
      · cases hQ; exact Nat.lt_succ_self _
      · exact Nat.lt_succ_of_lt (hI.bound Q k i hQ)

/-- After the two connect passes the two entries of the link are one instance. -/
theorem connect_pairInv {prog : plan.Pipe} (wf : prog.WellFormed) {link : plan.Link}
    (hf : ProcFeeds prog link) {ks1 ks2 : List String} {r1 r2 : Program}
    (h1 : rangeProcs (Program.connectProc prog) ks1 (Program.create prog) = .ok r1)
    (h2 : rangeVars (Program.connectVar prog) ks2 r1 = .ok r2) :
    r2.FromPlan prog ∧ PairInv r2 link := by
  obtain ⟨_, _, _, _, cp, _, _, _⟩ := create_spec prog
  have hnone : ∀ Q k, (Program.create prog).linkAt Q k = none := by
    intro Q k
    simp only [Program.linkAt]
    cases hg : mapGet (Program.create prog).procs Q with
    | none => rfl
    | some p =>
      obtain ⟨_, _, _, he⟩ := cp _ p hg
      subst he
      rfl
  have h0 : PairInv (Program.create prog) link := by
    refine ⟨?_, ?_, ?_, ?_⟩
    · intro j hj; rw [hnone] at hj; cases hj
    · intro j hj; rw [hnone] at hj; cases hj
    · intro Q k j hj; rw [hnone] at hj; cases hj
    · intro Q k i hi; rw [hnone] at hi; cases hi
  have hr1 : r1.FromPlan prog ∧ PairInv r1 link := by
    refine rangeProcs_rel (fun a b => a.FromPlan prog ∧ PairInv a link →
        b.FromPlan prog ∧ PairInv b link)
      (fun _ h => h) (fun _ _ _ f g h => g (f h)) _ ?_ _ _ _ h1 ⟨fromPlan_create prog, h0⟩
    intro k p rt rt' hk hb hI
    obtain ⟨hdst, hname⟩ := hI.1.1 k p.Plan (by simp [Program.procPlan, hk])
    refine connectProcLoop_rel (fun a b => a.FromPlan prog ∧ PairInv a link →
        b.FromPlan prog ∧ PairInv b link)
      (fun _ h => h) (fun _ _ _ f g h => g (f h)) prog k p.Plan ?_ p.Plan.In rt rt'
      (fun _ hq => hq) hb hI
    intro inp l' a b hinp hl hc hI2
    rw [hname] at hl
    exact ⟨fromPlan_of_sameNodes hI2.1 (connectPort_frame hc).nodes,
      connectPort_pairInv wf hf hdst hname hinp hl hc hI2.2⟩
  refine rangeVars_rel (fun a b => a.FromPlan prog ∧ PairInv a link →
      b.FromPlan prog ∧ PairInv b link) (fun _ h => h)
    (fun _ _ _ f g h => g (f h)) _ ?_ _ _ _ h2 hr1
  intro k v a b hk hb hI
  exact ⟨fromPlan_of_sameNodes hI.1 (connectVar_frame hk hb).nodes,
    connectVar_pairInv hf hk (hI.1.2 k v.Plan (by simp [Program.varPlan, hk])).1 hb hI.2⟩

end osruntime

namespace osruntime

theorem count_append_singleton_ne (l : List Nat) {a j : Nat} (h : a ≠ j) :
    (l ++ [a]).count j = l.count j := by
  rw [List.count_append, List.count_singleton]
  have : (a == j) = false := by simpa using h
  simp [this]

theorem count_append_singleton_self (l : List Nat) (j : Nat) :
    (l ++ [j]).count j = l.count j + 1 := by
  rw [List.count_append, List.count_singleton]
  simp

/-- An iteration of `initProcStreams` whose entry is a `stream` instance with this process
as dst and a process as src creates a pipe. -/
theorem initLink_create {env : Env} {p : Process} {k : String} {rt rt' : Program} {j : Nat}
    {li : Link} (hk : mapGet p.Links k = some j) (hh : rt.heap[j]? = some li)
    (ht : li.Typ = plan.TypeStream) (hd : li.Dst.Node = p.Plan.Name)
    (hs : ∃ s, mapGet rt.procs li.Src.Node = some s) (hi : initLink env p k rt = .ok rt') :
    rt'.heap = setWr (setRd rt.heap j (.pipeRd rt.pipes.length)) j (.pipeWr rt.pipes.length) ∧
    rt'.pipes = rt.pipes ++ [j] := by
  obtain ⟨s, hs⟩ := hs
  unfold initLink at hi
  rw [hk] at hi
  simp only at hi
  rw [hh] at hi
  simp only [ht, hd, hs, Option.isSome_some, and_self, if_true] at hi
  split at hi
  · cases hi; exact ⟨rfl, rfl⟩
  · cases hi

theorem initLink_track {link : plan.Link} (hdist : link.Src.Node ≠ link.Dst.Node) {env : Env}
    {p : Process} {Q k : String} {rt rt' : Program} {j : Nat} (hname : p.Plan.Name = Q)
    (hcell : StreamCell rt link j)
    (hhold : mapGet p.Links k = some j →
      (Q = link.Dst.Node ∧ k = link.Dst.Port) ∨ (Q = link.Src.Node ∧ k = link.Src.Port))
    (hsrc : ∃ s, mapGet rt.procs link.Src.Node = some s)
    (hi : initLink env p k rt = .ok rt') :
    StreamCell rt' link j ∧ rt'.procs = rt.procs ∧
    (¬ (Q = link.Dst.Node ∧ k = link.Dst.Port) →
      (PipeFresh rt j → PipeFresh rt' j) ∧ (PipeDone rt j → PipeDone rt' j)) ∧
    ((Q = link.Dst.Node ∧ k = link.Dst.Port) → mapGet p.Links k = some j →
      PipeFresh rt j → PipeDone rt' j) := by
  obtain ⟨li, hli, hty, hsrcE, hdstE⟩ := hcell
  obtain ⟨hprocs, _, hcase⟩ := initLink_ok hi
  have hcreate : mapGet p.Links k = some j → li.Dst.Node = p.Plan.Name →
      rt'.heap = setWr (setRd rt.heap j (.pipeRd rt.pipes.length)) j
        (.pipeWr rt.pipes.length) ∧ rt'.pipes = rt.pipes ++ [j] :=
    fun hk hd => initLink_create hk hli hty hd (by rw [hsrcE]; exact hsrc) hi
  have hget : ∀ n : Nat, (setWr (setRd rt.heap j (.pipeRd n)) j (.pipeWr n))[j]?
      = some { li with Rd := some (.pipeRd n), Wr := some (.pipeWr n) } := by
    intro n
    simp only [setWr, setRd, List.getElem?_modify_eq, hli, Option.map_eq_map, Option.map_some']
  rcases hcase with he | ⟨l, l0, hkl, hl0, hl0t, hl0d, hh, hp⟩
  · subst he
    refine ⟨⟨li, hli, hty, hsrcE, hdstE⟩, rfl, fun _ => ⟨id, id⟩, ?_⟩
    intro hQ hk hfresh
    obtain ⟨h1, h2⟩ := hcreate hk (by rw [hdstE, hname]; exact hQ.1.symm)
    -- the pipe log cannot both grow and stay the same
    have := congrArg List.length h2
    simp at this
  · by_cases hlj : l = j
    · subst hlj
      rw [hli] at hl0
      cases hl0
      have hQd : Q = link.Dst.Node := by rw [← hname, ← hl0d, hdstE]
      refine ⟨⟨{ li with Rd := some (.pipeRd rt.pipes.length),
                          Wr := some (.pipeWr rt.pipes.length) },
        by rw [hh]; exact hget _, hty, hsrcE, hdstE⟩, hprocs, ?_, ?_⟩
      · intro hnot
        rcases hhold hkl with h | h
        · exact absurd h hnot
        · exact absurd (h.1.symm.trans hQd) hdist
      · intro _ _ hfresh
        refine ⟨?_, rt.pipes.length, _, by rw [hh]; exact hget _, rfl, rfl, ?_⟩
        · rw [hp, count_append_singleton_self]
          unfold PipeFresh at hfresh
          rw [hfresh]
        · rw [hp]; simp
    · have hsame : rt'.heap[j]? = rt.heap[j]? := by
        rw [hh]
        simp only [setWr, setRd]
        rw [List.getElem?_modify_ne _ _ hlj, List.getElem?_modify_ne _ _ hlj]
      refine ⟨⟨li, by rw [hsame]; exact hli, hty, hsrcE, hdstE⟩, hprocs, ?_, ?_⟩
      · intro _
        constructor
        · intro hfresh
          unfold PipeFresh at hfresh ⊢
          rw [hp, count_append_singleton_ne _ hlj]
          exact hfresh
        · rintro ⟨hc, n, l1, g1, g2, g3, g4⟩
          refine ⟨?_, n, l1, by rw [hsame]; exact g1, g2, g3, ?_⟩
          · rw [hp, count_append_singleton_ne _ hlj]; exact hc
          · rw [hp, List.getElem?_append_left (List.getElem?_eq_some.mp g4).1]
            exact g4
      · intro hQ hk _
        rw [hkl] at hk
        exact absurd (Option.some.inj hk) hlj

end osruntime

namespace osruntime

theorem initLinks_track {link : plan.Link} (hdist : link.Src.Node ≠ link.Dst.Node) {env : Env}
    {p : Process} {Q : String} {j : Nat} (hname : p.Plan.Name = Q)
    (hhold : ∀ k, mapGet p.Links k = some j →
      (Q = link.Dst.Node ∧ k = link.Dst.Port) ∨ (Q = link.Src.Node ∧ k = link.Src.Port)) :
    ∀ (ports : List String) (rt rt' : Program), StreamCell rt link j →
      (∃ s, mapGet rt.procs link.Src.Node = some s) → initLinks env p ports rt = .ok rt' →
      StreamCell rt' link j ∧ rt'.procs = rt.procs ∧
      (¬ (Q = link.Dst.Node ∧ link.Dst.Port ∈ ports) →
        (PipeFresh rt j → PipeFresh rt' j) ∧ (PipeDone rt j → PipeDone rt' j)) ∧
      (Q = link.Dst.Node → link.Dst.Port ∈ ports → ports.Nodup →
        mapGet p.Links link.Dst.Port = some j → PipeFresh rt j → PipeDone rt' j) := by
  intro ports
  induction ports with
  | nil =>
    intro rt rt' hcell _ h
    cases h
    exact ⟨hcell, rfl, fun _ => ⟨id, id⟩, fun _ hm => absurd hm (List.not_mem_nil _)⟩
  | cons k ports ih =>
    intro rt rt' hcell hsrc h
    unfold initLinks at h
    obtain ⟨rt1, h1, h2⟩ := Result.bind_eq_ok h
    obtain ⟨c1, p1, b1, d1⟩ := initLink_track hdist hname hcell (hhold k) hsrc h1
    obtain ⟨c2, p2, b2, d2⟩ := ih rt1 rt' c1 (by rw [p1]; exact hsrc) h2
    refine ⟨c2, p2.trans p1, ?_, ?_⟩
    · intro hnot
      have n1 : ¬ (Q = link.Dst.Node ∧ k = link.Dst.Port) :=
        fun ⟨e1, e2⟩ => hnot ⟨e1, by rw [e2]; exact List.mem_cons_self _ _⟩
      have n2 : ¬ (Q = link.Dst.Node ∧ link.Dst.Port ∈ ports) :=
        fun ⟨e1, e2⟩ => hnot ⟨e1, List.mem_cons_of_mem _ e2⟩
      exact ⟨fun hf => (b2 n2).1 ((b1 n1).1 hf), fun hd => (b2 n2).2 ((b1 n1).2 hd)⟩
    · intro hQ hm hnd hk hfresh
      obtain ⟨hnotin, hnd'⟩ := List.nodup_cons.mp hnd
      by_cases hkk : k = link.Dst.Port
      · subst hkk
        exact (b2 (fun ⟨_, e2⟩ => hnotin e2)).2 (d1 ⟨hQ, rfl⟩ hk hfresh)
      · rcases List.mem_cons.mp hm with he | he
        · exact absurd he.symm hkk
        · exact d2 hQ he hnd' hk ((b1 (fun ⟨_, e2⟩ => hkk e2)).1 hfresh)

theorem initProcs_track {link : plan.Link} (hdist : link.Src.Node ≠ link.Dst.Node) {env : Env}
    {sched : Schedule} (hv : sched.Valid) {j : Nat} :
    ∀ (ks : List String) (rt rt' : Program),
      (∀ Q p, mapGet rt.procs Q = some p → p.Plan.Name = Q ∧ (mapKeys p.Links).Nodup ∧
        ∀ k, mapGet p.Links k = some j →
          (Q = link.Dst.Node ∧ k = link.Dst.Port) ∨ (Q = link.Src.Node ∧ k = link.Src.Port)) →
      StreamCell rt link j → (∃ s, mapGet rt.procs link.Src.Node = some s) →
      rangeProcs (Program.initProcStreams env sched) ks rt = .ok rt' →
      StreamCell rt' link j ∧ rt'.procs = rt.procs ∧
      (link.Dst.Node ∉ ks →
        (PipeFresh rt j → PipeFresh rt' j) ∧ (PipeDone rt j → PipeDone rt' j)) ∧
      (link.Dst.Node ∈ ks → ks.Nodup → rt.linkAt link.Dst.Node link.Dst.Port = some j →
        PipeFresh rt j → PipeDone rt' j) := by
  intro ks
  induction ks with
  | nil =>
    intro rt rt' _ hcell _ h
    cases h
    exact ⟨hcell, rfl, fun _ => ⟨id, id⟩, fun hm => absurd hm (List.not_mem_nil _)⟩
  | cons Q ks ih =>
    intro rt rt' hbase hcell hsrc h
    unfold rangeProcs at h
    cases hg : mapGet rt.procs Q with
    | none =>
      rw [hg] at h
      obtain ⟨c2, p2, b2, d2⟩ := ih rt rt' hbase hcell hsrc h
      refine ⟨c2, p2, fun hnot => b2 (fun hm => hnot (List.mem_cons_of_mem _ hm)), ?_⟩
      intro hm hnd hlink hfresh
      rcases List.mem_cons.mp hm with he | he
      · rw [he] at hlink
        simp only [Program.linkAt, hg] at hlink
        cases hlink
      · exact d2 he (List.nodup_cons.mp hnd).2 hlink hfresh
    | some p =>
      rw [hg] at h
      obtain ⟨rt1, h1, h2⟩ := Result.bind_eq_ok h
      obtain ⟨hname, hnodup, hhold⟩ := hbase Q p hg
      unfold Program.initProcStreams at h1
      obtain ⟨c1, p1, b1, d1⟩ := initLinks_track hdist hname hhold _ rt rt1 hcell hsrc h1
      obtain ⟨c2, p2, b2, d2⟩ := ih rt1 rt' (by rw [p1]; exact hbase) c1
        (by rw [p1]; exact hsrc) h2
      have hperm := hv.initLinks Q (mapKeys p.Links)
      refine ⟨c2, p2.trans p1, ?_, ?_⟩
      · intro hnot
        have n1 : ¬ (Q = link.Dst.Node ∧
            link.Dst.Port ∈ sched.initLinks Q (mapKeys p.Links)) :=
          fun ⟨e1, _⟩ => hnot (by rw [e1]; exact List.mem_cons_self _ _)
        have n2 : link.Dst.Node ∉ ks := fun hm => hnot (List.mem_cons_of_mem _ hm)
        exact ⟨fun hf => (b2 n2).1 ((b1 n1).1 hf), fun hd => (b2 n2).2 ((b1 n1).2 hd)⟩
      · intro hm hnd hlink hfresh
        obtain ⟨hnotin, hnd'⟩ := List.nodup_cons.mp hnd
        by_cases hQ : Q = link.Dst.Node
        · have hk : mapGet p.Links link.Dst.Port = some j := by
            rw [← hQ] at hlink
            simp only [Program.linkAt, hg, Option.some_bind] at hlink
            exact hlink
          have hmem : link.Dst.Port ∈ sched.initLinks Q (mapKeys p.Links) :=
            hperm.mem_iff.mpr ((mapGet_isSome_iff _ _).mp ⟨j, hk⟩)
          have hdone := d1 hQ hmem (hperm.nodup_iff.mpr hnodup) hk hfresh
          exact (b2 (by rw [← hQ]; exact hnotin)).2 hdone
        · rcases List.mem_cons.mp hm with he | he
          · exact absurd he.symm hQ
          · have hlink1 : rt1.linkAt link.Dst.Node link.Dst.Port = some j := by
              simp only [Program.linkAt, p1]
              exact hlink
            exact d2 he hnd' hlink1 ((b1 (fun ⟨e1, _⟩ => hQ e1)).1 hfresh)

theorem streamCell_of_frame {v : Variable} {a b : Program} {link : plan.Link} {j : Nat}
    (hf : HeapFrame v a.heap b.heap) (h : StreamCell a link j) : StreamCell b link j := by
  obtain ⟨li, h1, h2, h3, h4⟩ := h
  obtain ⟨li', g1, g2, g3, g4⟩ := heapFrame_forward hf h1
  exact ⟨li', g1, g2.trans h2, g3.trans h3, g4.trans h4⟩

theorem droppedLinkPlan_feeds : ProcFeeds droppedLinkPlan ⟨⟨"S", "o"⟩, ⟨"P", "b"⟩⟩ :=
  ⟨by decide, ⟨mkProc "S" [] [⟨"o", "stream"⟩] [], by decide, rfl⟩, by decide, by decide,
   by decide, by decide, by decide, by decide⟩

theorem C5_counterexample :
    (∃ rt, Build fanOutPlan [] Env.allOk Schedule.inOrder = .ok rt ∧
      (⟨⟨"S", "o"⟩, ⟨"A", "i"⟩⟩ : plan.Link) ∈ fanOutPlan.Links ∧
      rt.linkAt "A" "i" = some 0 ∧ rt.linkAt "S" "o" = some 1) ∧
    (∃ rt, Build selfLinkPlan [] Env.allOk Schedule.inOrder = .ok rt ∧
      selfLinkPlan.Links = [⟨⟨"P", "o"⟩, ⟨"P", "i"⟩⟩] ∧
      rt.linkAt "P" "i" = some 0 ∧ rt.linkAt "P" "o" = some 0 ∧ rt.pipes = [0, 0]) ∧
    (ProcFeeds droppedLinkPlan ⟨⟨"S", "o"⟩, ⟨"P", "b"⟩⟩ ∧
      ∃ rt, Build droppedLinkPlan [] Env.allOk Schedule.inOrder = .ok rt ∧
        rt.linkAt "P" "b" = none ∧ rt.linkAt "S" "o" = none ∧ rt.pipes = []) :=
  ⟨⟨_, rfl, by decide, rfl, rfl⟩, ⟨_, rfl, rfl, rfl, rfl, rfl⟩,
   droppedLinkPlan_feeds, _, rfl, rfl, rfl, rfl⟩

/-- In a well-formed plan let `link` be a stream link between two distinct processes that
is the only use of its two ports. After a successful `Build`, an instance stored on the dst
process under the dst port name is also the one stored on the src process under the src port
name; it is a `stream` instance of `link` whose read end and write end are the two ends of
one pipe, and `os.Pipe` was called exactly once for it. -/
theorem Build_one_pipe (prog : plan.Pipe) (presets : List (String × Option Value))
    (env : Env) (sched : Schedule) (hv : sched.Valid) (wf : prog.WellFormed)
    (link : plan.Link) (hf : ProcFeeds prog link) (rt : Program)
    (h : Build prog presets env sched = .ok rt) (j : Nat)
    (hj : rt.linkAt link.Dst.Node link.Dst.Port = some j) :
    rt.linkAt link.Src.Node link.Src.Port = some j ∧
    ∃ li n, rt.heap[j]? = some li ∧ li.Typ = plan.TypeStream ∧ li.Src = link.Src ∧
      li.Dst = link.Dst ∧ li.Rd = some (.pipeRd n) ∧ li.Wr = some (.pipeWr n) ∧
      rt.pipes[n]? = some j ∧ rt.pipes.count j = 1 := by
  obtain ⟨r1, r2, r3, r4, r5, h1, h2, h3, h4, h5, h6⟩ := Build_ok_stages h
  have f1 := connectProcs_frame h1
  have f2 := connectVars_frame h2
  have f3 := bindPresets_frame h3
  obtain ⟨b1, b2, b3, _, _, _⟩ := bindDefaults_pass env _ r3 r4 h4
  obtain ⟨i1, _⟩ := initProcs_frame h5
  obtain ⟨_, c2, c3, _, c5⟩ := setCmds_frame h6
  obtain ⟨hfp2, hP2⟩ := connect_pairInv wf hf h1 h2
  have hn2 := connect_nodup h1 h2
  have hprocs42 : r4.procs = r2.procs := b2.trans f3.procs
  have hlink4 : ∀ Q k, r4.linkAt Q k = r2.linkAt Q k := by
    intro Q k; simp only [Program.linkAt, hprocs42]
  have hlink5 : ∀ Q k, r5.linkAt Q k = r2.linkAt Q k := by
    intro Q k; simp only [Program.linkAt, i1, hprocs42]
  have hj2 : r2.linkAt link.Dst.Node link.Dst.Port = some j := by
    rw [← hlink5, ← c5]; exact hj
  have hS2 := hP2.follows j hj2
  have hcell2 : StreamCell r2 link j := hP2.cell j hj2
  have hcell3 : StreamCell r3 link j := by
    refine bindPresets_rel (fun a b => StreamCell a link j → StreamCell b link j)
      (fun _ h => h) (fun _ _ _ f g h => g (f h)) presets ?_ _ _ _ h3 hcell2
    intro k v value a b _ _ hb
    obtain ⟨_, _, _, _, hfr, _⟩ := bindVar_ok hb
    exact streamCell_of_frame hfr
  have hcell4 : StreamCell r4 link j := by
    refine rangeVars_rel (fun a b => StreamCell a link j → StreamCell b link j)
      (fun _ h => h) (fun _ _ _ f g h => g (f h)) _ ?_ _ _ _ h4 hcell3
    intro k v a b hk hb
    rcases bindDefaultsChecked_ok hk hb with ⟨he, _⟩ | ⟨_, value, hbind, _⟩
    · rw [he]; exact id
    · obtain ⟨_, _, _, _, hfr, _⟩ := bindVar_ok hbind
      exact streamCell_of_frame hfr
  have hbase : ∀ Q p, mapGet r4.procs Q = some p → p.Plan.Name = Q ∧
      (mapKeys p.Links).Nodup ∧ ∀ k, mapGet p.Links k = some j →
        (Q = link.Dst.Node ∧ k = link.Dst.Port) ∨ (Q = link.Src.Node ∧ k = link.Src.Port) := by
    intro Q p hp
    rw [hprocs42] at hp
    refine ⟨(hfp2.1 Q p.Plan (by simp [Program.procPlan, hp])).2, hn2 Q p hp, ?_⟩
    intro k hk
    exact hP2.holders Q k j hj2 (by simp [Program.linkAt, hp, hk])
  have hsrc4 : ∃ s, mapGet r4.procs link.Src.Node = some s := by
    rw [hprocs42]
    simp only [Program.linkAt] at hS2
    cases hg : mapGet r2.procs link.Src.Node with
    | none => rw [hg] at hS2; cases hS2
    | some s => exact ⟨s, rfl⟩
  have hdst4 : ∃ p, mapGet r4.procs link.Dst.Node = some p := by
    rw [hprocs42]
    simp only [Program.linkAt] at hj2
    cases hg : mapGet r2.procs link.Dst.Node with
    | none => rw [hg] at hj2; cases hj2
    | some s => exact ⟨s, rfl⟩
  have hfresh4 : PipeFresh r4 j := by
    unfold PipeFresh
    rw [b3, f3.pipes, f2.pipes, f1.pipes, (create_spec prog).2.1]
    rfl
  have hkeys : (mapKeys r4.procs).Nodup := by
    rw [hprocs42, f2.nodes.procKeys, f1.nodes.procKeys]
    exact (create_spec prog).2.2.1
  have hperm := hv.initProcs (mapKeys r4.procs)
  obtain ⟨hcell5, _, _, hdone⟩ := initProcs_track hf.distinct hv _ r4 r5 hbase hcell4 hsrc4 h5
  obtain ⟨hcount, n, l5, g1, g2, g3, g4⟩ := hdone
    (hperm.mem_iff.mpr ((mapGet_isSome_iff _ _).mp hdst4)) (hperm.nodup_iff.mpr hkeys)
    (by rw [hlink4]; exact hj2) hfresh4
  obtain ⟨li, e1, e2, e3, e4⟩ := hcell5
  rw [g1] at e1
  cases e1
  refine ⟨by rw [c5, hlink5]; exact hS2, l5, n, by rw [c2]; exact g1, e2, e3, e4, g2, g3,
    by rw [c3]; exact g4, by rw [c3]; exact hcount⟩

end osruntime

namespace osruntime

theorem linkedPlan_wf : linkedPlan.WellFormed :=
  ⟨by unfold plan.NodesSorted; decide, by unfold plan.NodesSorted; decide,
   by unfold plan.LinksSorted; decide, by decide, by decide, by decide⟩

theorem linkedPlan_feeds : ProcFeeds linkedPlan ⟨⟨"S", "o"⟩, ⟨"P", "i"⟩⟩ :=
  ⟨by decide, ⟨mkProc "S" [] [⟨"o", "stream"⟩] [], by decide, rfl⟩, by decide, by decide,
   by decide, by decide, by decide, by decide⟩

theorem varLinkPlan_wf : varLinkPlan.WellFormed :=
  ⟨by unfold plan.NodesSorted; decide, by unfold plan.NodesSorted; decide,
   by unfold plan.LinksSorted; decide, by decide, by decide, by decide⟩

theorem varLinkPlan_feeds :
    VarFeeds varLinkPlan ⟨⟨"V", [⟨"v", "string"⟩], []⟩, "dflt"⟩ ⟨⟨"V", "v"⟩, ⟨"A", "i"⟩⟩ :=
  ⟨by decide, rfl, by decide, by decide, by decide⟩

end osruntime
/-! ### C12: the type of a source variable -/

namespace osruntime

theorem sourceVarPlan_wf : sourceVarPlan.WellFormed :=
  ⟨by unfold plan.NodesSorted; decide, by unfold plan.NodesSorted; decide,
   by unfold plan.LinksSorted; decide, by decide, by decide, by decide⟩

/-- On `sourceVarPlan` the panic does not depend on the map orders, the environment or the
presets: `connectVar` indexes `In[0]` of the source variable in every run. -/
theorem sourceVarPlan_build_panics (presets : List (String × Option Value)) (env : Env)
    (sched : Schedule) (hv : sched.Valid) :
    Build sourceVarPlan presets env sched = .panic .indexOutOfRange := by
  have h1 : sched.connectProcs ["cat"] = ["cat"] :=
    List.perm_singleton.mp (hv.connectProcs ["cat"])
  have h2 : sched.connectVars ["src"] = ["src"] :=
    List.perm_singleton.mp (hv.connectVars ["src"])
  have hk1 : mapKeys (Program.create sourceVarPlan).procs = ["cat"] := rfl
  unfold Build
  simp only [hk1, h1]
  have hc : rangeProcs (Program.connectProc sourceVarPlan) ["cat"]
      (Program.create sourceVarPlan) =
      .ok ⟨[("cat", ⟨mkProc "cat" [⟨"in", "stream"⟩] [] [.port ⟨"in", "stream"⟩],
              [("in", 0)], none⟩)],
           [("src", ⟨⟨⟨"src", [], [⟨"out", "stream"⟩]⟩, "file:///tmp/a.txt"⟩,
              none, some 0, none⟩)],
           [⟨"stream", ⟨"src", "out"⟩, ⟨"cat", "in"⟩, none, none, none⟩], []⟩ := by
    rfl
  rw [hc]
  simp only [Result.bind]
  have hk2 : mapKeys [("src", (⟨⟨⟨"src", [], [⟨"out", "stream"⟩]⟩, "file:///tmp/a.txt"⟩,
              none, some 0, none⟩ : Variable))] = ["src"] := rfl
  rw [hk2, h2]
  rfl

/-- A connect pass over the variables that succeeds has found a first input port on every
variable it visited. -/
theorem connectVars_in0 {prog : plan.Pipe} :
    ∀ (ks : List String) (rt rt' : Program),
      rangeVars (Program.connectVar prog) ks rt = .ok rt' →
      ∀ k, k ∈ ks → ∀ V, rt.varPlan k = some V → V.In ≠ [] := by
  intro ks
  induction ks with
  | nil => intro rt rt' _ k hk; cases hk
  | cons k0 ks ih =>
    intro rt rt' h k hk V hV
    unfold rangeVars at h
    cases hg : mapGet rt.vars k0 with
    | none =>
      rw [hg] at h
      rcases List.mem_cons.mp hk with he | he
      · subst he
        simp only [Program.varPlan, hg] at hV
        cases hV
      · exact ih rt rt' h k he V hV
    | some v =>
      rw [hg] at h
      obtain ⟨rt1, h1, h2⟩ := Result.bind_eq_ok h
      obtain ⟨in0, hin, _⟩ := connectVar_ok hg h1
      rcases List.mem_cons.mp hk with he | he
      · subst he
        simp only [Program.varPlan, hg, Option.map_some', Option.some.injEq] at hV
        subst hV
        intro hnil
        rw [hnil] at hin
        cases hin
      · exact ih rt1 rt' h2 k he V
          (((connectVar_frame hg h1).nodes.varPlan k).trans hV)

/-- The defect does not depend on the plan: `Build` succeeds on no well-formed plan that
has a variable without input port, because `connectVar` indexes `In[0]` of every
variable. -/
theorem Build_fails_without_input_port (prog : plan.Pipe)
    (presets : List (String × Option Value)) (env : Env) (sched : Schedule)
    (hv : sched.Valid) (wf : prog.WellFormed) (V : plan.Variable) (hV : V ∈ prog.Vars)
    (hin : V.In = []) : (Build prog presets env sched).isOk = false := by
  cases hb : Build prog presets env sched with
  | err e => rfl
  | panic p => rfl
  | ok rt =>
    exfalso
    obtain ⟨r1, r2, r3, r4, r5, h1, h2, h3, h4, h5, h6⟩ := Build_ok_stages hb
    have hI := instantiates_of_sameNodes (instantiates_create wf) (connectProcs_frame h1).nodes
    have hp := hI.2 V hV
    obtain ⟨v, hg, _⟩ := varPlan_some hp
    have hmem : V.Name ∈ sched.connectVars (mapKeys r1.vars) :=
      (hv.connectVars _).mem_iff.mpr ((mapGet_isSome_iff _ _).mp ⟨v, hg⟩)
    exact connectVars_in0 _ r1 r2 h2 V.Name hmem V hp hin

/-- C12 (the failing input): `sourceVarPlan` is well-formed and its one variable `src` has
exactly one port, the output port `out` of type stream, which a link of the plan connects
to the input port of `cat`. `Variable.Type()` of `src` reads `In[0]`, which is out of
range, and `Build` of the plan panics; on the sink variable of `varLinkPlan`, whose one
port is an input port, `Variable.Type()` returns the type of that port. -/
theorem C12_source_variable_panics :
    sourceVarPlan.WellFormed ∧
    sourceVarPlan.Vars = [⟨⟨"src", [], [⟨"out", "stream"⟩]⟩, "file:///tmp/a.txt"⟩] ∧
    sourceVarPlan.Links = [⟨⟨"src", "out"⟩, ⟨"cat", "in"⟩⟩] ∧
    plan.Variable.Typ ⟨⟨"src", [], [⟨"out", "stream"⟩]⟩, "file:///tmp/a.txt"⟩ = none ∧
    Build sourceVarPlan [] Env.allOk Schedule.inOrder = .panic .indexOutOfRange ∧
    varLinkPlan.Vars = [⟨⟨"V", [⟨"v", "string"⟩], []⟩, "dflt"⟩] ∧
    plan.Variable.Typ ⟨⟨"V", [⟨"v", "string"⟩], []⟩, "dflt"⟩ = some "string" :=
  ⟨⟨by unfold plan.NodesSorted; decide, by unfold plan.NodesSorted; decide,
    by unfold plan.LinksSorted; decide, by decide, by decide, by decide⟩,
   rfl, rfl, rfl, rfl, rfl, rfl⟩

end osruntime
/-! ### C11: which files the link instances hold after `Build` -/

namespace osruntime

theorem modify_ends (g : Link → Link) (fd : File) (n : Nat) (hp : List Link) (j : Nat)
    (l1 : Link) (f : File) (h1 : (hp.modify g n)[j]? = some l1)
    (hg : ∀ x, ((g x).Rd = x.Rd ∨ (g x).Rd = some fd) ∧ ((g x).Wr = x.Wr ∨ (g x).Wr = some fd))
    (hf : l1.Rd = some f ∨ l1.Wr = some f) :
    f = fd ∨ ∃ l, hp[j]? = some l ∧ (l.Rd = some f ∨ l.Wr = some f) := by
  obtain ⟨l, hl, he⟩ := modify_get g n hp j l1 h1
  by_cases hnj : n = j
  · simp only [hnj, if_true] at he
    subst he
    obtain ⟨g1, g2⟩ := hg l
    rcases hf with hf | hf
    · rcases g1 with g1 | g1
      · exact Or.inr ⟨l, hl, Or.inl (g1 ▸ hf)⟩
      · rw [g1] at hf
        exact Or.inl (Option.some.inj hf).symm
    · rcases g2 with g2 | g2
      · exact Or.inr ⟨l, hl, Or.inr (g2 ▸ hf)⟩
      · rw [g2] at hf
        exact Or.inl (Option.some.inj hf).symm
  · simp only [hnj, if_false] at he
    subst he
    exact Or.inr ⟨l1, hl, hf⟩

/-- The files a successful `Bind` leaves in the link instances: the value bound, or files
that were there before. -/
theorem bindVar_ends {rt rt' : Program} {key : String} {v : Variable} {value : Option Value}
    (h : rt.bindVar key v value = .ok rt') (j : Nat) (l' : Link) (f : File)
    (hl' : rt'.heap[j]? = some l') (hf : l'.Rd = some f ∨ l'.Wr = some f) :
    value = some (.file f) ∨ ∃ l, rt.heap[j]? = some l ∧ (l.Rd = some f ∨ l.Wr = some f) := by
  obtain ⟨_, _, _, _, _, hcase⟩ := bindVar_ok h
  rcases hcase with ⟨ht, ⟨fd, hfd⟩, _⟩ | ⟨_, _, _, _, hkeep⟩
  · subst hfd
    unfold Program.bindVar Variable.Bind at h
    rw [ht] at h
    simp only [if_true] at h
    cases h
    simp only at hl'
    have hrd : ∀ x : Link, (({ x with Rd := some fd } : Link).Rd = x.Rd ∨
        ({ x with Rd := some fd } : Link).Rd = some fd) ∧
        (({ x with Rd := some fd } : Link).Wr = x.Wr ∨
        ({ x with Rd := some fd } : Link).Wr = some fd) :=
      fun _ => ⟨Or.inr rfl, Or.inl rfl⟩
    have hwr : ∀ x : Link, (({ x with Wr := some fd } : Link).Rd = x.Rd ∨
        ({ x with Wr := some fd } : Link).Rd = some fd) ∧
        (({ x with Wr := some fd } : Link).Wr = x.Wr ∨
        ({ x with Wr := some fd } : Link).Wr = some fd) :=
      fun _ => ⟨Or.inl rfl, Or.inr rfl⟩
    cases hi : v.In with
    | none =>
      cases ho : v.Out with
      | none => rw [hi, ho] at hl'; exact Or.inr ⟨l', hl', hf⟩
      | some o =>
        rw [hi, ho] at hl'
        simp only [setRd, setWr] at hl'
        rcases modify_ends _ fd _ _ j l' f hl' hrd hf with e | e
        · exact Or.inl (by rw [e])
        · exact Or.inr e
    | some i =>
      cases ho : v.Out with
      | none =>
        rw [hi, ho] at hl'
        simp only [setRd, setWr] at hl'
        rcases modify_ends _ fd _ _ j l' f hl' hwr hf with e | e
        · exact Or.inl (by rw [e])
        · exact Or.inr e
      | some o =>
        rw [hi, ho] at hl'
        simp only [setRd, setWr] at hl'
        rcases modify_ends _ fd _ _ j l' f hl' hwr hf with e | ⟨l1, h1, hf1⟩
        · exact Or.inl (by rw [e])
        · rcases modify_ends _ fd _ _ j l1 f h1 hrd hf1 with e | e
          · exact Or.inl (by rw [e])
          · exact Or.inr e
  · obtain ⟨l, hl, e1, e2⟩ := hkeep j l' hl'
    exact Or.inr ⟨l, hl, by rw [← e1, ← e2]; exact hf⟩

theorem bindVar_endsLogged {rt rt' : Program} {key : String} {v : Variable}
    {value : Option Value} (h : rt.bindVar key v value = .ok rt')
    (hval : ∀ f, value = some (.file f) → f.pipeOf = none) (hE : rt.EndsLogged) :
    rt'.EndsLogged := by
  obtain ⟨_, hp, _⟩ := bindVar_ok h
  intro i li f m hi hf hm
  rcases bindVar_ends h i li f hi hf with e | ⟨l, hl, hf0⟩
  · rw [hval f e] at hm
    cases hm
  · rw [hp]
    exact hE i l f m hl hf0 hm

theorem endsLogged_append {rt rt' : Program} {cell : Link}
    (hh : rt'.heap = rt.heap ++ [cell]) (hp : rt'.pipes = rt.pipes) (hrd : cell.Rd = none)
    (hwr : cell.Wr = none) (hE : rt.EndsLogged) : rt'.EndsLogged := by
  intro i li f m hi hf hm
  rw [hh] at hi
  rw [hp]
  by_cases hlt : i < rt.heap.length
  · rw [List.getElem?_append_left hlt] at hi
    exact hE i li f m hi hf hm
  · have hge : rt.heap.length ≤ i := Nat.le_of_not_lt hlt
    rw [List.getElem?_append_right hge] at hi
    have hcell : li = cell := by
      cases hz : i - rt.heap.length with
      | zero => rw [hz] at hi; exact (Option.some.inj hi).symm
      | succ z => rw [hz] at hi; cases hi
    subst hcell
    rcases hf with hf | hf
    · rw [hrd] at hf; cases hf
    · rw [hwr] at hf; cases hf

theorem connectPort_endsLogged {prog : plan.Pipe} {dk : String} {inp : plan.Port}
    {link : plan.Link} {rt rt' : Program} (h : connectPort prog dk inp link rt = .ok rt')
    (hE : rt.EndsLogged) : rt'.EndsLogged := by
  obtain ⟨val, sp, hh, hp, _⟩ := connectPort_ok h
  exact endsLogged_append hh hp rfl rfl hE

theorem connectVar_endsLogged {prog : plan.Pipe} {dk : String} {dv : Variable}
    {rt rt' : Program} (hdv : mapGet rt.vars dk = some dv)
    (h : Program.connectVar prog dk dv rt = .ok rt') (hE : rt.EndsLogged) :
    rt'.EndsLogged := by
  obtain ⟨in0, _, hcase⟩ := connectVar_ok hdv h
  rcases hcase with ⟨_, he⟩ | ⟨link, src, sp, _, _, _, _, hh, hp, _⟩
  · rw [he]; exact hE
  · exact endsLogged_append hh hp rfl rfl hE

theorem bindDefaultsChecked_endsLogged {env : Env} {k : String} {v : Variable}
    {rt rt' : Program} (h : bindDefaultsChecked env k v rt = .ok rt') (hE : rt.EndsLogged) :
    rt'.EndsLogged := by
  unfold bindDefaultsChecked at h
  obtain ⟨rt1, h1, h⟩ := Result.bind_eq_ok h
  have hrt : rt' = rt1 := by
    cases hg : mapGet rt1.vars k with
    | none => rw [hg] at h; cases h
    | some v1 =>
      rw [hg] at h
      simp only at h
      cases hval : v1.Value with
      | none => rw [hval] at h; cases h
      | some x => rw [hval] at h; cases h; rfl
  subst hrt
  unfold bindDefaults at h1
  cases hv : v.Value with
  | some x => rw [hv] at h1; cases h1; exact hE
  | none =>
    rw [hv] at h1
    simp only at h1
    cases ht : v.Plan.Typ with
    | none => rw [ht] at h1; cases h1
    | some t =>
      rw [ht] at h1
      simp only at h1
      split at h1
      · split at h1
        · split at h1
          · refine bindVar_endsLogged h1 ?_ hE
            intro f hf
            cases hf
            rfl
          · cases h1
        · cases h1; exact hE
      · split at h1
        · refine bindVar_endsLogged h1 ?_ hE
          intro f hf
          cases hf
        · cases h1

theorem initLink_endsLogged {env : Env} {dp : Process} {port : String} {rt rt' : Program}
    (h : initLink env dp port rt = .ok rt') (hE : rt.EndsLogged) : rt'.EndsLogged := by
  obtain ⟨_, _, hcase⟩ := initLink_ok h
  rcases hcase with he | ⟨l, link, _, hl, _, _, hheap, hpipes⟩
  · rw [he]; exact hE
  · intro i li f m hi hf hm
    rw [hheap] at hi
    simp only [setRd, setWr] at hi
    obtain ⟨l1, h1, e1⟩ := modify_get _ l _ i li hi
    obtain ⟨l0, h0, e0⟩ := modify_get _ l _ i l1 h1
    rw [hpipes]
    by_cases hli : l = i
    · simp only [hli, if_true] at e1 e0
      subst e0
      subst e1
      simp only at hf
      have hm' : m = rt.pipes.length := by
        rcases hf with hf | hf
        · have := Option.some.inj hf
          subst this
          exact (Option.some.inj hm).symm
        · have := Option.some.inj hf
          subst this
          exact (Option.some.inj hm).symm
      subst hm'
      rw [List.getElem?_append_right (Nat.le_refl _)]
      simp [hli]
    · simp only [hli, if_false] at e1 e0
      subst e0
      subst e1
      have hold := hE i li f m h0 hf hm
      have hlt : m < rt.pipes.length := by
        rcases Nat.lt_or_ge m rt.pipes.length with hlt | hge
        · exact hlt
        · rw [List.getElem?_eq_none hge] at hold
          cases hold
      rw [List.getElem?_append_left hlt]
      exact hold

/-- After a successful `Build` with presets that hold no end of a pipe, every end of a pipe
in a link instance is where `initProcStreams` stored it. -/
theorem Build_endsLogged {prog : plan.Pipe} {presets : List (String × Option Value)}
    {env : Env} {sched : Schedule} {rt : Program} (hpre : PresetsGiven presets)
    (h : Build prog presets env sched = .ok rt) : rt.EndsLogged := by
  obtain ⟨r1, r2, r3, r4, r5, h1, h2, h3, h4, h5, h6⟩ := Build_ok_stages h
  have e0 : (Program.create prog).EndsLogged := by
    intro i li f m hi
    rw [(create_spec prog).1] at hi
    cases hi
  have e1 : r1.EndsLogged := by
    refine rangeProcs_rel (fun a b => a.EndsLogged → b.EndsLogged) (fun _ h => h)
      (fun _ _ _ f g h => g (f h)) _ ?_ _ _ _ h1 e0
    intro k p a b _ hb
    exact connectProcLoop_rel (fun a b => a.EndsLogged → b.EndsLogged) (fun _ h => h)
      (fun _ _ _ f g h => g (f h)) prog k p.Plan
      (fun _ _ _ _ _ _ h => connectPort_endsLogged h) p.Plan.In a b (fun _ hq => hq) hb
  have e2 : r2.EndsLogged := by
    refine rangeVars_rel (fun a b => a.EndsLogged → b.EndsLogged) (fun _ h => h)
      (fun _ _ _ f g h => g (f h)) _ ?_ _ _ _ h2 e1
    intro k v a b hk hb
    exact connectVar_endsLogged hk hb
  have e3 : r3.EndsLogged := by
    refine bindPresets_rel (fun a b => a.EndsLogged → b.EndsLogged) (fun _ h => h)
      (fun _ _ _ f g h => g (f h)) presets ?_ _ _ _ h3 e2
    intro k v value a b hp _ hb
    refine bindVar_endsLogged hb ?_
    intro f hf
    subst hf
    exact hpre k f hp
  have e4 : r4.EndsLogged := by
    refine rangeVars_rel (fun a b => a.EndsLogged → b.EndsLogged) (fun _ h => h)
      (fun _ _ _ f g h => g (f h)) _ ?_ _ _ _ h4 e3
    intro k v a b _ hb
    exact bindDefaultsChecked_endsLogged hb
  have e5 : r5.EndsLogged := by
    refine rangeProcs_rel (fun a b => a.EndsLogged → b.EndsLogged) (fun _ h => h)
      (fun _ _ _ f g h => g (f h)) _ ?_ _ _ _ h5 e4
    intro k p a b _ hb
    exact initLinks_rel (fun a b => a.EndsLogged → b.EndsLogged) (fun _ h => h)
      (fun _ _ _ f g h => g (f h)) env p (fun _ _ _ h => initLink_endsLogged h) _ a b hb
  obtain ⟨_, c2, c3, _, _⟩ := setCmds_frame h6
  intro i li f m hi hf hm
  rw [c2] at hi
  rw [c3]
  exact e5 i li f m hi hf hm

end osruntime
/-! ### C11: the calls of `Close` made by `Process.Close` -/

namespace osruntime

theorem closeCount_append (log : CloseLog) (who : String) (fs : List File) (f : File) :
    closeCount (log ++ fs.map (Prod.mk who)) f = closeCount log f + fs.count f := by
  have hmap : (fs.map (Prod.mk who)).map Prod.snd = fs := by
    induction fs with
    | nil => rfl
    | cons x xs ih => simp only [List.map_cons, ih]
  unfold closeCount
  rw [List.map_append, List.count_append, hmap]

theorem closeFile_cases (who : String) (g : File) (log : CloseLog) :
    closeFile who g log = (.done, log ++ [(who, g)]) ∨
    closeFile who g log = (.failed g, log ++ [(who, g)]) := by
  unfold closeFile
  by_cases hm : g ∈ log.map Prod.snd
  · rw [if_pos hm]; exact Or.inr rfl
  · rw [if_neg hm]; exact Or.inl rfl

/-- The calls one turn of the loop of `Process.Close` makes: on the read end when the
process is the dst, then on the write end when it is the src, unless the turn ended the
call before. -/
theorem closeLink_shape {who : String} {p : Process} {li : Link} {log log' : CloseLog}
    {o : CloseOutcome} (h : p.closeLink who li log = (o, log')) :
    ∃ wrPart : List File,
      log' = log ++ ((if li.Dst.Node = p.Plan.Name then li.Rd.toList else []) ++ wrPart).map
        (Prod.mk who) ∧
      (wrPart = [] ∨ wrPart = (if li.Src.Node = p.Plan.Name then li.Wr.toList else [])) ∧
      (o = .done → wrPart = if li.Src.Node = p.Plan.Name then li.Wr.toList else []) := by
  have wrStage : ∀ (lg : CloseLog) (rdPart : List File),
      lg = log ++ rdPart.map (Prod.mk who) →
      (match li.Wr with
        | some wr => if li.Src.Node = p.Plan.Name then closeFile who wr lg else (.done, lg)
        | none => (CloseOutcome.done, lg)) = (o, log') →
      ∃ wrPart : List File, log' = log ++ (rdPart ++ wrPart).map (Prod.mk who) ∧
        (wrPart = [] ∨ wrPart = (if li.Src.Node = p.Plan.Name then li.Wr.toList else [])) ∧
        (o = .done → wrPart = if li.Src.Node = p.Plan.Name then li.Wr.toList else []) := by
    intro lg rdPart hlg hw
    cases hwr : li.Wr with
    | none =>
      rw [hwr] at hw
      cases hw
      refine ⟨[], by rw [hlg, List.append_nil], Or.inl rfl, fun _ => ?_⟩
      simp
    | some wr =>
      rw [hwr] at hw
      simp only at hw
      by_cases hs : li.Src.Node = p.Plan.Name
      · rw [if_pos hs] at hw
        refine ⟨[wr], ?_, Or.inr (by simp [hs]), fun _ => by simp [hs]⟩
        rcases closeFile_cases who wr lg with e | e
        · rw [e] at hw
          cases hw
          rw [hlg, List.map_append, List.append_assoc]
          rfl
        · rw [e] at hw
          cases hw
          rw [hlg, List.map_append, List.append_assoc]
          rfl
      · rw [if_neg hs] at hw
        cases hw
        refine ⟨[], by rw [hlg, List.append_nil], Or.inl rfl, fun _ => by simp [hs]⟩
  unfold Process.closeLink at h
  simp only at h
  cases hrd : li.Rd with
  | none =>
    rw [hrd] at h
    simp only at h
    obtain ⟨wrPart, e1, e2, e3⟩ := wrStage log [] (by simp) h
    refine ⟨wrPart, ?_, e2, e3⟩
    rw [e1]
    simp
  | some rd =>
    rw [hrd] at h
    simp only at h
    by_cases hd : li.Dst.Node = p.Plan.Name
    · rw [if_pos hd] at h
      rcases closeFile_cases who rd log with e | e
      · rw [e] at h
        simp only at h
        obtain ⟨wrPart, e1, e2, e3⟩ := wrStage _ [rd] rfl h
        refine ⟨wrPart, ?_, e2, e3⟩
        rw [e1]
        simp [hd]
      · rw [e] at h
        simp only at h
        cases h
        refine ⟨[], ?_, Or.inl rfl, fun hc => by cases hc⟩
        simp [hd]
    · rw [if_neg hd] at h
      simp only at h
      obtain ⟨wrPart, e1, e2, e3⟩ := wrStage log [] (by simp) h
      refine ⟨wrPart, ?_, e2, e3⟩
      rw [e1]
      simp [hd]

end osruntime

namespace osruntime

theorem toList_count (c : Prop) [Decidable c] (x : Option File) (f : File) :
    ((if c then x.toList else []).count f = 1 ∧ x = some f ∧ c) ∨
    ((if c then x.toList else []).count f = 0 ∧ ¬ (x = some f ∧ c)) := by
  by_cases hc : c
  · rw [if_pos hc]
    cases x with
    | none => exact Or.inr ⟨rfl, fun h => by cases h.1⟩
    | some g =>
      by_cases hg : g = f
      · subst hg
        exact Or.inl ⟨by simp, rfl, hc⟩
      · refine Or.inr ⟨?_, fun h => hg (Option.some.inj h.1)⟩
        simp only [Option.toList]
        exact List.count_eq_zero.mpr (fun hm => hg (List.mem_singleton.mp hm).symm)
  · rw [if_neg hc]
    exact Or.inr ⟨rfl, fun h => hc h.2⟩

/-- How one turn of the loop of `Process.Close` changes the number of `Close` calls made on
the file `f`. -/
theorem closeLink_track {who : String} {p : Process} {li : Link} {log log' : CloseLog}
    {o : CloseOutcome} (f : File) (hname : p.Plan.Name = who)
    (h : p.closeLink who li log = (o, log')) :
    (∀ e ∈ log', e.2 = f → e ∈ log ∨ (e.1 = who ∧
      ((li.Rd = some f ∧ li.Dst.Node = who) ∨ (li.Wr = some f ∧ li.Src.Node = who)))) ∧
    closeCount log f ≤ closeCount log' f ∧
    (¬ (li.Rd = some f ∧ li.Dst.Node = who) → ¬ (li.Wr = some f ∧ li.Src.Node = who) →
      closeCount log' f = closeCount log f) ∧
    (¬ ((li.Rd = some f ∧ li.Dst.Node = who) ∧ (li.Wr = some f ∧ li.Src.Node = who)) →
      closeCount log' f ≤ closeCount log f + 1) ∧
    ((li.Rd = some f ∧ li.Dst.Node = who) ∨ (li.Wr = some f ∧ li.Src.Node = who) →
      o = .done → closeCount log f + 1 ≤ closeCount log' f) := by
  obtain ⟨wrPart, e1, e2, e3⟩ := closeLink_shape h
  rw [hname] at e1 e2 e3
  have hcount := closeCount_append log who
    ((if li.Dst.Node = who then li.Rd.toList else []) ++ wrPart) f
  rw [← e1, List.count_append] at hcount
  have hrd := toList_count (li.Dst.Node = who) li.Rd f
  have hwr := toList_count (li.Src.Node = who) li.Wr f
  have hwp : wrPart.count f ≤ (if li.Src.Node = who then li.Wr.toList else []).count f := by
    rcases e2 with e | e
    · rw [e]; exact Nat.zero_le _
    · rw [e]
  refine ⟨?_, by omega, ?_, ?_, ?_⟩
  · intro e he hef
    rw [e1] at he
    rcases List.mem_append.mp he with he | he
    · exact Or.inl he
    · obtain ⟨g, hg, hge⟩ := List.mem_map.mp he
      subst hge
      simp only at hef
      subst hef
      refine Or.inr ⟨rfl, ?_⟩
      rcases List.mem_append.mp hg with hg | hg
      · rcases hrd with ⟨_, ha⟩ | ⟨hz, _⟩
        · exact Or.inl ha
        · exact absurd hg (List.count_eq_zero.mp hz)
      · rcases hwr with ⟨_, hb⟩ | ⟨hz, _⟩
        · exact Or.inr hb
        · have : wrPart.count g = 0 := by omega
          exact absurd hg (List.count_eq_zero.mp this)
  · intro na nb
    rcases hrd with ⟨_, ha⟩ | ⟨hz, _⟩
    · exact absurd ha na
    · rcases hwr with ⟨_, hb⟩ | ⟨hz2, _⟩
      · exact absurd hb nb
      · omega
  · intro nab
    rcases hrd with ⟨h1, ha⟩ | ⟨hz, _⟩
    · rcases hwr with ⟨_, hb⟩ | ⟨hz2, _⟩
      · exact absurd ⟨ha, hb⟩ nab
      · omega
    · rcases hwr with ⟨h2, _⟩ | ⟨hz2, _⟩
      · omega
      · omega
  · intro hab hdone
    have hfull := e3 hdone
    rw [hfull] at hcount
    rcases hrd with ⟨h1, _⟩ | ⟨hz, na⟩
    · omega
    · rcases hwr with ⟨h2, _⟩ | ⟨hz2, nb⟩
      · omega
      · rcases hab with ha | hb
        · exact absurd ha na
        · exact absurd hb nb

/-- How a call of `Process.Close` changes the number of `Close` calls made on the file `f`,
when only the entry `k0` of the process `Q0` leads to a link instance the process closes
`f` at. -/
theorem closeLoop_track {heap : List Link} {p : Process} {who Q0 k0 : String} {f : File}
    (hname : p.Plan.Name = who)
    (honly : ∀ k i li, mapGet p.Links k = some i → heap[i]? = some li →
      (li.Rd = some f ∧ li.Dst.Node = who) ∨ (li.Wr = some f ∧ li.Src.Node = who) →
      who = Q0 ∧ k = k0)
    (hone : ∀ i li, mapGet p.Links k0 = some i → heap[i]? = some li →
      ¬ ((li.Rd = some f ∧ li.Dst.Node = who) ∧ (li.Wr = some f ∧ li.Src.Node = who))) :
    ∀ (ports : List String) (log : CloseLog) (o : CloseOutcome) (log' : CloseLog),
      Process.closeLoop who p heap ports log = (o, log') →
      (∀ e ∈ log', e.2 = f → e ∈ log ∨ e.1 = Q0) ∧
      closeCount log f ≤ closeCount log' f ∧
      (¬ (who = Q0 ∧ k0 ∈ ports) → closeCount log' f = closeCount log f) ∧
      (ports.Nodup → closeCount log' f ≤ closeCount log f + 1) ∧
      (who = Q0 → k0 ∈ ports → (∃ i, mapGet p.Links k0 = some i) →
        (∀ i li, mapGet p.Links k0 = some i → heap[i]? = some li →
          (li.Rd = some f ∧ li.Dst.Node = who) ∨ (li.Wr = some f ∧ li.Src.Node = who)) →
        o = .done → closeCount log f + 1 ≤ closeCount log' f) := by
  intro ports
  induction ports with
  | nil =>
    intro log o log' h
    cases h
    exact ⟨fun e he _ => Or.inl he, Nat.le_refl _, fun _ => rfl, fun _ => Nat.le_succ _,
      fun _ hm => absurd hm (List.not_mem_nil _)⟩
  | cons port rest ih =>
    intro log o log' h
    unfold Process.closeLoop at h
    cases hl : mapGet p.Links port with
    | none =>
      rw [hl] at h
      simp only at h
      obtain ⟨t1, t2, t3, t4, t5⟩ := ih log o log' h
      refine ⟨t1, t2, fun hn => t3 (fun ⟨e1, e2⟩ => hn ⟨e1, List.mem_cons_of_mem _ e2⟩),
        fun hnd => t4 (List.nodup_cons.mp hnd).2, ?_⟩
      intro hw hm hex hh hd
      rcases List.mem_cons.mp hm with he | he
      · obtain ⟨i, hi⟩ := hex
        rw [he, hl] at hi
        cases hi
      · exact t5 hw he hex hh hd
    | some l =>
      rw [hl] at h
      simp only at h
      cases hc : heap[l]? with
      | none =>
        rw [hc] at h
        cases h
        exact ⟨fun e he _ => Or.inl he, Nat.le_refl _, fun _ => rfl, fun _ => Nat.le_succ _,
          fun _ _ _ _ hd => by cases hd⟩
      | some link =>
        rw [hc] at h
        simp only at h
        cases hcl : p.closeLink who link log with
        | mk o1 log1 =>
          rw [hcl] at h
          obtain ⟨c1, c2, c3, c4, c5⟩ := closeLink_track f hname hcl
          have hmem : ∀ e ∈ log1, e.2 = f → e ∈ log ∨ e.1 = Q0 := by
            intro e he hef
            rcases c1 e he hef with g | ⟨g1, g2⟩
            · exact Or.inl g
            · exact Or.inr (g1.trans (honly port l link hl hc g2).1)
          have hmiss : ¬ (who = Q0 ∧ k0 ∈ port :: rest) → closeCount log1 f = closeCount log f := by
            intro hn
            refine c3 (fun ha => hn ?_) (fun hb => hn ?_)
            · obtain ⟨g1, g2⟩ := honly port l link hl hc (Or.inl ha)
              exact ⟨g1, by rw [g2]; exact List.mem_cons_self _ _⟩
            · obtain ⟨g1, g2⟩ := honly port l link hl hc (Or.inr hb)
              exact ⟨g1, by rw [g2]; exact List.mem_cons_self _ _⟩
          have hle : closeCount log1 f ≤ closeCount log f + 1 := by
            by_cases hab : (link.Rd = some f ∧ link.Dst.Node = who) ∧
                (link.Wr = some f ∧ link.Src.Node = who)
            · obtain ⟨_, g2⟩ := honly port l link hl hc (Or.inl hab.1)
              subst g2
              exact absurd hab (hone l link hl hc)
            · exact c4 hab
          have stop : o = o1 → log' = log1 → o1 ≠ .done →
              (∀ e ∈ log', e.2 = f → e ∈ log ∨ e.1 = Q0) ∧
              closeCount log f ≤ closeCount log' f ∧
              (¬ (who = Q0 ∧ k0 ∈ port :: rest) → closeCount log' f = closeCount log f) ∧
              ((port :: rest).Nodup → closeCount log' f ≤ closeCount log f + 1) ∧
              (who = Q0 → k0 ∈ port :: rest → (∃ i, mapGet p.Links k0 = some i) →
                (∀ i li, mapGet p.Links k0 = some i → heap[i]? = some li →
                  (li.Rd = some f ∧ li.Dst.Node = who) ∨
                    (li.Wr = some f ∧ li.Src.Node = who)) →
                o = .done → closeCount log f + 1 ≤ closeCount log' f) := by
            intro ho hlog hnd
            subst ho
            subst hlog
            exact ⟨hmem, c2, hmiss, fun _ => hle, fun _ _ _ _ hd => absurd hd hnd⟩
          cases o1 with
          | failed g =>
            simp only at h
            cases h
            exact stop rfl rfl (fun hx => by cases hx)
          | panic g =>
            simp only at h
            cases h
            exact stop rfl rfl (fun hx => by cases hx)
          | done =>
            simp only at h
            obtain ⟨t1, t2, t3, t4, t5⟩ := ih log1 o log' h
            refine ⟨?_, Nat.le_trans c2 t2, ?_, ?_, ?_⟩
            · intro e he hef
              rcases t1 e he hef with g | g
              · exact hmem e g hef
              · exact Or.inr g
            · intro hn
              rw [t3 (fun ⟨e1, e2⟩ => hn ⟨e1, List.mem_cons_of_mem _ e2⟩), hmiss hn]
            · intro hnd
              obtain ⟨hnotin, hnd'⟩ := List.nodup_cons.mp hnd
              by_cases hpk : who = Q0 ∧ port = k0
              · obtain ⟨g1, g2⟩ := hpk
                subst g2
                rw [t3 (fun ⟨_, e2⟩ => hnotin e2)]
                exact hle
              · have hz : closeCount log1 f = closeCount log f := by
                  refine c3 (fun ha => hpk ?_) (fun hb => hpk ?_)
                  · exact honly port l link hl hc (Or.inl ha)
                  · exact honly port l link hl hc (Or.inr hb)
                rw [← hz]
                exact t4 hnd'
            · intro hw hm hex hh hd
              by_cases hpk : port = k0
              · subst hpk
                have := c5 (hh l link hl hc) rfl
                omega
              · rcases List.mem_cons.mp hm with he | he
                · exact absurd he.symm hpk
                · have := t5 hw he hex hh hd
                  omega

end osruntime

namespace osruntime

/-- How the `Close` calls of the workers change the number of `Close` calls made on the
file `f`, when only the entry `k0` of the process `Q0` leads to a link instance that a
process closes `f` at. -/
theorem closeProcs_track {rt : Program} {cs : CloseSchedule} (hcs : cs.Valid)
    {Q0 k0 : String} {f : File}
    (hbase : ∀ Q p, mapGet rt.procs Q = some p → p.Plan.Name = Q ∧ (mapKeys p.Links).Nodup ∧
      (∀ k i li, mapGet p.Links k = some i → rt.heap[i]? = some li →
        (li.Rd = some f ∧ li.Dst.Node = Q) ∨ (li.Wr = some f ∧ li.Src.Node = Q) →
        Q = Q0 ∧ k = k0) ∧
      (∀ i li, mapGet p.Links k0 = some i → rt.heap[i]? = some li →
        ¬ ((li.Rd = some f ∧ li.Dst.Node = Q) ∧ (li.Wr = some f ∧ li.Src.Node = Q)))) :
    ∀ (ks : List String) (s : CloseLog × List (String × CloseOutcome)),
      (∀ e ∈ (closeProcs rt cs ks s).1, e.2 = f → e ∈ s.1 ∨ e.1 = Q0) ∧
      closeCount s.1 f ≤ closeCount (closeProcs rt cs ks s).1 f ∧
      (Q0 ∉ ks → closeCount (closeProcs rt cs ks s).1 f = closeCount s.1 f) ∧
      (ks.Nodup → closeCount (closeProcs rt cs ks s).1 f ≤ closeCount s.1 f + 1) ∧
      ((∀ p, mapGet rt.procs Q0 = some p → (∃ i, mapGet p.Links k0 = some i) ∧
          ∀ i li, mapGet p.Links k0 = some i → rt.heap[i]? = some li →
            (li.Rd = some f ∧ li.Dst.Node = Q0) ∨ (li.Wr = some f ∧ li.Src.Node = Q0)) →
        (Q0, CloseOutcome.done) ∈ (closeProcs rt cs ks s).2 →
        (Q0, CloseOutcome.done) ∈ s.2 ∨
        closeCount s.1 f + 1 ≤ closeCount (closeProcs rt cs ks s).1 f) := by
  intro ks
  induction ks with
  | nil =>
    intro s
    unfold closeProcs
    exact ⟨fun e he _ => Or.inl he, Nat.le_refl _, fun _ => rfl, fun _ => Nat.le_succ _,
      fun _ h => Or.inl h⟩
  | cons k ks ih =>
    intro s
    unfold closeProcs
    cases hg : mapGet rt.procs k with
    | none =>
      simp only
      obtain ⟨t1, t2, t3, t4, t5⟩ := ih s
      exact ⟨t1, t2, fun hn => t3 (fun hm => hn (List.mem_cons_of_mem _ hm)),
        fun hnd => t4 (List.nodup_cons.mp hnd).2, t5⟩
    | some p =>
      simp only
      obtain ⟨hname, hnodup, honly, hone⟩ := hbase k p hg
      have hperm := hcs.links k (mapKeys p.Links)
      have hrun : Process.closeLoop k p rt.heap (cs.links k (mapKeys p.Links)) s.1 =
          ((p.Close rt.heap cs k s.1).1, (p.Close rt.heap cs k s.1).2) := rfl
      obtain ⟨c1, c2, c3, c4, c5⟩ := closeLoop_track hname honly hone _ _ _ _ hrun
      obtain ⟨t1, t2, t3, t4, t5⟩ :=
        ih ((p.Close rt.heap cs k s.1).2, s.2 ++ [(k, (p.Close rt.heap cs k s.1).1)])
      simp only at t1 t2 t3 t4 t5
      refine ⟨?_, Nat.le_trans c2 t2, ?_, ?_, ?_⟩
      · intro e he hef
        rcases t1 e he hef with g | g
        · exact c1 e g hef
        · exact Or.inr g
      · intro hn
        rw [t3 (fun hm => hn (List.mem_cons_of_mem _ hm)),
          c3 (fun ⟨e1, _⟩ => hn (by rw [← e1]; exact List.mem_cons_self _ _))]
      · intro hnd
        obtain ⟨hnotin, hnd'⟩ := List.nodup_cons.mp hnd
        by_cases hk : k = Q0
        · rw [t3 (by rw [← hk]; exact hnotin)]
          exact c4 (hperm.nodup_iff.mpr hnodup)
        · rw [← c3 (fun ⟨e1, _⟩ => hk e1)]
          exact t4 hnd'
      · intro hh hm
        rcases t5 hh hm with g | g
        · rcases List.mem_append.mp g with g | g
          · exact Or.inl g
          · have hkd := List.mem_singleton.mp g
            have hk : k = Q0 := (congrArg Prod.fst hkd).symm
            have hd : (p.Close rt.heap cs k s.1).1 = .done := (congrArg Prod.snd hkd).symm
            subst hk
            obtain ⟨⟨i, hi⟩, hab⟩ := hh p hg
            have hmem : k0 ∈ cs.links k (mapKeys p.Links) :=
              hperm.mem_iff.mpr ((mapGet_isSome_iff _ _).mp ⟨i, hi⟩)
            have := c5 rfl hmem ⟨i, hi⟩ hab hd
            exact Or.inr (by omega)
        · exact Or.inr (by omega)

/-- After `Process.Close` has run for every process: a file that only the entry `k0` of
the process `Q0` leads to is closed at most once, by `Q0` only, and exactly once when the
`Close` call of `Q0` returned nil. -/
theorem closeAll_once {rt : Program} {cs : CloseSchedule} (hcs : cs.Valid)
    {Q0 k0 : String} {f : File} (hkeys : (mapKeys rt.procs).Nodup)
    (hbase : ∀ Q p, mapGet rt.procs Q = some p → p.Plan.Name = Q ∧ (mapKeys p.Links).Nodup ∧
      (∀ k i li, mapGet p.Links k = some i → rt.heap[i]? = some li →
        (li.Rd = some f ∧ li.Dst.Node = Q) ∨ (li.Wr = some f ∧ li.Src.Node = Q) →
        Q = Q0 ∧ k = k0) ∧
      (∀ i li, mapGet p.Links k0 = some i → rt.heap[i]? = some li →
        ¬ ((li.Rd = some f ∧ li.Dst.Node = Q) ∧ (li.Wr = some f ∧ li.Src.Node = Q)))) :
    closeCount (rt.closeAll cs).1 f ≤ 1 ∧
    (∀ who, (who, f) ∈ (rt.closeAll cs).1 → who = Q0) ∧
    ((∀ p, mapGet rt.procs Q0 = some p → (∃ i, mapGet p.Links k0 = some i) ∧
          ∀ i li, mapGet p.Links k0 = some i → rt.heap[i]? = some li →
            (li.Rd = some f ∧ li.Dst.Node = Q0) ∨ (li.Wr = some f ∧ li.Src.Node = Q0)) →
      (Q0, CloseOutcome.done) ∈ (rt.closeAll cs).2 → closeCount (rt.closeAll cs).1 f = 1) := by
  obtain ⟨t1, _, _, t4, t5⟩ :=
    closeProcs_track hcs hbase (cs.procs (mapKeys rt.procs)) ([], [])
  have hle := t4 ((hcs.procs _).nodup_iff.mpr hkeys)
  have hzero : closeCount ([] : CloseLog) f = 0 := rfl
  simp only [hzero] at hle t5
  refine ⟨hle, ?_, ?_⟩
  · intro who hm
    rcases t1 (who, f) hm rfl with g | g
    · cases g
    · exact g
  · intro hh hm
    rcases t5 hh hm with g | g
    · cases g
    · unfold Program.closeAll
      omega

/-- The last pass of `Build` leaves the plan and the links of every process as they are. -/
theorem setCmds_procs {env : Env} {ks : List String} {rt rt' : Program}
    (h : rangeProcs (Program.setCmd env) ks rt = .ok rt') :
    ∀ Q p', mapGet rt'.procs Q = some p' →
      ∃ p, mapGet rt.procs Q = some p ∧ p'.Plan = p.Plan ∧ p'.Links = p.Links := by
  refine rangeProcs_rel (fun a b => ∀ Q p', mapGet b.procs Q = some p' →
      ∃ p, mapGet a.procs Q = some p ∧ p'.Plan = p.Plan ∧ p'.Links = p.Links)
    (fun _ _ p' hp => ⟨p', hp, rfl, rfl⟩) ?_ _ ?_ ks rt rt' h
  · intro a b c h1 h2 Q p' hp
    obtain ⟨p1, g1, g2, g3⟩ := h2 Q p' hp
    obtain ⟨p0, k1, k2, k3⟩ := h1 Q p1 g1
    exact ⟨p0, k1, g2.trans k2, g3.trans k3⟩
  · intro k p a b hk hb Q p' hp
    unfold Program.setCmd at hb
    obtain ⟨r, _, hb⟩ := Result.bind_eq_ok hb
    cases he : r.2 with
    | some e => rw [he] at hb; cases hb
    | none =>
    rw [he] at hb
    cases hb
    simp only [mapGet_mapSet] at hp
    by_cases hkk : k = Q
    · subst hkk
      simp only [if_true] at hp
      cases hp
      exact ⟨p, hk, rfl, rfl⟩
    · simp only [hkk, if_false] at hp
      exact ⟨p', hp, rfl, rfl⟩

end osruntime

namespace osruntime

/-- After a successful `Build`, for a stream link between two distinct processes that is
the only use of its two ports: the instance stored on the dst process is stored on the
src process as well and on no other entry, it holds the two ends of one pipe, and every
process instance is keyed by the name of its plan. -/
theorem Build_pipe_link (prog : plan.Pipe) (presets : List (String × Option Value))
    (env : Env) (sched : Schedule) (hv : sched.Valid) (wf : prog.WellFormed)
    (link : plan.Link) (hf : ProcFeeds prog link) (rt : Program)
    (h : Build prog presets env sched = .ok rt) (j : Nat)
    (hj : rt.linkAt link.Dst.Node link.Dst.Port = some j) :
    rt.linkAt link.Src.Node link.Src.Port = some j ∧
    (∃ li n, rt.heap[j]? = some li ∧ li.Src = link.Src ∧ li.Dst = link.Dst ∧
      li.Rd = some (.pipeRd n) ∧ li.Wr = some (.pipeWr n) ∧ rt.pipes[n]? = some j) ∧
    (mapKeys rt.procs).Nodup ∧
    ∀ Q p, mapGet rt.procs Q = some p → p.Plan.Name = Q ∧ (mapKeys p.Links).Nodup ∧
      ∀ k, mapGet p.Links k = some j →
        (Q = link.Dst.Node ∧ k = link.Dst.Port) ∨ (Q = link.Src.Node ∧ k = link.Src.Port) := by
  obtain ⟨r1, r2, r3, r4, r5, h1, h2, h3, h4, h5, h6⟩ := Build_ok_stages h
  have f1 := connectProcs_frame h1
  have f2 := connectVars_frame h2
  have f3 := bindPresets_frame h3
  obtain ⟨b1, b2, b3, _, _, _⟩ := bindDefaults_pass env _ r3 r4 h4
  obtain ⟨i1, _⟩ := initProcs_frame h5
  obtain ⟨_, c2, c3, c4, c5⟩ := setCmds_frame h6
  obtain ⟨hfp2, hP2⟩ := connect_pairInv wf hf h1 h2
  have hn2 := connect_nodup h1 h2
  have hprocs42 : r4.procs = r2.procs := b2.trans f3.procs
  have hlink4 : ∀ Q k, r4.linkAt Q k = r2.linkAt Q k := by
    intro Q k; simp only [Program.linkAt, hprocs42]
  have hlink5 : ∀ Q k, r5.linkAt Q k = r2.linkAt Q k := by
    intro Q k; simp only [Program.linkAt, i1, hprocs42]
  have hj2 : r2.linkAt link.Dst.Node link.Dst.Port = some j := by
    rw [← hlink5, ← c5]; exact hj
  have hS2 := hP2.follows j hj2
  have hcell2 : StreamCell r2 link j := hP2.cell j hj2
  have hcell3 : StreamCell r3 link j := by
    refine bindPresets_rel (fun a b => StreamCell a link j → StreamCell b link j)
      (fun _ h => h) (fun _ _ _ f g h => g (f h)) presets ?_ _ _ _ h3 hcell2
    intro k v value a b _ _ hb
    obtain ⟨_, _, _, _, hfr, _⟩ := bindVar_ok hb
    exact streamCell_of_frame hfr
  have hcell4 : StreamCell r4 link j := by
    refine rangeVars_rel (fun a b => StreamCell a link j → StreamCell b link j)
      (fun _ h => h) (fun _ _ _ f g h => g (f h)) _ ?_ _ _ _ h4 hcell3
    intro k v a b hk hb
    rcases bindDefaultsChecked_ok hk hb with ⟨he, _⟩ | ⟨_, value, hbind, _⟩
    · rw [he]; exact id
    · obtain ⟨_, _, _, _, hfr, _⟩ := bindVar_ok hbind
      exact streamCell_of_frame hfr
  have hbase : ∀ Q p, mapGet r4.procs Q = some p → p.Plan.Name = Q ∧
      (mapKeys p.Links).Nodup ∧ ∀ k, mapGet p.Links k = some j →
        (Q = link.Dst.Node ∧ k = link.Dst.Port) ∨ (Q = link.Src.Node ∧ k = link.Src.Port) := by
    intro Q p hp
    rw [hprocs42] at hp
    refine ⟨(hfp2.1 Q p.Plan (by simp [Program.procPlan, hp])).2, hn2 Q p hp, ?_⟩
    intro k hk
    exact hP2.holders Q k j hj2 (by simp [Program.linkAt, hp, hk])
  have hsrc4 : ∃ s, mapGet r4.procs link.Src.Node = some s := by
    rw [hprocs42]
    simp only [Program.linkAt] at hS2
    cases hg : mapGet r2.procs link.Src.Node with
    | none => rw [hg] at hS2; cases hS2
    | some s => exact ⟨s, rfl⟩
  have hdst4 : ∃ p, mapGet r4.procs link.Dst.Node = some p := by
    rw [hprocs42]
    simp only [Program.linkAt] at hj2
    cases hg : mapGet r2.procs link.Dst.Node with
    | none => rw [hg] at hj2; cases hj2
    | some s => exact ⟨s, rfl⟩
  have hfresh4 : PipeFresh r4 j := by
    unfold PipeFresh
    rw [b3, f3.pipes, f2.pipes, f1.pipes, (create_spec prog).2.1]
    rfl
  have hkeys : (mapKeys r4.procs).Nodup := by
    rw [hprocs42, f2.nodes.procKeys, f1.nodes.procKeys]
    exact (create_spec prog).2.2.1
  have hperm := hv.initProcs (mapKeys r4.procs)
  obtain ⟨hcell5, _, _, hdone⟩ := initProcs_track hf.distinct hv _ r4 r5 hbase hcell4 hsrc4 h5
  obtain ⟨hcount, n, l5, g1, g2, g3, g4⟩ := hdone
    (hperm.mem_iff.mpr ((mapGet_isSome_iff _ _).mp hdst4)) (hperm.nodup_iff.mpr hkeys)
    (by rw [hlink4]; exact hj2) hfresh4
  obtain ⟨li, e1, e2, e3, e4⟩ := hcell5
  rw [g1] at e1
  cases e1
  refine ⟨by rw [c5, hlink5]; exact hS2,
    ⟨l5, n, by rw [c2]; exact g1, e3, e4, g2, g3, by rw [c3]; exact g4⟩, ?_, ?_⟩
  · rw [c4.procKeys, i1]
    exact hkeys
  · intro Q p' hp'
    obtain ⟨p, hp, q1, q2⟩ := setCmds_procs h6 Q p' hp'
    rw [i1] at hp
    rw [q1, q2]
    exact hbase Q p hp

theorem sharedFilePlan_wf : sharedFilePlan.WellFormed :=
  ⟨by unfold plan.NodesSorted; decide, by unfold plan.NodesSorted; decide,
   by unfold plan.LinksSorted; decide, by decide, by decide, by decide⟩

theorem sharedFilePlan_feeds : ProcFeeds sharedFilePlan ⟨⟨"S", "o"⟩, ⟨"P", "c"⟩⟩ :=
  ⟨by decide, ⟨mkProc "S" [] [⟨"o", "stream"⟩] [], by decide, rfl⟩, by decide, by decide,
   by decide, by decide, by decide, by decide⟩

theorem throughVarPlan_wf : throughVarPlan.WellFormed :=
  ⟨by unfold plan.NodesSorted; decide, by unfold plan.NodesSorted; decide,
   by unfold plan.LinksSorted; decide, by decide, by decide, by decide⟩

theorem throughVarPlan_feeds : ProcFeeds throughVarPlan ⟨⟨"S", "o"⟩, ⟨"P", "j"⟩⟩ :=
  ⟨by decide, ⟨mkProc "S" [] [⟨"o", "stream"⟩] [], by decide, rfl⟩, by decide, by decide,
   by decide, by decide, by decide, by decide⟩

theorem C11_counterexample :
    (∃ rt, Build fanOutPlan [] Env.allOk Schedule.inOrder = .ok rt ∧
      rt.pipes = [0, 1] ∧
      (∃ li, rt.heap[0]? = some li ∧ li.Src = ⟨"S", "o"⟩ ∧ li.Dst = ⟨"A", "i"⟩ ∧
        li.Rd = some (.pipeRd 0) ∧ li.Wr = some (.pipeWr 0)) ∧
      rt.closeAll CloseSchedule.inOrder =
        ([("A", .pipeRd 0), ("B", .pipeRd 1), ("S", .pipeWr 1)],
         [("A", .done), ("B", .done), ("S", .done)]) ∧
      closeCount (rt.closeAll CloseSchedule.inOrder).1 (.pipeWr 0) = 0) ∧
    (∃ rt, Build selfLinkPlan [] Env.allOk Schedule.inOrder = .ok rt ∧
      rt.pipes = [0, 0] ∧
      rt.closeAll CloseSchedule.inOrder =
        ([("P", .pipeRd 1), ("P", .pipeWr 1), ("P", .pipeRd 1)], [("P", .failed (.pipeRd 1))]) ∧
      closeCount (rt.closeAll CloseSchedule.inOrder).1 (.pipeRd 0) = 0 ∧
      closeCount (rt.closeAll CloseSchedule.inOrder).1 (.pipeWr 0) = 0 ∧
      closeCount (rt.closeAll CloseSchedule.inOrder).1 (.pipeRd 1) = 2) ∧
    (sharedFilePlan.WellFormed ∧ ProcFeeds sharedFilePlan ⟨⟨"S", "o"⟩, ⟨"P", "c"⟩⟩ ∧
      ∃ rt, Build sharedFilePlan sharedFilePresets Env.allOk Schedule.inOrder = .ok rt ∧
        rt.pipes = [2] ∧
        (∃ li, rt.heap[2]? = some li ∧ li.Src = ⟨"S", "o"⟩ ∧ li.Dst = ⟨"P", "c"⟩ ∧
          li.Rd = some (.pipeRd 0) ∧ li.Wr = some (.pipeWr 0)) ∧
        rt.closeAll CloseSchedule.inOrder =
          ([("P", .given 0 "/dev/stdin"), ("P", .given 0 "/dev/stdin"), ("S", .pipeWr 0)],
           [("P", .failed (.given 0 "/dev/stdin")), ("S", .done)]) ∧
        closeCount (rt.closeAll CloseSchedule.inOrder).1 (.pipeRd 0) = 0) ∧
    (throughVarPlan.WellFormed ∧ ProcFeeds throughVarPlan ⟨⟨"S", "o"⟩, ⟨"P", "j"⟩⟩ ∧
      ∃ rt, Build throughVarPlan throughVarPresets Env.allOk Schedule.inOrder = .ok rt ∧
        rt.pipes = [1] ∧
        (∃ li, rt.heap[1]? = some li ∧ li.Src = ⟨"S", "o"⟩ ∧ li.Dst = ⟨"P", "j"⟩ ∧
          li.Rd = some (.pipeRd 0) ∧ li.Wr = some (.pipeWr 0)) ∧
        rt.closeAll CloseSchedule.inOrder =
          ([("A", .given 3 "/tmp/f"), ("P", .given 3 "/tmp/f"), ("S", .pipeWr 0)],
           [("A", .done), ("P", .failed (.given 3 "/tmp/f")), ("S", .done)]) ∧
        closeCount (rt.closeAll CloseSchedule.inOrder).1 (.pipeRd 0) = 0) ∧
    (droppedLinkPlan.WellFormed ∧ ProcFeeds droppedLinkPlan ⟨⟨"S", "o"⟩, ⟨"P", "b"⟩⟩ ∧
      ∃ rt, Build droppedLinkPlan [] Env.allOk Schedule.inOrder = .ok rt ∧
        rt.linkAt "P" "b" = none ∧ rt.linkAt "S" "o" = none ∧ rt.heap = [] ∧
        rt.pipes = [] ∧
        rt.closeAll CloseSchedule.inOrder = ([], [("P", .done), ("S", .done)])) :=
  ⟨⟨_, rfl, rfl, ⟨_, rfl, rfl, rfl, rfl, rfl⟩, rfl, rfl⟩, ⟨_, rfl, rfl, rfl, rfl, rfl, rfl⟩,
   ⟨sharedFilePlan_wf, sharedFilePlan_feeds, _, rfl, rfl, ⟨_, rfl, rfl, rfl, rfl, rfl⟩, rfl,
    rfl⟩,
   ⟨throughVarPlan_wf, throughVarPlan_feeds, _, rfl, rfl, ⟨_, rfl, rfl, rfl, rfl, rfl⟩, rfl,
    rfl⟩,
   ⟨by
      exact ⟨by unfold plan.NodesSorted; decide, by unfold plan.NodesSorted; decide,
        by unfold plan.LinksSorted; decide, by decide, by decide, by decide⟩,
    droppedLinkPlan_feeds, _, rfl, rfl, rfl, rfl, rfl, rfl⟩⟩

/-- In a well-formed plan let `link` be a stream link between two distinct processes that
is the only use of its two ports, and let the presets hold no end of a pipe. After a
successful `Build` an instance of `link` stored on the dst process holds the two ends of one
pipe; once `Process.Close` has run for every process instance, in any order, each of the two
ends has been closed at most once, the read end by the dst process only and the write end by
the src process only, and exactly once when the `Close` call of that process returned nil. -/
theorem closeAll_pipe_ends (prog : plan.Pipe) (presets : List (String × Option Value))
    (env : Env) (sched : Schedule) (hv : sched.Valid) (wf : prog.WellFormed)
    (hpre : PresetsGiven presets) (link : plan.Link) (hf : ProcFeeds prog link)
    (rt : Program) (h : Build prog presets env sched = .ok rt) (j : Nat)
    (hj : rt.linkAt link.Dst.Node link.Dst.Port = some j)
    (cs : CloseSchedule) (hcs : cs.Valid) :
    ∃ li n, rt.heap[j]? = some li ∧ li.Rd = some (.pipeRd n) ∧ li.Wr = some (.pipeWr n) ∧
      rt.pipes[n]? = some j ∧
      closeCount (rt.closeAll cs).1 (.pipeRd n) ≤ 1 ∧
      closeCount (rt.closeAll cs).1 (.pipeWr n) ≤ 1 ∧
      (∀ who, (who, File.pipeRd n) ∈ (rt.closeAll cs).1 → who = link.Dst.Node) ∧
      (∀ who, (who, File.pipeWr n) ∈ (rt.closeAll cs).1 → who = link.Src.Node) ∧
      ((link.Dst.Node, CloseOutcome.done) ∈ (rt.closeAll cs).2 →
        closeCount (rt.closeAll cs).1 (.pipeRd n) = 1) ∧
      ((link.Src.Node, CloseOutcome.done) ∈ (rt.closeAll cs).2 →
        closeCount (rt.closeAll cs).1 (.pipeWr n) = 1) := by
  obtain ⟨hS, ⟨li, n, hli, hsrc, hdst, hrd, hwr, hpn⟩, hkeys, hbase⟩ :=
    Build_pipe_link prog presets env sched hv wf link hf rt h j hj
  have hE := Build_endsLogged hpre h
  have hcell : ∀ (i : Nat) (l : Link) (f : File), rt.heap[i]? = some l →
      (l.Rd = some f ∨ l.Wr = some f) → f.pipeOf = some n → i = j ∧ l = li := by
    intro i l f hi hfl hm
    have := hE i l f n hi hfl hm
    rw [hpn] at this
    have hij : i = j := (Option.some.inj this).symm
    subst hij
    rw [hli] at hi
    exact ⟨rfl, (Option.some.inj hi).symm⟩
  have hne : (File.pipeRd n) ≠ File.pipeWr n := fun hx => by cases hx
  have hdist := hf.distinct
  have noWr : ∀ (i : Nat) (l : Link), rt.heap[i]? = some l →
      l.Wr ≠ some (File.pipeRd n) := by
    intro i l hi hw
    obtain ⟨_, e⟩ := hcell i l _ hi (Or.inr hw) rfl
    subst e
    rw [hwr] at hw
    exact hne (Option.some.inj hw).symm
  have noRd : ∀ (i : Nat) (l : Link), rt.heap[i]? = some l →
      l.Rd ≠ some (File.pipeWr n) := by
    intro i l hi hr
    obtain ⟨_, e⟩ := hcell i l _ hi (Or.inl hr) rfl
    subst e
    rw [hrd] at hr
    exact hne (Option.some.inj hr)
  have baseRd : ∀ Q p, mapGet rt.procs Q = some p → p.Plan.Name = Q ∧
      (mapKeys p.Links).Nodup ∧
      (∀ k i l, mapGet p.Links k = some i → rt.heap[i]? = some l →
        (l.Rd = some (File.pipeRd n) ∧ l.Dst.Node = Q) ∨
          (l.Wr = some (File.pipeRd n) ∧ l.Src.Node = Q) →
        Q = link.Dst.Node ∧ k = link.Dst.Port) ∧
      (∀ i l, mapGet p.Links link.Dst.Port = some i → rt.heap[i]? = some l →
        ¬ ((l.Rd = some (File.pipeRd n) ∧ l.Dst.Node = Q) ∧
          (l.Wr = some (File.pipeRd n) ∧ l.Src.Node = Q))) := by
    intro Q p hp
    obtain ⟨b1, b2, b3⟩ := hbase Q p hp
    refine ⟨b1, b2, ?_, ?_⟩
    · intro k i l hk hi hab
      rcases hab with ⟨ha, hq⟩ | ⟨hb, _⟩
      · obtain ⟨e1, e2⟩ := hcell i l _ hi (Or.inl ha) rfl
        subst e1
        subst e2
        rw [hdst] at hq
        rcases b3 k hk with g | g
        · exact g
        · exact absurd (g.1.symm.trans hq.symm) hdist
      · exact absurd hb (noWr i l hi)
    · intro i l _ hi hab
      exact noWr i l hi hab.2.1
  have hitRd : ∀ p, mapGet rt.procs link.Dst.Node = some p →
      (∃ i, mapGet p.Links link.Dst.Port = some i) ∧
      ∀ i l, mapGet p.Links link.Dst.Port = some i → rt.heap[i]? = some l →
        (l.Rd = some (File.pipeRd n) ∧ l.Dst.Node = link.Dst.Node) ∨
          (l.Wr = some (File.pipeRd n) ∧ l.Src.Node = link.Dst.Node) := by
    intro p hp
    have hk : mapGet p.Links link.Dst.Port = some j := by
      simp only [Program.linkAt, hp, Option.some_bind] at hj
      exact hj
    refine ⟨⟨j, hk⟩, ?_⟩
    intro i l hi hl
    rw [hk] at hi
    cases hi
    rw [hli] at hl
    cases hl
    exact Or.inl ⟨hrd, by rw [hdst]⟩
  have baseWr : ∀ Q p, mapGet rt.procs Q = some p → p.Plan.Name = Q ∧
      (mapKeys p.Links).Nodup ∧
      (∀ k i l, mapGet p.Links k = some i → rt.heap[i]? = some l →
        (l.Rd = some (File.pipeWr n) ∧ l.Dst.Node = Q) ∨
          (l.Wr = some (File.pipeWr n) ∧ l.Src.Node = Q) →
        Q = link.Src.Node ∧ k = link.Src.Port) ∧
      (∀ i l, mapGet p.Links link.Src.Port = some i → rt.heap[i]? = some l →
        ¬ ((l.Rd = some (File.pipeWr n) ∧ l.Dst.Node = Q) ∧
          (l.Wr = some (File.pipeWr n) ∧ l.Src.Node = Q))) := by
    intro Q p hp
    obtain ⟨b1, b2, b3⟩ := hbase Q p hp
    refine ⟨b1, b2, ?_, ?_⟩
    · intro k i l hk hi hab
      rcases hab with ⟨ha, _⟩ | ⟨hb, hq⟩
      · exact absurd ha (noRd i l hi)
      · obtain ⟨e1, e2⟩ := hcell i l _ hi (Or.inr hb) rfl
        subst e1
        subst e2
        rw [hsrc] at hq
        rcases b3 k hk with g | g
        · exact absurd (hq.trans g.1) hdist
        · exact g
    · intro i l _ hi hab
      exact noRd i l hi hab.1.1
  have hitWr : ∀ p, mapGet rt.procs link.Src.Node = some p →
      (∃ i, mapGet p.Links link.Src.Port = some i) ∧
      ∀ i l, mapGet p.Links link.Src.Port = some i → rt.heap[i]? = some l →
        (l.Rd = some (File.pipeWr n) ∧ l.Dst.Node = link.Src.Node) ∨
          (l.Wr = some (File.pipeWr n) ∧ l.Src.Node = link.Src.Node) := by
    intro p hp
    have hk : mapGet p.Links link.Src.Port = some j := by
      simp only [Program.linkAt, hp, Option.some_bind] at hS
      exact hS
    refine ⟨⟨j, hk⟩, ?_⟩
    intro i l hi hl
    rw [hk] at hi
    cases hi
    rw [hli] at hl
    cases hl
    exact Or.inr ⟨hwr, by rw [hsrc]⟩
  obtain ⟨r1, r2, r3⟩ := closeAll_once hcs hkeys baseRd
  obtain ⟨w1, w2, w3⟩ := closeAll_once hcs hkeys baseWr
  exact ⟨li, n, hli, hrd, hwr, hpn, r1, w1, r2, w2, r3 hitRd, w3 hitWr⟩

theorem closeInOrder_valid : CloseSchedule.inOrder.Valid :=
  ⟨fun _ => List.Perm.refl _, fun _ _ => List.Perm.refl _⟩

theorem noPresets_given : PresetsGiven [] := fun _ _ h => by cases h

end osruntime
/-! ### The connect pass reaches a link -/

namespace osruntime

theorem connectPort_keeps {prog : plan.Pipe} {dk : String} {inp : plan.Port}
    {link : plan.Link} {rt rt' : Program} (h : connectPort prog dk inp link rt = .ok rt') :
    (∃ j, rt'.linkAt dk inp.Name = some j) ∧
    ∀ Q k, (∃ j, rt.linkAt Q k = some j) → ∃ j, rt'.linkAt Q k = some j := by
  obtain ⟨val, sp, _, _, _, _, hcase⟩ := connectPort_ok h
  have hl : ∀ Q k, rt'.linkAt Q k =
      (if Q = link.Src.Node ∧ k = link.Src.Port then some rt.heap.length
        else if Q = dk ∧ k = inp.Name then some rt.heap.length else rt.linkAt Q k) ∨
      rt'.linkAt Q k =
        (if Q = dk ∧ k = inp.Name then some rt.heap.length else rt.linkAt Q k) := by
    intro Q k
    rcases hcase with ⟨_, _, _, _, _, hl⟩ | ⟨_, _, _, _, _, _, _, _, hl⟩
    · exact Or.inl (hl Q k)
    · exact Or.inr (hl Q k)
  constructor
  · rcases hl dk inp.Name with e | e
    · rw [e]
      by_cases hc : dk = link.Src.Node ∧ inp.Name = link.Src.Port
      · rw [if_pos hc]; exact ⟨_, rfl⟩
      · rw [if_neg hc, if_pos ⟨rfl, rfl⟩]; exact ⟨_, rfl⟩
    · rw [e, if_pos ⟨rfl, rfl⟩]; exact ⟨_, rfl⟩
  · intro Q k hj
    rcases hl Q k with e | e
    · rw [e]
      by_cases hc : Q = link.Src.Node ∧ k = link.Src.Port
      · rw [if_pos hc]; exact ⟨_, rfl⟩
      · rw [if_neg hc]
        by_cases hc2 : Q = dk ∧ k = inp.Name
        · rw [if_pos hc2]; exact ⟨_, rfl⟩
        · rw [if_neg hc2]; exact hj
    · rw [e]
      by_cases hc2 : Q = dk ∧ k = inp.Name
      · rw [if_pos hc2]; exact ⟨_, rfl⟩
      · rw [if_neg hc2]; exact hj

theorem connectProcLoop_keeps {prog : plan.Pipe} {dk : String} {dst : plan.Process} :
    ∀ (ports : List plan.Port) (rt rt' : Program),
      connectProcLoop prog dk dst ports rt = .ok rt' →
      ∀ Q k, (∃ j, rt.linkAt Q k = some j) → ∃ j, rt'.linkAt Q k = some j := by
  intro ports
  induction ports with
  | nil => intro rt rt' h; cases h; exact fun _ _ hj => hj
  | cons q rest ih =>
    intro rt rt' h
    unfold connectProcLoop at h
    cases hf : prog.FindLink ⟨dst.Name, q.Name⟩ with
    | none => rw [hf] at h; cases h; exact fun _ _ hj => hj
    | some link =>
      rw [hf] at h
      obtain ⟨rt1, h1, h2⟩ := Result.bind_eq_ok h
      exact fun Q k hj => ih rt1 rt' h2 Q k ((connectPort_keeps h1).2 Q k hj)

theorem connectProcs_keeps {prog : plan.Pipe} {ks : List String} {rt rt' : Program}
    (h : rangeProcs (Program.connectProc prog) ks rt = .ok rt') :
    ∀ Q k, (∃ j, rt.linkAt Q k = some j) → ∃ j, rt'.linkAt Q k = some j :=
  rangeProcs_rel
    (fun a b => ∀ Q k, (∃ j, a.linkAt Q k = some j) → ∃ j, b.linkAt Q k = some j)
    (fun _ _ _ h => h) (fun _ _ _ f g Q k h => g Q k (f Q k h)) _
    (fun _ _ _ _ _ h => connectProcLoop_keeps _ _ _ h) ks rt rt' h

theorem connectVars_keeps {prog : plan.Pipe} {ks : List String} {rt rt' : Program}
    (h : rangeVars (Program.connectVar prog) ks rt = .ok rt') :
    ∀ Q k, (∃ j, rt.linkAt Q k = some j) → ∃ j, rt'.linkAt Q k = some j := by
  refine rangeVars_rel
    (fun a b => ∀ Q k, (∃ j, a.linkAt Q k = some j) → ∃ j, b.linkAt Q k = some j)
    (fun _ _ _ h => h) (fun _ _ _ f g Q k h => g Q k (f Q k h)) _ ?_ ks rt rt' h
  intro key v a b hk hb Q k hj
  obtain ⟨in0, _, hcase⟩ := connectVar_ok hk hb
  rcases hcase with ⟨_, he⟩ | ⟨link, src, sp, _, _, _, _, _, _, _, _, hl⟩
  · rw [he]; exact hj
  · rw [hl Q k]
    by_cases hc : Q = link.Src.Node ∧ k = link.Src.Port
    · rw [if_pos hc]; exact ⟨_, rfl⟩
    · rw [if_neg hc]; exact hj

/-- The loop of `connectProc`, when it succeeds, has stored an instance under every input
port that is the dst of a link and has only such ports before it. -/
theorem connectProcLoop_reaches {prog : plan.Pipe} {dk : String} {dst : plan.Process}
    (inp : plan.Port) (post : List plan.Port)
    (hl : prog.FindLink ⟨dst.Name, inp.Name⟩ ≠ none) :
    ∀ (pre : List plan.Port), (∀ q, q ∈ pre → prog.FindLink ⟨dst.Name, q.Name⟩ ≠ none) →
      ∀ rt rt', connectProcLoop prog dk dst (pre ++ inp :: post) rt = .ok rt' →
      ∃ j, rt'.linkAt dk inp.Name = some j := by
  intro pre
  induction pre with
  | nil =>
    intro _ rt rt' h
    simp only [List.nil_append, connectProcLoop] at h
    cases hf : prog.FindLink ⟨dst.Name, inp.Name⟩ with
    | none => exact absurd hf hl
    | some link =>
      rw [hf] at h
      obtain ⟨rt1, h1, h2⟩ := Result.bind_eq_ok h
      exact connectProcLoop_keeps _ _ _ h2 _ _ (connectPort_keeps h1).1
  | cons q pre ih =>
    intro hpre rt rt' h
    simp only [List.cons_append, connectProcLoop] at h
    cases hf : prog.FindLink ⟨dst.Name, q.Name⟩ with
    | none => exact absurd hf (hpre q (List.mem_cons_self _ _))
    | some link =>
      rw [hf] at h
      obtain ⟨rt1, h1, h2⟩ := Result.bind_eq_ok h
      exact ih (fun q' hq' => hpre q' (List.mem_cons_of_mem _ hq')) rt1 rt' h2

theorem connectProcs_reaches {prog : plan.Pipe} (P : plan.Process) (pre : List plan.Port)
    (inp : plan.Port) (post : List plan.Port) (hIn : P.In = pre ++ inp :: post)
    (hl : prog.FindLink ⟨P.Name, inp.Name⟩ ≠ none)
    (hpre : ∀ q, q ∈ pre → prog.FindLink ⟨P.Name, q.Name⟩ ≠ none) :
    ∀ (ks : List String) (rt rt' : Program), P.Name ∈ ks → rt.procPlan P.Name = some P →
      rangeProcs (Program.connectProc prog) ks rt = .ok rt' →
      ∃ j, rt'.linkAt P.Name inp.Name = some j := by
  intro ks
  induction ks with
  | nil => intro rt rt' hm; cases hm
  | cons k0 ks ih =>
    intro rt rt' hm hp h
    unfold rangeProcs at h
    cases hg : mapGet rt.procs k0 with
    | none =>
      rw [hg] at h
      rcases List.mem_cons.mp hm with he | he
      · rw [← he] at hg
        simp only [Program.procPlan, hg] at hp
        cases hp
      · exact ih rt rt' he hp h
    | some p =>
      rw [hg] at h
      obtain ⟨rt1, h1, h2⟩ := Result.bind_eq_ok h
      by_cases hk : k0 = P.Name
      · subst hk
        have hpl : p.Plan = P := by
          simp only [Program.procPlan, hg, Option.map_some', Option.some.injEq] at hp
          exact hp
        unfold Program.connectProc at h1
        rw [hpl, hIn] at h1
        exact connectProcs_keeps h2 _ _ (connectProcLoop_reaches inp post hl pre hpre rt rt1 h1)
      · rcases List.mem_cons.mp hm with he | he
        · exact absurd he.symm hk
        · exact ih rt1 rt' he
            (((connectProc_frame h1).nodes.procPlan P.Name).trans hp) h2

/-- After a successful `Build` of a well-formed plan, the dst process of a link that the
loop of `connectProc` reaches holds a link instance under the dst port name. -/
theorem Build_instance_exists {prog : plan.Pipe} {presets : List (String × Option Value)}
    {env : Env} {sched : Schedule} (hv : sched.Valid) (wf : prog.WellFormed)
    {link : plan.Link} (hmem : link ∈ prog.Links) (hr : DstReached prog link) {rt : Program}
    (h : Build prog presets env sched = .ok rt) :
    ∃ j, rt.linkAt link.Dst.Node link.Dst.Port = some j := by
  obtain ⟨P, pre, inp, post, hP, hn, hIn, hport, hpre⟩ := hr
  obtain ⟨r1, r2, r3, r4, r5, h1, h2, h3, h4, h5, h6⟩ := Build_ok_stages h
  have f3 := bindPresets_frame h3
  obtain ⟨_, b2, _, _, _, _⟩ := bindDefaults_pass env _ r3 r4 h4
  obtain ⟨i1, _⟩ := initProcs_frame h5
  obtain ⟨_, _, _, _, c5⟩ := setCmds_frame h6
  have hI := instantiates_create wf
  have hp := hI.1 P hP
  obtain ⟨p0, hp0, _⟩ := procPlan_some hp
  have hin : P.Name ∈ sched.connectProcs (mapKeys (Program.create prog).procs) :=
    (hv.connectProcs _).mem_iff.mpr ((mapGet_isSome_iff _ _).mp ⟨p0, hp0⟩)
  have hfl : prog.FindLink ⟨P.Name, inp.Name⟩ ≠ none := by
    have hd : link.Dst = ⟨P.Name, inp.Name⟩ := by
      cases hdd : link.Dst with
      | mk n q =>
        rw [hdd] at hn hport
        simp only at hn hport
        rw [hn, hport]
    rw [← hd, plan.findLink_of_mem wf hmem]
    exact fun hx => by cases hx
  have hpre' : ∀ q, q ∈ pre → prog.FindLink ⟨P.Name, q.Name⟩ ≠ none := by
    intro q hq
    obtain ⟨l, hl, hd⟩ := hpre q hq
    rw [← hd, plan.findLink_of_mem wf hl]
    exact fun hx => by cases hx
  obtain ⟨j1, hj1⟩ := connectProcs_reaches P pre inp post hIn hfl hpre' _ _ r1 hin hp h1
  obtain ⟨j2, hj2⟩ := connectVars_keeps h2 _ _ ⟨j1, hj1⟩
  refine ⟨j2, ?_⟩
  rw [c5, ← hn, ← hport]
  simp only [Program.linkAt, i1, b2, f3.procs]
  exact hj2

end osruntime
/-! ### C5 and C9: the instance of a link that the connect pass reaches -/

namespace osruntime

theorem twoInputPlan_wf : twoInputPlan.WellFormed :=
  ⟨by unfold plan.NodesSorted; decide, by unfold plan.NodesSorted; decide,
   by unfold plan.LinksSorted; decide, by decide, by decide, by decide⟩

theorem twoInputPlan_feeds : ProcFeeds twoInputPlan ⟨⟨"S", "o"⟩, ⟨"P", "b"⟩⟩ :=
  ⟨by decide, ⟨mkProc "S" [] [⟨"o", "stream"⟩] [], by decide, rfl⟩, by decide, by decide,
   by decide, by decide, by decide, by decide⟩

theorem twoInputPlan_reached : DstReached twoInputPlan ⟨⟨"S", "o"⟩, ⟨"P", "b"⟩⟩ :=
  ⟨mkProc "P" [⟨"a", "stream"⟩, ⟨"b", "stream"⟩] [] [], [⟨"a", "stream"⟩], ⟨"b", "stream"⟩, [],
   by decide, rfl, rfl, rfl, fun q hq => by
     rw [List.mem_singleton.mp hq]
     exact ⟨⟨⟨"T", "o"⟩, ⟨"P", "a"⟩⟩, by decide, rfl⟩⟩

/-- C5 (amended): in a well-formed plan let `link` be a stream link between two distinct
processes that is the only use of its two ports, its dst an input port of the dst process
such that every input port declared before it on that process is the dst of a link. After a
successful `Build` the dst process holds a link instance under the dst port name; the src
process holds the same instance under the src port name; it is a `stream` instance of
`link` whose read end and write end are the two ends of one pipe, and `os.Pipe` was called
exactly once for it. -/
theorem C5_one_pipe_per_link (prog : plan.Pipe) (presets : List (String × Option Value))
    (env : Env) (sched : Schedule) (hv : sched.Valid) (wf : prog.WellFormed)
    (link : plan.Link) (hf : ProcFeeds prog link) (hr : DstReached prog link) (rt : Program)
    (h : Build prog presets env sched = .ok rt) :
    ∃ j, rt.linkAt link.Dst.Node link.Dst.Port = some j ∧
      rt.linkAt link.Src.Node link.Src.Port = some j ∧
      ∃ li n, rt.heap[j]? = some li ∧ li.Typ = plan.TypeStream ∧ li.Src = link.Src ∧
        li.Dst = link.Dst ∧ li.Rd = some (.pipeRd n) ∧ li.Wr = some (.pipeWr n) ∧
        rt.pipes[n]? = some j ∧ rt.pipes.count j = 1 := by
  obtain ⟨j, hj⟩ := Build_instance_exists hv wf hf.mem hr h
  exact ⟨j, hj, Build_one_pipe prog presets env sched hv wf link hf rt h j hj⟩

theorem C5_one_pipe_per_link_witness :
    twoInputPlan.WellFormed ∧ ProcFeeds twoInputPlan ⟨⟨"S", "o"⟩, ⟨"P", "b"⟩⟩ ∧
    DstReached twoInputPlan ⟨⟨"S", "o"⟩, ⟨"P", "b"⟩⟩ ∧
    ∃ rt, Build twoInputPlan [] Env.allOk Schedule.inOrder = .ok rt ∧
      rt.linkAt "P" "b" = some 1 ∧ rt.pipes = [0, 1] ∧
      ∃ j, rt.linkAt "P" "b" = some j ∧ rt.linkAt "S" "o" = some j ∧
        ∃ li n, rt.heap[j]? = some li ∧ li.Typ = plan.TypeStream ∧ li.Src = ⟨"S", "o"⟩ ∧
          li.Dst = ⟨"P", "b"⟩ ∧ li.Rd = some (.pipeRd n) ∧ li.Wr = some (.pipeWr n) ∧
          rt.pipes[n]? = some j ∧ rt.pipes.count j = 1 :=
  ⟨twoInputPlan_wf, twoInputPlan_feeds, twoInputPlan_reached, _, rfl, rfl, rfl,
   C5_one_pipe_per_link twoInputPlan [] Env.allOk Schedule.inOrder inOrder_valid
     twoInputPlan_wf ⟨⟨"S", "o"⟩, ⟨"P", "b"⟩⟩ twoInputPlan_feeds twoInputPlan_reached _ rfl⟩

theorem varSecondPlan_wf : varSecondPlan.WellFormed :=
  ⟨by unfold plan.NodesSorted; decide, by unfold plan.NodesSorted; decide,
   by unfold plan.LinksSorted; decide, by decide, by decide, by decide⟩

theorem varSecondPlan_feeds :
    VarFeeds varSecondPlan ⟨⟨"V", [⟨"v", "string"⟩], []⟩, "dflt"⟩ ⟨⟨"V", "v"⟩, ⟨"A", "i"⟩⟩ :=
  ⟨by decide, rfl, by decide, by decide, by decide⟩

theorem varSecondPlan_reached : DstReached varSecondPlan ⟨⟨"V", "v"⟩, ⟨"A", "i"⟩⟩ :=
  ⟨mkProc "A" [⟨"h", "string"⟩, ⟨"i", "string"⟩] [] [], [⟨"h", "string"⟩], ⟨"i", "string"⟩, [],
   by decide, rfl, rfl, rfl, fun q hq => by
     rw [List.mem_singleton.mp hq]
     exact ⟨⟨⟨"W", "w"⟩, ⟨"A", "h"⟩⟩, by decide, rfl⟩⟩

/-- C9 (amended): in a well-formed plan let `link` be the one link that leaves the `string`
variable `V`, its dst an input port of a process such that every input port declared before
it on that process is the dst of a link. After a successful `Build` that process holds a
link instance under the dst port name, and the instance carries the bound value of `V`:
the preset value when the preset map has an entry for `V`, otherwise the plan default of
`V`. -/
theorem C9_link_carries_value (prog : plan.Pipe) (presets : List (String × Option Value))
    (env : Env) (sched : Schedule) (hv : sched.Valid) (wf : prog.WellFormed)
    (V : plan.Variable) (link : plan.Link) (hV : V ∈ prog.Vars)
    (hty : V.Typ = some plan.TypeString) (hf : VarFeeds prog V link)
    (hr : DstReached prog link) (rt : Program)
    (h : Build prog presets env sched = .ok rt) :
    ∃ j li v, rt.linkAt link.Dst.Node link.Dst.Port = some j ∧ rt.heap[j]? = some li ∧
      mapGet rt.vars V.Name = some v ∧ li.Value = v.Value ∧
      v.Value = (match mapGet presets V.Name with
        | some x => x
        | none => some (.str V.Default)) := by
  obtain ⟨j, hj⟩ := Build_instance_exists hv wf hf.mem hr h
  obtain ⟨li, v, g1, g2, g3, g4⟩ :=
    Build_link_value prog presets env sched hv wf V link hV hty hf rt h j hj
  exact ⟨j, li, v, hj, g1, g2, g3, g4⟩

theorem C9_link_carries_value_witness :
    varSecondPlan.WellFormed ∧
    VarFeeds varSecondPlan ⟨⟨"V", [⟨"v", "string"⟩], []⟩, "dflt"⟩ ⟨⟨"V", "v"⟩, ⟨"A", "i"⟩⟩ ∧
    DstReached varSecondPlan ⟨⟨"V", "v"⟩, ⟨"A", "i"⟩⟩ ∧
    ∃ rt, Build varSecondPlan [("V", some (.str "hello"))] Env.allOk Schedule.inOrder
        = .ok rt ∧
      rt.linkAt "A" "i" = some 1 ∧
      ∃ j li v, rt.linkAt "A" "i" = some j ∧ rt.heap[j]? = some li ∧
        mapGet rt.vars "V" = some v ∧ li.Value = v.Value ∧ v.Value = some (.str "hello") :=
  ⟨varSecondPlan_wf, varSecondPlan_feeds, varSecondPlan_reached, _, rfl, rfl,
   C9_link_carries_value varSecondPlan [("V", some (.str "hello"))] Env.allOk
     Schedule.inOrder inOrder_valid varSecondPlan_wf ⟨⟨"V", [⟨"v", "string"⟩], []⟩, "dflt"⟩
     ⟨⟨"V", "v"⟩, ⟨"A", "i"⟩⟩ (by decide) rfl varSecondPlan_feeds varSecondPlan_reached _
     rfl⟩

end osruntime
/-! ### The errors of `Build` -/

namespace osruntime

theorem Result.bind_eq_err {α β : Type} {x : Result α} {f : α → Result β} {e : Error}
    (h : x.bind f = .err e) : x = .err e ∨ ∃ a, x = .ok a ∧ f a = .err e := by
  cases x with
  | ok a => exact Or.inr ⟨a, rfl, h⟩
  | err e' =>
    rw [Result.bind_err] at h
    cases h
    exact Or.inl rfl
  | panic p => cases h

/-- A `Build` that returns an error returns the error of its first pass that fails. -/
theorem Build_err_stages {prog : plan.Pipe} {presets : List (String × Option Value)}
    {env : Env} {sched : Schedule} {e : Error} (h : Build prog presets env sched = .err e) :
    rangeProcs (Program.connectProc prog)
        (sched.connectProcs (mapKeys (Program.create prog).procs)) (Program.create prog)
        = .err e ∨
    ∃ r1, rangeProcs (Program.connectProc prog)
        (sched.connectProcs (mapKeys (Program.create prog).procs)) (Program.create prog)
        = .ok r1 ∧
      (rangeVars (Program.connectVar prog) (sched.connectVars (mapKeys r1.vars)) r1 = .err e ∨
      ∃ r2, rangeVars (Program.connectVar prog) (sched.connectVars (mapKeys r1.vars)) r1
          = .ok r2 ∧
        (bindPresets presets (sched.presets (mapKeys presets)) r2 = .err e ∨
        ∃ r3, bindPresets presets (sched.presets (mapKeys presets)) r2 = .ok r3 ∧
          (rangeVars (bindDefaultsChecked env) (sched.bindVars (mapKeys r3.vars)) r3
              = .err e ∨
          ∃ r4, rangeVars (bindDefaultsChecked env) (sched.bindVars (mapKeys r3.vars)) r3
              = .ok r4 ∧
            (rangeProcs (Program.initProcStreams env sched)
                (sched.initProcs (mapKeys r4.procs)) r4 = .err e ∨
            ∃ r5, rangeProcs (Program.initProcStreams env sched)
                (sched.initProcs (mapKeys r4.procs)) r4 = .ok r5 ∧
              rangeProcs (Program.setCmd env) (sched.cmdProcs (mapKeys r5.procs)) r5
                = .err e)))) := by
  unfold Build at h
  simp only at h
  rcases Result.bind_eq_err h with h1 | ⟨r1, h1, h⟩
  · exact Or.inl h1
  refine Or.inr ⟨r1, h1, ?_⟩
  rcases Result.bind_eq_err h with h2 | ⟨r2, h2, h⟩
  · exact Or.inl h2
  refine Or.inr ⟨r2, h2, ?_⟩
  rcases Result.bind_eq_err h with h3 | ⟨r3, h3, h⟩
  · exact Or.inl h3
  refine Or.inr ⟨r3, h3, ?_⟩
  rcases Result.bind_eq_err h with h4 | ⟨r4, h4, h⟩
  · exact Or.inl h4
  refine Or.inr ⟨r4, h4, ?_⟩
  rcases Result.bind_eq_err h with h5 | ⟨r5, h5, h⟩
  · exact Or.inl h5
  exact Or.inr ⟨r5, h5, h⟩

theorem rangeProcs_err (E : Error → Prop)
    (body : String → Process → Program → Result Program)
    (hbody : ∀ k p rt e, body k p rt = .err e → E e) :
    ∀ ks rt e, rangeProcs body ks rt = .err e → E e := by
  intro ks
  induction ks with
  | nil => intro rt e h; cases h
  | cons k ks ih =>
    intro rt e h
    unfold rangeProcs at h
    cases hk : mapGet rt.procs k with
    | none => rw [hk] at h; exact ih rt e h
    | some p =>
      rw [hk] at h
      rcases Result.bind_eq_err h with h1 | ⟨rt1, _, h2⟩
      · exact hbody k p rt e h1
      · exact ih rt1 e h2

theorem rangeVars_err (E : Error → Prop)
    (body : String → Variable → Program → Result Program)
    (hbody : ∀ k v rt e, body k v rt = .err e → E e) :
    ∀ ks rt e, rangeVars body ks rt = .err e → E e := by
  intro ks
  induction ks with
  | nil => intro rt e h; cases h
  | cons k ks ih =>
    intro rt e h
    unfold rangeVars at h
    cases hk : mapGet rt.vars k with
    | none => rw [hk] at h; exact ih rt e h
    | some p =>
      rw [hk] at h
      rcases Result.bind_eq_err h with h1 | ⟨rt1, _, h2⟩
      · exact hbody k p rt e h1
      · exact ih rt1 e h2

/-- A pass over the variables that returns an error: the variables before the failing one
were handled without failure. -/
theorem rangeVars_err_at (body : String → Variable → Program → Result Program) :
    ∀ ks rt e, rangeVars body ks rt = .err e →
      ∃ ks1 k ks2 rt0 v, ks = ks1 ++ k :: ks2 ∧ rangeVars body ks1 rt = .ok rt0 ∧
        mapGet rt0.vars k = some v ∧ body k v rt0 = .err e := by
  intro ks
  induction ks with
  | nil => intro rt e h; cases h
  | cons k ks ih =>
    intro rt e h
    unfold rangeVars at h
    cases hk : mapGet rt.vars k with
    | none =>
      rw [hk] at h
      obtain ⟨ks1, k', ks2, rt0, v, g1, g2, g3, g4⟩ := ih rt e h
      refine ⟨k :: ks1, k', ks2, rt0, v, by rw [g1]; rfl, ?_, g3, g4⟩
      unfold rangeVars
      rw [hk]
      exact g2
    | some p =>
      rw [hk] at h
      rcases Result.bind_eq_err h with h1 | ⟨rt1, h1, h2⟩
      · exact ⟨[], k, ks, rt, p, rfl, rfl, hk, h1⟩
      · obtain ⟨ks1, k', ks2, rt0, v, g1, g2, g3, g4⟩ := ih rt1 e h2
        refine ⟨k :: ks1, k', ks2, rt0, v, by rw [g1]; rfl, ?_, g3, g4⟩
        simp only [rangeVars, hk, h1, Result.bind_ok]
        exact g2

theorem setProcLink_no_err {rt : Program} {Q k : String} {l : Nat} {e : Error} :
    rt.setProcLink Q k l ≠ .err e := by
  unfold Program.setProcLink
  cases mapGet rt.procs Q with
  | none => exact fun h => by cases h
  | some p => exact fun h => by cases h

theorem checkPortType_err {t : plan.VarType} {sp : Option plan.Port} {link : plan.Link}
    {rt : Program} {e : Error} (h : checkPortType t sp link rt = .err e) :
    ∃ st, e = .typeMismatch st t link.Src link.Dst := by
  unfold checkPortType at h
  cases sp with
  | none => cases h
  | some p =>
    simp only at h
    split at h
    · cases h; exact ⟨_, rfl⟩
    · cases h

/-- The errors of an iteration of `connectProc`: a missing src node or a type mismatch. -/
theorem connectPort_err {prog : plan.Pipe} {dk : String} {inp : plan.Port}
    {link : plan.Link} {rt : Program} {e : Error}
    (h : connectPort prog dk inp link rt = .err e) :
    e = .srcMissing link.Src link.Dst ∨ ∃ st, e = .typeMismatch st inp.Typ link.Src link.Dst := by
  unfold connectPort at h
  simp only at h
  rcases Result.bind_eq_err h with h1 | ⟨rt2, _, h⟩
  · exact absurd h1 setProcLink_no_err
  cases hsrc : prog.FindProc link.Src.Node with
  | some src =>
    rw [hsrc] at h
    simp only at h
    rcases Result.bind_eq_err h with h1 | ⟨rt3, _, h⟩
    · exact absurd h1 setProcLink_no_err
    · exact Or.inr (checkPortType_err h)
  | none =>
    rw [hsrc] at h
    simp only at h
    cases hv : prog.FindVar link.Src.Node with
    | none => rw [hv] at h; cases h; exact Or.inl rfl
    | some src =>
      rw [hv] at h
      simp only at h
      cases hg : mapGet rt2.vars link.Src.Node with
      | none => rw [hg] at h; cases h
      | some sv =>
        rw [hg] at h
        exact Or.inr (checkPortType_err h)

theorem connectProcLoop_err (E : Error → Prop) {prog : plan.Pipe} {dk : String}
    {dst : plan.Process}
    (hbody : ∀ inp link rt e, connectPort prog dk inp link rt = .err e → E e) :
    ∀ ports rt e, connectProcLoop prog dk dst ports rt = .err e → E e := by
  intro ports
  induction ports with
  | nil => intro rt e h; cases h
  | cons q rest ih =>
    intro rt e h
    unfold connectProcLoop at h
    cases hf : prog.FindLink ⟨dst.Name, q.Name⟩ with
    | none => rw [hf] at h; cases h
    | some link =>
      rw [hf] at h
      rcases Result.bind_eq_err h with h1 | ⟨rt1, _, h2⟩
      · exact hbody q link rt e h1
      · exact ih rt1 e h2

/-- The errors of `connectVar`: a src that is no process, or a type mismatch. -/
theorem connectVar_err {prog : plan.Pipe} {dk : String} {dv : Variable} {rt : Program}
    {e : Error} (h : Program.connectVar prog dk dv rt = .err e) :
    (∃ n, e = .noSrcProc n) ∨ ∃ st dt s d, e = .typeMismatch st dt s d := by
  unfold Program.connectVar at h
  simp only at h
  cases hin : dv.Plan.In[0]? with
  | none => rw [hin] at h; cases h
  | some in0 =>
    rw [hin] at h
    simp only at h
    cases hl : prog.FindLink ⟨dv.Plan.Name, in0.Name⟩ with
    | none => rw [hl] at h; cases h
    | some link =>
      rw [hl] at h
      simp only at h
      cases hsrc : prog.FindProc link.Src.Node with
      | none => rw [hsrc] at h; cases h; exact Or.inl ⟨_, rfl⟩
      | some src =>
        rw [hsrc] at h
        simp only at h
        rcases Result.bind_eq_err h with h1 | ⟨rt2, _, h⟩
        · exact absurd h1 setProcLink_no_err
        cases hp : (src.FindPort link.Src.Port).1 with
        | none => rw [hp] at h; cases h
        | some sp =>
          rw [hp] at h
          simp only at h
          split at h
          · cases h; exact Or.inr ⟨_, _, _, _, rfl⟩
          · cases h

/-- The errors of `Bind` inside `Build`: a value of the wrong dynamic type. -/
theorem bindVar_err {rt : Program} {key : String} {v : Variable} {value : Option Value}
    {e : Error} (h : rt.bindVar key v value = .err e) :
    e = .notFile value ∨ e = .notString value := by
  unfold Program.bindVar Variable.Bind at h
  cases ht : v.Plan.Typ with
  | none => rw [ht] at h; cases h
  | some t =>
    rw [ht] at h
    simp only at h
    by_cases hs : t = plan.TypeStream
    · simp only [hs, if_true] at h
      rcases value with _ | (s | fd | n)
      · cases h; exact Or.inl rfl
      · cases h; exact Or.inl rfl
      · cases h
      · cases h; exact Or.inl rfl
    · simp only [hs, if_false] at h
      by_cases hs2 : t = plan.TypeString
      · simp only [hs2, if_true] at h
        rcases value with _ | (s | fd | n)
        · cases h; exact Or.inr rfl
        · cases h
        · cases h; exact Or.inr rfl
        · cases h; exact Or.inr rfl
      · simp only [hs2, if_false] at h
        cases h

theorem bindPresets_err (E : Error → Prop) (presets : List (String × Option Value))
    (hbody : ∀ (k : String) (v : Variable) (value : Option Value) (rt : Program)
      (e : Error), rt.bindVar k v value = .err e → E e) :
    ∀ ks rt e, bindPresets presets ks rt = .err e → E e := by
  intro ks
  induction ks with
  | nil => intro rt e h; cases h
  | cons k ks ih =>
    intro rt e h
    unfold bindPresets at h
    cases hp : mapGet presets k with
    | none => rw [hp] at h; exact ih rt e h
    | some value =>
      rw [hp] at h
      simp only at h
      cases hk : mapGet rt.vars k with
      | none => rw [hk] at h; exact ih rt e h
      | some v =>
        rw [hk] at h
        rcases Result.bind_eq_err h with h1 | ⟨rt1, _, h2⟩
        · exact hbody k v value rt e h1
        · exact ih rt1 e h2

theorem initLink_err {env : Env} {dp : Process} {port : String} {rt : Program} {e : Error}
    (h : initLink env dp port rt = .err e) : e = .pipeFailed := by
  unfold initLink at h
  cases hl : mapGet dp.Links port with
  | none => rw [hl] at h; cases h
  | some l =>
    rw [hl] at h
    simp only at h
    cases hh : rt.heap[l]? with
    | none => rw [hh] at h; cases h
    | some link =>
      rw [hh] at h
      simp only at h
      split at h
      · split at h
        · cases h
        · cases h; rfl
      · cases h

theorem initLinks_err {env : Env} {dp : Process} :
    ∀ ports rt e, initLinks env dp ports rt = .err e → e = .pipeFailed := by
  intro ports
  induction ports with
  | nil => intro rt e h; cases h
  | cons q rest ih =>
    intro rt e h
    unfold initLinks at h
    rcases Result.bind_eq_err h with h1 | ⟨rt1, _, h2⟩
    · exact initLink_err h1
    · exact ih rt1 e h2

theorem buildArg_no_err {p : Process} {heap : List Link} (a : plan.Arg) (e : Error) :
    buildArg p heap a ≠ .err e := by
  intro h
  cases a with
  | str s => cases h
  | port v =>
    unfold buildArg at h
    simp only at h
    cases hd : (p.Plan.FindPort v.Name).2 with
    | PortNone => rw [hd] at h; cases h
    | PortIn =>
      rw [hd] at h
      simp only at h
      split at h
      · split at h
        · cases h
        · split at h
          · cases h
          · cases h
      · split at h
        · split at h
          · cases h
          · split at h
            · cases h
            · cases h
        · cases h
    | PortOut =>
      rw [hd] at h
      simp only at h
      split at h
      · split at h
        · cases h
        · split at h
          · cases h
          · cases h
      · cases h

theorem buildArgs_no_err {p : Process} {heap : List Link} :
    ∀ (args : List plan.Arg) (e : Error), buildArgs p heap args ≠ .err e := by
  intro args
  induction args with
  | nil => intro e h; cases h
  | cons a rest ih =>
    intro e h
    unfold buildArgs at h
    rcases Result.bind_eq_err h with h1 | ⟨x, _, h⟩
    · exact buildArg_no_err a e h1
    rcases Result.bind_eq_err h with h1 | ⟨y, _, h⟩
    · exact ih e h1
    · cases h

/-- The error of the last pass: the one `os.Executable` returned. -/
theorem setCmd_err {env : Env} {key : String} {proc : Process} {rt : Program} {e : Error}
    (h : Program.setCmd env key proc rt = .err e) : e = .executableFailed := by
  unfold Program.setCmd at h
  cases hb : buildCmd env proc rt.heap with
  | err e' =>
    unfold buildCmd at hb
    rcases Result.bind_eq_err hb with h2 | ⟨args, _, h2⟩
    · exact absurd h2 (buildArgs_no_err _ _)
    · cases h2
  | panic x => rw [hb] at h; cases h
  | ok r =>
    rw [hb] at h
    simp only [Result.bind_ok] at h
    unfold buildCmd at hb
    obtain ⟨args, _, hb⟩ := Result.bind_eq_ok hb
    have hr : r.2 = (buildExe env proc).2 := by
      cases hb
      rfl
    rw [hr] at h
    unfold buildExe at h
    by_cases hx : proc.Plan.Exe = "hoser"
    · rw [if_pos hx] at h
      cases he : env.executable with
      | some path => rw [he] at h; cases h
      | none => rw [he] at h; cases h; rfl
    · rw [if_neg hx] at h
      cases h

end osruntime
/-! ### C4: which variable `Build` reports unbound -/

namespace osruntime

/-- The check `vr.Value == nil` after `bindDefaults` fails only for a `stream` variable
that came unbound and has no `file://` default. -/
theorem bindDefaultsChecked_unbound {env : Env} {k : String} {v : Variable} {rt : Program}
    {name : String} (hk : mapGet rt.vars k = some v)
    (h : bindDefaultsChecked env k v rt = .err (.unbound name)) :
    v.Value = none ∧ v.Plan.Typ = some plan.TypeStream ∧
    plan.hasPrefix v.Plan.Default "file://" = false ∧ name = v.Plan.Name := by
  unfold bindDefaultsChecked at h
  have hbound : ∀ (value : Option Value) (rt1 : Program) (v1 : Variable),
      rt.bindVar k v value = .ok rt1 → mapGet rt1.vars k = some v1 → v1.Value ≠ none := by
    intro value rt1 v1 hb h1
    obtain ⟨_, _, hvars, hne, _⟩ := bindVar_ok hb
    rw [hvars, mapGet_mapSet_self] at h1
    cases h1
    exact hne
  have hnotb : ∀ (value : Option Value), rt.bindVar k v value ≠ .err (.unbound name) := by
    intro value hb
    rcases bindVar_err hb with e | e
    · cases e
    · cases e
  have hcheck : ∀ rt1 : Program, (match mapGet rt1.vars k with
      | none => (Result.panic .nilDeref : Result Program)
      | some v1 =>
        match v1.Value with
        | none => .err (.unbound v1.Plan.Name)
        | some _ => .ok rt1) = .err (.unbound name) →
      ∃ v1, mapGet rt1.vars k = some v1 ∧ v1.Value = none ∧ name = v1.Plan.Name := by
    intro rt1 hc
    cases hg : mapGet rt1.vars k with
    | none => rw [hg] at hc; cases hc
    | some v1 =>
      rw [hg] at hc
      simp only at hc
      cases hval : v1.Value with
      | some x => rw [hval] at hc; cases hc
      | none =>
        rw [hval] at hc
        cases hc
        exact ⟨v1, rfl, hval, rfl⟩
  unfold bindDefaults at h
  cases hv : v.Value with
  | some x =>
    rw [hv] at h
    simp only [Result.bind_ok] at h
    obtain ⟨v1, g1, g2, _⟩ := hcheck rt h
    rw [hk] at g1
    cases g1
    rw [hv] at g2
    cases g2
  | none =>
    rw [hv] at h
    simp only at h
    cases ht : v.Plan.Typ with
    | none => rw [ht] at h; cases h
    | some t =>
      rw [ht] at h
      simp only at h
      by_cases hs : t = plan.TypeStream
      · subst hs
        simp only [if_true] at h
        by_cases hpre : plan.hasPrefix v.Plan.Default "file://" = true
        · rw [if_pos hpre] at h
          by_cases hop : env.openFile (plan.trimPrefix v.Plan.Default "file://") = true
          · rw [if_pos hop] at h
            rcases Result.bind_eq_err h with h1 | ⟨rt1, h1, h2⟩
            · exact absurd h1 (hnotb _)
            · obtain ⟨v1, g1, g2, _⟩ := hcheck rt1 h2
              exact absurd g2 (hbound _ rt1 v1 h1 g1)
          · rw [if_neg hop] at h
            cases h
        · rw [if_neg hpre] at h
          simp only [Result.bind_ok] at h
          obtain ⟨v1, g1, g2, g3⟩ := hcheck rt h
          rw [hk] at g1
          cases g1
          exact ⟨rfl, rfl, Bool.eq_false_iff.mpr hpre, g3⟩
      · simp only [hs, if_false] at h
        by_cases hs2 : t = plan.TypeString
        · simp only [hs2, if_true] at h
          rcases Result.bind_eq_err h with h1 | ⟨rt1, h1, h2⟩
          · exact absurd h1 (hnotb _)
          · obtain ⟨v1, g1, g2, _⟩ := hcheck rt1 h2
            exact absurd g2 (hbound _ rt1 v1 h1 g1)
        · simp only [hs2, if_false] at h
          cases h

/-- A `Build` that fails with the unbound-variable error names a `stream` variable of the
plan that has no preset and no `file://` default. -/
theorem Build_unbound (prog : plan.Pipe) (presets : List (String × Option Value))
    (env : Env) (sched : Schedule) (hv : sched.Valid) (name : String)
    (h : Build prog presets env sched = .err (.unbound name)) :
    ∃ V, V ∈ prog.Vars ∧ V.Name = name ∧ V.Typ = some plan.TypeStream ∧
      plan.hasPrefix V.Default "file://" = false ∧ mapGet presets name = none := by
  have hport : ∀ (inp : plan.Port) (link : plan.Link) (dk : String) (rt : Program)
      (e : Error), connectPort prog dk inp link rt = .err e → ∀ n, e ≠ .unbound n := by
    intro inp link dk rt e he n hn
    rcases connectPort_err he with g | ⟨st, g⟩
    · rw [g] at hn; cases hn
    · rw [g] at hn; cases hn
  rcases Build_err_stages h with h1 | ⟨r1, h1, h⟩
  · exfalso
    refine rangeProcs_err (fun e => ∀ n, e ≠ .unbound n) _ ?_ _ _ _ h1 name rfl
    intro k p rt e he
    exact connectProcLoop_err (fun e => ∀ n, e ≠ .unbound n)
      (fun inp link rt e he => hport inp link k rt e he) _ _ _ he
  rcases h with h2 | ⟨r2, h2, h⟩
  · exfalso
    refine rangeVars_err (fun e => ∀ n, e ≠ .unbound n) _ ?_ _ _ _ h2 name rfl
    intro k v rt e he n hn
    rcases connectVar_err he with ⟨x, g⟩ | ⟨st, dt, s, d, g⟩
    · rw [g] at hn; cases hn
    · rw [g] at hn; cases hn
  rcases h with h3 | ⟨r3, h3, h⟩
  · exfalso
    refine bindPresets_err (fun e => ∀ n, e ≠ .unbound n) presets ?_ _ _ _ h3 name rfl
    intro k v value rt e he n hn
    rcases bindVar_err he with g | g
    · rw [g] at hn; cases hn
    · rw [g] at hn; cases hn
  rcases h with h4 | ⟨r4, h4, h⟩
  · obtain ⟨ks1, k, ks2, rt0, v, hks, hpre, hk, hb⟩ := rangeVars_err_at _ _ _ _ h4
    obtain ⟨g1, g2, g3, g4⟩ := bindDefaultsChecked_unbound hk hb
    have f1 := connectProcs_frame h1
    have f2 := connectVars_frame h2
    have f3 := bindPresets_frame h3
    obtain ⟨b1, _, _, b4, _, _⟩ := bindDefaults_pass env _ r3 rt0 hpre
    obtain ⟨_, _, _, _, _, cv, _, _⟩ := create_spec prog
    have hplan : (Program.create prog).varPlan k = some v.Plan := by
      rw [← f1.nodes.varPlan, ← f2.nodes.varPlan, ← f3.nodes.varPlan, ← b1.varPlan]
      simp only [Program.varPlan, hk, Option.map_some']
    obtain ⟨vc, hvc, hpl⟩ := varPlan_some hplan
    obtain ⟨V, hV, hn, he⟩ := cv k vc hvc
    have hVp : V = v.Plan := by
      rw [he] at hpl
      exact hpl
    have hname : name = k := by rw [g4, ← hVp, hn]
    refine ⟨V, hV, by rw [hn, hname], by rw [hVp]; exact g2, by rw [hVp]; exact g3, ?_⟩
    rw [hname]
    cases hp : mapGet presets k with
    | none => rfl
    | some x =>
      exfalso
      have hmem : k ∈ sched.presets (mapKeys presets) :=
        (hv.presets _).mem_iff.mpr ((mapGet_isSome_iff _ _).mp ⟨x, hp⟩)
      have hex2 : ∃ v2, mapGet r2.vars k = some v2 := by
        rw [mapGet_isSome_iff, f2.nodes.varKeys, f1.nodes.varKeys, ← mapGet_isSome_iff]
        exact ⟨vc, hvc⟩
      obtain ⟨⟨v3, hv3, hval3⟩, hxne⟩ :=
        (bindPresets_bound presets k x hp _ r2 r3 h3).2 hmem hex2
      have := b4 k v3 hv3 (by rw [hval3]; exact hxne)
      rw [hk] at this
      cases this
      rw [g1] at hval3
      exact hxne hval3.symm
  rcases h with h5 | ⟨r5, h5, h6⟩
  · exfalso
    refine rangeProcs_err (fun e => ∀ n, e ≠ .unbound n) _ ?_ _ _ _ h5 name rfl
    intro k p rt e he n hn
    unfold Program.initProcStreams at he
    rw [initLinks_err _ _ _ he] at hn
    cases hn
  · exfalso
    refine rangeProcs_err (fun e => ∀ n, e ≠ .unbound n) _ ?_ _ _ _ h6 name rfl
    intro k p rt e he n hn
    rw [setCmd_err he] at hn
    cases hn

/-- C4 (amended): whenever `Build` succeeds, every variable instance of the program has a
bound (non-nil) value and every variable of the plan has such an instance; a `string`
variable without a preset is bound to its default literal, the empty string included. And
whenever `Build` fails with the unbound-variable error, the variable it names is a `stream`
variable of the plan without preset and without `file://` default: a `string` variable is
never reported unbound. -/
theorem C4_bound_after_build (prog : plan.Pipe) (presets : List (String × Option Value))
    (env : Env) (sched : Schedule) (hv : sched.Valid) :
    (∀ rt, Build prog presets env sched = .ok rt →
      (∀ k v, mapGet rt.vars k = some v → v.Value ≠ none) ∧
      (∀ V, V ∈ prog.Vars → ∃ v, mapGet rt.vars V.Name = some v ∧ v.Value ≠ none) ∧
      (∀ k v, mapGet rt.vars k = some v → v.Plan.Typ = some plan.TypeString →
        mapGet presets k = none → v.Value = some (.str v.Plan.Default))) ∧
    (∀ name, Build prog presets env sched = .err (.unbound name) →
      ∃ V, V ∈ prog.Vars ∧ V.Name = name ∧ V.Typ = some plan.TypeStream ∧
        plan.hasPrefix V.Default "file://" = false ∧ mapGet presets name = none) :=
  ⟨fun rt h => Build_bound prog presets env sched hv rt h,
   fun name h => Build_unbound prog presets env sched hv name h⟩

theorem C4_bound_after_build_witness :
    Schedule.inOrder.Valid ∧
    Build unboundPlan [] Env.allOk Schedule.inOrder
      = .ok ⟨[], [("x", ⟨⟨⟨"x", [⟨"x", "string"⟩], []⟩, ""⟩, none, none, some (.str "")⟩)],
          [], []⟩ ∧
    Build streamUnboundPlan [] Env.allOk Schedule.inOrder = .err (.unbound "s") ∧
    ((∀ rt, Build unboundPlan [] Env.allOk Schedule.inOrder = .ok rt →
      (∀ k v, mapGet rt.vars k = some v → v.Value ≠ none) ∧
      (∀ V, V ∈ unboundPlan.Vars → ∃ v, mapGet rt.vars V.Name = some v ∧ v.Value ≠ none) ∧
      (∀ k v, mapGet rt.vars k = some v → v.Plan.Typ = some plan.TypeString →
        mapGet ([] : List (String × Option Value)) k = none →
        v.Value = some (.str v.Plan.Default))) ∧
     (∀ name, Build unboundPlan [] Env.allOk Schedule.inOrder = .err (.unbound name) →
      ∃ V, V ∈ unboundPlan.Vars ∧ V.Name = name ∧ V.Typ = some plan.TypeStream ∧
        plan.hasPrefix V.Default "file://" = false ∧
        mapGet ([] : List (String × Option Value)) name = none)) ∧
    (∃ V, V ∈ streamUnboundPlan.Vars ∧ V.Name = "s" ∧ V.Typ = some plan.TypeStream ∧
      plan.hasPrefix V.Default "file://" = false ∧
      mapGet ([] : List (String × Option Value)) "s" = none) :=
  ⟨inOrder_valid, rfl, rfl,
   C4_bound_after_build unboundPlan [] Env.allOk Schedule.inOrder inOrder_valid,
   (C4_bound_after_build streamUnboundPlan [] Env.allOk Schedule.inOrder inOrder_valid).2
     "s" rfl⟩

end osruntime
/-! ### C1: a mistyped link into a process or into a variable -/

namespace osruntime

theorem rangeVars_append (body : String → Variable → Program → Result Program)
    (ks1 ks2 : List String) :
    ∀ rt, rangeVars body (ks1 ++ ks2) rt = (rangeVars body ks1 rt).bind (rangeVars body ks2) := by
  induction ks1 with
  | nil => intro rt; rfl
  | cons k ks ih =>
    intro rt
    simp only [List.cons_append, rangeVars]
    cases mapGet rt.vars k with
    | none => exact ih rt
    | some p =>
      simp only
      cases body k p rt with
      | ok r => simp only [Result.bind_ok]; exact ih r
      | err e => rfl
      | panic e => rfl

theorem Build_of_connectVars_err {prog : plan.Pipe} {presets : List (String × Option Value)}
    {env : Env} {sched : Schedule} {e : Error} {r1 : Program}
    (h1 : rangeProcs (Program.connectProc prog)
      (sched.connectProcs (mapKeys (Program.create prog).procs)) (Program.create prog) = .ok r1)
    (h : rangeVars (Program.connectVar prog) (sched.connectVars (mapKeys r1.vars)) r1 = .err e) :
    Build prog presets env sched = .err e := by
  unfold Build
  simp only
  rw [h1]
  simp only [Result.bind_ok]
  rw [h]
  rfl

theorem Build_of_connectVars_panic {prog : plan.Pipe}
    {presets : List (String × Option Value)} {env : Env} {sched : Schedule} {e : Panic}
    {r1 : Program}
    (h1 : rangeProcs (Program.connectProc prog)
      (sched.connectProcs (mapKeys (Program.create prog).procs)) (Program.create prog) = .ok r1)
    (h : rangeVars (Program.connectVar prog) (sched.connectVars (mapKeys r1.vars)) r1
      = .panic e) :
    Build prog presets env sched = .panic e := by
  unfold Build
  simp only
  rw [h1]
  simp only [Result.bind_ok]
  rw [h]
  rfl

/-- The call of `connectVar` for a variable whose first input port is the dst of a mistyped
link: the type-mismatch error when the src is a process, the error for a missing src
process when it is a variable. -/
theorem connectVar_mismatch {prog : plan.Pipe} (wf : prog.WellFormed) {rt : Program}
    (hi : rt.Instantiates prog) (V : plan.Variable) (rest : List plan.Port) (inp : plan.Port)
    (link : plan.Link) (sp : plan.Port) (hIn : V.In = inp :: rest) (hl : link ∈ prog.Links)
    (hd : link.Dst = ⟨V.Name, inp.Name⟩) (hsrc : prog.Declares link.Src sp)
    (hty : sp.Typ ≠ inp.Typ) (v : Variable) (hv : v.Plan = V) :
    ((∃ S, S ∈ prog.Procs ∧ S.Name = link.Src.Node) ∧
      Program.connectVar prog V.Name v rt
        = .err (.typeMismatch sp.Typ inp.Typ link.Src link.Dst)) ∨
    ((∀ S, S ∈ prog.Procs → S.Name ≠ link.Src.Node) ∧
      Program.connectVar prog V.Name v rt = .err (.noSrcProc link.Src.Node)) := by
  subst hv
  have hf : prog.FindLink ⟨v.Plan.Name, inp.Name⟩ = some link := by
    rw [← hd]; exact plan.findLink_of_mem wf hl
  have h0 : v.Plan.In[0]? = some inp := by rw [hIn]; simp
  unfold Program.connectVar
  simp only [h0, hf]
  rcases hsrc with ⟨S, hS, hn, hp⟩ | ⟨hno, _⟩
  · left
    refine ⟨⟨S, hS, hn⟩, ?_⟩
    have hfp : prog.FindProc link.Src.Node = some S := by
      rw [← hn]; exact plan.findProc_of_mem wf hS
    rw [hfp]
    simp only
    obtain ⟨p, hp1, _⟩ := procPlan_some (hi.1 S hS)
    rw [hn] at hp1
    obtain ⟨rt2, h2⟩ := setProcLink_progress
      ⟨rt.procs, mapSet rt.vars v.Plan.Name { v with In := some rt.heap.length },
        rt.heap ++ [⟨inp.Typ, link.Src, link.Dst, none, none, none⟩], rt.pipes⟩
      link.Src.Port rt.heap.length ⟨p, hp1⟩
    rw [h2]
    simp only [Result.bind_ok, hp]
    rw [if_pos (Ne.symm hty)]
  · right
    refine ⟨hno, ?_⟩
    rw [plan.findProc_none hno]

/-- In a well-formed plan, take a link to the first input port `inp` of a variable `V`
whose src port is declared with a type other than that of `inp`. Then `Build` does not
succeed; once the processes and the variables visited before `V` are connected without
failure, it returns the type-mismatch error of that link when the src is a process, and
the error for a missing src process when the src is a variable. -/
theorem Build_mismatch_var (prog : plan.Pipe) (presets : List (String × Option Value))
    (env : Env) (sched : Schedule) (hv : sched.Valid) (wf : prog.WellFormed)
    (V : plan.Variable) (rest : List plan.Port) (inp : plan.Port) (link : plan.Link)
    (sp : plan.Port) (hV : V ∈ prog.Vars) (hIn : V.In = inp :: rest)
    (hl : link ∈ prog.Links) (hd : link.Dst = ⟨V.Name, inp.Name⟩)
    (hsrc : prog.Declares link.Src sp) (hty : sp.Typ ≠ inp.Typ) :
    (Build prog presets env sched).isOk = false ∧
    ∀ r1 ks1 ks2 r,
      rangeProcs (Program.connectProc prog)
        (sched.connectProcs (mapKeys (Program.create prog).procs)) (Program.create prog)
        = .ok r1 →
      sched.connectVars (mapKeys r1.vars) = ks1 ++ V.Name :: ks2 →
      rangeVars (Program.connectVar prog) ks1 r1 = .ok r →
      ((∃ S, S ∈ prog.Procs ∧ S.Name = link.Src.Node) →
        Build prog presets env sched
          = .err (.typeMismatch sp.Typ inp.Typ link.Src link.Dst)) ∧
      ((∀ S, S ∈ prog.Procs → S.Name ≠ link.Src.Node) →
        Build prog presets env sched = .err (.noSrcProc link.Src.Node)) := by
  have hat : ∀ r1 ks1 ks2 r,
      rangeProcs (Program.connectProc prog)
        (sched.connectProcs (mapKeys (Program.create prog).procs)) (Program.create prog)
        = .ok r1 →
      sched.connectVars (mapKeys r1.vars) = ks1 ++ V.Name :: ks2 →
      rangeVars (Program.connectVar prog) ks1 r1 = .ok r →
      ((∃ S, S ∈ prog.Procs ∧ S.Name = link.Src.Node) ∧
        Build prog presets env sched
          = .err (.typeMismatch sp.Typ inp.Typ link.Src link.Dst)) ∨
      ((∀ S, S ∈ prog.Procs → S.Name ≠ link.Src.Node) ∧
        Build prog presets env sched = .err (.noSrcProc link.Src.Node)) := by
    intro r1 ks1 ks2 r h1 hks hr
    have hi : r.Instantiates prog :=
      instantiates_of_sameNodes
        (instantiates_of_sameNodes (instantiates_create wf) (connectProcs_frame h1).nodes)
        (connectVars_frame hr).nodes
    obtain ⟨v, hg, hpl⟩ := varPlan_some (hi.2 V hV)
    have hrun : ∀ e, Program.connectVar prog V.Name v r = .err e →
        Build prog presets env sched = .err e := by
      intro e he
      apply Build_of_connectVars_err h1
      rw [hks, rangeVars_append, hr]
      simp only [Result.bind_ok]
      unfold rangeVars
      rw [hg]
      simp only
      rw [he]
      rfl
    rcases connectVar_mismatch wf hi V rest inp link sp hIn hl hd hsrc hty v hpl with
      ⟨g1, g2⟩ | ⟨g1, g2⟩
    · exact Or.inl ⟨g1, hrun _ g2⟩
    · exact Or.inr ⟨g1, hrun _ g2⟩
  constructor
  · cases h1 : rangeProcs (Program.connectProc prog)
        (sched.connectProcs (mapKeys (Program.create prog).procs)) (Program.create prog) with
    | err e => rw [Build_of_connect_err h1]; rfl
    | panic e => rw [Build_of_connect_panic h1]; rfl
    | ok r1 =>
      have hi1 : r1.Instantiates prog :=
        instantiates_of_sameNodes (instantiates_create wf) (connectProcs_frame h1).nodes
      obtain ⟨v0, hg0, _⟩ := varPlan_some (hi1.2 V hV)
      have hmem : V.Name ∈ sched.connectVars (mapKeys r1.vars) :=
        (hv.connectVars _).mem_iff.mpr ((mapGet_isSome_iff _ _).mp ⟨v0, hg0⟩)
      obtain ⟨ks1, ks2, hks⟩ := List.append_of_mem hmem
      cases hr : rangeVars (Program.connectVar prog) ks1 r1 with
      | ok r =>
        rcases hat r1 ks1 ks2 r h1 hks hr with ⟨_, g⟩ | ⟨_, g⟩
        · rw [g]; rfl
        · rw [g]; rfl
      | err e =>
        have : Build prog presets env sched = .err e := by
          apply Build_of_connectVars_err h1
          rw [hks, rangeVars_append, hr]
          rfl
        rw [this]; rfl
      | panic e =>
        have : Build prog presets env sched = .panic e := by
          apply Build_of_connectVars_panic h1
          rw [hks, rangeVars_append, hr]
          rfl
        rw [this]; rfl
  · intro r1 ks1 ks2 r h1 hks hr
    rcases hat r1 ks1 ks2 r h1 hks hr with ⟨g1, g2⟩ | ⟨g1, g2⟩
    · exact ⟨fun _ => g2, fun hno => by
        obtain ⟨S, hS, hn⟩ := g1
        exact absurd hn (hno S hS)⟩
    · exact ⟨fun ⟨S, hS, hn⟩ => absurd hn (g1 S hS), fun _ => g2⟩

/-- C1 (amended): in a well-formed plan, take a link whose src port is declared, on an
existing process or variable, with a type other than that of its dst port `inp`. When `inp`
is an input port of a process `P` and every input port that `P` declares before it is wired
type-correctly, `Build` does not succeed, and it returns the type-mismatch error of the
link as soon as the processes visited before `P` are connected without failure. When `inp`
is the first input port of a variable `V`, `Build` does not succeed either, and once the
processes and the variables visited before `V` are connected without failure it returns
the type-mismatch error of the link when the src is a process, and the error for a missing
src process when the src is a variable. -/
theorem C1_typeMismatch_reached (prog : plan.Pipe) (presets : List (String × Option Value))
    (env : Env) (sched : Schedule) (hv : sched.Valid) (wf : prog.WellFormed)
    (inp : plan.Port) (link : plan.Link) (sp : plan.Port) (hl : link ∈ prog.Links)
    (hsrc : prog.Declares link.Src sp) (hty : sp.Typ ≠ inp.Typ) :
    (∀ (P : plan.Process) (pre post : List plan.Port), P ∈ prog.Procs →
      P.In = pre ++ inp :: post → (∀ q, q ∈ pre → prog.WiredOk P q) →
      link.Dst = ⟨P.Name, inp.Name⟩ →
      (Build prog presets env sched).isOk = false ∧
      ∀ ks1 ks2 r,
        sched.connectProcs (mapKeys (Program.create prog).procs) = ks1 ++ P.Name :: ks2 →
        rangeProcs (Program.connectProc prog) ks1 (Program.create prog) = .ok r →
        Build prog presets env sched
          = .err (.typeMismatch sp.Typ inp.Typ link.Src link.Dst)) ∧
    (∀ (V : plan.Variable) (rest : List plan.Port), V ∈ prog.Vars → V.In = inp :: rest →
      link.Dst = ⟨V.Name, inp.Name⟩ →
      (Build prog presets env sched).isOk = false ∧
      ∀ r1 ks1 ks2 r,
        rangeProcs (Program.connectProc prog)
          (sched.connectProcs (mapKeys (Program.create prog).procs)) (Program.create prog)
          = .ok r1 →
        sched.connectVars (mapKeys r1.vars) = ks1 ++ V.Name :: ks2 →
        rangeVars (Program.connectVar prog) ks1 r1 = .ok r →
        ((∃ S, S ∈ prog.Procs ∧ S.Name = link.Src.Node) →
          Build prog presets env sched
            = .err (.typeMismatch sp.Typ inp.Typ link.Src link.Dst)) ∧
        ((∀ S, S ∈ prog.Procs → S.Name ≠ link.Src.Node) →
          Build prog presets env sched = .err (.noSrcProc link.Src.Node))) :=
  ⟨fun P pre post hP hIn hpre hd =>
     Build_mismatch_proc prog presets env sched hv wf P pre post inp link sp hP hIn hpre hl
       hd hsrc hty,
   fun V rest hV hIn hd =>
     Build_mismatch_var prog presets env sched hv wf V rest inp link sp hV hIn hl hd hsrc
       hty⟩

theorem mismatchSecondPlan_wf : mismatchSecondPlan.WellFormed :=
  ⟨by unfold plan.NodesSorted; decide, by unfold plan.NodesSorted; decide,
   by unfold plan.LinksSorted; decide, by decide, by decide, by decide⟩

theorem sinkMismatchPlan_wf : sinkMismatchPlan.WellFormed :=
  ⟨by unfold plan.NodesSorted; decide, by unfold plan.NodesSorted; decide,
   by unfold plan.LinksSorted; decide, by decide, by decide, by decide⟩

theorem mismatchSecondPlan_wired :
    mismatchSecondPlan.WiredOk (mkProc "P" [⟨"a", "stream"⟩, ⟨"b", "stream"⟩] [] [])
      ⟨"a", "stream"⟩ :=
  ⟨⟨⟨"T", "o"⟩, ⟨"P", "a"⟩⟩, ⟨"o", "stream"⟩, by decide, rfl,
   Or.inl ⟨mkProc "T" [] [⟨"o", "stream"⟩] [], by decide, rfl, rfl⟩, rfl⟩

theorem C1_typeMismatch_reached_witness :
    mismatchSecondPlan.WellFormed ∧ sinkMismatchPlan.WellFormed ∧ Schedule.inOrder.Valid ∧
    mismatchSecondPlan.Declares ⟨"S", "o"⟩ ⟨"o", "string"⟩ ∧
    sinkMismatchPlan.Declares ⟨"S", "o"⟩ ⟨"o", "string"⟩ ∧
    mismatchSecondPlan.WiredOk (mkProc "P" [⟨"a", "stream"⟩, ⟨"b", "stream"⟩] [] [])
      ⟨"a", "stream"⟩ ∧
    Build mismatchSecondPlan [] Env.allOk Schedule.inOrder
      = .err (.typeMismatch "string" "stream" ⟨"S", "o"⟩ ⟨"P", "b"⟩) ∧
    Build sinkMismatchPlan [] Env.allOk Schedule.inOrder
      = .err (.typeMismatch "string" "stream" ⟨"S", "o"⟩ ⟨"V", "v"⟩) ∧
    ((Build mismatchSecondPlan [] Env.allOk Schedule.inOrder).isOk = false ∧
      ∀ ks1 ks2 r,
        Schedule.inOrder.connectProcs (mapKeys (Program.create mismatchSecondPlan).procs)
          = ks1 ++ "P" :: ks2 →
        rangeProcs (Program.connectProc mismatchSecondPlan) ks1
          (Program.create mismatchSecondPlan) = .ok r →
        Build mismatchSecondPlan [] Env.allOk Schedule.inOrder
          = .err (.typeMismatch "string" "stream" ⟨"S", "o"⟩ ⟨"P", "b"⟩)) ∧
    ((Build sinkMismatchPlan [] Env.allOk Schedule.inOrder).isOk = false ∧
      ∀ r1 ks1 ks2 r,
        rangeProcs (Program.connectProc sinkMismatchPlan)
          (Schedule.inOrder.connectProcs (mapKeys (Program.create sinkMismatchPlan).procs))
          (Program.create sinkMismatchPlan) = .ok r1 →
        Schedule.inOrder.connectVars (mapKeys r1.vars) = ks1 ++ "V" :: ks2 →
        rangeVars (Program.connectVar sinkMismatchPlan) ks1 r1 = .ok r →
        ((∃ S, S ∈ sinkMismatchPlan.Procs ∧ S.Name = "S") →
          Build sinkMismatchPlan [] Env.allOk Schedule.inOrder
            = .err (.typeMismatch "string" "stream" ⟨"S", "o"⟩ ⟨"V", "v"⟩)) ∧
        ((∀ S, S ∈ sinkMismatchPlan.Procs → S.Name ≠ "S") →
          Build sinkMismatchPlan [] Env.allOk Schedule.inOrder = .err (.noSrcProc "S"))) :=
  have hsrc1 : mismatchSecondPlan.Declares ⟨"S", "o"⟩ ⟨"o", "string"⟩ :=
    Or.inl ⟨mkProc "S" [] [⟨"o", "string"⟩] [], by decide, rfl, rfl⟩
  have hsrc2 : sinkMismatchPlan.Declares ⟨"S", "o"⟩ ⟨"o", "string"⟩ :=
    Or.inl ⟨mkProc "S" [] [⟨"o", "string"⟩] [], by decide, rfl, rfl⟩
  ⟨mismatchSecondPlan_wf, sinkMismatchPlan_wf, inOrder_valid, hsrc1, hsrc2,
   mismatchSecondPlan_wired, rfl, rfl,
   (C1_typeMismatch_reached mismatchSecondPlan [] Env.allOk Schedule.inOrder inOrder_valid
     mismatchSecondPlan_wf ⟨"b", "stream"⟩ ⟨⟨"S", "o"⟩, ⟨"P", "b"⟩⟩ ⟨"o", "string"⟩
     (by decide) hsrc1 (by decide)).1
     (mkProc "P" [⟨"a", "stream"⟩, ⟨"b", "stream"⟩] [] []) [⟨"a", "stream"⟩] []
     (by decide) rfl
     (fun q hq => by rw [List.mem_singleton.mp hq]; exact mismatchSecondPlan_wired) rfl,
   (C1_typeMismatch_reached sinkMismatchPlan [] Env.allOk Schedule.inOrder inOrder_valid
     sinkMismatchPlan_wf ⟨"v", "stream"⟩ ⟨⟨"S", "o"⟩, ⟨"V", "v"⟩⟩ ⟨"o", "string"⟩
     (by decide) hsrc2 (by decide)).2
     ⟨⟨"V", [⟨"v", "stream"⟩], []⟩, ""⟩ [] (by decide) rfl rfl⟩

end osruntime
/-! ### C11: when every `Close` succeeds -/

namespace osruntime

theorem closeCount_mem {log : CloseLog} {g : File} (h : g ∈ log.map Prod.snd) :
    1 ≤ closeCount log g := by
  unfold closeCount
  exact List.count_pos_iff.mpr h

theorem closeCount_single (log : CloseLog) (who : String) (g f : File) :
    closeCount (log ++ [(who, g)]) f = closeCount log f + if g = f then 1 else 0 := by
  have := closeCount_append log who [g] f
  simp only [List.map_cons, List.map_nil] at this
  rw [this]
  by_cases hg : g = f
  · subst hg; simp
  · simp [hg, List.count_cons]

theorem closeFile_outcome {who : String} {g : File} {log log' : CloseLog} {o : CloseOutcome}
    (h : closeFile who g log = (o, log')) :
    log' = log ++ [(who, g)] ∧ (o = .done ∨ (o = .failed g ∧ 2 ≤ closeCount log' g)) := by
  unfold closeFile at h
  by_cases hm : g ∈ log.map Prod.snd
  · rw [if_pos hm] at h
    cases h
    refine ⟨rfl, Or.inr ⟨rfl, ?_⟩⟩
    rw [closeCount_single, if_pos rfl]
    have := closeCount_mem hm
    omega
  · rw [if_neg hm] at h
    cases h
    exact ⟨rfl, Or.inl rfl⟩

/-- One turn of the loop of `Process.Close` only adds to the log; it ends the call only
with the error of a `Close` on a file that was closed before. -/
theorem closeLink_outcome {who : String} {p : Process} {li : Link} {log log' : CloseLog}
    {o : CloseOutcome} (h : p.closeLink who li log = (o, log')) :
    (∀ f, closeCount log f ≤ closeCount log' f) ∧
    (o = .done ∨ ∃ g, o = .failed g ∧ 2 ≤ closeCount log' g) := by
  constructor
  · intro f
    obtain ⟨wrPart, e1, _, _⟩ := closeLink_shape h
    rw [e1, closeCount_append]
    exact Nat.le_add_right _ _
  · have wrStage : ∀ (lg : CloseLog),
        (match li.Wr with
          | some wr => if li.Src.Node = p.Plan.Name then closeFile who wr lg else (.done, lg)
          | none => (CloseOutcome.done, lg)) = (o, log') →
        (o = .done ∨ ∃ g, o = .failed g ∧ 2 ≤ closeCount log' g) := by
      intro lg hw
      cases hwr : li.Wr with
      | none => rw [hwr] at hw; cases hw; exact Or.inl rfl
      | some wr =>
        rw [hwr] at hw
        simp only at hw
        by_cases hs : li.Src.Node = p.Plan.Name
        · rw [if_pos hs] at hw
          rcases (closeFile_outcome hw).2 with g | ⟨g1, g2⟩
          · exact Or.inl g
          · exact Or.inr ⟨wr, g1, g2⟩
        · rw [if_neg hs] at hw
          cases hw
          exact Or.inl rfl
    unfold Process.closeLink at h
    simp only at h
    cases hrd : li.Rd with
    | none =>
      rw [hrd] at h
      simp only at h
      exact wrStage log h
    | some rd =>
      rw [hrd] at h
      simp only at h
      by_cases hd : li.Dst.Node = p.Plan.Name
      · rw [if_pos hd] at h
        cases hcf : closeFile who rd log with
        | mk o1 log1 =>
          rw [hcf] at h
          obtain ⟨_, hout⟩ := closeFile_outcome hcf
          cases o1 with
          | done =>
            simp only at h
            exact wrStage log1 h
          | failed g =>
            simp only at h
            cases h
            rcases hout with g0 | ⟨g1, g2⟩
            · cases g0
            · cases g1
              exact Or.inr ⟨_, rfl, g2⟩
          | panic x =>
            rcases hout with g0 | ⟨g1, _⟩
            · cases g0
            · cases g1
      · rw [if_neg hd] at h
        simp only at h
        exact wrStage log h

/-- A call of `Process.Close` only adds to the log; it returns nil, or the error of a
`Close` on a file that was closed before, or it panics on a nil link. -/
theorem closeLoop_outcome {heap : List Link} {p : Process} {who : String} :
    ∀ (ports : List String) (log : CloseLog) (o : CloseOutcome) (log' : CloseLog),
      Process.closeLoop who p heap ports log = (o, log') →
      (∀ f, closeCount log f ≤ closeCount log' f) ∧
      (o = .done ∨ (∃ g, o = .failed g ∧ 2 ≤ closeCount log' g) ∨
        ∃ x port l, o = .panic x ∧ mapGet p.Links port = some l ∧ heap[l]? = none) := by
  intro ports
  induction ports with
  | nil =>
    intro log o log' h
    cases h
    exact ⟨fun _ => Nat.le_refl _, Or.inl rfl⟩
  | cons port rest ih =>
    intro log o log' h
    unfold Process.closeLoop at h
    cases hl : mapGet p.Links port with
    | none =>
      rw [hl] at h
      exact ih log o log' h
    | some l =>
      rw [hl] at h
      simp only at h
      cases hc : heap[l]? with
      | none =>
        rw [hc] at h
        cases h
        exact ⟨fun _ => Nat.le_refl _, Or.inr (Or.inr ⟨_, port, l, rfl, hl, hc⟩)⟩
      | some link =>
        rw [hc] at h
        simp only at h
        cases hcl : p.closeLink who link log with
        | mk o1 log1 =>
          rw [hcl] at h
          obtain ⟨m1, hout⟩ := closeLink_outcome hcl
          cases o1 with
          | done =>
            simp only at h
            obtain ⟨m2, hout2⟩ := ih log1 o log' h
            exact ⟨fun f => Nat.le_trans (m1 f) (m2 f), hout2⟩
          | failed g =>
            simp only at h
            cases h
            refine ⟨m1, ?_⟩
            rcases hout with g0 | ⟨g1, g2, g3⟩
            · cases g0
            · exact Or.inr (Or.inl ⟨g1, g2, g3⟩)
          | panic x =>
            rcases hout with g0 | ⟨g1, g2, _⟩
            · cases g0
            · cases g2

/-- The `Close` calls of the workers only add to the log and to the outcomes. Every
outcome is nil, or the error of a `Close` on a file closed twice, or a panic on a nil link;
and every process instance visited has an outcome. -/
theorem closeProcs_outcome {rt : Program} {cs : CloseSchedule} :
    ∀ (ks : List String) (s : CloseLog × List (String × CloseOutcome)),
      (∀ f, closeCount s.1 f ≤ closeCount (closeProcs rt cs ks s).1 f) ∧
      (∀ x, x ∈ s.2 → x ∈ (closeProcs rt cs ks s).2) ∧
      (∀ Q o, (Q, o) ∈ (closeProcs rt cs ks s).2 → (Q, o) ∈ s.2 ∨
        (o = .done ∨ (∃ g, o = .failed g ∧ 2 ≤ closeCount (closeProcs rt cs ks s).1 g) ∨
          ∃ x p port l, o = .panic x ∧ mapGet rt.procs Q = some p ∧
            mapGet p.Links port = some l ∧ rt.heap[l]? = none)) ∧
      (∀ Q p, Q ∈ ks → mapGet rt.procs Q = some p →
        ∃ o, (Q, o) ∈ (closeProcs rt cs ks s).2) := by
  intro ks
  induction ks with
  | nil =>
    intro s
    unfold closeProcs
    exact ⟨fun _ => Nat.le_refl _, fun _ h => h, fun _ _ h => Or.inl h,
      fun _ _ hm => absurd hm (List.not_mem_nil _)⟩
  | cons k ks ih =>
    intro s
    unfold closeProcs
    cases hg : mapGet rt.procs k with
    | none =>
      simp only
      obtain ⟨t1, t2, t3, t4⟩ := ih s
      refine ⟨t1, t2, t3, ?_⟩
      intro Q p hm hp
      rcases List.mem_cons.mp hm with he | he
      · rw [he, hg] at hp
        cases hp
      · exact t4 Q p he hp
    | some p =>
      simp only
      have hrun : Process.closeLoop k p rt.heap (cs.links k (mapKeys p.Links)) s.1 =
          ((p.Close rt.heap cs k s.1).1, (p.Close rt.heap cs k s.1).2) := rfl
      obtain ⟨m1, hout⟩ := closeLoop_outcome _ _ _ _ hrun
      obtain ⟨t1, t2, t3, t4⟩ :=
        ih ((p.Close rt.heap cs k s.1).2, s.2 ++ [(k, (p.Close rt.heap cs k s.1).1)])
      simp only at t1 t2 t3 t4
      refine ⟨fun f => Nat.le_trans (m1 f) (t1 f),
        fun x hx => t2 x (List.mem_append_left _ hx), ?_, ?_⟩
      · intro Q o hm
        rcases t3 Q o hm with g | g
        · rcases List.mem_append.mp g with g | g
          · exact Or.inl g
          · have hkd := List.mem_singleton.mp g
            have hQ : Q = k := congrArg Prod.fst hkd
            have ho : o = (p.Close rt.heap cs k s.1).1 := congrArg Prod.snd hkd
            right
            rcases hout with g0 | ⟨g1, g2, g3⟩ | ⟨x, port, l, g1, g2, g3⟩
            · exact Or.inl (ho.trans g0)
            · exact Or.inr (Or.inl ⟨g1, ho.trans g2, Nat.le_trans g3 (t1 g1)⟩)
            · exact Or.inr (Or.inr ⟨x, p, port, l, ho.trans g1, by rw [hQ]; exact hg, g2, g3⟩)
        · exact Or.inr g
      · intro Q p' hm hp
        rcases List.mem_cons.mp hm with he | he
        · exact ⟨_, t2 _ (List.mem_append_right _ (by rw [he]; exact List.mem_singleton_self _))⟩
        · exact t4 Q p' he hp

end osruntime

namespace osruntime

theorem linkAt_of_get {rt : Program} {Q k : String} {p : Process} {i : Nat}
    (hp : mapGet rt.procs Q = some p) (hk : mapGet p.Links k = some i) :
    rt.linkAt Q k = some i := by
  simp only [Program.linkAt, hp, Option.some_bind]
  exact hk

/-- In a program that is ready for `Close`, no file is closed twice. -/
theorem closeReady_once {rt : Program} {cs : CloseSchedule} (hcs : cs.Valid)
    (hR : CloseReady rt) (f : File) : closeCount (rt.closeAll cs).1 f ≤ 1 := by
  by_cases hex : ∃ Q p k i li, mapGet rt.procs Q = some p ∧ mapGet p.Links k = some i ∧
      rt.heap[i]? = some li ∧
      ((li.Rd = some f ∧ li.Dst.Node = Q) ∨ (li.Wr = some f ∧ li.Src.Node = Q))
  · obtain ⟨Q, p, k, i, li, hp, hk, hi, hab⟩ := hex
    rcases hab with ⟨ha, hq⟩ | ⟨hb, hq⟩
    · refine (@closeAll_once rt cs hcs li.Dst.Node li.Dst.Port f hR.keys ?_).1
      intro Q' p' hp'
      refine ⟨(hR.names Q' p' hp').1, (hR.names Q' p' hp').2, ?_, ?_⟩
      · intro k' i' li' hk' hi' hab'
        rcases hab' with ⟨ha', hq'⟩ | ⟨hb', _⟩
        · have hii := hR.apart.rdOnce i' i li' li f hi' hi ha' ha
          subst hii
          rw [hi] at hi'
          cases hi'
          refine ⟨hq'.symm, ?_⟩
          rcases hR.held.held Q' k' i' li (linkAt_of_get hp' hk') hi with g | g
          · exact g.2
          · exact absurd (g.1.symm.trans hq'.symm) (hR.held.noSelf i' li hi)
        · exact absurd hb' (fun hx => hR.apart.rdWr i i' li li' f hi hi' ha hx)
      · intro i' li' _ hi' hab'
        exact hR.apart.rdWr i i' li li' f hi hi' ha hab'.2.1
    · refine (@closeAll_once rt cs hcs li.Src.Node li.Src.Port f hR.keys ?_).1
      intro Q' p' hp'
      refine ⟨(hR.names Q' p' hp').1, (hR.names Q' p' hp').2, ?_, ?_⟩
      · intro k' i' li' hk' hi' hab'
        rcases hab' with ⟨ha', _⟩ | ⟨hb', hq'⟩
        · exact absurd ha' (fun hx => hR.apart.rdWr i' i li' li f hi' hi hx hb)
        · have hii := hR.apart.wrOnce i' i li' li f hi' hi hb' hb
          subst hii
          rw [hi] at hi'
          cases hi'
          refine ⟨hq'.symm, ?_⟩
          rcases hR.held.held Q' k' i' li (linkAt_of_get hp' hk') hi with g | g
          · exact absurd (hq'.trans g.1) (hR.held.noSelf i' li hi)
          · exact g.2
      · intro i' li' _ hi' hab'
        exact hR.apart.rdWr i' i li' li f hi' hi hab'.1.1 hb
  · refine (@closeAll_once rt cs hcs "" "" f hR.keys ?_).1
    intro Q' p' hp'
    refine ⟨(hR.names Q' p' hp').1, (hR.names Q' p' hp').2, ?_, ?_⟩
    · intro k' i' li' hk' hi' hab'
      exact absurd ⟨Q', p', k', i', li', hp', hk', hi', hab'⟩ hex
    · intro i' li' hk' hi' hab'
      exact absurd ⟨Q', p', "", i', li', hp', hk', hi', Or.inl hab'.1⟩ hex

/-- In a program that is ready for `Close`, every `Process.Close` returns nil, and every
process instance has made its call. -/
theorem closeReady_done {rt : Program} {cs : CloseSchedule} (hcs : cs.Valid)
    (hR : CloseReady rt) :
    (∀ Q o, (Q, o) ∈ (rt.closeAll cs).2 → o = .done) ∧
    (∀ Q p, mapGet rt.procs Q = some p → (Q, CloseOutcome.done) ∈ (rt.closeAll cs).2) := by
  obtain ⟨_, _, t3, t4⟩ :=
    @closeProcs_outcome rt cs (cs.procs (mapKeys rt.procs)) ([], [])
  have hdone : ∀ Q o, (Q, o) ∈ (rt.closeAll cs).2 → o = .done := by
    intro Q o hm
    rcases t3 Q o hm with g | g | ⟨g1, g2, g3⟩ | ⟨x, p, port, l, _, hp, hl, hn⟩
    · cases g
    · exact g
    · have := closeReady_once hcs hR g1
      unfold Program.closeAll at this
      omega
    · have hb := hR.held.bound Q port l (linkAt_of_get hp hl)
      rw [List.getElem?_eq_none_iff] at hn
      omega
  refine ⟨hdone, ?_⟩
  intro Q p hp
  have hmem : Q ∈ cs.procs (mapKeys rt.procs) :=
    (hcs.procs _).mem_iff.mpr ((mapGet_isSome_iff _ _).mp ⟨p, hp⟩)
  obtain ⟨o, ho⟩ := t4 Q p hmem hp
  have := hdone Q o ho
  subst this
  exact ho

end osruntime

namespace osruntime

theorem held_append {rt rt' : Program} {cell : Link}
    (hh : rt'.heap = rt.heap ++ [cell])
    (hl : ∀ Q k i, rt'.linkAt Q k = some i →
      (i = rt.heap.length ∧
        ((Q = cell.Src.Node ∧ k = cell.Src.Port) ∨ (Q = cell.Dst.Node ∧ k = cell.Dst.Port))) ∨
      rt.linkAt Q k = some i)
    (hns : cell.Src.Node ≠ cell.Dst.Node) (hH : rt.Held) : rt'.Held := by
  have hlen : rt'.heap.length = rt.heap.length + 1 := by rw [hh]; simp
  refine ⟨?_, ?_, ?_⟩
  · intro Q k i hi
    rcases hl Q k i hi with ⟨e, _⟩ | g
    · omega
    · have := hH.bound Q k i g
      omega
  · intro Q k i li hi hli
    rcases hl Q k i hi with ⟨e, g⟩ | g
    · subst e
      rw [hh, List.getElem?_append_right (Nat.le_refl _)] at hli
      simp only [Nat.sub_self, List.getElem?_cons_zero, Option.some.injEq] at hli
      subst hli
      rcases g with g | g
      · exact Or.inr g
      · exact Or.inl g
    · have hb := hH.bound Q k i g
      rw [hh, List.getElem?_append_left hb] at hli
      exact hH.held Q k i li g hli
  · intro i li hli
    rw [hh] at hli
    by_cases hlt : i < rt.heap.length
    · rw [List.getElem?_append_left hlt] at hli
      exact hH.noSelf i li hli
    · have hge : rt.heap.length ≤ i := Nat.le_of_not_lt hlt
      rw [List.getElem?_append_right hge] at hli
      cases hz : i - rt.heap.length with
      | zero =>
        rw [hz] at hli
        simp only [List.getElem?_cons_zero, Option.some.injEq] at hli
        subst hli
        exact hns
      | succ z => rw [hz] at hli; cases hli

theorem connectPort_held {prog : plan.Pipe} {dk : String} {inp : plan.Port}
    {link : plan.Link} {rt rt' : Program} (hdst : link.Dst = ⟨dk, inp.Name⟩)
    (hns : link.Src.Node ≠ link.Dst.Node) (h : connectPort prog dk inp link rt = .ok rt')
    (hH : rt.Held) : rt'.Held := by
  obtain ⟨val, sp, hh, _, _, _, hcase⟩ := connectPort_ok h
  refine held_append hh ?_ hns hH
  intro Q k i hi
  have hd1 : link.Dst.Node = dk := by rw [hdst]
  have hd2 : link.Dst.Port = inp.Name := by rw [hdst]
  rcases hcase with ⟨_, _, _, _, _, hl⟩ | ⟨_, _, _, _, _, _, _, _, hl⟩
  · rw [hl Q k] at hi
    by_cases hc : Q = link.Src.Node ∧ k = link.Src.Port
    · rw [if_pos hc] at hi
      exact Or.inl ⟨(Option.some.inj hi).symm, Or.inl hc⟩
    · rw [if_neg hc] at hi
      by_cases hc2 : Q = dk ∧ k = inp.Name
      · rw [if_pos hc2] at hi
        exact Or.inl ⟨(Option.some.inj hi).symm, Or.inr ⟨hc2.1.trans hd1.symm,
          hc2.2.trans hd2.symm⟩⟩
      · rw [if_neg hc2] at hi
        exact Or.inr hi
  · rw [hl Q k] at hi
    by_cases hc2 : Q = dk ∧ k = inp.Name
    · rw [if_pos hc2] at hi
      exact Or.inl ⟨(Option.some.inj hi).symm, Or.inr ⟨hc2.1.trans hd1.symm,
        hc2.2.trans hd2.symm⟩⟩
    · rw [if_neg hc2] at hi
      exact Or.inr hi

theorem connectVar_held {prog : plan.Pipe} (hns : NoSelfLinks prog) {dk : String}
    {dv : Variable} {rt rt' : Program} (hdv : mapGet rt.vars dk = some dv)
    (h : Program.connectVar prog dk dv rt = .ok rt') (hH : rt.Held) : rt'.Held := by
  obtain ⟨in0, _, hcase⟩ := connectVar_ok hdv h
  rcases hcase with ⟨_, he⟩ | ⟨link, src, sp, hf, _, _, _, hh, _, _, _, hl⟩
  · rw [he]; exact hH
  · refine held_append hh ?_ (hns link (plan.findLink_some hf).1) hH
    intro Q k i hi
    rw [hl Q k] at hi
    by_cases hc : Q = link.Src.Node ∧ k = link.Src.Port
    · rw [if_pos hc] at hi
      exact Or.inl ⟨(Option.some.inj hi).symm, Or.inl hc⟩
    · rw [if_neg hc] at hi
      exact Or.inr hi

theorem held_of_frame {a b : Program} (hl : ∀ Q k, b.linkAt Q k = a.linkAt Q k)
    (hlen : b.heap.length = a.heap.length)
    (hsk : ∀ (j : Nat) (l' : Link), b.heap[j]? = some l' →
      ∃ l : Link, a.heap[j]? = some l ∧ l'.Src = l.Src ∧ l'.Dst = l.Dst)
    (hH : a.Held) : b.Held := by
  refine ⟨?_, ?_, ?_⟩
  · intro Q k i hi
    rw [hl] at hi
    rw [hlen]
    exact hH.bound Q k i hi
  · intro Q k i li hi hli
    rw [hl] at hi
    obtain ⟨l, hla, e1, e2⟩ := hsk i li hli
    rw [e1, e2]
    exact hH.held Q k i l hi hla
  · intro i li hli
    obtain ⟨l, hla, e1, e2⟩ := hsk i li hli
    rw [e1, e2]
    exact hH.noSelf i l hla

theorem bindVar_held {rt rt' : Program} {key : String} {v : Variable}
    {value : Option Value} (h : rt.bindVar key v value = .ok rt') (hH : rt.Held) :
    rt'.Held := by
  obtain ⟨hp, _, _, _, hf, _⟩ := bindVar_ok h
  refine held_of_frame (fun Q k => by simp only [Program.linkAt, hp]) hf.length ?_ hH
  intro j l' hl'
  obtain ⟨l, hl, _, e2, e3⟩ := hf.skeleton j l' hl'
  exact ⟨l, hl, e2, e3⟩

theorem initLink_held {env : Env} {dp : Process} {port : String} {rt rt' : Program}
    (h : initLink env dp port rt = .ok rt') (hH : rt.Held) : rt'.Held := by
  obtain ⟨hp, _, hcase⟩ := initLink_ok h
  refine held_of_frame (fun Q k => by simp only [Program.linkAt, hp]) ?_ ?_ hH
  · rcases hcase with he | ⟨l, link, _, _, _, _, hh, _⟩
    · rw [he]
    · rw [hh]
      simp only [setWr, setRd, List.length_modify]
  · intro j l' hl'
    obtain ⟨l, hl, _, e2, e3, _⟩ := initLink_skeleton h j l' hl'
    exact ⟨l, hl, e2, e3⟩

/-- After a successful `Build` of a plan without self-links: every entry of a `Links` map
leads to a link instance of that process and port, and the process instances are keyed by
their names. -/
theorem Build_held {prog : plan.Pipe} {presets : List (String × Option Value)} {env : Env}
    {sched : Schedule} {rt : Program} (hns : NoSelfLinks prog)
    (h : Build prog presets env sched = .ok rt) :
    rt.Held ∧ (mapKeys rt.procs).Nodup ∧
    ∀ Q p, mapGet rt.procs Q = some p → p.Plan.Name = Q ∧ (mapKeys p.Links).Nodup := by
  obtain ⟨r1, r2, r3, r4, r5, h1, h2, h3, h4, h5, h6⟩ := Build_ok_stages h
  have f1 := connectProcs_frame h1
  have f2 := connectVars_frame h2
  have f3 := bindPresets_frame h3
  obtain ⟨b1, b2, _, _, _, _⟩ := bindDefaults_pass env _ r3 r4 h4
  obtain ⟨i1, _⟩ := initProcs_frame h5
  obtain ⟨_, c2, _, c4, c5⟩ := setCmds_frame h6
  have hfp0 := fromPlan_create prog
  have hH0 : (Program.create prog).Held := by
    refine ⟨?_, ?_, ?_⟩
    · intro Q k i hi
      obtain ⟨_, _, _, _, cp, _, _, _⟩ := create_spec prog
      simp only [Program.linkAt] at hi
      cases hg : mapGet (Program.create prog).procs Q with
      | none => rw [hg] at hi; cases hi
      | some p =>
        rw [hg] at hi
        obtain ⟨_, _, _, he⟩ := cp Q p hg
        subst he
        cases hi
    · intro Q k i li _ hli
      rw [(create_spec prog).1] at hli
      cases hli
    · intro i li hli
      rw [(create_spec prog).1] at hli
      cases hli
  have hr1 : r1.FromPlan prog ∧ r1.Held := by
    refine rangeProcs_rel (fun a b => a.FromPlan prog ∧ a.Held → b.FromPlan prog ∧ b.Held)
      (fun _ h => h) (fun _ _ _ f g h => g (f h)) _ ?_ _ _ _ h1 ⟨hfp0, hH0⟩
    intro k p rt rt' hk hb hI
    have hname : p.Plan.Name = k := (hI.1.1 k p.Plan (by simp [Program.procPlan, hk])).2
    refine connectProcLoop_rel (fun a b => a.FromPlan prog ∧ a.Held →
        b.FromPlan prog ∧ b.Held) (fun _ h => h)
      (fun _ _ _ f g h => g (f h)) prog k p.Plan ?_ p.Plan.In rt rt' (fun _ hq => hq) hb hI
    intro inp link a b _ hl hc hI2
    obtain ⟨hlm, hld⟩ := plan.findLink_some hl
    exact ⟨fromPlan_of_sameNodes hI2.1 (connectPort_frame hc).nodes,
      connectPort_held (by rw [hld, hname]) (hns link hlm) hc hI2.2⟩
  have hr2 : r2.FromPlan prog ∧ r2.Held := by
    refine rangeVars_rel (fun a b => a.FromPlan prog ∧ a.Held → b.FromPlan prog ∧ b.Held)
      (fun _ h => h) (fun _ _ _ f g h => g (f h)) _ ?_ _ _ _ h2 hr1
    intro k v a b hk hb hI
    exact ⟨fromPlan_of_sameNodes hI.1 (connectVar_frame hk hb).nodes,
      connectVar_held hns hk hb hI.2⟩
  have hr3 : r3.Held := by
    refine bindPresets_rel (fun a b => a.Held → b.Held) (fun _ h => h)
      (fun _ _ _ f g h => g (f h)) presets ?_ _ _ _ h3 hr2.2
    intro k v value a b _ _ hb
    exact bindVar_held hb
  have hr4 : r4.Held := by
    refine rangeVars_rel (fun a b => a.Held → b.Held) (fun _ h => h)
      (fun _ _ _ f g h => g (f h)) _ ?_ _ _ _ h4 hr3
    intro k v a b hk hb
    rcases bindDefaultsChecked_ok hk hb with ⟨he, _⟩ | ⟨_, value, hbind, _⟩
    · rw [he]; exact id
    · exact bindVar_held hbind
  have hr5 : r5.Held := by
    refine rangeProcs_rel (fun a b => a.Held → b.Held) (fun _ h => h)
      (fun _ _ _ f g h => g (f h)) _ ?_ _ _ _ h5 hr4
    intro k p a b _ hb
    exact initLinks_rel (fun a b => a.Held → b.Held) (fun _ h => h)
      (fun _ _ _ f g h => g (f h)) env p (fun _ _ _ h => initLink_held h) _ a b hb
  have hrt : rt.Held :=
    held_of_frame c5 (by rw [c2]) (fun j l' hl' => ⟨l', by rw [← c2]; exact hl', rfl, rfl⟩) hr5
  have hn2 := connect_nodup h1 h2
  have hprocs52 : r5.procs = r2.procs := i1.trans (b2.trans f3.procs)
  refine ⟨hrt, ?_, ?_⟩
  · rw [c4.procKeys, hprocs52, f2.nodes.procKeys, f1.nodes.procKeys]
    exact (create_spec prog).2.2.1
  · intro Q p' hp'
    obtain ⟨p, hp, q1, q2⟩ := setCmds_procs h6 Q p' hp'
    rw [hprocs52] at hp
    rw [q1, q2]
    exact ⟨(hr2.1.1 Q p.Plan (by simp [Program.procPlan, hp])).2, hn2 Q p hp⟩

end osruntime

namespace osruntime

theorem modify_rd (heap : List Link) (fd : File) (o j : Nat) (l1 : Link)
    (h : (setRd heap o fd)[j]? = some l1) :
    ∃ l, heap[j]? = some l ∧ l1.Rd = (if o = j then some fd else l.Rd) ∧ l1.Wr = l.Wr := by
  unfold setRd at h
  obtain ⟨l, hl, he⟩ := modify_get _ o heap j l1 h
  refine ⟨l, hl, ?_⟩
  by_cases hoj : o = j
  · simp only [hoj, if_true] at he ⊢
    rw [he]
    exact ⟨rfl, rfl⟩
  · simp only [hoj, if_false] at he ⊢
    rw [he]
    exact ⟨rfl, rfl⟩

theorem modify_wr (heap : List Link) (fd : File) (o j : Nat) (l1 : Link)
    (h : (setWr heap o fd)[j]? = some l1) :
    ∃ l, heap[j]? = some l ∧ l1.Wr = (if o = j then some fd else l.Wr) ∧ l1.Rd = l.Rd := by
  unfold setWr at h
  obtain ⟨l, hl, he⟩ := modify_get _ o heap j l1 h
  refine ⟨l, hl, ?_⟩
  by_cases hoj : o = j
  · simp only [hoj, if_true] at he ⊢
    rw [he]
    exact ⟨rfl, rfl⟩
  · simp only [hoj, if_false] at he ⊢
    rw [he]
    exact ⟨rfl, rfl⟩

/-- The two ends of every link instance after a successful `Bind`: the file bound, in the
read end of the outbound link and in the write end of the inbound link of a `stream`
variable; what they were, everywhere else. -/
theorem bindVar_files {rt rt' : Program} {key : String} {v : Variable}
    {value : Option Value} (h : rt.bindVar key v value = .ok rt') (j : Nat) (l' : Link)
    (hl' : rt'.heap[j]? = some l') :
    ∃ l, rt.heap[j]? = some l ∧
      ((∃ fd, value = some (.file fd) ∧ v.Plan.Typ = some plan.TypeStream ∧
          l'.Rd = (if v.Out = some j then some fd else l.Rd) ∧
          l'.Wr = (if v.In = some j then some fd else l.Wr)) ∨
       ((∃ s, value = some (.str s)) ∧ v.Plan.Typ = some plan.TypeString ∧
          l'.Rd = l.Rd ∧ l'.Wr = l.Wr)) := by
  obtain ⟨_, _, _, _, _, hcase⟩ := bindVar_ok h
  rcases hcase with ⟨ht, ⟨fd, hfd⟩, _⟩ | ⟨ht, hs, _, _, hkeep⟩
  · subst hfd
    unfold Program.bindVar Variable.Bind at h
    rw [ht] at h
    simp only [if_true] at h
    cases h
    simp only at hl'
    cases hi : v.In with
    | none =>
      cases ho : v.Out with
      | none =>
        rw [hi, ho] at hl'
        exact ⟨l', hl', Or.inl ⟨fd, rfl, ht, by simp, by simp⟩⟩
      | some o =>
        rw [hi, ho] at hl'
        simp only at hl'
        obtain ⟨l, hl, e1, e2⟩ := modify_rd _ fd o j l' hl'
        refine ⟨l, hl, Or.inl ⟨fd, rfl, ht, ?_, by simp [e2]⟩⟩
        rw [e1]
        by_cases hoj : o = j
        · simp [hoj]
        · simp [hoj]
    | some i =>
      cases ho : v.Out with
      | none =>
        rw [hi, ho] at hl'
        simp only at hl'
        obtain ⟨l, hl, e1, e2⟩ := modify_wr _ fd i j l' hl'
        refine ⟨l, hl, Or.inl ⟨fd, rfl, ht, by simp [e2], ?_⟩⟩
        rw [e1]
        by_cases hij : i = j
        · simp [hij]
        · simp [hij]
      | some o =>
        rw [hi, ho] at hl'
        simp only at hl'
        obtain ⟨l1, hl1, e1, e2⟩ := modify_wr _ fd i j l' hl'
        obtain ⟨l, hl, g1, g2⟩ := modify_rd _ fd o j l1 hl1
        refine ⟨l, hl, Or.inl ⟨fd, rfl, ht, ?_, ?_⟩⟩
        · rw [e2, g1]
          by_cases hoj : o = j
          · simp [hoj]
          · simp [hoj]
        · rw [e1, g2]
          by_cases hij : i = j
          · simp [hij]
          · simp [hij]
  · obtain ⟨l, hl, e1, e2⟩ := hkeep j l' hl'
    exact ⟨l, hl, Or.inr ⟨hs, ht, e1, e2⟩⟩

/-- A successful `Bind` of a value that comes from the presets, or from the default of the
variable, keeps the account of where the files come from. -/
theorem bindVar_varFiles {prog : plan.Pipe} {presets : List (String × Option Value)}
    {rt rt' : Program} {key : String} {v : Variable} {value : Option Value}
    (hk : mapGet rt.vars key = some v) (h : rt.bindVar key v value = .ok rt')
    (horigin : ∀ f, value = some (.file f) →
      mapGet presets key = some (some (.file f)) ∨ ∃ path, f = File.opened key path)
    (hV : VarFiles prog presets rt) : VarFiles prog presets rt' := by
  obtain ⟨_, _, hvars, _, _, hcase⟩ := bindVar_ok h
  have hself : mapGet rt'.vars key = some { v with Value := value } := by
    rw [hvars, mapGet_mapSet_self]
  have hother : ∀ k, k ≠ key → mapGet rt'.vars k = mapGet rt.vars k := by
    intro k hne
    rw [hvars]
    exact mapGet_mapSet_ne _ _ (Ne.symm hne)
  have htyp : ∀ f, value = some (.file f) → v.Plan.Typ = some plan.TypeStream := by
    intro f hf
    rcases hcase with ⟨ht, _, _⟩ | ⟨_, ⟨s, hs⟩, _⟩
    · exact ht
    · rw [hs] at hf; cases hf
  refine ⟨?_, ?_, ?_, ?_⟩
  · intro k w hw
    by_cases hkk : k = key
    · subst hkk
      rw [hself] at hw
      cases hw
      exact hV.ways k v hk
    · rw [hother k hkk] at hw
      exact hV.ways k w hw
  · intro k w f hw hval
    by_cases hkk : k = key
    · subst hkk
      rw [hself] at hw
      cases hw
      simp only at hval
      exact ⟨htyp f hval, horigin f hval⟩
    · rw [hother k hkk] at hw
      exact hV.origin k w f hw hval
  · intro i li f hi hrd
    obtain ⟨l, hl, hc⟩ := bindVar_files h i li hi
    have hold : l.Rd = some f → v.Out ≠ some i ∨ v.Plan.Typ = some plan.TypeString →
        (∃ m, f = File.pipeRd m) ∨ ∃ k w, mapGet rt'.vars k = some w ∧ w.Out = some i ∧
          w.Value = some (Value.file f) := by
      intro hlr hnot
      rcases hV.rdCell i l f hl hlr with g | ⟨k, w, hw, hwo, hwv⟩
      · exact Or.inl g
      · right
        by_cases hkk : k = key
        · subst hkk
          rw [hk] at hw
          cases hw
          rcases hnot with g | g
          · exact absurd hwo g
          · have := (hV.origin k v f hk hwv).1
            rw [g] at this
            exact absurd this (by decide)
        · exact ⟨k, w, by rw [hother k hkk]; exact hw, hwo, hwv⟩
    rcases hc with ⟨fd, hval, _, e1, _⟩ | ⟨_, ht, e1, _⟩
    · by_cases ho : v.Out = some i
      · rw [if_pos ho, hrd] at e1
        have hf : f = fd := Option.some.inj e1
        subst hf
        exact Or.inr ⟨key, _, hself, ho, hval⟩
      · rw [if_neg ho, hrd] at e1
        exact hold e1.symm (Or.inl ho)
    · rw [hrd] at e1
      exact hold e1.symm (Or.inr ht)
  · intro i li f hi hwr
    obtain ⟨l, hl, hc⟩ := bindVar_files h i li hi
    have hold : l.Wr = some f → v.In ≠ some i ∨ v.Plan.Typ = some plan.TypeString →
        (∃ m, f = File.pipeWr m) ∨ ∃ k w, mapGet rt'.vars k = some w ∧ w.In = some i ∧
          w.Value = some (Value.file f) := by
      intro hlr hnot
      rcases hV.wrCell i l f hl hlr with g | ⟨k, w, hw, hwo, hwv⟩
      · exact Or.inl g
      · right
        by_cases hkk : k = key
        · subst hkk
          rw [hk] at hw
          cases hw
          rcases hnot with g | g
          · exact absurd hwo g
          · have := (hV.origin k v f hk hwv).1
            rw [g] at this
            exact absurd this (by decide)
        · exact ⟨k, w, by rw [hother k hkk]; exact hw, hwo, hwv⟩
    rcases hc with ⟨fd, hval, _, _, e1⟩ | ⟨_, ht, _, e1⟩
    · by_cases ho : v.In = some i
      · rw [if_pos ho, hwr] at e1
        have hf : f = fd := Option.some.inj e1
        subst hf
        exact Or.inr ⟨key, _, hself, ho, hval⟩
      · rw [if_neg ho, hwr] at e1
        exact hold e1.symm (Or.inl ho)
    · rw [hwr] at e1
      exact hold e1.symm (Or.inr ht)

end osruntime

namespace osruntime

theorem connecting_append {prog : plan.Pipe} {rt rt' : Program} {cell : Link}
    (hh : rt'.heap = rt.heap ++ [cell]) (hrd : cell.Rd = none) (hwr : cell.Wr = none)
    (hs : SameNodes rt rt')
    (hvars : ∀ key v', mapGet rt'.vars key = some v' →
      mapGet rt.vars key = some v' ∨
      ∃ v l, mapGet rt.vars key = some v ∧ v'.Value = v.Value ∧ l ∈ prog.Links ∧
        ((v'.Out = v.Out ∧ l.Dst.Node = key) ∨ (v'.In = v.In ∧ l.Src.Node = key)))
    (hC : Connecting prog rt) : Connecting prog rt' := by
  refine ⟨fromPlan_of_sameNodes hC.fromPlan hs, ?_, ?_, ?_⟩
  · intro key v' hv'
    rcases hvars key v' hv' with g | ⟨v, l, hv, e, _⟩
    · exact hC.unboundYet key v' g
    · rw [e]; exact hC.unboundYet key v hv
  · intro key v' hv'
    rcases hvars key v' hv' with g | ⟨v, l, hv, _, hl, hc⟩
    · exact hC.ways key v' g
    · rcases hc with ⟨e, hd⟩ | ⟨e, hd⟩
      · exact ⟨by rw [e]; exact (hC.ways key v hv).1, fun _ => ⟨l, hl, hd⟩⟩
      · exact ⟨fun _ => ⟨l, hl, hd⟩, by rw [e]; exact (hC.ways key v hv).2⟩
  · intro i li hli
    rw [hh] at hli
    by_cases hlt : i < rt.heap.length
    · rw [List.getElem?_append_left hlt] at hli
      exact hC.noEnds i li hli
    · have hge : rt.heap.length ≤ i := Nat.le_of_not_lt hlt
      rw [List.getElem?_append_right hge] at hli
      cases hz : i - rt.heap.length with
      | zero =>
        rw [hz] at hli
        simp only [List.getElem?_cons_zero, Option.some.injEq] at hli
        subst hli
        exact ⟨hrd, hwr⟩
      | succ z => rw [hz] at hli; cases hli

theorem connectPort_connecting {prog : plan.Pipe} {dk : String} {inp : plan.Port}
    {link : plan.Link} {rt rt' : Program} (hlm : link ∈ prog.Links)
    (h : connectPort prog dk inp link rt = .ok rt') (hC : Connecting prog rt) :
    Connecting prog rt' := by
  obtain ⟨val, sp, hh, _, hs, _, hcase⟩ := connectPort_ok h
  refine connecting_append hh rfl rfl hs ?_ hC
  intro key v' hv'
  rcases hcase with ⟨_, _, _, hvars, _, _⟩ | ⟨_, _, sv, _, _, hsv, _, hvars, _⟩
  · rw [hvars] at hv'
    exact Or.inl hv'
  · rw [hvars] at hv'
    by_cases hk : link.Src.Node = key
    · subst hk
      rw [mapGet_mapSet_self] at hv'
      cases hv'
      exact Or.inr ⟨sv, link, hsv, rfl, hlm, Or.inr ⟨rfl, rfl⟩⟩
    · rw [mapGet_mapSet_ne _ _ hk] at hv'
      exact Or.inl hv'

theorem connectVar_connecting {prog : plan.Pipe} {dk : String} {dv : Variable}
    {rt rt' : Program} (hdv : mapGet rt.vars dk = some dv)
    (h : Program.connectVar prog dk dv rt = .ok rt') (hC : Connecting prog rt) :
    Connecting prog rt' := by
  obtain ⟨in0, _, hcase⟩ := connectVar_ok hdv h
  rcases hcase with ⟨_, he⟩ | ⟨link, src, sp, hf, _, _, _, hh, _, hs, hvars, _⟩
  · rw [he]; exact hC
  · obtain ⟨hlm, hld⟩ := plan.findLink_some hf
    have hname : dv.Plan.Name = dk :=
      (hC.fromPlan.2 dk dv.Plan (by simp [Program.varPlan, hdv])).2
    refine connecting_append hh rfl rfl hs ?_ hC
    intro key v' hv'
    rw [hvars] at hv'
    by_cases hk : dk = key
    · subst hk
      rw [mapGet_mapSet_self] at hv'
      cases hv'
      exact Or.inr ⟨dv, link, hdv, rfl, hlm, Or.inl ⟨rfl, by rw [hld, hname]⟩⟩
    · rw [mapGet_mapSet_ne _ _ hk] at hv'
      exact Or.inl hv'

theorem connecting_create (prog : plan.Pipe) : Connecting prog (Program.create prog) := by
  obtain ⟨hheap, _, _, _, _, cv, _, _⟩ := create_spec prog
  refine ⟨fromPlan_create prog, ?_, ?_, ?_⟩
  · intro key v hv
    obtain ⟨V, _, _, he⟩ := cv key v hv
    rw [he]
  · intro key v hv
    obtain ⟨V, _, _, he⟩ := cv key v hv
    rw [he]
    exact ⟨fun hc => absurd rfl hc, fun hc => absurd rfl hc⟩
  · intro i li hli
    rw [hheap] at hli
    cases hli

theorem varFiles_of_connecting {prog : plan.Pipe} {presets : List (String × Option Value)}
    {rt : Program} (hC : Connecting prog rt) : VarFiles prog presets rt := by
  refine ⟨hC.ways, ?_, ?_, ?_⟩
  · intro key v f hv hval
    rw [hC.unboundYet key v hv] at hval
    cases hval
  · intro i li f hli hrd
    rw [(hC.noEnds i li hli).1] at hrd
    cases hrd
  · intro i li f hli hwr
    rw [(hC.noEnds i li hli).2] at hwr
    cases hwr

/-- A successful `bindDefaults` followed by the check `vr.Value == nil`: the variable was
bound already, or it is bound now, and a file it is bound to is the one opened for it. -/
theorem bindDefaultsChecked_origin {env : Env} {k : String} {v : Variable}
    {rt rt' : Program} (h : bindDefaultsChecked env k v rt = .ok rt') :
    rt' = rt ∨ ∃ value, rt.bindVar k v value = .ok rt' ∧
      ∀ f, value = some (.file f) → ∃ path, f = File.opened k path := by
  unfold bindDefaultsChecked at h
  obtain ⟨rt1, h1, h⟩ := Result.bind_eq_ok h
  have hrt : rt' = rt1 := by
    cases hg : mapGet rt1.vars k with
    | none => rw [hg] at h; cases h
    | some v1 =>
      rw [hg] at h
      simp only at h
      cases hval : v1.Value with
      | none => rw [hval] at h; cases h
      | some x => rw [hval] at h; cases h; rfl
  subst hrt
  unfold bindDefaults at h1
  cases hval : v.Value with
  | some x =>
    rw [hval] at h1
    cases h1
    exact Or.inl rfl
  | none =>
    rw [hval] at h1
    simp only at h1
    cases ht : v.Plan.Typ with
    | none => rw [ht] at h1; cases h1
    | some t =>
      rw [ht] at h1
      simp only at h1
      by_cases hs : t = plan.TypeStream
      · subst hs
        simp only [if_true] at h1
        split at h1
        · split at h1
          · refine Or.inr ⟨_, h1, ?_⟩
            intro f hf
            cases hf
            exact ⟨_, rfl⟩
          · cases h1
        · cases h1
          exact Or.inl rfl
      · simp only [hs, if_false] at h1
        by_cases hs2 : t = plan.TypeString
        · subst hs2
          simp only [if_true] at h1
          refine Or.inr ⟨_, h1, ?_⟩
          intro f hf
          cases hf
        · simp only [hs2, if_false] at h1
          cases h1

theorem initLink_varFiles {prog : plan.Pipe} {presets : List (String × Option Value)}
    {env : Env} {dp : Process} {port : String} {rt rt' : Program}
    (h : initLink env dp port rt = .ok rt') (hV : VarFiles prog presets rt) :
    VarFiles prog presets rt' := by
  obtain ⟨_, hvars, hcase⟩ := initLink_ok h
  rcases hcase with he | ⟨l, link, _, _, _, _, hh, _⟩
  · rw [he]; exact hV
  · refine ⟨?_, ?_, ?_, ?_⟩
    · intro key v hv
      rw [hvars] at hv
      exact hV.ways key v hv
    · intro key v f hv
      rw [hvars] at hv
      exact hV.origin key v f hv
    · intro i li f hli hrd
      rw [hh] at hli
      obtain ⟨l1, hl1, _, e1⟩ := modify_wr _ _ l i li hli
      obtain ⟨l0, hl0, g1, _⟩ := modify_rd _ _ l i l1 hl1
      rw [hvars]
      rw [e1, g1] at hrd
      by_cases hc : l = i
      · rw [if_pos hc] at hrd
        exact Or.inl ⟨_, (Option.some.inj hrd).symm⟩
      · rw [if_neg hc] at hrd
        exact hV.rdCell i l0 f hl0 hrd
    · intro i li f hli hwr
      rw [hh] at hli
      obtain ⟨l1, hl1, e1, _⟩ := modify_wr _ _ l i li hli
      obtain ⟨l0, hl0, _, g2⟩ := modify_rd _ _ l i l1 hl1
      rw [hvars]
      rw [e1] at hwr
      by_cases hc : l = i
      · rw [if_pos hc] at hwr
        exact Or.inl ⟨_, (Option.some.inj hwr).symm⟩
      · rw [if_neg hc, g2] at hwr
        exact hV.wrCell i l0 f hl0 hwr

/-- After a successful `Build`: the instances are those of the plan, and every file of a
link instance is an end of a pipe or the file bound to the variable of the link. -/
theorem Build_varFiles {prog : plan.Pipe} {presets : List (String × Option Value)}
    {env : Env} {sched : Schedule} {rt : Program}
    (h : Build prog presets env sched = .ok rt) :
    rt.FromPlan prog ∧ VarFiles prog presets rt := by
  obtain ⟨r1, r2, r3, r4, r5, h1, h2, h3, h4, h5, h6⟩ := Build_ok_stages h
  have f3 := bindPresets_frame h3
  obtain ⟨b1, _, _, _, _, _⟩ := bindDefaults_pass env _ r3 r4 h4
  obtain ⟨i1, i2⟩ := initProcs_frame h5
  obtain ⟨c1, c2, _, c4, _⟩ := setCmds_frame h6
  have hr1 : Connecting prog r1 := by
    refine rangeProcs_rel (fun a b => Connecting prog a → Connecting prog b)
      (fun _ h => h) (fun _ _ _ f g h => g (f h)) _ ?_ _ _ _ h1 (connecting_create prog)
    intro k p a b _ hb
    refine connectProcLoop_rel (fun a b => Connecting prog a → Connecting prog b)
      (fun _ h => h) (fun _ _ _ f g h => g (f h)) prog k p.Plan ?_ p.Plan.In a b
      (fun _ hq => hq) hb
    intro inp link a b _ hl hc
    exact connectPort_connecting (plan.findLink_some hl).1 hc
  have hr2 : Connecting prog r2 := by
    refine rangeVars_rel (fun a b => Connecting prog a → Connecting prog b)
      (fun _ h => h) (fun _ _ _ f g h => g (f h)) _ ?_ _ _ _ h2 hr1
    intro k v a b hk hb
    exact connectVar_connecting hk hb
  have v2 : VarFiles prog presets r2 := varFiles_of_connecting hr2
  have v3 : VarFiles prog presets r3 := by
    refine bindPresets_rel (fun a b => VarFiles prog presets a → VarFiles prog presets b)
      (fun _ h => h) (fun _ _ _ f g h => g (f h)) presets ?_ _ _ _ h3 v2
    intro k v value a b hp hk hb
    refine bindVar_varFiles hk hb ?_
    intro f hf
    subst hf
    exact Or.inl hp
  have v4 : VarFiles prog presets r4 := by
    refine rangeVars_rel (fun a b => VarFiles prog presets a → VarFiles prog presets b)
      (fun _ h => h) (fun _ _ _ f g h => g (f h)) _ ?_ _ _ _ h4 v3
    intro k v a b hk hb
    rcases bindDefaultsChecked_origin hb with he | ⟨value, hbind, ho⟩
    · rw [he]; exact id
    · exact bindVar_varFiles hk hbind (fun f hf => Or.inr (ho f hf))
  have v5 : VarFiles prog presets r5 := by
    refine rangeProcs_rel (fun a b => VarFiles prog presets a → VarFiles prog presets b)
      (fun _ h => h) (fun _ _ _ f g h => g (f h)) _ ?_ _ _ _ h5 v4
    intro k p a b _ hb
    exact initLinks_rel (fun a b => VarFiles prog presets a → VarFiles prog presets b)
      (fun _ h => h) (fun _ _ _ f g h => g (f h)) env p
      (fun _ _ _ h => initLink_varFiles h) _ a b hb
  have hfp : rt.FromPlan prog := by
    have g3 := fromPlan_of_sameNodes hr2.fromPlan f3.nodes
    have g4 := fromPlan_of_sameNodes g3 b1
    have g5 : r5.FromPlan prog :=
      ⟨fun k P hk => g4.1 k P (by simpa only [Program.procPlan, i1] using hk),
       fun k V hk => g4.2 k V (by simpa only [Program.varPlan, i2] using hk)⟩
    exact fromPlan_of_sameNodes g5 c4
  refine ⟨hfp, ?_, ?_, ?_, ?_⟩
  · intro key v hv
    rw [c1] at hv
    exact v5.ways key v hv
  · intro key v f hv
    rw [c1] at hv
    exact v5.origin key v f hv
  · intro i li f hli
    rw [c2] at hli
    rw [c1]
    exact v5.rdCell i li f hli
  · intro i li f hli
    rw [c2] at hli
    rw [c1]
    exact v5.wrCell i li f hli

theorem presetsGiven_of_apart {presets : List (String × Option Value)}
    (hpa : PresetsApart presets) : PresetsGiven presets := by
  intro k f hk
  obtain ⟨⟨fd, name, he⟩, _⟩ := hpa k f hk
  rw [he]
  rfl

theorem origin_same_key {presets : List (String × Option Value)} (hpa : PresetsApart presets)
    {k1 k2 : String} {f : File}
    (h1 : mapGet presets k1 = some (some (Value.file f)) ∨ ∃ path, f = File.opened k1 path)
    (h2 : mapGet presets k2 = some (some (Value.file f)) ∨ ∃ path, f = File.opened k2 path) :
    k1 = k2 := by
  rcases h1 with g1 | ⟨p1, g1⟩
  · rcases h2 with g2 | ⟨p2, g2⟩
    · exact (hpa k2 f g2).2 k1 g1
    · obtain ⟨⟨fd, name, he⟩, _⟩ := hpa k1 f g1
      rw [he] at g2
      cases g2
  · rcases h2 with g2 | ⟨p2, g2⟩
    · obtain ⟨⟨fd, name, he⟩, _⟩ := hpa k2 f g2
      rw [he] at g1
      cases g1
    · rw [g1] at g2
      cases g2
      rfl

theorem origin_no_pipe {presets : List (String × Option Value)} (hpa : PresetsApart presets)
    {k : String} {f : File}
    (h : mapGet presets k = some (some (Value.file f)) ∨ ∃ path, f = File.opened k path) :
    f.pipeOf = none := by
  rcases h with g | ⟨p, g⟩
  · exact presetsGiven_of_apart hpa k f g
  · rw [g]; rfl

/-- After a successful `Build` of a plan in which no variable is both read and written,
with presets that are files of the caller, each under one name: no file sits in two link
instances, or in both ends of one. -/
theorem Build_filesApart {prog : plan.Pipe} {presets : List (String × Option Value)}
    {env : Env} {sched : Schedule} {rt : Program} (how : OneWayVars prog)
    (hpa : PresetsApart presets) (h : Build prog presets env sched = .ok rt) :
    rt.FilesApart := by
  obtain ⟨hfp, hV⟩ := @Build_varFiles prog presets env sched rt h
  have hE := Build_endsLogged (presetsGiven_of_apart hpa) h
  refine ⟨?_, ?_, ?_⟩
  · intro i j li lj f hi hj hri hrj
    rcases hV.rdCell i li f hi hri with ⟨m, hm⟩ | ⟨k1, v1, hv1, ho1, hval1⟩
    · have a1 := hE i li f m hi (Or.inl hri) (by rw [hm]; rfl)
      have a2 := hE j lj f m hj (Or.inl hrj) (by rw [hm]; rfl)
      rw [a1] at a2
      exact Option.some.inj a2
    · rcases hV.rdCell j lj f hj hrj with ⟨m, hm⟩ | ⟨k2, v2, hv2, ho2, hval2⟩
      · have := origin_no_pipe hpa (hV.origin k1 v1 f hv1 hval1).2
        rw [hm] at this
        cases this
      · have hk := origin_same_key hpa (hV.origin k1 v1 f hv1 hval1).2
          (hV.origin k2 v2 f hv2 hval2).2
        subst hk
        rw [hv1] at hv2
        cases hv2
        rw [ho1] at ho2
        exact Option.some.inj ho2
  · intro i j li lj f hi hj hri hrj
    rcases hV.wrCell i li f hi hri with ⟨m, hm⟩ | ⟨k1, v1, hv1, ho1, hval1⟩
    · have a1 := hE i li f m hi (Or.inr hri) (by rw [hm]; rfl)
      have a2 := hE j lj f m hj (Or.inr hrj) (by rw [hm]; rfl)
      rw [a1] at a2
      exact Option.some.inj a2
    · rcases hV.wrCell j lj f hj hrj with ⟨m, hm⟩ | ⟨k2, v2, hv2, ho2, hval2⟩
      · have := origin_no_pipe hpa (hV.origin k1 v1 f hv1 hval1).2
        rw [hm] at this
        cases this
      · have hk := origin_same_key hpa (hV.origin k1 v1 f hv1 hval1).2
          (hV.origin k2 v2 f hv2 hval2).2
        subst hk
        rw [hv1] at hv2
        cases hv2
        rw [ho1] at ho2
        exact Option.some.inj ho2
  · intro i j li lj f hi hj hri hwj
    rcases hV.rdCell i li f hi hri with ⟨m, hm⟩ | ⟨k1, v1, hv1, ho1, hval1⟩
    · rcases hV.wrCell j lj f hj hwj with ⟨m2, hm2⟩ | ⟨k2, v2, hv2, ho2, hval2⟩
      · rw [hm] at hm2
        cases hm2
      · have := origin_no_pipe hpa (hV.origin k2 v2 f hv2 hval2).2
        rw [hm] at this
        cases this
    · rcases hV.wrCell j lj f hj hwj with ⟨m2, hm2⟩ | ⟨k2, v2, hv2, ho2, hval2⟩
      · have := origin_no_pipe hpa (hV.origin k1 v1 f hv1 hval1).2
        rw [hm2] at this
        cases this
      · have hk := origin_same_key hpa (hV.origin k1 v1 f hv1 hval1).2
          (hV.origin k2 v2 f hv2 hval2).2
        subst hk
        rw [hv1] at hv2
        cases hv2
        obtain ⟨l1, hl1, hs1⟩ := (hV.ways k1 v1 hv1).1 (by rw [ho1]; simp)
        obtain ⟨l2, hl2, hd2⟩ := (hV.ways k1 v1 hv1).2 (by rw [ho2]; simp)
        obtain ⟨hVm, hVn⟩ := hfp.2 k1 v1.Plan (by simp [Program.varPlan, hv1])
        exact how v1.Plan hVm l1 l2 hl1 hl2 (by rw [hs1, hVn]) (by rw [hd2, hVn])

/-- After a successful `Build` of a plan without self-links in which no variable is both
read and written, with presets that are files of the caller, each under one name, the
program is ready to be closed. -/
theorem Build_closeReady {prog : plan.Pipe} {presets : List (String × Option Value)}
    {env : Env} {sched : Schedule} {rt : Program} (hns : NoSelfLinks prog)
    (how : OneWayVars prog) (hpa : PresetsApart presets)
    (h : Build prog presets env sched = .ok rt) : CloseReady rt := by
  obtain ⟨hH, hkeys, hnames⟩ := Build_held hns h
  exact ⟨hnames, hkeys, hH, Build_filesApart how hpa h⟩

end osruntime

namespace osruntime

theorem linkAt_proc {rt : Program} {Q k : String} {i : Nat} (h : rt.linkAt Q k = some i) :
    ∃ p, mapGet rt.procs Q = some p := by
  unfold Program.linkAt at h
  cases hg : mapGet rt.procs Q with
  | none => rw [hg] at h; cases h
  | some p => exact ⟨p, rfl⟩

theorem pipelinePlan_wf : pipelinePlan.WellFormed :=
  ⟨by unfold plan.NodesSorted; decide, by unfold plan.NodesSorted; decide,
   by unfold plan.LinksSorted; decide, by decide, by decide, by decide⟩

theorem pipelinePlan_feeds : ProcFeeds pipelinePlan ⟨⟨"P", "o"⟩, ⟨"Q", "i"⟩⟩ :=
  ⟨by decide,
   ⟨mkProc "P" [⟨"i", "stream"⟩] [⟨"o", "stream"⟩, ⟨"x", "stream"⟩] [], by decide, rfl⟩,
   by decide, by decide, by decide, by decide, by decide, by decide⟩

theorem pipelinePlan_reached : DstReached pipelinePlan ⟨⟨"P", "o"⟩, ⟨"Q", "i"⟩⟩ :=
  ⟨mkProc "Q" [⟨"e", "stream"⟩, ⟨"i", "stream"⟩] [⟨"o", "stream"⟩] [], [⟨"e", "stream"⟩],
   ⟨"i", "stream"⟩, [], by decide, rfl, rfl, rfl, fun q hq => by
     rw [List.mem_singleton.mp hq]
     exact ⟨⟨⟨"P", "x"⟩, ⟨"Q", "e"⟩⟩, by decide, rfl⟩⟩

theorem pipelinePlan_noSelf : NoSelfLinks pipelinePlan := by
  unfold NoSelfLinks
  decide

theorem pipelinePlan_oneWay : OneWayVars pipelinePlan := by
  have key : ∀ V, V ∈ pipelinePlan.Vars → ∀ l1, l1 ∈ pipelinePlan.Links →
      ∀ l2, l2 ∈ pipelinePlan.Links → l1.Src.Node = V.Name → l2.Dst.Node ≠ V.Name := by
    decide
  exact fun V hV l1 l2 h1 h2 => key V hV l1 h1 l2 h2

theorem pipelinePresets_apart : PresetsApart pipelinePresets := by
  have key : ∀ k f, mapGet pipelinePresets k = some (some (Value.file f)) →
      (k = "in" ∧ f = File.given 0 "/dev/stdin") ∨
      (k = "out" ∧ f = File.given 1 "/dev/stdout") := by
    intro k f hk
    unfold pipelinePresets at hk
    simp only [mapGet] at hk
    by_cases h1 : "in" = k
    · rw [if_pos h1] at hk
      cases hk
      exact Or.inl ⟨h1.symm, rfl⟩
    · rw [if_neg h1] at hk
      by_cases h2 : "out" = k
      · rw [if_pos h2] at hk
        cases hk
        exact Or.inr ⟨h2.symm, rfl⟩
      · rw [if_neg h2] at hk
        cases hk
  intro k f hk
  rcases key k f hk with ⟨e1, e2⟩ | ⟨e1, e2⟩
  · refine ⟨⟨_, _, e2⟩, ?_⟩
    intro k2 hk2
    rcases key k2 f hk2 with ⟨g1, _⟩ | ⟨_, g2⟩
    · rw [g1, e1]
    · rw [e2] at g2
      cases g2
  · refine ⟨⟨_, _, e2⟩, ?_⟩
    intro k2 hk2
    rcases key k2 f hk2 with ⟨_, g2⟩ | ⟨g1, _⟩
    · rw [e2] at g2
      cases g2
    · rw [g1, e1]

/-- C11 (amended): in a well-formed plan let `link` be a stream link between two distinct
processes that is the only use of its two ports, its dst an input port of the dst process
such that every input port declared before it on that process is the dst of a link, and let
the presets hold no end of a pipe. After a successful `Build` the dst process and the src
process hold one instance of `link`, with the two ends of one pipe; once `Process.Close` has
run for every process instance, in any order, each of the two ends has been closed at most
once, the read end by the dst process only and the write end by the src process only, and
exactly once when the `Close` call of that process returned nil. When moreover no link of
the plan has one node as src and dst, no variable is both the src node and the dst node of
links, and the presets are files of the caller, each under one name, then every `Close`
call returns nil, those of the dst and the src process among them, no file is closed twice,
and each of the two ends is closed exactly once. -/
theorem C11_ends_closed_once (prog : plan.Pipe) (presets : List (String × Option Value))
    (env : Env) (sched : Schedule) (hv : sched.Valid) (wf : prog.WellFormed)
    (hpre : PresetsGiven presets) (link : plan.Link) (hf : ProcFeeds prog link)
    (hr : DstReached prog link) (rt : Program)
    (h : Build prog presets env sched = .ok rt) (cs : CloseSchedule) (hcs : cs.Valid) :
    ∃ j li n, rt.linkAt link.Dst.Node link.Dst.Port = some j ∧
      rt.linkAt link.Src.Node link.Src.Port = some j ∧
      rt.heap[j]? = some li ∧ li.Rd = some (.pipeRd n) ∧ li.Wr = some (.pipeWr n) ∧
      rt.pipes[n]? = some j ∧
      closeCount (rt.closeAll cs).1 (.pipeRd n) ≤ 1 ∧
      closeCount (rt.closeAll cs).1 (.pipeWr n) ≤ 1 ∧
      (∀ who, (who, File.pipeRd n) ∈ (rt.closeAll cs).1 → who = link.Dst.Node) ∧
      (∀ who, (who, File.pipeWr n) ∈ (rt.closeAll cs).1 → who = link.Src.Node) ∧
      ((link.Dst.Node, CloseOutcome.done) ∈ (rt.closeAll cs).2 →
        closeCount (rt.closeAll cs).1 (.pipeRd n) = 1) ∧
      ((link.Src.Node, CloseOutcome.done) ∈ (rt.closeAll cs).2 →
        closeCount (rt.closeAll cs).1 (.pipeWr n) = 1) ∧
      (NoSelfLinks prog → OneWayVars prog → PresetsApart presets →
        (∀ Q o, (Q, o) ∈ (rt.closeAll cs).2 → o = CloseOutcome.done) ∧
        (link.Dst.Node, CloseOutcome.done) ∈ (rt.closeAll cs).2 ∧
        (link.Src.Node, CloseOutcome.done) ∈ (rt.closeAll cs).2 ∧
        (∀ f, closeCount (rt.closeAll cs).1 f ≤ 1) ∧
        closeCount (rt.closeAll cs).1 (.pipeRd n) = 1 ∧
        closeCount (rt.closeAll cs).1 (.pipeWr n) = 1) := by
  obtain ⟨j, hj⟩ := Build_instance_exists hv wf hf.mem hr h
  have hS := (Build_pipe_link prog presets env sched hv wf link hf rt h j hj).1
  obtain ⟨li, n, a1, a2, a3, a4, a5, a6, a7, a8, a9, a10⟩ :=
    closeAll_pipe_ends prog presets env sched hv wf hpre link hf rt h j hj cs hcs
  refine ⟨j, li, n, hj, hS, a1, a2, a3, a4, a5, a6, a7, a8, a9, a10, ?_⟩
  intro hns how hpa
  have hR := Build_closeReady hns how hpa h
  obtain ⟨d1, d2⟩ := closeReady_done hcs hR
  obtain ⟨pd, hpd⟩ := linkAt_proc hj
  obtain ⟨ps, hps⟩ := linkAt_proc hS
  have hD := d2 _ pd hpd
  have hSd := d2 _ ps hps
  exact ⟨d1, hD, hSd, closeReady_once hcs hR, a9 hD, a10 hSd⟩

theorem C11_ends_closed_once_witness :
    Schedule.inOrder.Valid ∧ pipelinePlan.WellFormed ∧ PresetsGiven pipelinePresets ∧
    ProcFeeds pipelinePlan ⟨⟨"P", "o"⟩, ⟨"Q", "i"⟩⟩ ∧
    DstReached pipelinePlan ⟨⟨"P", "o"⟩, ⟨"Q", "i"⟩⟩ ∧ CloseSchedule.inOrder.Valid ∧
    NoSelfLinks pipelinePlan ∧ OneWayVars pipelinePlan ∧ PresetsApart pipelinePresets ∧
    ∃ rt, Build pipelinePlan pipelinePresets Env.allOk Schedule.inOrder = .ok rt ∧
      rt.pipes = [1, 2] ∧
      rt.closeAll CloseSchedule.inOrder =
        ([("P", .given 0 "/dev/stdin"), ("P", .pipeWr 0), ("P", .pipeWr 1),
          ("Q", .pipeRd 0), ("Q", .pipeRd 1), ("Q", .given 1 "/dev/stdout")],
         [("P", .done), ("Q", .done)]) ∧
      ∃ j li n, rt.linkAt "Q" "i" = some j ∧ rt.linkAt "P" "o" = some j ∧
        rt.heap[j]? = some li ∧ li.Rd = some (.pipeRd n) ∧ li.Wr = some (.pipeWr n) ∧
        rt.pipes[n]? = some j ∧
        closeCount (rt.closeAll CloseSchedule.inOrder).1 (.pipeRd n) ≤ 1 ∧
        closeCount (rt.closeAll CloseSchedule.inOrder).1 (.pipeWr n) ≤ 1 ∧
        (∀ who, (who, File.pipeRd n) ∈ (rt.closeAll CloseSchedule.inOrder).1 → who = "Q") ∧
        (∀ who, (who, File.pipeWr n) ∈ (rt.closeAll CloseSchedule.inOrder).1 → who = "P") ∧
        (("Q", CloseOutcome.done) ∈ (rt.closeAll CloseSchedule.inOrder).2 →
          closeCount (rt.closeAll CloseSchedule.inOrder).1 (.pipeRd n) = 1) ∧
        (("P", CloseOutcome.done) ∈ (rt.closeAll CloseSchedule.inOrder).2 →
          closeCount (rt.closeAll CloseSchedule.inOrder).1 (.pipeWr n) = 1) ∧
        (NoSelfLinks pipelinePlan → OneWayVars pipelinePlan → PresetsApart pipelinePresets →
          (∀ Q o, (Q, o) ∈ (rt.closeAll CloseSchedule.inOrder).2 → o = CloseOutcome.done) ∧
          ("Q", CloseOutcome.done) ∈ (rt.closeAll CloseSchedule.inOrder).2 ∧
          ("P", CloseOutcome.done) ∈ (rt.closeAll CloseSchedule.inOrder).2 ∧
          (∀ f, closeCount (rt.closeAll CloseSchedule.inOrder).1 f ≤ 1) ∧
          closeCount (rt.closeAll CloseSchedule.inOrder).1 (.pipeRd n) = 1 ∧
          closeCount (rt.closeAll CloseSchedule.inOrder).1 (.pipeWr n) = 1) :=
  ⟨inOrder_valid, pipelinePlan_wf, presetsGiven_of_apart pipelinePresets_apart,
   pipelinePlan_feeds, pipelinePlan_reached, closeInOrder_valid, pipelinePlan_noSelf,
   pipelinePlan_oneWay, pipelinePresets_apart, _, rfl, rfl, rfl,
   C11_ends_closed_once pipelinePlan pipelinePresets Env.allOk Schedule.inOrder inOrder_valid
     pipelinePlan_wf (presetsGiven_of_apart pipelinePresets_apart) ⟨⟨"P", "o"⟩, ⟨"Q", "i"⟩⟩
     pipelinePlan_feeds pipelinePlan_reached _ rfl CloseSchedule.inOrder closeInOrder_valid⟩

end osruntime
